import Mathlib

/-!
# nilsier: tract store and multi-phase variance estimator

A shallow embedding of `KeyValueMap.cc`, `TractStore.cc` and `estimator.cc`.

Conventions of the embedding

* `double` is `Dbl`: an exact rational or the not-a-number value `Dbl.nan`.
  Arithmetic on rationals is exact (no rounding, no overflow), `nan` is
  absorbing, and a division by zero yields `nan` (the embedding has no
  infinities).  Comparisons follow IEEE 754: every ordered comparison with
  `nan` is false and `nan != x` is true.
* `int` is `Int`, `size_t` is `Nat`; the only `int -> size_t` conversion is
  `sizeOfInt`.
* A C++ exception is an `Except.error`; the error value records which
  exception class was thrown.  A read through a raw pointer outside its
  storage, the read of `KeyValueMap::GetValue` outside `values_` and the
  write of `Tract::Add` outside `values_` are reported as `Error.undefined`.
  The reads whose index the code keeps in range (`Tract::Get`,
  `FindInternal`, the local vectors of the reducers) use a default value
  outside the range.
* A `std::vector` is a `List`; a loop that runs from the last index to the
  first is a `foldr`, a loop from the first to the last a `foldl`.
* A `Tract*` is the position of the tract in `tract_map_`; `nullptr` is `none`.
* `Rcpp::warning` diagnostics are not recorded: a row that only raises a
  warning leaves the store as it is.
* The spatial neighbour index (`KDTree`, `KDStore`) is not part of the
  repository: `VarianceBalanced` takes it as the parameter `find`.
-/

namespace Nilsier

/-! ## Doubles -/

/-- Model of a `double`: a finite value, kept as an exact rational, or not-a-number.  There are
no infinities, no rounding, no overflow and no underflow: a statement about `fin q` is a
statement about a finite double, and what depends on an infinity is stated over `Ieee`. -/
inductive Dbl where
  | fin (q : ℚ)
  | nan
deriving DecidableEq

namespace Dbl

/-- Addition of doubles, `a + b`. -/
def add : Dbl → Dbl → Dbl
  | fin a, fin b => fin (a + b)
  | _, _ => nan

/-- Subtraction of doubles, `a - b`. -/
def sub : Dbl → Dbl → Dbl
  | fin a, fin b => fin (a - b)
  | _, _ => nan

/-- Multiplication of doubles, `a * b`. -/
def mul : Dbl → Dbl → Dbl
  | fin a, fin b => fin (a * b)
  | _, _ => nan

/-- Division of doubles, `a / b`; a zero divisor gives `nan`, also where IEEE 754 gives an
infinity (a finite non-zero dividend), for want of infinities in the model. -/
def div : Dbl → Dbl → Dbl
  | fin a, fin b => if b = 0 then nan else fin (a / b)
  | _, _ => nan

instance : Add Dbl := ⟨add⟩
instance : Sub Dbl := ⟨sub⟩
instance : Mul Dbl := ⟨mul⟩
instance : Div Dbl := ⟨div⟩
instance : Zero Dbl := ⟨fin 0⟩
instance : One Dbl := ⟨fin 1⟩
instance : Inhabited Dbl := ⟨fin 0⟩

/-- Conversion `(double)n` of a `size_t`. -/
def ofNat (n : Nat) : Dbl := fin (n : ℚ)

/-- The test `x == 0.0`. -/
def eqz : Dbl → Bool
  | fin q => decide (q = 0)
  | nan => false

/-- The test `x != 0.0` (true for `nan`). -/
def nez (x : Dbl) : Bool := !x.eqz

/-- The test `x > 0.0`. -/
def gtz : Dbl → Bool
  | fin q => decide (0 < q)
  | nan => false

/-- The test `x <= y`. -/
def le : Dbl → Dbl → Bool
  | fin a, fin b => decide (a ≤ b)
  | _, _ => false

/-- The test `std::isnan(x)`. -/
def isnan : Dbl → Bool
  | fin _ => false
  | nan => true

end Dbl

/-! ## Errors -/

/-- The failures of the embedded code. -/
inductive Error where
  /-- Exception class `std::range_error`. -/
  | range_error
  /-- Exception class `std::out_of_range`. -/
  | out_of_range
  /-- Unguarded access outside a vector or array. -/
  | undefined
deriving DecidableEq

/-- Conversion `(size_t)x` of an `int` to a 64-bit `size_t`: a non-negative value is kept,
a negative value wraps around. -/
def sizeOfInt (x : Int) : Nat := if 0 ≤ x then x.toNat else (x + (2 : Int) ^ 64).toNat

/-- Read of `xs[i]` where the source does not check the index. -/
def rd {α : Type} (xs : List α) (i : Nat) : Except Error α :=
  match xs[i]? with
  | some x => .ok x
  | none => .error .undefined

/-! ## KeyValueMap -/

/-- Model of `class KeyValueMap`: `keys_` is the borrowed key storage, `size_`
the number of entries and `values_` the payloads. -/
structure KeyValueMap where
  keys_ : List Int
  size_ : Nat
  values_ : List Nat
deriving DecidableEq

namespace KeyValueMap

/-- Constructor `KeyValueMap::KeyValueMap(int *keys, size_t n)`. -/
def new (keys : List Int) (n : Nat) : Except Error KeyValueMap :=
  if n = 0 then .error .range_error
  else .ok { keys_ := keys, size_ := n, values_ := [] }

/-- Method `KeyValueMap::Size`. -/
def Size (m : KeyValueMap) : Nat := m.size_

/-- Method `KeyValueMap::GetExternalKey`. -/
def GetExternalKey (m : KeyValueMap) (internal_key : Nat) : Except Error Int :=
  if internal_key ≥ m.size_ then .error .out_of_range
  else rd m.keys_ internal_key

/-- The scan of `KeyValueMap::GetInternalKey` from index `i` on, with `n - i`
entries left to visit (`fuel`). -/
def scanKeys (keys : List Int) (external_key : Int) : Nat → Nat → Except Error Nat
  | 0, _ => .error .range_error
  | fuel + 1, i =>
    match keys[i]? with
    | none => .error .undefined
    | some k => if k = external_key then .ok i else scanKeys keys external_key fuel (i + 1)

/-- Method `KeyValueMap::GetInternalKey`. -/
def GetInternalKey (m : KeyValueMap) (external_key : Int) : Except Error Nat :=
  scanKeys m.keys_ external_key m.Size 0

/-- Method `KeyValueMap::GetValue`. -/
def GetValue (m : KeyValueMap) (internal_key : Nat) : Except Error Nat :=
  if internal_key ≥ m.size_ then .error .out_of_range
  else rd m.values_ internal_key

end KeyValueMap

/-! ## Tract -/

/-- Model of `class Tract`. -/
structure Tract where
  values_ : List Dbl
  external_id_ : Int
  internal_psu_ : Nat
  recorded_ : Bool
  nonnil_ : Bool
deriving DecidableEq

namespace Tract

/-- Constructor `Tract::Tract(n_cats, id, psu)`. -/
def new (n_cats : Nat) (id : Int) (psu : Nat) : Tract :=
  { values_ := List.replicate n_cats 0, external_id_ := id, internal_psu_ := psu,
    recorded_ := false, nonnil_ := false }

/-- Method `Tract::Add`. -/
def Add (t : Tract) (cat : Nat) (value : Dbl) : Except Error Tract :=
  match t.values_[cat]? with
  | none => .error .undefined
  | some old =>
    .ok { t with
      values_ := t.values_.set cat (old + value)
      recorded_ := true
      nonnil_ := t.nonnil_ || value.nez }

/-- Method `Tract::Get`; the index is below `values_.size()` at every call. -/
def Get (t : Tract) (cat : Nat) : Dbl := t.values_.getD cat 0

/-- Method `Tract::GetInternalPsu`. -/
def GetInternalPsu (t : Tract) : Nat := t.internal_psu_

/-- Method `Tract::Sum`. -/
def Sum (t : Tract) : Dbl :=
  if !t.nonnil_ then 0
  else t.values_.foldr (fun v sum => sum + v) 0

end Tract

/-! ## TractStore -/

/-- Model of `class TractStore`; `internal_id_map_` (an `unordered_map`) is an
association list from external to internal ids. -/
structure TractStore where
  tract_map_ : List Tract
  internal_id_map_ : List (Int × Nat)
  n_cats_ : Nat
deriving DecidableEq

/-- One row of the plot data frame: tract id, category, weight, value. -/
structure PlotRow where
  id : Int
  cat : Int
  weight : Dbl
  value : Dbl
deriving DecidableEq

namespace TractStore

/-- One iteration of the constructor loop of `TractStore::TractStore`. -/
def newStep (tract_ids tract_external_psus : List Int) (psus : KeyValueMap) (n_cats : Nat)
    (st : TractStore) (i : Nat) : Except Error TractStore := do
  let external_id ← rd tract_ids i
  match st.internal_id_map_.lookup external_id with
  | some _ => .error .range_error
  | none =>
    let external_psu ← rd tract_external_psus i
    let psu ← psus.GetInternalKey external_psu
    pure { st with
      tract_map_ := st.tract_map_ ++ [Tract.new n_cats external_id psu]
      internal_id_map_ := st.internal_id_map_ ++ [(external_id, i)] }

/-- Constructor `TractStore::TractStore(tract_ids, tract_external_psus, n_tracts, psus, n_cats)`. -/
def new (tract_ids tract_external_psus : List Int) (n_tracts : Nat) (psus : KeyValueMap)
    (n_cats : Nat) : Except Error TractStore := do
  let largest ← psus.GetValue 0
  if n_tracts ≠ largest then .error .range_error
  else
    (List.range n_tracts).foldlM (newStep tract_ids tract_external_psus psus n_cats)
      { tract_map_ := [], internal_id_map_ := [], n_cats_ := n_cats }

/-- Method `TractStore::FindInternal`; the source leaves an id outside the store undefined
and every caller passes an id taken from the store. -/
def FindInternal (s : TractStore) (internal_id : Nat) : Tract :=
  s.tract_map_.getD internal_id (Tract.new s.n_cats_ 0 0)

/-- Method `TractStore::FindExternal`: the position of the tract, `none` for `nullptr`. -/
def FindExternal (s : TractStore) (external_id : Int) : Option Nat :=
  s.internal_id_map_.lookup external_id

/-- Method `TractStore::Size`. -/
def Size (s : TractStore) : Nat := s.tract_map_.length

/-- The body of the loop of `TractStore::Fill` for one row. -/
def FillRow (categories : KeyValueMap) (tract_area : Dbl) (s : TractStore) (row : PlotRow) :
    Except Error TractStore :=
  if row.weight.eqz || row.value.eqz then .ok s
  else
    match s.FindExternal row.id with
    | none => .ok s
    | some ptr => do
      let tract := s.FindInternal ptr
      let internal_cat ← categories.GetInternalKey row.cat
      let plot_psu ← categories.GetValue internal_cat
      if tract.GetInternalPsu < plot_psu then .ok s
      else
        let tract ← tract.Add internal_cat (row.weight * row.value / tract_area)
        pure { s with tract_map_ := s.tract_map_.set ptr tract }

/-- Method `TractStore::Fill`. -/
def Fill (s : TractStore) (data : List PlotRow) (categories : KeyValueMap) (tract_area : Dbl) :
    Except Error TractStore :=
  data.foldlM (FillRow categories tract_area) s

/-- Method `TractStore::NonNilTracts`. -/
def NonNilTracts (s : TractStore) : Nat :=
  s.tract_map_.foldr (fun t ntracts => if t.nonnil_ then ntracts + 1 else ntracts) 0

/-- The inner loop of `TractStore::PositiveTractsPerCat` for one tract. -/
def positiveRow (n_cats : Nat) (t : Tract) (ntracts : List Nat) : List Nat :=
  (List.range n_cats).foldl
    (fun nt j => if (t.Get j).gtz then nt.set j (nt.getD j 0 + 1) else nt) ntracts

/-- Method `TractStore::PositiveTractsPerCat`. -/
def PositiveTractsPerCat (s : TractStore) : List Nat :=
  s.tract_map_.foldr (positiveRow s.n_cats_) (List.replicate s.n_cats_ 0)

/-- The inner loop of `TractStore::CatEstimates` for one tract: `sums[k] += tract->Get(k)`. -/
def addRow (n_cats : Nat) (t : Tract) (sums : List Dbl) : List Dbl :=
  (List.range n_cats).foldl (fun sm k => sm.set k (sm.getD k 0 + t.Get k)) sums

/-- The first loop of `TractStore::CatEstimates`: per-category sums over the non-nil tracts. -/
def catSums (s : TractStore) : List Dbl :=
  s.tract_map_.foldr (fun t sums => if !t.nonnil_ then sums else addRow s.n_cats_ t sums)
    (List.replicate s.n_cats_ 0)

/-- The body of the second loop of `TractStore::CatEstimates`. -/
def scaleStep (psus categories : KeyValueMap) (area : Dbl) (sums : List Dbl) (k : Nat) :
    Except Error (List Dbl) := do
  let reach ← categories.GetValue k
  let psu_n ← psus.GetValue reach
  if psu_n > 0 then pure (sums.set k (sums.getD k 0 * (area / Dbl.ofNat psu_n)))
  else pure (sums.set k Dbl.nan)

/-- Method `TractStore::CatEstimates`. -/
def CatEstimates (s : TractStore) (psus categories : KeyValueMap) (area : Dbl) :
    Except Error (List Dbl) :=
  (List.range s.n_cats_).foldlM (scaleStep psus categories area) (catSums s)

end TractStore

/-! ## Variance -/

/-- The local variables of `TractStore::Variance` that change from phase to phase. -/
structure VarState where
  sums : List Dbl
  all_nils : List Bool
  covs : List Dbl
  ids : List Nat
  first_cat : Nat
deriving DecidableEq

/-- The value of `categories.GetValue(a)` inside the sort comparator, once it is known
not to throw. -/
def reachOf (categories : KeyValueMap) (a : Nat) : Nat :=
  match categories.GetValue a with
  | .ok v => v
  | .error _ => 0

/-- The `std::sort` of the category indices by descending reach.  With fewer than two
categories the comparator is never called; otherwise it is called on every index and
throws for an index outside the category table.  Ties keep their order. -/
def sortedCats (categories : KeyValueMap) (n_cats : Nat) : Except Error (List Nat) :=
  if n_cats < 2 then pure (List.range n_cats)
  else do
    let _ ← (List.range n_cats).mapM categories.GetValue
    pure ((List.range n_cats).insertionSort
      (fun a b => reachOf categories b ≤ reachOf categories a))

namespace TractStore

/-- The loop over the categories of one tract while the id list is prepared
(`sums[cat] += ...; all_nils[cat] = false`). -/
def accumCats (n_cats : Nat) (t : Tract) (st : VarState) : VarState :=
  (List.range n_cats).foldl
    (fun st cat =>
      if (t.Get cat).eqz then st
      else { st with
        sums := st.sums.set cat (st.sums.getD cat 0 + t.Get cat)
        all_nils := st.all_nils.set cat false })
    st

/-- The body of the loop that prepares the ids, for tract `i`. -/
def prepareStep (n_cats psu : Nat) (i : Nat) (tract : Tract) (st : VarState) : VarState :=
  if tract.GetInternalPsu ≠ psu then st
  else
    let st := { st with ids := st.ids ++ [i] }
    if !tract.nonnil_ then st
    else accumCats n_cats tract st

/-- The loop that prepares the ids of one phase, from the last tract to the first. -/
def prepareIds (s : TractStore) (psu : Nat) (st : VarState) : VarState :=
  s.tract_map_.enum.foldr (fun p st => prepareStep s.n_cats_ psu p.1 p.2 st) st

/-- The innermost loop of the degenerate branch: both cells of every pair are set to NaN. -/
def nanInner (n_cats cat_k : Nat) (rest : List Nat) (covs : List Dbl) : List Dbl :=
  rest.foldl
    (fun covs cat_l =>
      (covs.set (cat_k * n_cats + cat_l) Dbl.nan).set (cat_l * n_cats + cat_k) Dbl.nan)
    covs

/-- The category loop of the degenerate branch (`psu_size <= 1.0`), started at position
`cat_ki` of the sorted categories, of which `cat_k :: rest` are left. -/
def nanLoop (categories : KeyValueMap) (n_cats psu : Nat) :
    List Nat → Nat → VarState → Except Error VarState
  | [], _, st => pure st
  | cat_k :: rest, cat_ki, st => do
    let reach ← categories.GetValue cat_k
    if reach < psu then pure { st with first_cat := cat_ki }
    else
      let covs := st.covs.set (cat_k * (n_cats + 1)) Dbl.nan
      nanLoop categories n_cats psu rest (cat_ki + 1)
        { st with covs := nanInner n_cats cat_k rest covs }

/-- The loop over the ids: `covs[covs_index] += (Get(cat_k) - mean_k) * (Get(cat_l) - mean_l)`,
from the last id to the first. -/
def covSum (s : TractStore) (ids : List Nat) (cat_k cat_l : Nat) (mean_k mean_l : Dbl)
    (init : Dbl) : Dbl :=
  ids.foldr
    (fun id acc =>
      acc + ((s.FindInternal id).Get cat_k - mean_k) * ((s.FindInternal id).Get cat_l - mean_l))
    init

/-- The body of the inner category loop of the regular branch, for `cat_l`. -/
def covInnerStep (s : TractStore) (psus categories : KeyValueMap) (area : Dbl)
    (psu_size : Dbl) (st : VarState) (cat_k : Nat) (mean_k : Dbl)
    (covs : List Dbl) (cat_l : Nat) : Except Error (List Dbl) :=
  if st.all_nils.getD cat_l true then pure covs
  else do
    let covs_index := cat_k * s.n_cats_ + cat_l
    let mean_l := st.sums.getD cat_l 0 / psu_size
    let c := covSum s st.ids cat_k cat_l mean_k mean_l (covs.getD covs_index 0)
    let psu_larger ← categories.GetValue cat_l
    let psu_size_larger := Dbl.ofNat (← psus.GetValue psu_larger)
    let c := c * ((area / psu_size) * (area / psu_size_larger) * (psu_size / (psu_size - 1)))
    let covs := covs.set covs_index c
    if cat_k ≠ cat_l then pure (covs.set (cat_l * s.n_cats_ + cat_k) c)
    else pure covs

/-- The outer category loop of the regular branch, started at position `cat_ki` of the
sorted categories, of which `cat_k :: rest` are left. -/
def covLoop (s : TractStore) (psus categories : KeyValueMap) (area : Dbl) (psu : Nat)
    (psu_size : Dbl) : List Nat → Nat → VarState → Except Error VarState
  | [], _, st => pure st
  | cat_k :: rest, cat_ki, st => do
    let reach ← categories.GetValue cat_k
    if reach < psu then pure { st with first_cat := cat_ki }
    else if st.all_nils.getD cat_k true then
      covLoop s psus categories area psu psu_size rest (cat_ki + 1) st
    else
      let mean_k := st.sums.getD cat_k 0 / psu_size
      let covs ← (cat_k :: rest).foldlM
        (covInnerStep s psus categories area psu_size st cat_k mean_k) st.covs
      covLoop s psus categories area psu psu_size rest (cat_ki + 1) { st with covs := covs }

/-- The body of the phase loop of `TractStore::Variance`. -/
def phase (s : TractStore) (psus categories : KeyValueMap) (area : Dbl)
    (sorted_cats : List Nat) (st : VarState) (psu : Nat) : Except Error VarState := do
  let st := prepareIds s psu st
  let psu_size := Dbl.ofNat (← psus.GetValue psu)
  if psu_size.le 1 then
    nanLoop categories s.n_cats_ psu (sorted_cats.drop st.first_cat) st.first_cat st
  else
    covLoop s psus categories area psu psu_size (sorted_cats.drop st.first_cat) st.first_cat st

/-- The state of `TractStore::Variance` before the phase loop. -/
def varInit (n_cats : Nat) : VarState :=
  { sums := List.replicate n_cats 0
    all_nils := List.replicate n_cats true
    covs := List.replicate (n_cats * n_cats) 0
    ids := []
    first_cat := 0 }

/-- The phase loop of `TractStore::Variance`, from the deepest phase to phase 0, for a
given order of the categories. -/
def VarianceFrom (s : TractStore) (psus categories : KeyValueMap) (area : Dbl)
    (sorted_cats : List Nat) : Except Error (List Dbl) := do
  let st ← (List.range psus.Size).reverse.foldlM (phase s psus categories area sorted_cats)
    (varInit s.n_cats_)
  pure st.covs

/-- Method `TractStore::Variance`. -/
def Variance (s : TractStore) (psus categories : KeyValueMap) (area : Dbl) :
    Except Error (List Dbl) := do
  let sorted_cats ← sortedCats categories s.n_cats_
  VarianceFrom s psus categories area sorted_cats

end TractStore

end Nilsier

namespace Nilsier

/-! ## Vocabulary of the statements -/

/-- The cell `M[i][j]` of a row-major `n x n` matrix, read as `M[i * n + j]`. -/
def cell (n : Nat) (M : List Dbl) (i j : Nat) : Dbl := M.getD (i * n + j) 0

/-- A row-major `n x n` matrix with `M[i][j] = M[j][i]` for all `i, j < n`
(a NaN cell equals a NaN cell). -/
def IsSymmetric (n : Nat) (M : List Dbl) : Prop :=
  M.length = n * n ∧ ∀ i j, i < n → j < n → cell n M i j = cell n M j i

/-- The tables fit the store: each of the `n_cats` categories has a reach in the category
table, that reach is a phase of the PSU table, and every phase has a population size. -/
def TablesFit (n_cats : Nat) (psus categories : KeyValueMap) : Prop :=
  (∀ c, c < n_cats → ∃ r, categories.GetValue c = .ok r ∧ r < psus.Size) ∧
  (∀ p, p < psus.Size → ∃ v, psus.GetValue p = .ok v)

end Nilsier

namespace Nilsier

/-- Every cell in the rows and columns of the categories selected by `K` is NaN. -/
def NanRows (n : Nat) (K : Nat → Prop) (M : List Dbl) : Prop :=
  M.length = n * n ∧ ∀ i j, i < n → j < n → K i ∨ K j → cell n M i j = Dbl.nan

end Nilsier

namespace Nilsier

/-! ## estimator.cc -/

/-- Model of `Rcpp::IntegerMatrix`: `data` holds the entries column by column. -/
structure IntegerMatrix where
  nrow : Nat
  ncol : Nat
  data : List Int
deriving DecidableEq

/-- The body of the loop of `CreatePsuKeyValueMap`; `col` is the second column. -/
def psuStep (col : List Int) (map : KeyValueMap) (i : Nat) : Except Error KeyValueMap := do
  let external_value ← rd col i
  if i > 0 then
    let previous ← rd col (i - 1)
    if external_value ≥ previous then .error .range_error
    else pure { map with values_ := map.values_ ++ [sizeOfInt external_value] }
  else pure { map with values_ := map.values_ ++ [sizeOfInt external_value] }

/-- Function `CreatePsuKeyValueMap`. -/
def CreatePsuKeyValueMap (mat : IntegerMatrix) : Except Error KeyValueMap := do
  let n := mat.nrow
  let map ← KeyValueMap.new mat.data n
  if mat.nrow = 0 then .error .range_error
  else if mat.ncol < 2 then .error .range_error
  else
    let col := mat.data.drop n
    let last ← rd col (n - 1)
    if last ≤ 0 then .error .range_error
    else (List.range n).foldlM (psuStep col) map

/-- The body of the loop of `CreateNeighboursKeyValueMap`; `col` is the third column. -/
def neighboursStep (col : List Int) (map : KeyValueMap) (i : Nat) : Except Error KeyValueMap := do
  let external_value ← rd col i
  if external_value ≤ 1 then .error .range_error
  else pure { map with values_ := map.values_ ++ [sizeOfInt external_value] }

/-- Function `CreateNeighboursKeyValueMap`. -/
def CreateNeighboursKeyValueMap (mat : IntegerMatrix) (psus : KeyValueMap) :
    Except Error KeyValueMap := do
  let n := psus.Size
  if mat.nrow ≠ n then .error .range_error
  else if mat.ncol < 3 then .error .range_error
  else
    let col := mat.data.drop (n * 2)
    let map ← KeyValueMap.new psus.keys_ n
    (List.range n).foldlM (neighboursStep col) map

/-- The body of the loop of `CreateTranslatedKeyValueMap`; `col` is the second column. -/
def translatedStep (col : List Int) (translation_map : KeyValueMap) (map : KeyValueMap)
    (i : Nat) : Except Error KeyValueMap := do
  let external_value ← rd col i
  let internal ← translation_map.GetInternalKey external_value
  pure { map with values_ := map.values_ ++ [internal] }

/-- Function `CreateTranslatedKeyValueMap`. -/
def CreateTranslatedKeyValueMap (mat : IntegerMatrix) (translation_map : KeyValueMap) :
    Except Error KeyValueMap := do
  let n := mat.nrow
  let map ← KeyValueMap.new mat.data n
  if mat.nrow = 0 then .error .range_error
  else if mat.ncol < 2 then .error .range_error
  else
    let col := mat.data.drop n
    (List.range n).foldlM (translatedStep col translation_map) map

/-- Function `Sum` of `estimator.cc`: the entries that are not NaN, added from the last to
the first. -/
def Sum (vec : List Dbl) : Dbl :=
  vec.foldr (fun x tot => if !x.isnan then tot + x else tot) 0

/-- The list returned by `NilsEstimate`. -/
structure NilsResult where
  estimate : Dbl
  variance : Dbl
  cat_estimates : List Dbl
  cat_covmat : List Dbl
  nonnil_tracts : Nat
  positive_tracts_per_cat : List Nat
deriving DecidableEq

/-- Function `NilsEstimate`. -/
def NilsEstimate (r_ordered_psu_size r_cat_psu r_tracts : IntegerMatrix)
    (r_plot_data : List PlotRow) (area tract_area : Dbl) : Except Error NilsResult := do
  let psus ← CreatePsuKeyValueMap r_ordered_psu_size
  let categories ← CreateTranslatedKeyValueMap r_cat_psu psus
  let n_tracts := r_tracts.nrow
  let tract_store ← TractStore.new r_tracts.data (r_tracts.data.drop n_tracts) n_tracts psus
    categories.Size
  let tract_store ← tract_store.Fill r_plot_data categories tract_area
  let estimates ← tract_store.CatEstimates psus categories area
  let covmat ← tract_store.Variance psus categories area
  pure
    { estimate := Sum estimates
      variance := Sum covmat
      cat_estimates := estimates
      cat_covmat := covmat
      nonnil_tracts := tract_store.NonNilTracts
      positive_tracts_per_cat := tract_store.PositiveTractsPerCat }

/-! ## Vocabulary of the statements, continued -/

/-- The sum of a list of doubles, added from the first to the last. -/
def Dbl.sum (l : List Dbl) : Dbl := l.foldl (fun acc x => acc + x) 0

/-- A double that is a number: not NaN, which in the model is a finite value `fin q`. -/
def Dbl.IsNum (x : Dbl) : Prop := x ≠ Dbl.nan

/-- The store states reachable from the constructor by `Fill` calls. -/
inductive Reachable : TractStore → Prop where
  | new (tract_ids tract_external_psus : List Int) (n_tracts : Nat) (psus : KeyValueMap)
      (n_cats : Nat) (s : TractStore)
      (h : TractStore.new tract_ids tract_external_psus n_tracts psus n_cats = .ok s) :
      Reachable s
  | fill (s s' : TractStore) (data : List PlotRow) (categories : KeyValueMap)
      (tract_area : Dbl) (hs : Reachable s) (h : s.Fill data categories tract_area = .ok s') :
      Reachable s'

/-- The sum of category `c` over the non-nil tracts of the store. -/
def catTotal (s : TractStore) (c : Nat) : Dbl :=
  Dbl.sum ((s.tract_map_.filter (fun t => t.nonnil_)).map (fun t => t.Get c))

/-- The result of the second loop of `CatEstimates` for category `c` whose sum is `x`. -/
def scaled (psus categories : KeyValueMap) (area : Dbl) (c : Nat) (x : Dbl) : Dbl :=
  match categories.GetValue c with
  | .error _ => x
  | .ok r =>
    match psus.GetValue r with
    | .error _ => x
    | .ok N => if N > 0 then x * (area / Dbl.ofNat N) else Dbl.nan

/-- The value that tract `i` holds in category `c`. -/
def valueAt (s : TractStore) (i c : Nat) : Dbl := (s.FindInternal i).Get c

/-- A row that `Fill` skips at once: `weight == 0.0 || value == 0.0`. -/
def PlotRow.isZero (row : PlotRow) : Bool := row.weight.eqz || row.value.eqz

/-- The amount `weight * value / tract_area` of a row. -/
def PlotRow.amount (row : PlotRow) (tract_area : Dbl) : Dbl :=
  row.weight * row.value / tract_area

/-- A PSU table as the spec requires it: one size per phase, at least one phase, sizes
strictly decreasing, last size positive. -/
def ValidPsus (psus : KeyValueMap) : Prop :=
  psus.values_.length = psus.size_ ∧ 0 < psus.size_ ∧
    psus.values_.Pairwise (fun a b => b < a) ∧ ∀ v, psus.values_.getLast? = some v → 0 < v

end Nilsier

namespace Nilsier

/-- The invariant of the store: every tract has one value per category, a tract whose
`nonnil_` flag is unset holds only zeros, and `internal_id_map_` sends an external id to
the position of a tract with that id. -/
def TractStore.WF (s : TractStore) : Prop :=
  (∀ t ∈ s.tract_map_, t.values_.length = s.n_cats_) ∧
  (∀ t ∈ s.tract_map_, t.nonnil_ = false → ∀ v ∈ t.values_, v = 0) ∧
  (∀ e i, s.internal_id_map_.lookup e = some i →
    ∃ t, s.tract_map_[i]? = some t ∧ t.external_id_ = e)

/-- A store as the constructor leaves it: every tract holds zeros and has both flags unset. -/
def TractStore.Fresh (s : TractStore) : Prop :=
  ∀ t ∈ s.tract_map_,
    t.values_ = List.replicate s.n_cats_ 0 ∧ t.nonnil_ = false ∧ t.recorded_ = false

end Nilsier

namespace Nilsier

/-- The category index of a row: `categories.GetInternalKey(external_cat)` is `c`. -/
def PlotRow.hasCat (categories : KeyValueMap) (c : Nat) (row : PlotRow) : Bool :=
  match categories.GetInternalKey row.cat with
  | .ok d => d == c
  | .error _ => false

/-- The rows of tract `i` and category `c` that `Fill` does not skip for a zero weight or
value. -/
def rowsOf (s : TractStore) (categories : KeyValueMap) (i c : Nat) (data : List PlotRow) :
    List PlotRow :=
  data.filter (fun row =>
    !row.isZero && (s.FindExternal row.id == some i) && row.hasCat categories c)

/-- All rows of tract `i` and category `c`, those of zero weight or value included. -/
def allRowsOf (s : TractStore) (categories : KeyValueMap) (i c : Nat) (data : List PlotRow) :
    List PlotRow :=
  data.filter (fun row => (s.FindExternal row.id == some i) && row.hasCat categories c)

/-- The row references a tract of the store and a category of the table with an index below
`n_cats_`, and the phase of the tract is the phase of the category. -/
def RowMatches (s : TractStore) (categories : KeyValueMap) (row : PlotRow) : Prop :=
  ∃ i c p, s.FindExternal row.id = some i ∧ categories.GetInternalKey row.cat = .ok c ∧
    c < s.n_cats_ ∧ categories.GetValue c = .ok p ∧ (s.FindInternal i).GetInternalPsu = p

end Nilsier

namespace Nilsier

deriving instance DecidableEq for Except

/-- The covariance of categories `k` and `l` as the spec words it, for `reach(k) >= reach(l)`:
`S_k` is the set of tracts whose phase index is at least `reach(k)`, the means are taken over
`S_k`, and the sum of products of deviations over `S_k` is scaled by
`(area / size_k) * (area / size_l) * (size_k / (size_k - 1))`. -/
def specCovariance (s : TractStore) (psus categories : KeyValueMap) (area : Dbl) (k l : Nat) :
    Except Error Dbl := do
  let reach_k ← categories.GetValue k
  let reach_l ← categories.GetValue l
  let size_k := Dbl.ofNat (← psus.GetValue reach_k)
  let size_l := Dbl.ofNat (← psus.GetValue reach_l)
  let S_k := s.tract_map_.filter (fun t => decide (reach_k ≤ t.internal_psu_))
  let m_k := Dbl.sum (S_k.map (fun t => t.Get k)) / Dbl.ofNat S_k.length
  let m_l := Dbl.sum (S_k.map (fun t => t.Get l)) / Dbl.ofNat S_k.length
  pure ((area / size_k) * (area / size_l) * (size_k / (size_k - 1)) *
    Dbl.sum (S_k.map (fun t => (t.Get k - m_k) * (t.Get l - m_l))))

/-! ## Concrete inputs -/

/-- PSU table `[(10, 4)]`: one phase of population size 4. -/
def onePhasePsus : KeyValueMap := { keys_ := [10, 4], size_ := 1, values_ := [4] }

/-- Category table `[(100, 10)]`: one category drawn from phase 10. -/
def onePhaseCats : KeyValueMap := { keys_ := [100, 10], size_ := 1, values_ := [0] }

/-- Four tracts of phase 10, as the constructor builds them. -/
def onePhaseFresh : TractStore :=
  { tract_map_ := [Tract.new 1 1 0, Tract.new 1 2 0, Tract.new 1 3 0, Tract.new 1 4 0]
    internal_id_map_ := [(1, 0), (2, 1), (3, 2), (4, 3)]
    n_cats_ := 1 }

/-- Plot rows giving `1.0 * 2.0 / 1.0` to tracts 1 and 3 in category 100; the row of tract 7
references no tract of the store. -/
def onePhaseRows : List PlotRow :=
  [⟨1, 100, 1, Dbl.fin 2⟩, ⟨7, 100, 1, Dbl.fin 2⟩, ⟨3, 100, 1, Dbl.fin 2⟩]

/-- The store `onePhaseFresh` after `Fill` of `onePhaseRows` with tract area 1. -/
def onePhaseStore : TractStore :=
  { tract_map_ :=
      [⟨[Dbl.fin 2], 1, 0, true, true⟩, Tract.new 1 2 0, ⟨[Dbl.fin 2], 3, 0, true, true⟩,
        Tract.new 1 4 0]
    internal_id_map_ := [(1, 0), (2, 1), (3, 2), (4, 3)]
    n_cats_ := 1 }

/-- PSU table `[(1, 3), (2, 2), (3, 1)]`: three phases, the deepest of population size 1. -/
def threePhasePsus : KeyValueMap := { keys_ := [1, 2, 3, 3, 2, 1], size_ := 3, values_ := [3, 2, 1] }

/-- Category table `[(100, 1), (101, 3), (102, 2)]`: reaches 0, 2 and 1. -/
def threePhaseCats : KeyValueMap :=
  { keys_ := [100, 101, 102, 1, 3, 2], size_ := 3, values_ := [0, 2, 1] }

/-- Three tracts, one per phase, holding values in the categories their phase allows. -/
def threePhaseStore : TractStore :=
  { tract_map_ :=
      [⟨[Dbl.fin 2, 0, 0], 1, 0, true, true⟩, ⟨[0, 0, Dbl.fin 5], 2, 1, true, true⟩,
        ⟨[Dbl.fin 2, Dbl.fin 2, Dbl.fin 1], 3, 2, true, true⟩]
    internal_id_map_ := [(1, 0), (2, 1), (3, 2)]
    n_cats_ := 3 }

/-- The rows that fill `threePhaseStore`. -/
def threePhaseRows : List PlotRow :=
  [⟨1, 100, 1, Dbl.fin 2⟩, ⟨3, 100, 1, Dbl.fin 2⟩, ⟨3, 101, 1, Dbl.fin 2⟩,
    ⟨2, 102, 1, Dbl.fin 5⟩, ⟨3, 102, 1, Dbl.fin 1⟩]

/-- PSU table `[(1, 4), (2, 2)]`: two phases of population sizes 4 and 2. -/
def twoPhasePsus : KeyValueMap := { keys_ := [1, 2, 4, 2], size_ := 2, values_ := [4, 2] }

/-- Category table `[(100, 2)]`: the only category reaches the deeper phase, index 1. -/
def deepCats : KeyValueMap := { keys_ := [100, 2], size_ := 1, values_ := [1] }

/-- Tracts 11 and 12 of phase 2 (index 1) and tracts 13 and 14 of phase 1 (index 0); tract 11
holds 2 in category 100. -/
def twoPhaseStore : TractStore :=
  { tract_map_ :=
      [⟨[Dbl.fin 2], 11, 1, true, true⟩, Tract.new 1 12 1, Tract.new 1 13 0, Tract.new 1 14 0]
    internal_id_map_ := [(11, 0), (12, 1), (13, 2), (14, 3)]
    n_cats_ := 1 }

/-- The tracts of `twoPhaseStore` as the constructor builds them. -/
def twoPhaseFresh : TractStore :=
  { tract_map_ := [Tract.new 1 11 1, Tract.new 1 12 1, Tract.new 1 13 0, Tract.new 1 14 0]
    internal_id_map_ := [(11, 0), (12, 1), (13, 2), (14, 3)]
    n_cats_ := 1 }

/-- Category table `[(100, 1)]` over `twoPhasePsus`: the category reaches phase index 0. -/
def shallowCats : KeyValueMap := { keys_ := [100, 1], size_ := 1, values_ := [0] }

/-- PSU table `[(1, 1)]`: a single phase of population size 1. -/
def unitPsus : KeyValueMap := { keys_ := [1, 1], size_ := 1, values_ := [1] }

/-- Category table `[(100, 1)]` over `unitPsus`. -/
def unitCats : KeyValueMap := { keys_ := [100, 1], size_ := 1, values_ := [0] }

end Nilsier

namespace Nilsier

/-! ## Vocabulary of the statements about the tables and the constructor -/

/-- A lookup whose key storage holds its `size_` keys and whose payloads have all been
pushed: what the three `Create...KeyValueMap` functions return. -/
def KeyValueMap.Stored (m : KeyValueMap) : Prop :=
  m.size_ ≤ m.keys_.length ∧ m.values_.length = m.size_

/-- The key `keys_[i]` of a lookup, for `i < size_`. -/
def KeyValueMap.key (m : KeyValueMap) (i : Nat) : Int := m.keys_.getD i 0

/-- The external key `e` is one of the `size_` keys of the lookup. -/
def KeyValueMap.HasKey (m : KeyValueMap) (e : Int) : Prop :=
  ∃ i, i < m.size_ ∧ m.key i = e

/-- A matrix whose storage holds `nrow * ncol` entries. -/
def IntegerMatrix.Shaped (mat : IntegerMatrix) : Prop :=
  mat.data.length = mat.nrow * mat.ncol

/-- The entry of row `i` and column `j` of a matrix (column-major storage). -/
def IntegerMatrix.at (mat : IntegerMatrix) (i j : Nat) : Int :=
  mat.data.getD (j * mat.nrow + i) 0

end Nilsier

namespace Nilsier

/-- The tract has at least one non-zero accumulated category value. -/
def Tract.hasValue (t : Tract) : Bool := t.values_.any Dbl.nez

/-- Every value of the tract is a number that is not negative, and a tract whose `nonnil_`
flag is set holds a non-zero value. -/
def Tract.NonNeg (t : Tract) : Prop :=
  (∀ v ∈ t.values_, ∃ q : ℚ, v = Dbl.fin q ∧ 0 ≤ q) ∧ (t.nonnil_ = true → t.hasValue = true)

/-- Rows that cancel: tract 1 receives `2` and then `-2` in category 100. -/
def cancelRows : List PlotRow := [⟨1, 100, 1, Dbl.fin 2⟩, ⟨1, 100, 1, Dbl.fin (-2)⟩]

/-- The store `onePhaseFresh` after `Fill` of `cancelRows` with tract area 1. -/
def cancelStore : TractStore :=
  { tract_map_ :=
      [⟨[Dbl.fin 0], 1, 0, true, true⟩, Tract.new 1 2 0, Tract.new 1 3 0, Tract.new 1 4 0]
    internal_id_map_ := [(1, 0), (2, 1), (3, 2), (4, 3)]
    n_cats_ := 1 }

end Nilsier

namespace Nilsier

/-! ## VarianceBalanced -/

/-- The spatial neighbour index.  The classes `KDTree` and `KDStore` are not part of the
repository, so the index is a parameter of the embedding: `find ids max_size id` is the content
of `store->neighbours` after `tree->FindNeighbours(store, xbalance + id * p_xbalance)`, for the
tree built over the tracts `ids` and a store with `maxSize = max_size`.  The balancing matrix
`xbalance` is read by the index only; building the tree and querying it are taken not to
throw. -/
abbrev NeighbourIndex := List Nat → Nat → Nat → List Nat

/-- The local variables of `TractStore::VarianceBalanced` that change from phase to phase
(`means` is cleared for every tract). -/
structure BalState where
  all_nils : List Bool
  covs : List Dbl
  ids : List Nat
  first_cat : Nat
  last_cat : Nat
deriving DecidableEq

namespace TractStore

/-- The loop over the categories of one tract while the id list is prepared
(`if (all_nils[cat] && tract->Get(cat) != 0.0) all_nils[cat] = false`). -/
def nilCats (n_cats : Nat) (t : Tract) (all_nils : List Bool) : List Bool :=
  (List.range n_cats).foldl
    (fun an cat => if an.getD cat true && (t.Get cat).nez then an.set cat false else an)
    all_nils

/-- The body of the loop that prepares the ids of `VarianceBalanced`, for tract `i`. -/
def balPrepareStep (n_cats psu : Nat) (i : Nat) (tract : Tract) (st : BalState) : BalState :=
  if tract.GetInternalPsu ≠ psu then st
  else
    let st := { st with ids := st.ids ++ [i] }
    if !tract.nonnil_ then st
    else { st with all_nils := nilCats n_cats tract st.all_nils }

/-- The loop that prepares the ids of one phase of `VarianceBalanced`, from the last tract to
the first. -/
def balPrepareIds (s : TractStore) (psu : Nat) (st : BalState) : BalState :=
  s.tract_map_.enum.foldr (fun p st => balPrepareStep s.n_cats_ psu p.1 p.2 st) st

/-- The loop `for (; last_cat < n_cats_; last_cat++)` that moves `last_cat` past the
categories whose reach is at least `psu`; the categories from position `last_cat` on are
`cat :: rest`. -/
def advanceLast (categories : KeyValueMap) (psu : Nat) : List Nat → Nat → Except Error Nat
  | [], last_cat => pure last_cat
  | cat :: rest, last_cat => do
    let reach ← categories.GetValue cat
    if reach < psu then pure last_cat
    else advanceLast categories psu rest (last_cat + 1)

/-- The category loop of the degenerate branch of `VarianceBalanced`, over the `m` positions
from `first_cat` to `last_cat`, of which `cat_k :: rest` are the categories left. -/
def balNanLoop (n_cats : Nat) : List Nat → Nat → List Dbl → List Dbl
  | cat_k :: rest, m + 1, covs =>
    balNanLoop n_cats rest m (nanInner n_cats cat_k rest (covs.set (cat_k * (n_cats + 1)) Dbl.nan))
  | _, _, covs => covs

/-- The vector `means` of one tract: the values of the neighbours `nb` are added up for the
categories `cats`, from the last neighbour to the first, and divided by the number of
neighbours. -/
def neighbourMeans (s : TractStore) (cats : List Nat) (nb : List Nat) : List Dbl :=
  let means := nb.foldr
    (fun j means =>
      cats.foldl (fun means cat => means.set cat (means.getD cat 0 + (s.FindInternal j).Get cat))
        means)
    (List.replicate s.n_cats_ 0)
  cats.foldl (fun means cat => means.set cat (means.getD cat 0 / Dbl.ofNat nb.length)) means

/-- The body of the inner category loop that adds the product of deviations of one tract. -/
def balAccInner (n_cats : Nat) (all_nils : List Bool) (tract : Tract) (means : List Dbl)
    (cat_k : Nat) (covs : List Dbl) (cat_l : Nat) : List Dbl :=
  if all_nils.getD cat_l true then covs
  else
    let covs_index := cat_k * n_cats + cat_l
    covs.set covs_index
      (covs.getD covs_index 0 +
        (tract.Get cat_k - means.getD cat_k 0) * (tract.Get cat_l - means.getD cat_l 0))

/-- The outer category loop that adds the products of deviations of one tract, over the `m`
positions from `first_cat` to `last_cat`. -/
def balAccLoop (n_cats : Nat) (all_nils : List Bool) (tract : Tract) (means : List Dbl) :
    List Nat → Nat → List Dbl → List Dbl
  | cat_k :: rest, m + 1, covs =>
    if all_nils.getD cat_k true then balAccLoop n_cats all_nils tract means rest m covs
    else
      balAccLoop n_cats all_nils tract means rest m
        ((cat_k :: rest).foldl (balAccInner n_cats all_nils tract means cat_k) covs)
  | _, _, covs => covs

/-- The body of the loop over the ids of `VarianceBalanced`, for the tract `internal_id`. -/
def balTract (find : NeighbourIndex) (s : TractStore) (sorted_cats : List Nat) (st : BalState)
    (max_size : Nat) (internal_id : Nat) (covs : List Dbl) : List Dbl :=
  let cats := sorted_cats.drop st.first_cat
  let means := neighbourMeans s cats (find st.ids max_size internal_id)
  balAccLoop s.n_cats_ st.all_nils (s.FindInternal internal_id) means cats
    (st.last_cat - st.first_cat) covs

/-- The body of the inner loop that scales and mirrors the cells of one phase. -/
def balScaleStep (s : TractStore) (psus categories : KeyValueMap) (area psu_size : Dbl)
    (neighbour_size_dbl : Dbl) (cat_k : Nat) (covs : List Dbl) (cat_l : Nat) :
    Except Error (List Dbl) := do
  let psu_larger ← categories.GetValue cat_l
  let psu_size_larger := Dbl.ofNat (← psus.GetValue psu_larger)
  let covs_index := cat_k * s.n_cats_ + cat_l
  let c := covs.getD covs_index 0 *
    ((area / psu_size) * (area / psu_size_larger) *
      (neighbour_size_dbl / (neighbour_size_dbl - 1)))
  let covs := covs.set covs_index c
  if cat_l ≠ cat_k then pure (covs.set (cat_l * s.n_cats_ + cat_k) c)
  else pure covs

/-- The outer loop that scales and mirrors the cells of one phase, over the `m` positions from
`first_cat` to `last_cat`. -/
def balScaleLoop (s : TractStore) (psus categories : KeyValueMap) (area psu_size : Dbl)
    (neighbour_size_dbl : Dbl) : List Nat → Nat → List Dbl → Except Error (List Dbl)
  | cat_k :: rest, m + 1, covs => do
    let covs ← (cat_k :: rest).foldlM
      (balScaleStep s psus categories area psu_size neighbour_size_dbl cat_k) covs
    balScaleLoop s psus categories area psu_size neighbour_size_dbl rest m covs
  | _, _, covs => pure covs

/-- The body of the phase loop of `TractStore::VarianceBalanced`. -/
def balPhase (find : NeighbourIndex) (s : TractStore) (psus categories : KeyValueMap)
    (area : Dbl) (neighbours : KeyValueMap) (sorted_cats : List Nat) (st : BalState)
    (psu : Nat) : Except Error BalState := do
  let st := if psus.Size > 0 then balPrepareIds s psu st else st
  let psu_size := Dbl.ofNat (← psus.GetValue psu)
  let last_cat ← advanceLast categories psu (sorted_cats.drop st.last_cat) st.last_cat
  let st := { st with first_cat := st.last_cat, last_cat := last_cat }
  if psu_size.le 1 then
    pure { st with
      covs := balNanLoop s.n_cats_ (sorted_cats.drop st.first_cat)
        (st.last_cat - st.first_cat) st.covs }
  else do
    let max_size ← neighbours.GetValue psu
    let neighbour_size_dbl := Dbl.ofNat max_size
    let covs := st.ids.foldr (balTract find s sorted_cats st max_size) st.covs
    let covs ← balScaleLoop s psus categories area psu_size neighbour_size_dbl
      (sorted_cats.drop st.first_cat) (st.last_cat - st.first_cat) covs
    pure { st with covs := covs }

/-- The state of `TractStore::VarianceBalanced` before the phase loop. -/
def balInit (n_cats : Nat) : BalState :=
  { all_nils := List.replicate n_cats true
    covs := List.replicate (n_cats * n_cats) 0
    ids := []
    first_cat := 0
    last_cat := 0 }

/-- The part of `TractStore::VarianceBalanced` after the sort: the `KDStore` is created with
`neighbours.GetValue(0)`, then the phases are visited from the deepest to phase 0. -/
def VarianceBalancedFrom (find : NeighbourIndex) (s : TractStore) (psus categories : KeyValueMap)
    (area : Dbl) (neighbours : KeyValueMap) (sorted_cats : List Nat) :
    Except Error (List Dbl) := do
  let _ ← neighbours.GetValue 0
  let st ← (List.range psus.Size).reverse.foldlM
    (balPhase find s psus categories area neighbours sorted_cats) (balInit s.n_cats_)
  pure st.covs

/-- Method `TractStore::VarianceBalanced`, over the neighbour index `find`. -/
def VarianceBalanced (find : NeighbourIndex) (s : TractStore) (psus categories : KeyValueMap)
    (area : Dbl) (neighbours : KeyValueMap) : Except Error (List Dbl) := do
  let sorted_cats ← sortedCats categories s.n_cats_
  VarianceBalancedFrom find s psus categories area neighbours sorted_cats

end TractStore

/-- The pairs of categories that the loops over the positions from `first_cat` to `last_cat`
visit: the category at each of the `m` positions with itself and every later category. -/
def pairsOf : List Nat → Nat → List (Nat × Nat)
  | k :: rest, m + 1 => (k :: rest).map (fun l => (k, l)) ++ pairsOf rest m
  | _, _ => []

/-- A row-major `n x n` matrix that is symmetric except, possibly, in the cells of the pairs
`R`. -/
def SymExcept (n : Nat) (R : List (Nat × Nat)) (M : List Dbl) : Prop :=
  M.length = n * n ∧
    ∀ i j, i < n → j < n → cell n M i j = cell n M j i ∨ (i, j) ∈ R ∨ (j, i) ∈ R

/-- The neighbour table fits the PSU table: a neighbour count for phase 0 and for every
phase. -/
def NeighboursFit (psus neighbours : KeyValueMap) : Prop :=
  (∃ v, neighbours.GetValue 0 = .ok v) ∧ ∀ p, p < psus.Size → ∃ v, neighbours.GetValue p = .ok v

end Nilsier

namespace Nilsier

/-- The rows and columns of category `c` hold zeros and the category is still flagged
"all values zero". -/
def ZeroCat (n c : Nat) (st : VarState) : Prop :=
  st.covs.length = n * n ∧ st.all_nils.getD c true = true ∧
    ∀ j, j < n → cell n st.covs c j = 0 ∧ cell n st.covs j c = 0

end Nilsier

namespace Nilsier

/-! ## Concrete inputs, continued -/

/-- An index that follows the contract the spec states for the spatial neighbour index, "up to
`neighborCount[phase]` nearest tracts drawn from the same accumulated id-set, excluding self":
the first `max_size` tracts of the id-set other than the query tract. -/
def otherIds : NeighbourIndex := fun ids max_size id => (ids.filter (fun j => j != id)).take max_size

/-- Neighbour table `[(1, 3, 3), (2, 2, 2), (3, 1, 2)]` over `threePhasePsus`. -/
def threePhaseNeighbours : KeyValueMap :=
  { keys_ := [1, 2, 3, 3, 2, 1], size_ := 3, values_ := [3, 2, 2] }

end Nilsier

namespace Nilsier

/-- Category table `[(100, 10), (101, 10)]` over `onePhasePsus`: two categories of phase 10. -/
def twoCats : KeyValueMap := { keys_ := [100, 101, 10, 10], size_ := 2, values_ := [0, 0] }

/-- Four tracts of phase 10 and two categories: tracts 1 and 3 hold 2 in category 100, no tract
holds a value in category 101. -/
def twoCatStore : TractStore :=
  { tract_map_ :=
      [⟨[Dbl.fin 2, 0], 1, 0, true, true⟩, Tract.new 2 2 0, ⟨[Dbl.fin 2, 0], 3, 0, true, true⟩,
        Tract.new 2 4 0]
    internal_id_map_ := [(1, 0), (2, 1), (3, 2), (4, 3)]
    n_cats_ := 2 }

end Nilsier

namespace Nilsier

/-- Four tracts of phase 10 and two categories, as the constructor builds them. -/
def pairFresh : TractStore :=
  { tract_map_ := [Tract.new 2 1 0, Tract.new 2 2 0, Tract.new 2 3 0, Tract.new 2 4 0]
    internal_id_map_ := [(1, 0), (2, 1), (3, 2), (4, 3)]
    n_cats_ := 2 }

/-- Plot rows giving tract 1 the values 2 and 1, tract 2 the value 3 in category 101 and
tract 3 the value 2 in category 100. -/
def pairRows : List PlotRow :=
  [⟨1, 100, 1, Dbl.fin 2⟩, ⟨1, 101, 1, Dbl.fin 1⟩, ⟨2, 101, 1, Dbl.fin 3⟩,
    ⟨3, 100, 1, Dbl.fin 2⟩]

/-- The store `pairFresh` after `Fill` of `pairRows` with tract area 1. -/
def pairStore : TractStore :=
  { tract_map_ :=
      [⟨[Dbl.fin 2, Dbl.fin 1], 1, 0, true, true⟩, ⟨[0, Dbl.fin 3], 2, 0, true, true⟩,
        ⟨[Dbl.fin 2, 0], 3, 0, true, true⟩, Tract.new 2 4 0]
    internal_id_map_ := [(1, 0), (2, 1), (3, 2), (4, 3)]
    n_cats_ := 2 }

end Nilsier

namespace Nilsier

/-- An index that returns the whole id-set, the query tract included. -/
def wholeIds : NeighbourIndex := fun ids _ _ => ids

/-- PSU table `[(1, 2)]`: one phase of population size 2. -/
def duoPsus : KeyValueMap := { keys_ := [1, 2], size_ := 1, values_ := [2] }

/-- Neighbour table `[(1, 2, 2)]` over `duoPsus`: the neighbour count is the population
size. -/
def duoNeighbours : KeyValueMap := { keys_ := [1, 2], size_ := 1, values_ := [2] }

/-- Tracts 21 and 22 of phase 1; tract 21 holds 2 in category 100. -/
def duoStore : TractStore :=
  { tract_map_ := [⟨[Dbl.fin 2], 21, 0, true, true⟩, Tract.new 1 22 0]
    internal_id_map_ := [(21, 0), (22, 1)]
    n_cats_ := 1 }

/-- Category table `[(100, 2), (101, 1)]` over `twoPhasePsus`: category 100 reaches the deeper
phase (index 1), category 101 reaches phase index 0. -/
def mixedCats : KeyValueMap := { keys_ := [100, 101, 2, 1], size_ := 2, values_ := [1, 0] }

/-- Neighbour table `[(1, 4, 4), (2, 2, 2)]` over `twoPhasePsus`: the neighbour counts are the
population sizes. -/
def twoPhaseNeighbours : KeyValueMap := { keys_ := [1, 2, 4, 2], size_ := 2, values_ := [4, 2] }

/-- Tracts 11 and 12 of phase 2 and tracts 13 and 14 of phase 1, with two categories, as the
constructor builds them. -/
def mixedFresh : TractStore :=
  { tract_map_ := [Tract.new 2 11 1, Tract.new 2 12 1, Tract.new 2 13 0, Tract.new 2 14 0]
    internal_id_map_ := [(11, 0), (12, 1), (13, 2), (14, 3)]
    n_cats_ := 2 }

/-- Plot rows for `mixedFresh`: tract 11 receives 2 in category 100 and 1 in category 101,
tract 12 receives 3 and tract 13 receives 2 in category 101. -/
def mixedRows : List PlotRow :=
  [⟨11, 100, 1, Dbl.fin 2⟩, ⟨11, 101, 1, Dbl.fin 1⟩, ⟨12, 101, 1, Dbl.fin 3⟩,
    ⟨13, 101, 1, Dbl.fin 2⟩]

/-- The store `mixedFresh` after `Fill` of `mixedRows` with tract area 1. -/
def mixedStore : TractStore :=
  { tract_map_ :=
      [⟨[Dbl.fin 2, Dbl.fin 1], 11, 1, true, true⟩, ⟨[0, Dbl.fin 3], 12, 1, true, true⟩,
        ⟨[0, Dbl.fin 2], 13, 0, true, true⟩, Tract.new 2 14 0]
    internal_id_map_ := [(11, 0), (12, 1), (13, 2), (14, 3)]
    n_cats_ := 2 }

end Nilsier

namespace Nilsier

/-! ## Vocabulary of the cell-wise statements -/

/-- The update of one pair of categories `p = (k, l)` that passes the test `g`: the value
`f k l x`, where `x` is the content of the cell `(k, l)`, is written to the cells `(k, l)` and
`(l, k)`. -/
def mirrorOp (n : Nat) (f : Nat → Nat → Dbl → Dbl) (g : Nat → Nat → Bool) (M : List Dbl)
    (p : Nat × Nat) : List Dbl :=
  if g p.1 p.2 then
    (M.set (p.1 * n + p.2) (f p.1 p.2 (cell n M p.1 p.2))).set (p.2 * n + p.1)
      (f p.1 p.2 (cell n M p.1 p.2))
  else M

/-- The update of the cell `(k, l)` alone, for a pair `p = (k, l)` that passes the test `g`. -/
def setOp (n : Nat) (f : Nat → Nat → Dbl → Dbl) (g : Nat → Nat → Bool) (M : List Dbl)
    (p : Nat × Nat) : List Dbl :=
  if g p.1 p.2 then M.set (p.1 * n + p.2) (f p.1 p.2 (cell n M p.1 p.2)) else M

/-- No pair of the list occurs twice, in either order. -/
def PairsDistinct (PL : List (Nat × Nat)) : Prop :=
  PL.Pairwise (fun p q => q ≠ p ∧ q ≠ (p.2, p.1))

/-- The value of `psus.GetValue(r)` once it is known not to throw. -/
def sizeAt (psus : KeyValueMap) (r : Nat) : Nat :=
  match psus.GetValue r with
  | .ok v => v
  | .error _ => 0

/-- The number of leading categories of the list whose reach is at least `psu`: the number of
positions the category loops of one phase visit before the `break`. -/
def takeReach (categories : KeyValueMap) (psu : Nat) : List Nat → Nat
  | [] => 0
  | c :: rest => if reachOf categories c < psu then 0 else takeReach categories psu rest + 1

/-- The test of the regular branch: neither category is flagged "all values zero". -/
def notNil (all_nils : List Bool) (k l : Nat) : Bool :=
  !all_nils.getD k true && !all_nils.getD l true

/-- The value that the regular branch of `Variance` writes for the pair `(k, l)` when the cell
holds `x`: the sum of products of deviations over the ids, added to `x`, times the scale
factor. -/
def covValue (s : TractStore) (psus categories : KeyValueMap) (area psu_size : Dbl)
    (ids : List Nat) (sums : List Dbl) (k l : Nat) (x : Dbl) : Dbl :=
  TractStore.covSum s ids k l (sums.getD k 0 / psu_size) (sums.getD l 0 / psu_size) x *
    ((area / psu_size) * (area / Dbl.ofNat (sizeAt psus (reachOf categories l))) *
      (psu_size / (psu_size - 1)))

/-- The sum of category `c` over the tracts `ids`, added from the first id to the last. -/
def sumOver (s : TractStore) (ids : List Nat) (c : Nat) : Dbl :=
  ids.foldl (fun acc id => acc + (s.FindInternal id).Get c) 0

/-- Category `c` is zero on every tract of `ids`. -/
def nilOver (s : TractStore) (ids : List Nat) (c : Nat) : Bool :=
  ids.all (fun id => ((s.FindInternal id).Get c).eqz)

/-- The sums and the "all values zero" flags of `Variance` describe the id list. -/
def Coherent (s : TractStore) (st : VarState) : Prop :=
  st.sums.length = s.n_cats_ ∧ st.all_nils.length = s.n_cats_ ∧
    ∀ c, c < s.n_cats_ →
      st.sums.getD c 0 = sumOver s st.ids c ∧ st.all_nils.getD c true = nilOver s st.ids c

/-- The ids that the loop preparing the ids appends at phase `psu`: the tracts of that phase,
from the last to the first. -/
def phaseIds (s : TractStore) (psu : Nat) : List Nat :=
  ((s.tract_map_.enum.filter (fun p => p.2.GetInternalPsu == psu)).map (fun p => p.1)).reverse

/-- The mean `m_c` of category `c` over all tracts, for a population of size `n`. -/
def tractMean (s : TractStore) (n c : Nat) : Dbl :=
  Dbl.sum (s.tract_map_.map (fun t => t.Get c)) / Dbl.ofNat n

/-- The single-phase formula: `area^2 / (n * (n - 1))` times the sum over all tracts of the
products of deviations of categories `k` and `l` from their means. -/
def sampleCovariance (s : TractStore) (area : Dbl) (n k l : Nat) : Dbl :=
  area * area / (Dbl.ofNat n * (Dbl.ofNat n - 1)) *
    Dbl.sum (s.tract_map_.map
      (fun t => (t.Get k - tractMean s n k) * (t.Get l - tractMean s n l)))

/-- Category `c` is zero on every tract of the store. -/
def TractStore.allZero (s : TractStore) (c : Nat) : Bool :=
  s.tract_map_.all (fun t => (t.Get c).eqz)

end Nilsier

namespace Nilsier

/-- The value that the accumulation loop of `VarianceBalanced` writes for the pair `(k, l)` and
one tract when the cell holds `x`. -/
def accValue (tract : Tract) (means : List Dbl) (k l : Nat) (x : Dbl) : Dbl :=
  x + (tract.Get k - means.getD k 0) * (tract.Get l - means.getD l 0)

/-- The value that the scaling loop of `VarianceBalanced` writes for the pair `(k, l)` when the
cell holds `x`. -/
def scaleValue (psus categories : KeyValueMap) (area psu_size neighbour_size_dbl : Dbl)
    (_k l : Nat) (x : Dbl) : Dbl :=
  x * ((area / psu_size) * (area / Dbl.ofNat (sizeAt psus (reachOf categories l))) *
    (neighbour_size_dbl / (neighbour_size_dbl - 1)))

/-- The value of the degenerate branch. -/
def nanValue (_k _l : Nat) (_x : Dbl) : Dbl := Dbl.nan

/-- The test that every pair passes. -/
def anyPair (_k _l : Nat) : Bool := true

end Nilsier

namespace Nilsier

/-- The relation between the local variables of `Variance` (`st`) and of `VarianceBalanced`
(`bt`) before phase `p`: same matrix, ids and flags, the cursor `first_cat` of `Variance` is
the cursor `last_cat` of `VarianceBalanced`, the sums describe the ids, the cells of the
categories from the cursor on hold zeros, the ids are the tracts of the phases deeper than `p`,
and a category that reaches phase 0 is left. -/
def PhaseInv (s : TractStore) (categories : KeyValueMap) (sorted_cats : List Nat) (p : Nat)
    (st : VarState) (bt : BalState) : Prop :=
  st.covs = bt.covs ∧ st.ids = bt.ids ∧ st.all_nils = bt.all_nils ∧
  st.first_cat = bt.last_cat ∧ Coherent s st ∧ st.covs.length = s.n_cats_ * s.n_cats_ ∧
  (∀ i j, i ∈ sorted_cats.drop st.first_cat → j ∈ sorted_cats.drop st.first_cat →
    cell s.n_cats_ st.covs i j = 0) ∧
  st.ids.length = s.tract_map_.countP (fun t => decide (p + 1 ≤ t.GetInternalPsu)) ∧
  ∃ c, c ∈ sorted_cats.drop st.first_cat ∧ reachOf categories c = 0

/-- The relation between the local variables of `Variance` and `VarianceBalanced` when `k`
phases are left: the relation before phase `k - 1`, or the same matrix when no phase is
left. -/
def LoopInv (s : TractStore) (categories : KeyValueMap) (sorted_cats : List Nat) :
    Nat → VarState → BalState → Prop
  | 0, st, bt => st.covs = bt.covs
  | p + 1, st, bt => PhaseInv s categories sorted_cats p st bt

/-- An index that returns every tract of the id-set, the query tract included, when the
capacity is the size of the id-set. -/
def WholeSet (find : NeighbourIndex) : Prop :=
  ∀ ids id, id ∈ ids → (find ids ids.length id).Perm ids

/-- The contract the spec states for the spatial neighbour index, "up to
`neighborCount[phase]` nearest tracts drawn from the same accumulated id-set, excluding self":
for a query tract of an id-set without repetition, the result has no repetition, holds tracts
of the id-set other than the query tract, and holds `max_size` of them or, where there are
fewer, all of them. -/
def IndexContract (find : NeighbourIndex) : Prop :=
  ∀ ids max_size id, ids.Nodup → id ∈ ids →
    (find ids max_size id).Nodup ∧
    (∀ j ∈ find ids max_size id, j ∈ ids ∧ j ≠ id) ∧
    (find ids max_size id).length = min max_size (ids.length - 1)

end Nilsier

namespace Nilsier

/-! ## Sum over doubles with infinities -/

/-- A `double` with the two infinities: a finite value (an exact rational), `+inf`, `-inf` or
not-a-number.  The embedding of `TractStore` does without the infinities; `Sum` is embedded over
this type as well, because an infinite running total that meets the opposite infinity is the one
way in which `Sum` produces a NaN that it did not skip. -/
inductive Ieee where
  | fin (q : ℚ)
  | pinf
  | ninf
  | nan
deriving DecidableEq

namespace Ieee

/-- Addition of doubles, `a + b`, with the IEEE 754 rules for the infinities and NaN.  The sum
of two finite values is the exact sum as `rnd` rounds it: to a finite value or, on overflow, to
an infinity. -/
def add (rnd : ℚ → Ieee) : Ieee → Ieee → Ieee
  | fin a, fin b => rnd (a + b)
  | fin _, pinf => pinf
  | fin _, ninf => ninf
  | pinf, fin _ => pinf
  | pinf, pinf => pinf
  | ninf, fin _ => ninf
  | ninf, ninf => ninf
  | _, _ => nan

/-- The test `std::isnan(x)`. -/
def isnan : Ieee → Bool
  | nan => true
  | _ => false

/-- A double that is finite. -/
def isFinite : Ieee → Bool
  | fin _ => true
  | _ => false

/-- A rounding of the exact results: whatever finite value or infinity it returns, it never
returns NaN. -/
def IsRounding (rnd : ℚ → Ieee) : Prop := ∀ q, rnd q ≠ nan

/-- The largest finite `double`, `(2^53 - 1) * 2^971`. -/
def maxFinite : ℚ := (2 ^ 53 - 1) * 2 ^ 971

/-- The rounding that only overflows: a result beyond the largest finite `double` becomes an
infinity, any other result is kept. -/
def overflow (q : ℚ) : Ieee :=
  if maxFinite < q then pinf else if q < -maxFinite then ninf else fin q

/-- Function `Sum` of `estimator.cc` over doubles with infinities: `tot = 0.0`, then the
entries that are not NaN are added to `tot` from the last to the first. -/
def Sum (rnd : ℚ → Ieee) (vec : List Ieee) : Ieee :=
  vec.foldr (fun x tot => if !x.isnan then add rnd tot x else tot) (fin 0)

end Ieee

/-- A double of the embedding, read as a double with infinities. -/
def Dbl.toIeee : Dbl → Ieee
  | Dbl.fin q => Ieee.fin q
  | Dbl.nan => Ieee.nan

end Nilsier

namespace Nilsier

/-! ## Stores filled with one category table -/

/-- The store states reached from a store that the constructor builds over `psus` with
`n_cats` categories by `Fill` calls that all use the category table `categories`. -/
inductive FilledFrom (psus categories : KeyValueMap) (n_cats : Nat) : TractStore → Prop where
  | new (tract_ids tract_external_psus : List Int) (n_tracts : Nat) (s : TractStore)
      (h : TractStore.new tract_ids tract_external_psus n_tracts psus n_cats = .ok s) :
      FilledFrom psus categories n_cats s
  | fill (s s' : TractStore) (data : List PlotRow) (tract_area : Dbl)
      (hs : FilledFrom psus categories n_cats s)
      (h : s.Fill data categories tract_area = .ok s') :
      FilledFrom psus categories n_cats s'

end Nilsier

namespace Nilsier

/-! ## Vocabulary of the statements about the phases of Variance -/

/-- The phases that the phase loop of `Variance` over `n_psus` phases visits before it
reaches phase `r`: the phases `n_psus - 1` down to `r + 1`. -/
def phasesBefore (n_psus r : Nat) : List Nat :=
  (List.range n_psus).reverse.take (n_psus - 1 - r)

/-- The ids appended while the phases of the list are visited, in the order of the visits. -/
def idsOfPhases (s : TractStore) : List Nat → List Nat
  | [] => []
  | p :: rest => phaseIds s p ++ idsOfPhases s rest

/-- Every value that is not zero lies in a category whose reach is at most the phase of the
tract that holds it. -/
def WithinReach (categories : KeyValueMap) (s : TractStore) : Prop :=
  ∀ t ∈ s.tract_map_, ∀ c, t.Get c ≠ 0 →
    ∃ r, categories.GetValue c = .ok r ∧ r ≤ t.GetInternalPsu

end Nilsier

namespace Nilsier

/-! ## Auxiliary lemmas -/

theorem bind_eq_ok {α β : Type} (x : Except Error α) (f : α → Except Error β) (b : β) :
    (x >>= f) = .ok b ↔ ∃ a, x = .ok a ∧ f a = .ok b := by
  cases x <;> simp [Bind.bind, Except.bind]

theorem foldlM_inv {α β : Type} (P : β → Prop) (f : β → α → Except Error β)
    (l : List α) (hf : ∀ b a b', a ∈ l → P b → f b a = .ok b' → P b') :
    ∀ (b b' : β), P b → l.foldlM f b = .ok b' → P b' := by
  induction l with
  | nil =>
    intro b b' hb h
    simp [List.foldlM, pure, Except.pure] at h
    exact h ▸ hb
  | cons a l ih =>
    intro b b' hb h
    rw [List.foldlM_cons, bind_eq_ok] at h
    obtain ⟨b1, h1, h2⟩ := h
    exact ih (fun b a b' ha => hf b a b' (List.mem_cons_of_mem _ ha)) b1 b'
      (hf b a b1 (List.mem_cons_self _ _) hb h1) h2

theorem foldlM_total {α β : Type} (P : β → Prop) (f : β → α → Except Error β)
    (l : List α) (hf : ∀ b a, a ∈ l → P b → ∃ b', f b a = .ok b' ∧ P b') :
    ∀ (b : β), P b → ∃ b', l.foldlM f b = .ok b' ∧ P b' := by
  induction l with
  | nil =>
    intro b hb
    exact ⟨b, rfl, hb⟩
  | cons a l ih =>
    intro b hb
    obtain ⟨b1, h1, hb1⟩ := hf b a (List.mem_cons_self _ _) hb
    obtain ⟨b2, h2, hb2⟩ := ih (fun b a ha => hf b a (List.mem_cons_of_mem _ ha)) b1 hb1
    refine ⟨b2, ?_, hb2⟩
    rw [List.foldlM_cons, h1]
    exact h2

theorem getD_set {α : Type} (l : List α) (a b : Nat) (v d : α) (ha : a < l.length) :
    (l.set a v).getD b d = if a = b then v else l.getD b d := by
  simp only [List.getD_eq_getElem?_getD, List.getElem?_set]
  split
  · simp [ha]
  · rfl

theorem idx_lt {n i j : Nat} (hi : i < n) (hj : j < n) : i * n + j < n * n := by
  calc i * n + j < i * n + n := by omega
    _ = (i + 1) * n := by ring
    _ ≤ n * n := Nat.mul_le_mul_right n hi

theorem idx_inj {n i j k l : Nat} (hj : j < n) (hl : l < n) (h : i * n + j = k * n + l) :
    i = k ∧ j = l := by
  have hn : 0 < n := by omega
  have h1 : (i * n + j) / n = i := by
    rw [Nat.add_comm, Nat.add_mul_div_right _ _ hn, Nat.div_eq_of_lt hj, Nat.zero_add]
  have h2 : (k * n + l) / n = k := by
    rw [Nat.add_comm, Nat.add_mul_div_right _ _ hn, Nat.div_eq_of_lt hl, Nat.zero_add]
  have hik : i = k := by rw [← h1, ← h2, h]
  subst hik
  exact ⟨rfl, by omega⟩

/-- Writing one value to the cells `(k, l)` and `(l, k)`. -/
theorem cell_mirror (n : Nat) (M : List Dbl) (k l i j : Nat) (v : Dbl)
    (hM : M.length = n * n) (hk : k < n) (hl : l < n) (_hi : i < n) (hj : j < n) :
    cell n ((M.set (k * n + l) v).set (l * n + k) v) i j =
      if (i = k ∧ j = l) ∨ (i = l ∧ j = k) then v else cell n M i j := by
  unfold cell
  rw [getD_set _ _ _ _ _ (by rw [List.length_set, hM]; exact idx_lt hl hk),
    getD_set _ _ _ _ _ (by rw [hM]; exact idx_lt hk hl)]
  by_cases h1 : l * n + k = i * n + j
  · have := idx_inj hk hj h1
    simp [h1, this.1.symm, this.2.symm]
  · by_cases h2 : k * n + l = i * n + j
    · have := idx_inj hl hj h2
      simp [h2, this.1.symm, this.2.symm]
    · have e1 : ¬ (i = l ∧ j = k) := fun h => h1 (by rw [h.1, h.2])
      have e2 : ¬ (i = k ∧ j = l) := fun h => h2 (by rw [h.1, h.2])
      simp [h1, h2, e1, e2]

theorem symmetric_mirror (n : Nat) (M : List Dbl) (k l : Nat) (v : Dbl)
    (hM : IsSymmetric n M) (hk : k < n) (hl : l < n) :
    IsSymmetric n ((M.set (k * n + l) v).set (l * n + k) v) := by
  refine ⟨by simp [hM.1], ?_⟩
  intro i j hi hj
  rw [cell_mirror n M k l i j v hM.1 hk hl hi hj, cell_mirror n M k l j i v hM.1 hk hl hj hi,
    hM.2 i j hi hj]
  by_cases h1 : (i = k ∧ j = l) ∨ (i = l ∧ j = k)
  · have h2 : (j = k ∧ i = l) ∨ (j = l ∧ i = k) := by tauto
    simp [h1, h2]
  · have h2 : ¬ ((j = k ∧ i = l) ∨ (j = l ∧ i = k)) := by tauto
    simp [h1, h2]

theorem symmetric_diag (n : Nat) (M : List Dbl) (k : Nat) (v : Dbl)
    (hM : IsSymmetric n M) (hk : k < n) : IsSymmetric n (M.set (k * n + k) v) := by
  have := symmetric_mirror n M k k v hM hk hk
  rwa [List.set_set] at this

end Nilsier

namespace Nilsier
namespace TractStore

/-! ## Symmetry of the covariance matrix -/

theorem nanInner_symmetric (n k : Nat) (hk : k < n) (rest : List Nat)
    (hrest : ∀ c ∈ rest, c < n) (M : List Dbl) (hM : IsSymmetric n M) :
    IsSymmetric n (nanInner n k rest M) := by
  unfold nanInner
  induction rest generalizing M with
  | nil => exact hM
  | cons l rest ih =>
    rw [List.foldl_cons]
    exact ih (fun c hc => hrest c (List.mem_cons_of_mem _ hc)) _
      (symmetric_mirror n M k l Dbl.nan hM hk (hrest l (List.mem_cons_self _ _)))

theorem nanLoop_symmetric (categories : KeyValueMap) (n psu : Nat) (cats : List Nat)
    (hcats : ∀ c ∈ cats, c < n) (ki : Nat) (st st' : VarState)
    (hM : IsSymmetric n st.covs)
    (h : nanLoop categories n psu cats ki st = .ok st') : IsSymmetric n st'.covs := by
  induction cats generalizing ki st with
  | nil =>
    simp only [nanLoop, pure, Except.pure, Except.ok.injEq] at h
    exact h ▸ hM
  | cons k rest ih =>
    rw [nanLoop, bind_eq_ok] at h
    obtain ⟨reach, _, h⟩ := h
    split at h
    · simp only [pure, Except.pure, Except.ok.injEq] at h
      rw [← h]; exact hM
    · have hk : k < n := hcats k (List.mem_cons_self _ _)
      refine ih (fun c hc => hcats c (List.mem_cons_of_mem _ hc)) _ _ ?_ h
      apply nanInner_symmetric n k hk rest (fun c hc => hcats c (List.mem_cons_of_mem _ hc))
      have : k * (n + 1) = k * n + k := by ring
      rw [this]
      exact symmetric_diag n _ k _ hM hk

theorem covInnerStep_symmetric (s : TractStore) (psus categories : KeyValueMap) (area : Dbl)
    (psu_size : Dbl) (st : VarState) (k : Nat) (mean_k : Dbl) (M M' : List Dbl) (l : Nat)
    (hk : k < s.n_cats_) (hl : l < s.n_cats_) (hM : IsSymmetric s.n_cats_ M)
    (h : covInnerStep s psus categories area psu_size st k mean_k M l = .ok M') :
    IsSymmetric s.n_cats_ M' := by
  unfold covInnerStep at h
  split at h
  · simp only [pure, Except.pure, Except.ok.injEq] at h
    exact h ▸ hM
  · rw [bind_eq_ok] at h
    obtain ⟨r, _, h⟩ := h
    rw [bind_eq_ok] at h
    obtain ⟨v, _, h⟩ := h
    split at h
    · simp only [pure, Except.pure, Except.ok.injEq] at h
      rw [← h]
      exact symmetric_mirror _ _ k l _ hM hk hl
    · rename_i hkl
      have hkl : k = l := by simpa using hkl
      simp only [pure, Except.pure, Except.ok.injEq] at h
      rw [← h, ← hkl]
      exact symmetric_diag _ _ k _ hM hk

theorem covLoop_symmetric (s : TractStore) (psus categories : KeyValueMap) (area : Dbl)
    (psu : Nat) (psu_size : Dbl) (cats : List Nat)
    (hcats : ∀ c ∈ cats, c < s.n_cats_) (ki : Nat) (st st' : VarState)
    (hM : IsSymmetric s.n_cats_ st.covs)
    (h : covLoop s psus categories area psu psu_size cats ki st = .ok st') :
    IsSymmetric s.n_cats_ st'.covs := by
  induction cats generalizing ki st with
  | nil =>
    simp only [covLoop, pure, Except.pure, Except.ok.injEq] at h
    exact h ▸ hM
  | cons k rest ih =>
    rw [covLoop, bind_eq_ok] at h
    obtain ⟨reach, _, h⟩ := h
    have hrest : ∀ c ∈ rest, c < s.n_cats_ := fun c hc => hcats c (List.mem_cons_of_mem _ hc)
    split at h
    · simp only [pure, Except.pure, Except.ok.injEq] at h
      rw [← h]; exact hM
    · split at h
      · exact ih hrest _ _ hM h
      · rw [bind_eq_ok] at h
        obtain ⟨covs, hc, h⟩ := h
        refine ih hrest _ _ ?_ h
        refine foldlM_inv (IsSymmetric s.n_cats_) _ (k :: rest) ?_ _ _ hM hc
        intro b a b' ha hb hstep
        exact covInnerStep_symmetric s psus categories area psu_size st k _ b b' a
          (hcats k (List.mem_cons_self _ _)) (hcats a ha) hb hstep

end TractStore
end Nilsier

namespace Nilsier

theorem foldl_inv {α β : Type} (P : β → Prop) (f : β → α → β) (l : List α)
    (hf : ∀ b a, a ∈ l → P b → P (f b a)) : ∀ b, P b → P (l.foldl f b) := by
  induction l with
  | nil => intro b hb; exact hb
  | cons a l ih =>
    intro b hb
    rw [List.foldl_cons]
    exact ih (fun b a ha => hf b a (List.mem_cons_of_mem _ ha)) _
      (hf b a (List.mem_cons_self _ _) hb)

theorem foldr_inv {α β : Type} (P : β → Prop) (f : α → β → β) (l : List α)
    (hf : ∀ a b, a ∈ l → P b → P (f a b)) : ∀ b, P b → P (l.foldr f b) := by
  induction l with
  | nil => intro b hb; exact hb
  | cons a l ih =>
    intro b hb
    rw [List.foldr_cons]
    exact hf a _ (List.mem_cons_self _ _)
      (ih (fun a b ha => hf a b (List.mem_cons_of_mem _ ha)) b hb)

namespace TractStore

theorem accumCats_frame (n : Nat) (t : Tract) (st : VarState) :
    (accumCats n t st).covs = st.covs ∧ (accumCats n t st).first_cat = st.first_cat ∧
      (accumCats n t st).ids = st.ids := by
  unfold accumCats
  refine foldl_inv (fun x => x.covs = st.covs ∧ x.first_cat = st.first_cat ∧ x.ids = st.ids)
    _ _ ?_ st ⟨rfl, rfl, rfl⟩
  intro b a _ hb
  split
  · exact hb
  · exact hb

theorem prepareStep_frame (n psu i : Nat) (t : Tract) (st : VarState) :
    (prepareStep n psu i t st).covs = st.covs ∧
      (prepareStep n psu i t st).first_cat = st.first_cat := by
  unfold prepareStep
  split
  · exact ⟨rfl, rfl⟩
  · split
    · exact ⟨rfl, rfl⟩
    · have := accumCats_frame n t { st with ids := st.ids ++ [i] }
      exact ⟨this.1, this.2.1⟩

theorem prepareIds_frame (s : TractStore) (psu : Nat) (st : VarState) :
    (prepareIds s psu st).covs = st.covs ∧ (prepareIds s psu st).first_cat = st.first_cat := by
  unfold prepareIds
  refine foldr_inv (fun x => x.covs = st.covs ∧ x.first_cat = st.first_cat) _ _ ?_ st ⟨rfl, rfl⟩
  intro a b _ hb
  have := prepareStep_frame s.n_cats_ psu a.1 a.2 b
  exact ⟨this.1.trans hb.1, this.2.trans hb.2⟩

theorem phase_symmetric (s : TractStore) (psus categories : KeyValueMap) (area : Dbl)
    (sorted_cats : List Nat) (hcats : ∀ c ∈ sorted_cats, c < s.n_cats_) (st st' : VarState)
    (psu : Nat) (hM : IsSymmetric s.n_cats_ st.covs)
    (h : phase s psus categories area sorted_cats st psu = .ok st') :
    IsSymmetric s.n_cats_ st'.covs := by
  unfold phase at h
  rw [bind_eq_ok] at h
  obtain ⟨v, _, h⟩ := h
  have hM2 : IsSymmetric s.n_cats_ (prepareIds s psu st).covs := by
    rw [(prepareIds_frame s psu st).1]; exact hM
  have hd : ∀ c ∈ sorted_cats.drop (prepareIds s psu st).first_cat, c < s.n_cats_ :=
    fun c hc => hcats c (List.mem_of_mem_drop hc)
  dsimp only at h
  split at h
  · exact nanLoop_symmetric categories _ psu _ hd _ _ _ hM2 h
  · exact covLoop_symmetric s psus categories area psu _ _ hd _ _ _ hM2 h

theorem symmetric_zero (n : Nat) : IsSymmetric n (List.replicate (n * n) 0) := by
  refine ⟨by simp, ?_⟩
  intro i j hi hj
  unfold cell
  simp [List.getD_eq_getElem?_getD, List.getElem?_replicate, idx_lt hi hj, idx_lt hj hi]

theorem VarianceFrom_symmetric (s : TractStore) (psus categories : KeyValueMap) (area : Dbl)
    (sorted_cats : List Nat) (hcats : ∀ c ∈ sorted_cats, c < s.n_cats_) (M : List Dbl)
    (h : VarianceFrom s psus categories area sorted_cats = .ok M) :
    IsSymmetric s.n_cats_ M := by
  unfold VarianceFrom at h
  rw [bind_eq_ok] at h
  obtain ⟨st, hst, h⟩ := h
  simp only [pure, Except.pure, Except.ok.injEq] at h
  rw [← h]
  refine foldlM_inv (fun x => IsSymmetric s.n_cats_ x.covs) _ _ ?_ _ _ ?_ hst
  · intro b a b' _ hb hstep
    exact phase_symmetric s psus categories area sorted_cats hcats b b' a hb hstep
  · exact symmetric_zero s.n_cats_

end TractStore

theorem sortedCats_perm (categories : KeyValueMap) (n : Nat) (l : List Nat)
    (h : sortedCats categories n = .ok l) : l.Perm (List.range n) := by
  unfold sortedCats at h
  split at h
  · simp only [pure, Except.pure, Except.ok.injEq] at h
    rw [← h]
  · rw [bind_eq_ok] at h
    obtain ⟨_, _, h⟩ := h
    simp only [pure, Except.pure, Except.ok.injEq] at h
    rw [← h]
    exact List.perm_insertionSort _ _

theorem sortedCats_lt (categories : KeyValueMap) (n : Nat) (l : List Nat)
    (h : sortedCats categories n = .ok l) : ∀ c ∈ l, c < n := by
  intro c hc
  exact List.mem_range.mp ((sortedCats_perm categories n l h).mem_iff.mp hc)

namespace TractStore

theorem Variance_ok_symmetric (s : TractStore) (psus categories : KeyValueMap) (area : Dbl)
    (M : List Dbl) (h : s.Variance psus categories area = .ok M) : IsSymmetric s.n_cats_ M := by
  unfold Variance at h
  rw [bind_eq_ok] at h
  obtain ⟨l, hl, h⟩ := h
  exact VarianceFrom_symmetric s psus categories area l (sortedCats_lt categories _ l hl) M h

end TractStore
end Nilsier

namespace Nilsier

/-! ## Variance returns a matrix when the tables fit the store -/

theorem mapM_ok {α β : Type} (f : α → Except Error β) (l : List α)
    (hf : ∀ a ∈ l, ∃ b, f a = .ok b) : ∃ bs, l.mapM f = .ok bs := by
  induction l with
  | nil => exact ⟨[], rfl⟩
  | cons a l ih =>
    obtain ⟨b, hb⟩ := hf a (List.mem_cons_self _ _)
    obtain ⟨bs, hbs⟩ := ih (fun a ha => hf a (List.mem_cons_of_mem _ ha))
    refine ⟨b :: bs, ?_⟩
    rw [List.mapM_cons, hb, bind_eq_ok]
    refine ⟨b, rfl, ?_⟩
    rw [hbs]
    rfl

theorem sortedCats_total (categories : KeyValueMap) (n : Nat)
    (h : ∀ c, c < n → ∃ r, categories.GetValue c = .ok r) :
    ∃ l, sortedCats categories n = .ok l := by
  unfold sortedCats
  split
  · exact ⟨_, rfl⟩
  · obtain ⟨bs, hbs⟩ := mapM_ok categories.GetValue (List.range n)
      (fun a ha => h a (List.mem_range.mp ha))
    rw [hbs]
    exact ⟨_, rfl⟩

namespace TractStore

theorem nanLoop_total (categories : KeyValueMap) (n psu : Nat) (cats : List Nat)
    (hcats : ∀ c ∈ cats, ∃ r, categories.GetValue c = .ok r) (ki : Nat) (st : VarState) :
    ∃ st', nanLoop categories n psu cats ki st = .ok st' := by
  induction cats generalizing ki st with
  | nil => exact ⟨st, rfl⟩
  | cons k rest ih =>
    obtain ⟨r, hr⟩ := hcats k (List.mem_cons_self _ _)
    rw [nanLoop, hr]
    show ∃ st', (if r < psu then _ else _) = Except.ok st'
    split
    · exact ⟨_, rfl⟩
    · exact ih (fun c hc => hcats c (List.mem_cons_of_mem _ hc)) _ _

theorem covInnerStep_total (s : TractStore) (psus categories : KeyValueMap) (area : Dbl)
    (psu_size : Dbl) (st : VarState) (k : Nat) (mean_k : Dbl) (M : List Dbl) (l : Nat)
    (hl : ∃ r, categories.GetValue l = .ok r ∧ ∃ v, psus.GetValue r = .ok v) :
    ∃ M', covInnerStep s psus categories area psu_size st k mean_k M l = .ok M' := by
  obtain ⟨r, hr, v, hv⟩ := hl
  unfold covInnerStep
  split
  · exact ⟨_, rfl⟩
  · rw [hr]
    show ∃ M', (psus.GetValue r >>= _) = Except.ok M'
    rw [hv]
    show ∃ M', (if k ≠ l then _ else _) = Except.ok M'
    split
    · exact ⟨_, rfl⟩
    · exact ⟨_, rfl⟩

theorem covLoop_total (s : TractStore) (psus categories : KeyValueMap) (area : Dbl)
    (psu : Nat) (psu_size : Dbl) (cats : List Nat)
    (hcats : ∀ c ∈ cats, ∃ r, categories.GetValue c = .ok r ∧ ∃ v, psus.GetValue r = .ok v)
    (ki : Nat) (st : VarState) :
    ∃ st', covLoop s psus categories area psu psu_size cats ki st = .ok st' := by
  induction cats generalizing ki st with
  | nil => exact ⟨st, rfl⟩
  | cons k rest ih =>
    obtain ⟨r, hr, _⟩ := hcats k (List.mem_cons_self _ _)
    have hrest := fun c hc => hcats c (List.mem_cons_of_mem k hc)
    rw [covLoop, hr]
    show ∃ st', (if r < psu then _ else _) = Except.ok st'
    split
    · exact ⟨_, rfl⟩
    · split
      · exact ih hrest _ _
      · obtain ⟨covs, hcovs, _⟩ := foldlM_total (fun _ => True)
          (covInnerStep s psus categories area psu_size st k
            (st.sums.getD k 0 / psu_size)) (k :: rest)
          (fun b a ha _ => by
            obtain ⟨M', hM'⟩ := covInnerStep_total s psus categories area psu_size st k
              (st.sums.getD k 0 / psu_size) b a (hcats a ha)
            exact ⟨M', hM', trivial⟩) st.covs trivial
        dsimp only
        rw [hcovs]
        exact ih hrest _ _

theorem phase_total (s : TractStore) (psus categories : KeyValueMap) (area : Dbl)
    (sorted_cats : List Nat) (hfit : TablesFit s.n_cats_ psus categories)
    (hcats : ∀ c ∈ sorted_cats, c < s.n_cats_) (st : VarState) (psu : Nat)
    (hpsu : psu < psus.Size) :
    ∃ st', phase s psus categories area sorted_cats st psu = .ok st' := by
  obtain ⟨v, hv⟩ := hfit.2 psu hpsu
  have hd : ∀ c ∈ sorted_cats.drop (prepareIds s psu st).first_cat,
      ∃ r, categories.GetValue c = .ok r ∧ ∃ v, psus.GetValue r = .ok v := by
    intro c hc
    obtain ⟨r, hr, hlt⟩ := hfit.1 c (hcats c (List.mem_of_mem_drop hc))
    exact ⟨r, hr, hfit.2 r hlt⟩
  unfold phase
  rw [hv]
  show ∃ st', (if (Dbl.ofNat v).le 1 = true then _ else _) = Except.ok st'
  split
  · exact nanLoop_total categories _ psu _
      (fun c hc => by obtain ⟨r, hr, _⟩ := hd c hc; exact ⟨r, hr⟩) _ _
  · exact covLoop_total s psus categories area psu _ _ hd _ _

theorem Variance_total (s : TractStore) (psus categories : KeyValueMap) (area : Dbl)
    (hfit : TablesFit s.n_cats_ psus categories) :
    ∃ M, s.Variance psus categories area = .ok M := by
  obtain ⟨l, hl⟩ := sortedCats_total categories s.n_cats_
    (fun c hc => by obtain ⟨r, hr, _⟩ := hfit.1 c hc; exact ⟨r, hr⟩)
  have hlt := sortedCats_lt categories _ l hl
  obtain ⟨st, hst, _⟩ := foldlM_total (fun _ => True)
    (phase s psus categories area l) (List.range psus.Size).reverse
    (fun b a ha _ => by
      obtain ⟨st', h'⟩ := phase_total s psus categories area l hfit hlt b a
        (List.mem_range.mp (List.mem_reverse.mp ha))
      exact ⟨st', h', trivial⟩) (varInit s.n_cats_) trivial
  refine ⟨st.covs, ?_⟩
  unfold Variance
  rw [hl]
  show VarianceFrom s psus categories area l = _
  unfold VarianceFrom
  rw [hst]
  rfl

end TractStore
end Nilsier

namespace Nilsier

/-! ## NaN cells of the degenerate branch -/

theorem Dbl.nan_add (x : Dbl) : Dbl.nan + x = Dbl.nan := rfl

theorem Dbl.nan_mul (x : Dbl) : Dbl.nan * x = Dbl.nan := rfl

theorem Dbl.le_ofNat_one (v : Nat) : (Dbl.ofNat v).le 1 = true ↔ v ≤ 1 := by
  show decide ((v : ℚ) ≤ 1) = true ↔ v ≤ 1
  rw [decide_eq_true_iff]
  exact Nat.cast_le_one

theorem cell_diag (n : Nat) (M : List Dbl) (k i j : Nat) (v : Dbl)
    (hM : M.length = n * n) (hk : k < n) (hi : i < n) (hj : j < n) :
    cell n (M.set (k * n + k) v) i j = if i = k ∧ j = k then v else cell n M i j := by
  have := cell_mirror n M k k i j v hM hk hk hi hj
  rw [List.set_set] at this
  rw [this]
  simp

namespace TractStore

theorem covSum_nan (s : TractStore) (ids : List Nat) (k l : Nat) (mk ml : Dbl) :
    covSum s ids k l mk ml Dbl.nan = Dbl.nan := by
  unfold covSum
  induction ids with
  | nil => rfl
  | cons a ids ih => rw [List.foldr_cons, ih]; rfl

theorem nanInner_cell (n k : Nat) (hk : k < n) (rest : List Nat)
    (hrest : ∀ c ∈ rest, c < n) (M : List Dbl) (hM : M.length = n * n) :
    (nanInner n k rest M).length = n * n ∧
    ∀ i j, i < n → j < n → cell n (nanInner n k rest M) i j =
      if (i = k ∧ j ∈ rest) ∨ (j = k ∧ i ∈ rest) then Dbl.nan else cell n M i j := by
  unfold nanInner
  induction rest generalizing M with
  | nil => exact ⟨hM, fun i j _ _ => by simp⟩
  | cons l rest ih =>
    rw [List.foldl_cons]
    have hl := hrest l (List.mem_cons_self _ _)
    obtain ⟨h1, h2⟩ := ih (fun c hc => hrest c (List.mem_cons_of_mem _ hc))
      ((M.set (k * n + l) Dbl.nan).set (l * n + k) Dbl.nan) (by simp [hM])
    refine ⟨h1, ?_⟩
    intro i j hi hj
    rw [h2 i j hi hj, cell_mirror n M k l i j _ hM hk hl hi hj]
    by_cases c1 : (i = k ∧ j ∈ rest) ∨ (j = k ∧ i ∈ rest)
    · have c2 : (i = k ∧ j ∈ l :: rest) ∨ (j = k ∧ i ∈ l :: rest) := by
        rcases c1 with c1 | c1
        · exact Or.inl ⟨c1.1, List.mem_cons_of_mem _ c1.2⟩
        · exact Or.inr ⟨c1.1, List.mem_cons_of_mem _ c1.2⟩
      rw [if_pos c1, if_pos c2]
    · rw [if_neg c1]
      by_cases c3 : (i = k ∧ j = l) ∨ (i = l ∧ j = k)
      · have c2 : (i = k ∧ j ∈ l :: rest) ∨ (j = k ∧ i ∈ l :: rest) := by
          rcases c3 with c3 | c3
          · exact Or.inl ⟨c3.1, by rw [c3.2]; exact List.mem_cons_self _ _⟩
          · exact Or.inr ⟨c3.2, by rw [c3.1]; exact List.mem_cons_self _ _⟩
        rw [if_pos c3, if_pos c2]
      · have c2 : ¬ ((i = k ∧ j ∈ l :: rest) ∨ (j = k ∧ i ∈ l :: rest)) := by
          simp only [List.mem_cons]
          tauto
        rw [if_neg c3, if_neg c2]

/-- The cells written for one category of the degenerate branch. -/
theorem nanStep_cell (n k : Nat) (hk : k < n) (rest : List Nat)
    (hrest : ∀ c ∈ rest, c < n) (M : List Dbl) (hM : M.length = n * n) :
    (nanInner n k rest (M.set (k * (n + 1)) Dbl.nan)).length = n * n ∧
    ∀ i j, i < n → j < n →
      cell n (nanInner n k rest (M.set (k * (n + 1)) Dbl.nan)) i j =
        if (i = k ∧ j ∈ k :: rest) ∨ (j = k ∧ i ∈ k :: rest) then Dbl.nan else cell n M i j := by
  have e : k * (n + 1) = k * n + k := by ring
  rw [e]
  obtain ⟨h1, h2⟩ := nanInner_cell n k hk rest hrest (M.set (k * n + k) Dbl.nan) (by simp [hM])
  refine ⟨h1, ?_⟩
  intro i j hi hj
  rw [h2 i j hi hj, cell_diag n M k i j _ hM hk hi hj]
  simp only [List.mem_cons]
  by_cases c1 : (i = k ∧ j ∈ rest) ∨ (j = k ∧ i ∈ rest)
  · have c2 : (i = k ∧ (j = k ∨ j ∈ rest)) ∨ (j = k ∧ (i = k ∨ i ∈ rest)) := by tauto
    rw [if_pos c1, if_pos c2]
  · rw [if_neg c1]
    by_cases c3 : i = k ∧ j = k
    · have c2 : (i = k ∧ (j = k ∨ j ∈ rest)) ∨ (j = k ∧ (i = k ∨ i ∈ rest)) := by tauto
      rw [if_pos c3, if_pos c2]
    · have c2 : ¬ ((i = k ∧ (j = k ∨ j ∈ rest)) ∨ (j = k ∧ (i = k ∨ i ∈ rest))) := by tauto
      rw [if_neg c3, if_neg c2]

end TractStore
end Nilsier

namespace Nilsier

theorem reachOf_eq (categories : KeyValueMap) (c r : Nat) (h : categories.GetValue c = .ok r) :
    reachOf categories c = r := by
  unfold reachOf
  rw [h]

namespace TractStore

theorem nanLoop_rows (categories : KeyValueMap) (n psu : Nat) (cats : List Nat)
    (hsorted : cats.Pairwise (fun a b => reachOf categories b ≤ reachOf categories a))
    (hcats : ∀ c ∈ cats, c < n) (ki : Nat) (st st' : VarState)
    (hM : st.covs.length = n * n)
    (h : nanLoop categories n psu cats ki st = .ok st') :
    st'.covs.length = n * n ∧
    (∀ i j, i < n → j < n → cell n st.covs i j = Dbl.nan → cell n st'.covs i j = Dbl.nan) ∧
    (∀ k ∈ cats, ∀ l ∈ cats, psu ≤ reachOf categories k →
      cell n st'.covs k l = Dbl.nan ∧ cell n st'.covs l k = Dbl.nan) := by
  induction cats generalizing ki st with
  | nil =>
    simp only [nanLoop, pure, Except.pure, Except.ok.injEq] at h
    subst h
    exact ⟨hM, fun _ _ _ _ h => h, fun k hk => absurd hk (List.not_mem_nil _)⟩
  | cons k0 rest ih =>
    rw [nanLoop, bind_eq_ok] at h
    obtain ⟨reach, hreach, h⟩ := h
    have hr0 := reachOf_eq categories k0 reach hreach
    have hk0 : k0 < n := hcats k0 (List.mem_cons_self _ _)
    have hrest : ∀ c ∈ rest, c < n := fun c hc => hcats c (List.mem_cons_of_mem _ hc)
    rw [List.pairwise_cons] at hsorted
    split at h
    · rename_i hlt
      simp only [pure, Except.pure, Except.ok.injEq] at h
      subst h
      refine ⟨hM, fun _ _ _ _ h => h, ?_⟩
      intro k hk l _ hpsu
      exfalso
      rcases List.mem_cons.mp hk with rfl | hk
      · omega
      · have := hsorted.1 k hk
        omega
    · obtain ⟨s1, s2⟩ := nanStep_cell n k0 hk0 rest hrest st.covs hM
      obtain ⟨i1, i2, i3⟩ := ih hsorted.2 hrest (ki + 1) _ s1 h
      refine ⟨i1, ?_, ?_⟩
      · intro i j hi hj hnan
        apply i2 i j hi hj
        show cell n (nanInner n k0 rest (st.covs.set (k0 * (n + 1)) Dbl.nan)) i j = Dbl.nan
        rw [s2 i j hi hj]
        split
        · rfl
        · exact hnan
      · have key : ∀ x ∈ k0 :: rest,
            cell n st'.covs k0 x = Dbl.nan ∧ cell n st'.covs x k0 = Dbl.nan := by
          intro x hx
          have hxn := hcats x hx
          constructor
          · apply i2 k0 x hk0 hxn
            show cell n (nanInner n k0 rest (st.covs.set (k0 * (n + 1)) Dbl.nan)) k0 x = Dbl.nan
            rw [s2 k0 x hk0 hxn, if_pos (Or.inl ⟨rfl, hx⟩)]
          · apply i2 x k0 hxn hk0
            show cell n (nanInner n k0 rest (st.covs.set (k0 * (n + 1)) Dbl.nan)) x k0 = Dbl.nan
            rw [s2 x k0 hxn hk0, if_pos (Or.inr ⟨rfl, hx⟩)]
        intro k hk l hl hpsu
        rcases List.mem_cons.mp hk with rfl | hk'
        · exact key l hl
        · rcases List.mem_cons.mp hl with rfl | hl'
          · exact (key k hk).symm
          · exact i3 k hk' l hl' hpsu

theorem nanLoop_nanrows (categories : KeyValueMap) (n psu : Nat) (K : Nat → Prop)
    (cats : List Nat) (hcats : ∀ c ∈ cats, c < n) (ki : Nat) (st st' : VarState)
    (hM : NanRows n K st.covs)
    (h : nanLoop categories n psu cats ki st = .ok st') : NanRows n K st'.covs := by
  induction cats generalizing ki st with
  | nil =>
    simp only [nanLoop, pure, Except.pure, Except.ok.injEq] at h
    exact h ▸ hM
  | cons k0 rest ih =>
    rw [nanLoop, bind_eq_ok] at h
    obtain ⟨reach, _, h⟩ := h
    have hk0 : k0 < n := hcats k0 (List.mem_cons_self _ _)
    have hrest : ∀ c ∈ rest, c < n := fun c hc => hcats c (List.mem_cons_of_mem _ hc)
    split at h
    · simp only [pure, Except.pure, Except.ok.injEq] at h
      rw [← h]; exact hM
    · obtain ⟨s1, s2⟩ := nanStep_cell n k0 hk0 rest hrest st.covs hM.1
      refine ih hrest (ki + 1) _ ⟨s1, ?_⟩ h
      intro i j hi hj hK
      show cell n (nanInner n k0 rest (st.covs.set (k0 * (n + 1)) Dbl.nan)) i j = Dbl.nan
      rw [s2 i j hi hj]
      split
      · rfl
      · exact hM.2 i j hi hj hK

theorem covInnerStep_nanrows (s : TractStore) (psus categories : KeyValueMap) (area : Dbl)
    (psu_size : Dbl) (st : VarState) (k : Nat) (mean_k : Dbl) (M M' : List Dbl) (l : Nat)
    (K : Nat → Prop) (hk : k < s.n_cats_) (hl : l < s.n_cats_) (hM : NanRows s.n_cats_ K M)
    (h : covInnerStep s psus categories area psu_size st k mean_k M l = .ok M') :
    NanRows s.n_cats_ K M' := by
  unfold covInnerStep at h
  split at h
  · simp only [pure, Except.pure, Except.ok.injEq] at h
    exact h ▸ hM
  · rw [bind_eq_ok] at h
    obtain ⟨r, _, h⟩ := h
    rw [bind_eq_ok] at h
    obtain ⟨v, _, h⟩ := h
    have hc : K k ∨ K l → covSum s st.ids k l mean_k (st.sums.getD l 0 / psu_size)
        (M.getD (k * s.n_cats_ + l) 0) *
        (area / psu_size * (area / Dbl.ofNat v) * (psu_size / (psu_size - 1))) = Dbl.nan := by
      intro hK
      have : M.getD (k * s.n_cats_ + l) 0 = Dbl.nan := hM.2 k l hk hl hK
      rw [this, covSum_nan, Dbl.nan_mul]
    split at h
    · simp only [pure, Except.pure, Except.ok.injEq] at h
      rw [← h]
      refine ⟨by simp [hM.1], ?_⟩
      intro i j hi hj hK
      rw [cell_mirror _ M k l i j _ hM.1 hk hl hi hj]
      split
      · rename_i hij
        apply hc
        rcases hij with hij | hij
        · rw [← hij.1, ← hij.2]; exact hK
        · rw [← hij.1, ← hij.2]; exact hK.symm
      · exact hM.2 i j hi hj hK
    · rename_i hkl
      have hkl : k = l := by simpa using hkl
      simp only [pure, Except.pure, Except.ok.injEq] at h
      rw [← h]
      refine ⟨by simp [hM.1], ?_⟩
      intro i j hi hj hK
      subst hkl
      rw [cell_diag _ M k i j _ hM.1 hk hi hj]
      split
      · rename_i hij
        apply hc
        rw [← hij.1]
        rcases hK with hK | hK
        · exact Or.inl hK
        · rw [hij.2, ← hij.1] at hK; exact Or.inl hK
      · exact hM.2 i j hi hj hK

theorem covLoop_nanrows (s : TractStore) (psus categories : KeyValueMap) (area : Dbl)
    (psu : Nat) (psu_size : Dbl) (K : Nat → Prop) (cats : List Nat)
    (hcats : ∀ c ∈ cats, c < s.n_cats_) (ki : Nat) (st st' : VarState)
    (hM : NanRows s.n_cats_ K st.covs)
    (h : covLoop s psus categories area psu psu_size cats ki st = .ok st') :
    NanRows s.n_cats_ K st'.covs := by
  induction cats generalizing ki st with
  | nil =>
    simp only [covLoop, pure, Except.pure, Except.ok.injEq] at h
    exact h ▸ hM
  | cons k rest ih =>
    rw [covLoop, bind_eq_ok] at h
    obtain ⟨reach, _, h⟩ := h
    have hrest : ∀ c ∈ rest, c < s.n_cats_ := fun c hc => hcats c (List.mem_cons_of_mem _ hc)
    split at h
    · simp only [pure, Except.pure, Except.ok.injEq] at h
      rw [← h]; exact hM
    · split at h
      · exact ih hrest _ _ hM h
      · rw [bind_eq_ok] at h
        obtain ⟨covs, hc, h⟩ := h
        refine ih hrest _ _ ?_ h
        refine foldlM_inv (NanRows s.n_cats_ K) _ (k :: rest) ?_ _ _ hM hc
        intro b a b' ha hb hstep
        exact covInnerStep_nanrows s psus categories area psu_size st k _ b b' a K
          (hcats k (List.mem_cons_self _ _)) (hcats a ha) hb hstep

theorem phase_nanrows (s : TractStore) (psus categories : KeyValueMap) (area : Dbl)
    (K : Nat → Prop) (sorted_cats : List Nat) (hcats : ∀ c ∈ sorted_cats, c < s.n_cats_)
    (st st' : VarState) (psu : Nat) (hM : NanRows s.n_cats_ K st.covs)
    (h : phase s psus categories area sorted_cats st psu = .ok st') :
    NanRows s.n_cats_ K st'.covs := by
  unfold phase at h
  rw [bind_eq_ok] at h
  obtain ⟨v, _, h⟩ := h
  have hM2 : NanRows s.n_cats_ K (prepareIds s psu st).covs := by
    rw [(prepareIds_frame s psu st).1]; exact hM
  have hd : ∀ c ∈ sorted_cats.drop (prepareIds s psu st).first_cat, c < s.n_cats_ :=
    fun c hc => hcats c (List.mem_of_mem_drop hc)
  dsimp only at h
  split at h
  · exact nanLoop_nanrows categories _ psu K _ hd _ _ _ hM2 h
  · exact covLoop_nanrows s psus categories area psu _ K _ hd _ _ _ hM2 h

end TractStore
end Nilsier

namespace Nilsier

theorem sortedCats_sorted (categories : KeyValueMap) (n : Nat) (l : List Nat)
    (h : sortedCats categories n = .ok l) :
    l.Pairwise (fun a b => reachOf categories b ≤ reachOf categories a) := by
  unfold sortedCats at h
  split at h
  · rename_i hn
    simp only [pure, Except.pure, Except.ok.injEq] at h
    rw [← h]
    have : n = 0 ∨ n = 1 := by omega
    rcases this with rfl | rfl <;> simp [List.range_succ]
  · rw [bind_eq_ok] at h
    obtain ⟨_, _, h⟩ := h
    simp only [pure, Except.pure, Except.ok.injEq] at h
    rw [← h]
    haveI : IsTotal Nat (fun a b => reachOf categories b ≤ reachOf categories a) :=
      ⟨fun a b => Nat.le_total _ _⟩
    haveI : IsTrans Nat (fun a b => reachOf categories b ≤ reachOf categories a) :=
      ⟨fun a b c hab hbc => Nat.le_trans hbc hab⟩
    exact List.sorted_insertionSort _ _

namespace TractStore

theorem varInit_covs_length (n : Nat) : (varInit n).covs.length = n * n := by
  simp [varInit]

theorem VarianceFrom_nanrows (s : TractStore) (psus categories : KeyValueMap) (area : Dbl)
    (l : List Nat) (hperm : l.Perm (List.range s.n_cats_))
    (hsorted : l.Pairwise (fun a b => reachOf categories b ≤ reachOf categories a))
    (v : Nat) (hdeep : psus.GetValue (psus.Size - 1) = .ok v) (hv : v ≤ 1)
    (M : List Dbl) (h : VarianceFrom s psus categories area l = .ok M) :
    NanRows s.n_cats_ (fun k => psus.Size - 1 ≤ reachOf categories k) M := by
  have hlt : ∀ c ∈ l, c < s.n_cats_ := fun c hc => List.mem_range.mp (hperm.mem_iff.mp hc)
  have hmem : ∀ c, c < s.n_cats_ → c ∈ l := fun c hc => hperm.mem_iff.mpr (List.mem_range.mpr hc)
  have hP : 0 < psus.Size := by
    by_contra hz
    have hz : psus.size_ = 0 := by unfold KeyValueMap.Size at hz; omega
    unfold KeyValueMap.GetValue at hdeep
    rw [if_pos (by omega)] at hdeep
    cases hdeep
  obtain ⟨P, hPeq⟩ : ∃ P, psus.Size = P + 1 := ⟨psus.Size - 1, by omega⟩
  unfold VarianceFrom at h
  rw [bind_eq_ok] at h
  obtain ⟨st, hst, h⟩ := h
  simp only [pure, Except.pure, Except.ok.injEq] at h
  rw [← h]
  rw [hPeq, List.range_succ, List.reverse_append, List.reverse_singleton, List.singleton_append,
    List.foldlM_cons, bind_eq_ok] at hst
  obtain ⟨st1, h1, hst⟩ := hst
  have hP1 : psus.Size - 1 = P := by omega
  rw [hP1] at hdeep ⊢
  refine foldlM_inv
    (fun x => NanRows s.n_cats_ (fun k => P ≤ reachOf categories k) x.covs) _ _ ?_ _ _ ?_ hst
  · intro b a b' _ hb hstep
    exact phase_nanrows s psus categories area _ l hlt b b' a hb hstep
  · unfold phase at h1
    rw [hdeep] at h1
    have hle : (Dbl.ofNat v).le 1 = true := (Dbl.le_ofNat_one v).mpr hv
    have h1 : nanLoop categories s.n_cats_ P
        (l.drop (prepareIds s P (varInit s.n_cats_)).first_cat)
        (prepareIds s P (varInit s.n_cats_)).first_cat (prepareIds s P (varInit s.n_cats_))
        = .ok st1 := by
      have h1' := h1
      simp only [bind, Except.bind, hle, if_true] at h1'
      exact h1'
    have hfc : (prepareIds s P (varInit s.n_cats_)).first_cat = 0 :=
      (prepareIds_frame s P _).2
    rw [hfc, List.drop_zero] at h1
    obtain ⟨r1, _, r3⟩ := nanLoop_rows categories s.n_cats_ P l hsorted hlt 0 _ st1
      (by rw [(prepareIds_frame s P _).1]; exact varInit_covs_length _) h1
    refine ⟨r1, ?_⟩
    intro i j hi hj hK
    rcases hK with hK | hK
    · exact (r3 i (hmem i hi) j (hmem j hj) hK).1
    · exact (r3 j (hmem j hj) i (hmem i hi) hK).2

end TractStore
end Nilsier

namespace Nilsier

/-! ## Arithmetic of the double model -/

theorem Dbl.fin_add_fin (a b : ℚ) : Dbl.fin a + Dbl.fin b = Dbl.fin (a + b) := rfl

theorem Dbl.add_nan (x : Dbl) : x + Dbl.nan = Dbl.nan := by cases x <;> rfl

theorem Dbl.add_comm' (x y : Dbl) : x + y = y + x := by
  cases x <;> cases y <;> first | rfl | (show Dbl.fin _ = Dbl.fin _; rw [add_comm])

theorem Dbl.add_assoc' (x y z : Dbl) : x + y + z = x + (y + z) := by
  cases x <;> cases y <;> cases z <;>
    first | rfl | (show Dbl.fin _ = Dbl.fin _; rw [add_assoc])

theorem Dbl.add_zero' (x : Dbl) : x + 0 = x := by
  cases x
  · show Dbl.fin _ = Dbl.fin _; rw [add_zero]
  · rfl

theorem Dbl.zero_add' (x : Dbl) : 0 + x = x := by
  rw [Dbl.add_comm', Dbl.add_zero']

theorem Dbl.eqz_iff (x : Dbl) : x.eqz = true ↔ x = 0 := by
  cases x with
  | fin q =>
    show decide (q = 0) = true ↔ Dbl.fin q = Dbl.fin 0
    rw [decide_eq_true_iff]
    constructor
    · intro h; rw [h]
    · intro h; injection h
  | nan =>
    constructor
    · intro h; cases h
    · intro h; cases h

theorem Dbl.sum_cons (x : Dbl) (l : List Dbl) : Dbl.sum (x :: l) = x + Dbl.sum l := by
  unfold Dbl.sum
  rw [List.foldl_cons, Dbl.zero_add']
  have gen : ∀ (l : List Dbl) (a b : Dbl),
      l.foldl (fun acc x => acc + x) (a + b) = a + l.foldl (fun acc x => acc + x) b := by
    intro l
    induction l with
    | nil => intro a b; rfl
    | cons y l ih =>
      intro a b
      rw [List.foldl_cons, List.foldl_cons, Dbl.add_assoc', ih]
  have := gen l x 0
  rwa [Dbl.add_zero'] at this

/-! ## Loops over the categories of a vector -/

theorem rangeFold_getD {α : Type} (d : α) (p : Nat → Bool) (upd : Nat → α → α) (xs : List α)
    (m : Nat) (hm : m ≤ xs.length) :
    ((List.range m).foldl
        (fun acc j => if p j then acc.set j (upd j (acc.getD j d)) else acc) xs).length
      = xs.length ∧
    ∀ c, ((List.range m).foldl
        (fun acc j => if p j then acc.set j (upd j (acc.getD j d)) else acc) xs).getD c d
      = if c < m ∧ p c then upd c (xs.getD c d) else xs.getD c d := by
  induction m with
  | zero => exact ⟨rfl, fun c => by simp⟩
  | succ m ih =>
    obtain ⟨h1, h2⟩ := ih (by omega)
    rw [List.range_succ, List.foldl_append]
    simp only [List.foldl_cons, List.foldl_nil]
    constructor
    · split
      · rw [List.length_set, h1]
      · exact h1
    · intro c
      by_cases hp : p m = true
      · rw [if_pos hp, getD_set _ _ _ _ _ (by rw [h1]; omega), h2 m]
        by_cases hc : m = c
        · subst hc
          simp [hp]
        · rw [if_neg hc, h2 c]
          have : (c < m + 1 ∧ p c = true) ↔ (c < m ∧ p c = true) := by
            constructor
            · intro h; exact ⟨by omega, h.2⟩
            · intro h; exact ⟨by omega, h.2⟩
          simp only [this]
      · rw [if_neg hp, h2 c]
        have : (c < m + 1 ∧ p c = true) ↔ (c < m ∧ p c = true) := by
          constructor
          · intro h
            refine ⟨?_, h.2⟩
            by_contra hlt
            have : c = m := by omega
            rw [this] at h
            exact hp h.2
          · intro h; exact ⟨by omega, h.2⟩
        simp only [this]

namespace TractStore

theorem addRow_getD (n : Nat) (t : Tract) (sums : List Dbl) (hn : n ≤ sums.length) :
    (addRow n t sums).length = sums.length ∧
    ∀ c, (addRow n t sums).getD c 0 =
      if c < n then sums.getD c 0 + t.Get c else sums.getD c 0 := by
  have := rangeFold_getD (0 : Dbl) (fun _ => true) (fun k x => x + t.Get k) sums n hn
  simp only [if_true, and_true] at this
  exact this

theorem catSums_getD (s : TractStore) :
    (catSums s).length = s.n_cats_ ∧
    ∀ c, c < s.n_cats_ → (catSums s).getD c 0 =
      s.tract_map_.foldr (fun t acc => if t.nonnil_ then acc + t.Get c else acc) 0 := by
  unfold catSums
  induction s.tract_map_ with
  | nil =>
    refine ⟨by simp, ?_⟩
    intro c hc
    simp [List.getD_eq_getElem?_getD, List.getElem?_replicate, hc]
  | cons t ts ih =>
    obtain ⟨h1, h2⟩ := ih
    rw [List.foldr_cons]
    by_cases hnn : t.nonnil_ = true
    · simp only [hnn, Bool.not_true, Bool.false_eq_true, if_false]
      obtain ⟨a1, a2⟩ := addRow_getD s.n_cats_ t _ (le_of_eq h1.symm)
      refine ⟨a1.trans h1, ?_⟩
      intro c hc
      rw [a2 c, if_pos hc, h2 c hc, List.foldr_cons, if_pos hnn]
    · have hnn' : t.nonnil_ = false := by simpa using hnn
      simp only [hnn', Bool.not_false, if_true]
      refine ⟨h1, ?_⟩
      intro c hc
      rw [h2 c hc, List.foldr_cons]
      simp [hnn']

theorem catSums_eq_catTotal (s : TractStore) (c : Nat) (hc : c < s.n_cats_) :
    (catSums s).getD c 0 = catTotal s c := by
  rw [(catSums_getD s).2 c hc]
  unfold catTotal
  induction s.tract_map_ with
  | nil => rfl
  | cons t ts ih =>
    rw [List.foldr_cons, ih]
    by_cases hnn : t.nonnil_ = true
    · rw [if_pos hnn, List.filter_cons_of_pos hnn, List.map_cons, Dbl.sum_cons, Dbl.add_comm']
    · rw [if_neg hnn, List.filter_cons_of_neg hnn]

end TractStore
end Nilsier

namespace Nilsier
namespace TractStore

/-! ## CatEstimates -/

theorem scaled_eq (psus categories : KeyValueMap) (area : Dbl) (c r N : Nat) (x : Dbl)
    (hr : categories.GetValue c = .ok r) (hN : psus.GetValue r = .ok N) :
    scaled psus categories area c x =
      if N > 0 then x * (area / Dbl.ofNat N) else Dbl.nan := by
  unfold scaled
  simp only [hr, hN]

theorem scaleStep_eq (psus categories : KeyValueMap) (area : Dbl) (sums : List Dbl) (k r N : Nat)
    (hr : categories.GetValue k = .ok r) (hN : psus.GetValue r = .ok N) :
    scaleStep psus categories area sums k =
      .ok (sums.set k (scaled psus categories area k (sums.getD k 0))) := by
  rw [scaled_eq psus categories area k r N _ hr hN]
  unfold scaleStep
  rw [hr]
  show (psus.GetValue r >>= _) = _
  rw [hN]
  show (if N > 0 then _ else _) = _
  split <;> rfl

theorem scaleFold (psus categories : KeyValueMap) (area : Dbl) (xs : List Dbl) (m : Nat)
    (hm : m ≤ xs.length)
    (hfit : ∀ c, c < m → ∃ r N, categories.GetValue c = .ok r ∧ psus.GetValue r = .ok N) :
    ∃ est, (List.range m).foldlM (scaleStep psus categories area) xs = .ok est ∧
      est.length = xs.length ∧
      ∀ c, est.getD c 0 =
        if c < m then scaled psus categories area c (xs.getD c 0) else xs.getD c 0 := by
  induction m with
  | zero => exact ⟨xs, rfl, rfl, fun c => by simp⟩
  | succ m ih =>
    obtain ⟨est, h0, h1, h2⟩ := ih (by omega) (fun c hc => hfit c (by omega))
    obtain ⟨r, N, hr, hN⟩ := hfit m (by omega)
    refine ⟨est.set m (scaled psus categories area m (est.getD m 0)), ?_, ?_, ?_⟩
    · rw [List.range_succ, List.foldlM_append, h0, bind_eq_ok]
      refine ⟨est, rfl, ?_⟩
      rw [List.foldlM_cons, scaleStep_eq psus categories area est m r N hr hN]
      rfl
    · rw [List.length_set, h1]
    · intro c
      have hlen : m < est.length := by rw [h1]; omega
      rw [getD_set est m c _ 0 hlen, h2 m, if_neg (Nat.lt_irrefl m)]
      by_cases hc : m = c
      · rw [if_pos hc, ← hc, if_pos (Nat.lt_succ_self m)]
      · rw [if_neg hc, h2 c]
        by_cases hlt : c < m
        · rw [if_pos hlt, if_pos (by omega)]
        · rw [if_neg hlt, if_neg (by omega)]

theorem CatEstimates_eq (s : TractStore) (psus categories : KeyValueMap) (area : Dbl)
    (hfit : ∀ c, c < s.n_cats_ →
      ∃ r N, categories.GetValue c = .ok r ∧ psus.GetValue r = .ok N) :
    ∃ est, s.CatEstimates psus categories area = .ok est ∧ est.length = s.n_cats_ ∧
      ∀ c, c < s.n_cats_ → est.getD c 0 = scaled psus categories area c (catTotal s c) := by
  obtain ⟨est, h0, h1, h2⟩ := scaleFold psus categories area (catSums s) s.n_cats_
    (le_of_eq (catSums_getD s).1.symm) hfit
  refine ⟨est, h0, h1.trans (catSums_getD s).1, ?_⟩
  intro c hc
  rw [h2 c, if_pos hc, catSums_eq_catTotal s c hc]

theorem Dbl.mul_div_ofNat (x area : Dbl) (N : Nat) (hN : 0 < N) :
    x * (area / Dbl.ofNat N) = area * x / Dbl.ofNat N := by
  have hq : (N : ℚ) ≠ 0 := by exact_mod_cast (Nat.pos_iff_ne_zero.mp hN)
  cases x with
  | nan =>
    cases area with
    | nan => rfl
    | fin a => rfl
  | fin q =>
    cases area with
    | nan => rfl
    | fin a =>
      show Dbl.mul (Dbl.fin q) (Dbl.div (Dbl.fin a) (Dbl.fin N)) =
        Dbl.div (Dbl.mul (Dbl.fin a) (Dbl.fin q)) (Dbl.fin N)
      simp only [Dbl.div, Dbl.mul, if_neg hq]
      congr 1
      field_simp
      ring

theorem Dbl.mul_div_ofNat_isNum (x area : Dbl) (N : Nat) (hN : 0 < N) (hx : x.IsNum)
    (ha : area.IsNum) : (x * (area / Dbl.ofNat N)).IsNum := by
  have hq : (N : ℚ) ≠ 0 := by exact_mod_cast (Nat.pos_iff_ne_zero.mp hN)
  cases x with
  | nan => exact absurd rfl hx
  | fin q =>
    cases area with
    | nan => exact absurd rfl ha
    | fin a =>
      show Dbl.mul (Dbl.fin q) (Dbl.div (Dbl.fin a) (Dbl.fin N)) ≠ Dbl.nan
      simp only [Dbl.div, Dbl.mul, if_neg hq]
      intro h
      cases h

end TractStore
end Nilsier

namespace Nilsier

/-! ## Invariants of the store -/

theorem lookup_append_single (e e' : Int) (i : Nat) (l : List (Int × Nat)) :
    (l ++ [(e', i)]).lookup e =
      match l.lookup e with
      | some j => some j
      | none => if e = e' then some i else none := by
  induction l with
  | nil =>
    by_cases h : e = e'
    · subst h; simp [List.lookup]
    · have : (e == e') = false := by simpa using h
      simp [List.lookup, this, h]
  | cons p l ih =>
    obtain ⟨a, b⟩ := p
    by_cases h : e = a
    · subst h; simp [List.lookup]
    · have : (e == a) = false := by simpa using h
      simp only [List.cons_append, List.lookup, this]
      exact ih

theorem Tract.Add_ok (t t' : Tract) (cat : Nat) (value : Dbl) (h : t.Add cat value = .ok t') :
    cat < t.values_.length ∧
    t'.values_ = t.values_.set cat (t.values_.getD cat 0 + value) ∧
    t'.external_id_ = t.external_id_ ∧ t'.internal_psu_ = t.internal_psu_ ∧
    t'.recorded_ = true ∧ t'.nonnil_ = (t.nonnil_ || value.nez) := by
  unfold Tract.Add at h
  split at h
  · cases h
  · rename_i old hold
    have hlt : cat < t.values_.length := by
      by_contra hc
      rw [List.getElem?_eq_none (by omega)] at hold
      cases hold
    have hget : t.values_.getD cat 0 = old := by
      rw [List.getD_eq_getElem?_getD, hold]; rfl
    injection h with h
    subst h
    exact ⟨hlt, by rw [hget], rfl, rfl, rfl, rfl⟩

namespace TractStore

theorem newStep_ok (tract_ids tract_external_psus : List Int) (psus : KeyValueMap)
    (n_cats : Nat) (st st' : TractStore) (i : Nat)
    (h : newStep tract_ids tract_external_psus psus n_cats st i = .ok st') :
    ∃ e p, tract_ids[i]? = some e ∧ st.internal_id_map_.lookup e = none ∧
      (∃ x, tract_external_psus[i]? = some x ∧ psus.GetInternalKey x = .ok p) ∧
      st' = { st with
        tract_map_ := st.tract_map_ ++ [Tract.new n_cats e p]
        internal_id_map_ := st.internal_id_map_ ++ [(e, i)] } := by
  unfold newStep at h
  rw [bind_eq_ok] at h
  obtain ⟨e, he, h⟩ := h
  have he' : tract_ids[i]? = some e := by
    unfold rd at he
    split at he
    · rename_i x hx; injection he with he; rw [hx, he]
    · cases he
  split at h
  · cases h
  · rename_i hnone
    rw [bind_eq_ok] at h
    obtain ⟨x, hx, h⟩ := h
    rw [bind_eq_ok] at h
    obtain ⟨p, hp, h⟩ := h
    have hx' : tract_external_psus[i]? = some x := by
      unfold rd at hx
      split at hx
      · rename_i y hy; injection hx with hx; rw [hy, hx]
      · cases hx
    simp only [pure, Except.pure, Except.ok.injEq] at h
    exact ⟨e, p, he', hnone, ⟨x, hx', hp⟩, h.symm⟩

theorem new_fold (tract_ids tract_external_psus : List Int) (psus : KeyValueMap)
    (n_cats : Nat) (k : Nat) (st : TractStore)
    (h : (List.range k).foldlM (newStep tract_ids tract_external_psus psus n_cats)
      { tract_map_ := [], internal_id_map_ := [], n_cats_ := n_cats } = .ok st) :
    st.n_cats_ = n_cats ∧ st.tract_map_.length = k ∧ st.Fresh ∧ st.WF := by
  induction k generalizing st with
  | zero =>
    simp only [List.range_zero, List.foldlM, pure, Except.pure, Except.ok.injEq] at h
    subst h
    refine ⟨rfl, rfl, ?_, ?_, ?_, ?_⟩
    · intro t ht; cases ht
    · intro t ht; cases ht
    · intro t ht; cases ht
    · intro e i hl; simp [List.lookup] at hl
  | succ k ih =>
    rw [List.range_succ, List.foldlM_append, bind_eq_ok] at h
    obtain ⟨st0, h0, h⟩ := h
    obtain ⟨i1, i2, i3, i4, i5, i6⟩ := ih st0 h0
    rw [List.foldlM_cons, bind_eq_ok] at h
    obtain ⟨st1, h1, h⟩ := h
    simp only [List.foldlM, pure, Except.pure, Except.ok.injEq] at h
    subst h
    obtain ⟨e, p, _, _, _, hst⟩ := newStep_ok _ _ _ _ _ _ _ h1
    subst hst
    have hnew : (Tract.new n_cats e p).values_ = List.replicate n_cats 0 := rfl
    refine ⟨i1, by simp [i2], ?_, ?_, ?_, ?_⟩
    · intro t ht
      rcases List.mem_append.mp ht with ht | ht
      · exact i3 t ht
      · rw [List.mem_singleton] at ht
        subst ht
        exact ⟨by rw [hnew, i1], rfl, rfl⟩
    · intro t ht
      rcases List.mem_append.mp ht with ht | ht
      · exact i4 t ht
      · rw [List.mem_singleton] at ht
        subst ht
        show (List.replicate n_cats (0 : Dbl)).length = st0.n_cats_
        rw [List.length_replicate, i1]
    · intro t ht hnn v hv
      rcases List.mem_append.mp ht with ht | ht
      · exact i5 t ht hnn v hv
      · rw [List.mem_singleton] at ht
        subst ht
        exact List.eq_of_mem_replicate hv
    · intro e' i hl
      have hl' : (st0.internal_id_map_ ++ [(e, k)]).lookup e' = some i := hl
      rw [lookup_append_single] at hl'
      show ∃ t, (st0.tract_map_ ++ [Tract.new n_cats e p])[i]? = some t ∧ t.external_id_ = e'
      split at hl'
      · rename_i j hj
        injection hl' with hl'
        subst hl'
        obtain ⟨t, ht, hte⟩ := i6 e' j hj
        refine ⟨t, ?_, hte⟩
        have hlt : j < st0.tract_map_.length := by
          by_contra hc
          rw [List.getElem?_eq_none (by omega)] at ht
          cases ht
        rw [List.getElem?_append_left hlt, ht]
      · split at hl'
        · rename_i hee
          injection hl' with hl'
          subst hl'
          refine ⟨Tract.new n_cats e p, ?_, hee.symm⟩
          rw [List.getElem?_append_right (by omega), i2]
          simp
        · cases hl'

theorem new_ok (tract_ids tract_external_psus : List Int) (n_tracts : Nat) (psus : KeyValueMap)
    (n_cats : Nat) (s : TractStore)
    (h : TractStore.new tract_ids tract_external_psus n_tracts psus n_cats = .ok s) :
    s.n_cats_ = n_cats ∧ s.tract_map_.length = n_tracts ∧ s.Fresh ∧ s.WF ∧
      psus.GetValue 0 = .ok n_tracts := by
  unfold TractStore.new at h
  rw [bind_eq_ok] at h
  obtain ⟨largest, hl, h⟩ := h
  split at h
  · cases h
  · rename_i hne
    have hne : n_tracts = largest := by simpa using hne
    obtain ⟨a, b, c, d⟩ := new_fold _ _ _ _ _ _ h
    exact ⟨a, b, c, d, by rw [hne]; exact hl⟩

end TractStore
end Nilsier

namespace Nilsier
namespace TractStore

/-! ## Fill -/

theorem FillRow_zero (categories : KeyValueMap) (tract_area : Dbl) (s : TractStore)
    (row : PlotRow) (h : row.isZero = true) : FillRow categories tract_area s row = .ok s := by
  unfold FillRow
  unfold PlotRow.isZero at h
  rw [if_pos h]

theorem FillRow_unknown (categories : KeyValueMap) (tract_area : Dbl) (s : TractStore)
    (row : PlotRow) (h : s.FindExternal row.id = none) :
    FillRow categories tract_area s row = .ok s := by
  unfold FillRow
  split
  · rfl
  · rw [h]

/-- The two outcomes of a row that `Fill` does not reject with an exception: the store is
left as it is, or the amount of the row is added to one tract. -/
theorem FillRow_ok (categories : KeyValueMap) (tract_area : Dbl) (s s' : TractStore)
    (row : PlotRow) (h : FillRow categories tract_area s row = .ok s') :
    s' = s ∨
    ∃ ptr c p t', row.isZero = false ∧ s.FindExternal row.id = some ptr ∧
      categories.GetInternalKey row.cat = .ok c ∧ categories.GetValue c = .ok p ∧
      ¬ (s.FindInternal ptr).GetInternalPsu < p ∧
      (s.FindInternal ptr).Add c (row.amount tract_area) = .ok t' ∧
      s' = { s with tract_map_ := s.tract_map_.set ptr t' } := by
  unfold FillRow at h
  split at h
  · injection h with h; exact Or.inl h.symm
  · rename_i hz
    have hz : row.isZero = false := by
      unfold PlotRow.isZero; simpa using hz
    split at h
    · injection h with h; exact Or.inl h.symm
    · rename_i ptr hptr
      rw [bind_eq_ok] at h
      obtain ⟨c, hc, h⟩ := h
      rw [bind_eq_ok] at h
      obtain ⟨p, hp, h⟩ := h
      split at h
      · injection h with h; exact Or.inl h.symm
      · rename_i hpsu
        rw [bind_eq_ok] at h
        obtain ⟨t', ht', h⟩ := h
        simp only [pure, Except.pure, Except.ok.injEq] at h
        exact Or.inr ⟨ptr, c, p, t', hz, hptr, hc, hp, hpsu, ht', h.symm⟩

theorem FindInternal_of_getElem? (s : TractStore) (i : Nat) (t : Tract)
    (h : s.tract_map_[i]? = some t) : s.FindInternal i = t := by
  unfold FindInternal
  rw [List.getD_eq_getElem?_getD, h]
  rfl

theorem FillRow_frame (categories : KeyValueMap) (tract_area : Dbl) (s s' : TractStore)
    (row : PlotRow) (h : FillRow categories tract_area s row = .ok s') :
    s'.n_cats_ = s.n_cats_ ∧ s'.internal_id_map_ = s.internal_id_map_ ∧
      s'.tract_map_.length = s.tract_map_.length := by
  rcases FillRow_ok _ _ _ _ _ h with h | ⟨ptr, c, p, t', _, _, _, _, _, _, h⟩
  · subst h; exact ⟨rfl, rfl, rfl⟩
  · subst h; exact ⟨rfl, rfl, by simp⟩

theorem FillRow_WF (categories : KeyValueMap) (tract_area : Dbl) (s s' : TractStore)
    (row : PlotRow) (hs : s.WF) (h : FillRow categories tract_area s row = .ok s') : s'.WF := by
  rcases FillRow_ok _ _ _ _ _ h with h | ⟨ptr, c, p, t', hz, hptr, _, _, _, hadd, h⟩
  · subst h; exact hs
  · subst h
    obtain ⟨w1, w2, w3⟩ := hs
    obtain ⟨t, ht, hte⟩ := w3 row.id ptr hptr
    have hfi := FindInternal_of_getElem? s ptr t ht
    rw [hfi] at hadd
    have htm : t ∈ s.tract_map_ := List.getElem?_mem ht
    obtain ⟨a1, a2, a3, a4, a5, a6⟩ := Tract.Add_ok t t' c _ hadd
    have hmem : ∀ x ∈ s.tract_map_.set ptr t', x ∈ s.tract_map_ ∨ x = t' := by
      intro x hx
      rcases List.mem_or_eq_of_mem_set hx with hx | hx
      · exact Or.inl hx
      · exact Or.inr hx
    refine ⟨?_, ?_, ?_⟩
    · intro x hx
      rcases hmem x hx with hx | hx
      · exact w1 x hx
      · subst hx
        rw [a2, List.length_set]
        exact w1 t htm
    · intro x hx hnn v hv
      rcases hmem x hx with hx | hx
      · exact w2 x hx hnn v hv
      · subst hx
        rw [a6] at hnn
        have hnn1 : t.nonnil_ = false := by
          cases h1 : t.nonnil_
          · rfl
          · rw [h1] at hnn; simp at hnn
        have hnn2 : (row.amount tract_area).eqz = true := by
          rw [hnn1] at hnn
          unfold Dbl.nez at hnn
          simpa using hnn
        have hzero := (Dbl.eqz_iff _).mp hnn2
        rw [a2, hzero] at hv
        have hold : t.values_.getD c 0 = 0 := by
          apply w2 t htm hnn1
          rw [List.getD_eq_getElem?_getD, List.getElem?_eq_getElem a1]
          exact List.getElem_mem _
        rw [hold, Dbl.add_zero'] at hv
        rcases List.mem_or_eq_of_mem_set hv with hv | hv
        · exact w2 t htm hnn1 v hv
        · exact hv
    · intro e i hl
      obtain ⟨x, hx, hxe⟩ := w3 e i hl
      show ∃ y, (s.tract_map_.set ptr t')[i]? = some y ∧ y.external_id_ = e
      rw [List.getElem?_set]
      by_cases hpi : ptr = i
      · subst hpi
        have hlt : ptr < s.tract_map_.length := by
          by_contra hc
          rw [List.getElem?_eq_none (by omega)] at ht
          cases ht
        rw [if_pos rfl, if_pos hlt]
        refine ⟨t', rfl, ?_⟩
        rw [a3]
        rw [ht] at hx
        injection hx with hx
        rw [hx]; exact hxe
      · rw [if_neg hpi]
        exact ⟨x, hx, hxe⟩

theorem Fill_WF (categories : KeyValueMap) (tract_area : Dbl) (data : List PlotRow)
    (s s' : TractStore) (hs : s.WF) (h : s.Fill data categories tract_area = .ok s') :
    s'.WF := by
  unfold Fill at h
  exact foldlM_inv TractStore.WF _ data
    (fun b a b' _ hb hstep => FillRow_WF categories tract_area b b' a hb hstep) s s' hs h

theorem Reachable_WF (s : TractStore) (h : Reachable s) : s.WF := by
  induction h with
  | new tract_ids tract_external_psus n_tracts psus n_cats s h =>
    exact (new_ok _ _ _ _ _ _ h).2.2.2.1
  | fill s s' data categories tract_area _ h ih =>
    exact Fill_WF categories tract_area data s s' ih h

end TractStore
end Nilsier

namespace Nilsier
namespace TractStore

/-! ## NonNilTracts and PositiveTractsPerCat -/

theorem NonNilTracts_eq_countP (s : TractStore) :
    s.NonNilTracts = s.tract_map_.countP (fun t => t.nonnil_) := by
  unfold NonNilTracts
  induction s.tract_map_ with
  | nil => rfl
  | cons t ts ih =>
    rw [List.foldr_cons, ih]
    by_cases h : t.nonnil_ = true
    · rw [if_pos h, List.countP_cons_of_pos _ _ h]
    · rw [if_neg h, List.countP_cons_of_neg _ _ h]

theorem positiveRow_getD (n : Nat) (t : Tract) (nt : List Nat) (hn : n ≤ nt.length) :
    (positiveRow n t nt).length = nt.length ∧
    ∀ c, (positiveRow n t nt).getD c 0 =
      if c < n ∧ (t.Get c).gtz = true then nt.getD c 0 + 1 else nt.getD c 0 :=
  rangeFold_getD (0 : Nat) (fun j => (t.Get j).gtz) (fun _ x => x + 1) nt n hn

theorem PositiveTractsPerCat_getD (s : TractStore) :
    s.PositiveTractsPerCat.length = s.n_cats_ ∧
    ∀ c, c < s.n_cats_ →
      s.PositiveTractsPerCat.getD c 0 = s.tract_map_.countP (fun t => (t.Get c).gtz) := by
  unfold PositiveTractsPerCat
  induction s.tract_map_ with
  | nil =>
    refine ⟨by simp, ?_⟩
    intro c hc
    simp [List.getD_eq_getElem?_getD, List.getElem?_replicate, hc]
  | cons t ts ih =>
    obtain ⟨h1, h2⟩ := ih
    rw [List.foldr_cons]
    obtain ⟨a1, a2⟩ := positiveRow_getD s.n_cats_ t _ (le_of_eq h1.symm)
    refine ⟨a1.trans h1, ?_⟩
    intro c hc
    rw [a2 c, h2 c hc]
    by_cases hg : (t.Get c).gtz = true
    · rw [if_pos ⟨hc, hg⟩, List.countP_cons, if_pos hg]
    · rw [if_neg (fun h => hg h.2), List.countP_cons, if_neg hg, Nat.add_zero]

theorem Get_zero_of_not_nonnil (s : TractStore) (hs : s.WF) (t : Tract) (ht : t ∈ s.tract_map_)
    (hnn : t.nonnil_ = false) (c : Nat) : t.Get c = 0 := by
  unfold Tract.Get
  rw [List.getD_eq_getElem?_getD]
  cases h : t.values_[c]? with
  | none => rfl
  | some v => exact hs.2.1 t ht hnn v (List.getElem?_mem h)

theorem nonnil_of_positive (s : TractStore) (hs : s.WF) (t : Tract) (ht : t ∈ s.tract_map_)
    (c : Nat) (hpos : (t.Get c).gtz = true) : t.nonnil_ = true := by
  cases hnn : t.nonnil_ with
  | true => rfl
  | false =>
    rw [Get_zero_of_not_nonnil s hs t ht hnn c] at hpos
    have : (0 : Dbl).gtz = false := by
      show decide ((0 : ℚ) < 0) = false
      simp
    rw [this] at hpos
    cases hpos

theorem countP_le_of_imp {α : Type} (p q : α → Bool) (l : List α)
    (h : ∀ x ∈ l, p x = true → q x = true) : l.countP p ≤ l.countP q := by
  induction l with
  | nil => exact Nat.le_refl _
  | cons a l ih =>
    have ih' := ih (fun x hx => h x (List.mem_cons_of_mem _ hx))
    by_cases hp : p a = true
    · rw [List.countP_cons_of_pos _ _ hp,
        List.countP_cons_of_pos _ _ (h a (List.mem_cons_self _ _) hp)]
      omega
    · rw [List.countP_cons_of_neg _ _ hp]
      by_cases hq : q a = true
      · rw [List.countP_cons_of_pos _ _ hq]; omega
      · rw [List.countP_cons_of_neg _ _ hq]; exact ih'

end TractStore
end Nilsier

namespace Nilsier
namespace TractStore

/-! ## Fill is additive -/

theorem FillRow_psu (categories : KeyValueMap) (tract_area : Dbl) (s s' : TractStore)
    (row : PlotRow) (hs : s.WF) (h : FillRow categories tract_area s row = .ok s') (j : Nat) :
    (s'.FindInternal j).GetInternalPsu = (s.FindInternal j).GetInternalPsu := by
  rcases FillRow_ok _ _ _ _ _ h with h | ⟨ptr, c, p, t', _, hptr, _, _, _, hadd, h⟩
  · subst h; rfl
  · subst h
    obtain ⟨t, ht, _⟩ := hs.2.2 row.id ptr hptr
    rw [FindInternal_of_getElem? s ptr t ht] at hadd
    obtain ⟨_, _, _, a4, _, _⟩ := Tract.Add_ok t t' c _ hadd
    have hlt : ptr < s.tract_map_.length := by
      by_contra hc
      rw [List.getElem?_eq_none (by omega)] at ht
      cases ht
    unfold FindInternal
    show ((s.tract_map_.set ptr t').getD j _).GetInternalPsu = _
    rw [getD_set _ _ _ _ _ hlt]
    by_cases hj : ptr = j
    · rw [if_pos hj, ← hj]
      have : s.tract_map_.getD ptr (Tract.new s.n_cats_ 0 0) = t := by
        rw [List.getD_eq_getElem?_getD, ht]; rfl
      rw [this]
      exact a4
    · rw [if_neg hj]

theorem FillRow_value (categories : KeyValueMap) (tract_area : Dbl) (s : TractStore)
    (hs : s.WF) (row : PlotRow) (i c p : Nat) (hi : s.FindExternal row.id = some i)
    (hc : categories.GetInternalKey row.cat = .ok c) (hcn : c < s.n_cats_)
    (hp : categories.GetValue c = .ok p) (hpsu : p ≤ (s.FindInternal i).GetInternalPsu) :
    ∃ s', FillRow categories tract_area s row = .ok s' ∧
      ∀ j d, valueAt s' j d =
        if row.isZero = false ∧ j = i ∧ d = c then valueAt s j d + row.amount tract_area
        else valueAt s j d := by
  by_cases hz : row.isZero = true
  · refine ⟨s, FillRow_zero _ _ _ _ hz, ?_⟩
    intro j d
    rw [if_neg (by rw [hz]; simp)]
  · have hz' : row.isZero = false := by simpa using hz
    obtain ⟨t, ht, _⟩ := hs.2.2 row.id i hi
    have hfi := FindInternal_of_getElem? s i t ht
    have htm : t ∈ s.tract_map_ := List.getElem?_mem ht
    have hlen : c < t.values_.length := by rw [hs.1 t htm]; exact hcn
    have hlt : i < s.tract_map_.length := by
      by_contra hcon
      rw [List.getElem?_eq_none (by omega)] at ht
      cases ht
    have hold : t.values_[c]? = some (t.values_.getD c 0) := by
      rw [List.getD_eq_getElem?_getD, List.getElem?_eq_getElem hlen]; rfl
    obtain ⟨t', ht', hval'⟩ : ∃ t', t.Add c (row.amount tract_area) = .ok t' ∧
        t'.values_ = t.values_.set c (t.values_.getD c 0 + row.amount tract_area) := by
      unfold Tract.Add
      rw [hold]
      exact ⟨_, rfl, rfl⟩
    refine ⟨({ s with tract_map_ := s.tract_map_.set i t' } : TractStore), ?_, ?_⟩
    · unfold FillRow
      have hz2 : ¬ (row.weight.eqz || row.value.eqz) = true := by
        unfold PlotRow.isZero at hz; exact hz
      rw [if_neg hz2, hi]
      show (categories.GetInternalKey row.cat >>= _) = _
      rw [hc]
      show (categories.GetValue c >>= _) = _
      rw [hp]
      show (if (s.FindInternal i).GetInternalPsu < p then _ else _) = _
      rw [if_neg (by omega), hfi]
      show (t.Add c (row.weight * row.value / tract_area) >>= _) = _
      have ht2 : t.Add c (row.weight * row.value / tract_area) = .ok t' := ht'
      rw [ht2]
      rfl
    · intro j d
      unfold valueAt FindInternal
      show ((s.tract_map_.set i _).getD j _).Get d = _
      rw [getD_set _ _ _ _ _ hlt]
      by_cases hj : i = j
      · rw [if_pos hj, ← hj]
        have hg : s.tract_map_.getD i (Tract.new s.n_cats_ 0 0) = t := by
          rw [List.getD_eq_getElem?_getD, ht]; rfl
        rw [hg]
        unfold Tract.Get
        rw [hval', getD_set _ _ _ _ _ hlen]
        by_cases hd : c = d
        · rw [if_pos hd, if_pos ⟨hz', rfl, hd.symm⟩, ← hd]
        · rw [if_neg hd, if_neg (fun h => hd h.2.2.symm)]
      · rw [if_neg hj, if_neg (fun h => hj h.2.1.symm)]

theorem RowMatches_step (categories : KeyValueMap) (tract_area : Dbl) (s s' : TractStore)
    (row row' : PlotRow) (hs : s.WF) (h : FillRow categories tract_area s row = .ok s')
    (hm : RowMatches s categories row') : RowMatches s' categories row' := by
  obtain ⟨i, c, p, h1, h2, h3, h4, h5⟩ := hm
  obtain ⟨f1, f2, _⟩ := FillRow_frame _ _ _ _ _ h
  refine ⟨i, c, p, ?_, h2, by rw [f1]; exact h3, h4, ?_⟩
  · unfold FindExternal; rw [f2]; exact h1
  · rw [FillRow_psu _ _ _ _ _ hs h i]; exact h5

theorem Fill_value (categories : KeyValueMap) (tract_area : Dbl) (data : List PlotRow)
    (s : TractStore) (hs : s.WF) (hm : ∀ row ∈ data, RowMatches s categories row) :
    ∃ s', s.Fill data categories tract_area = .ok s' ∧
      ∀ j d, valueAt s' j d =
        ((rowsOf s categories j d data).map (fun row => row.amount tract_area)).foldl
          (fun acc x => acc + x) (valueAt s j d) := by
  induction data generalizing s with
  | nil => exact ⟨s, rfl, fun j d => rfl⟩
  | cons row data ih =>
    obtain ⟨i, c, p, h1, h2, h3, h4, h5⟩ := hm row (List.mem_cons_self _ _)
    obtain ⟨s1, hs1, hv1⟩ := FillRow_value categories tract_area s hs row i c p h1 h2 h3 h4
      (le_of_eq h5.symm)
    have hwf1 := FillRow_WF _ _ _ _ _ hs hs1
    obtain ⟨s2, hs2, hv2⟩ := ih s1 hwf1
      (fun r hr => RowMatches_step _ _ _ _ _ _ hs hs1 (hm r (List.mem_cons_of_mem _ hr)))
    refine ⟨s2, ?_, ?_⟩
    · unfold Fill
      rw [List.foldlM_cons, hs1]
      exact hs2
    · intro j d
      rw [hv2 j d, hv1 j d]
      have hrows : rowsOf s1 categories j d data = rowsOf s categories j d data := by
        unfold rowsOf FindExternal
        rw [(FillRow_frame _ _ _ _ _ hs1).2.1]
      rw [hrows]
      unfold rowsOf
      have hcat : row.hasCat categories d = (c == d) := by
        unfold PlotRow.hasCat; rw [h2]
      by_cases hcond : row.isZero = false ∧ j = i ∧ d = c
      · obtain ⟨c1, c2, c3⟩ := hcond
        have hf : (!row.isZero && (s.FindExternal row.id == some j) &&
            row.hasCat categories d) = true := by
          rw [hcat, h1, c1, c2, c3]; simp
        rw [if_pos ⟨c1, c2, c3⟩, List.filter_cons, if_pos hf, List.map_cons, List.foldl_cons]
      · have hf : ¬ (!row.isZero && (s.FindExternal row.id == some j) &&
            row.hasCat categories d) = true := by
          intro hcon
          apply hcond
          rw [hcat, h1] at hcon
          simp only [Bool.and_eq_true, Bool.not_eq_eq_eq_not, Bool.not_true, beq_iff_eq,
            Option.some.injEq] at hcon
          exact ⟨hcon.1.1, hcon.1.2.symm, hcon.2.symm⟩
        rw [if_neg hcond, List.filter_cons, if_neg hf]

end TractStore
end Nilsier

namespace Nilsier
namespace TractStore

/-! ## Stores without a non-nil tract -/

theorem Fill_zero (categories : KeyValueMap) (tract_area : Dbl) (data : List PlotRow)
    (s : TractStore) (hz : ∀ row ∈ data, row.isZero = true) :
    s.Fill data categories tract_area = .ok s := by
  unfold Fill
  induction data with
  | nil => rfl
  | cons row data ih =>
    rw [List.foldlM_cons, FillRow_zero _ _ _ _ (hz row (List.mem_cons_self _ _))]
    exact ih (fun r hr => hz r (List.mem_cons_of_mem _ hr))

theorem getD_replicate_self {α : Type} (n : Nat) (a : α) (c : Nat) :
    (List.replicate n a).getD c a = a := by
  rw [List.getD_eq_getElem?_getD, List.getElem?_replicate]
  split <;> rfl

theorem valueAt_fresh (s : TractStore) (hs : s.Fresh) (i c : Nat) : valueAt s i c = 0 := by
  unfold valueAt FindInternal Tract.Get
  cases h : s.tract_map_[i]? with
  | none =>
    have : s.tract_map_.getD i (Tract.new s.n_cats_ 0 0) = Tract.new s.n_cats_ 0 0 := by
      rw [List.getD_eq_getElem?_getD, h]; rfl
    rw [this]
    exact getD_replicate_self _ _ _
  | some t =>
    have : s.tract_map_.getD i (Tract.new s.n_cats_ 0 0) = t := by
      rw [List.getD_eq_getElem?_getD, h]; rfl
    rw [this, (hs t (List.getElem?_mem h)).1]
    exact getD_replicate_self _ _ _

theorem NonNilTracts_fresh (s : TractStore) (hs : s.Fresh) : s.NonNilTracts = 0 := by
  rw [NonNilTracts_eq_countP, List.countP_eq_zero]
  intro t ht
  rw [(hs t ht).2.1]
  simp

theorem catTotal_fresh (s : TractStore) (hs : s.Fresh) (c : Nat) : catTotal s c = 0 := by
  unfold catTotal
  have : s.tract_map_.filter (fun t => t.nonnil_) = [] := by
    rw [List.filter_eq_nil_iff]
    intro t ht
    rw [(hs t ht).2.1]
    simp
  rw [this]
  rfl

theorem accumCats_sums (n : Nat) (t : Tract) (st : VarState) :
    (accumCats n t st).covs = st.covs := (accumCats_frame n t st).1

theorem prepareIds_fresh (s : TractStore) (hs : s.Fresh) (psu : Nat) (st : VarState) :
    (prepareIds s psu st).all_nils = st.all_nils := by
  unfold prepareIds
  refine foldr_inv (fun x => x.all_nils = st.all_nils) _ _ ?_ st rfl
  intro a b ha hb
  have hnn : a.2.nonnil_ = false := (hs a.2 (List.snd_mem_of_mem_enum ha)).2.1
  unfold prepareStep
  split
  · exact hb
  · simp only [hnn, Bool.not_false, if_true]
    exact hb

theorem covLoop_allnil (s : TractStore) (psus categories : KeyValueMap) (area : Dbl)
    (psu : Nat) (psu_size : Dbl) (cats : List Nat) (ki : Nat) (st st' : VarState)
    (hnil : ∀ c, st.all_nils.getD c true = true)
    (h : covLoop s psus categories area psu psu_size cats ki st = .ok st') :
    st'.covs = st.covs ∧ st'.all_nils = st.all_nils := by
  induction cats generalizing ki st with
  | nil =>
    simp only [covLoop, pure, Except.pure, Except.ok.injEq] at h
    subst h; exact ⟨rfl, rfl⟩
  | cons k rest ih =>
    rw [covLoop, bind_eq_ok] at h
    obtain ⟨reach, _, h⟩ := h
    split at h
    · simp only [pure, Except.pure, Except.ok.injEq] at h
      subst h; exact ⟨rfl, rfl⟩
    · rw [if_pos (hnil k)] at h
      exact ih _ _ hnil h

theorem phase_allnil (s : TractStore) (hs : s.Fresh) (psus categories : KeyValueMap)
    (area : Dbl) (sorted_cats : List Nat) (st st' : VarState) (psu : Nat)
    (hsize : ∀ v, psus.GetValue psu = .ok v → 2 ≤ v)
    (hnil : ∀ c, st.all_nils.getD c true = true)
    (h : phase s psus categories area sorted_cats st psu = .ok st') :
    st'.covs = st.covs ∧ st'.all_nils = st.all_nils := by
  unfold phase at h
  rw [bind_eq_ok] at h
  obtain ⟨v, hv, h⟩ := h
  have h2 := hsize v hv
  have hle : ¬ (Dbl.ofNat v).le 1 = true := by
    rw [Dbl.le_ofNat_one]; omega
  dsimp only at h
  rw [if_neg hle] at h
  have hn2 : ∀ c, (prepareIds s psu st).all_nils.getD c true = true := by
    rw [prepareIds_fresh s hs psu st]; exact hnil
  obtain ⟨a, b⟩ := covLoop_allnil s psus categories area psu _ _ _ _ _ hn2 h
  exact ⟨a.trans (prepareIds_frame s psu st).1, b.trans (prepareIds_fresh s hs psu st)⟩

theorem Variance_fresh (s : TractStore) (hs : s.Fresh) (psus categories : KeyValueMap)
    (area : Dbl) (hsize : ∀ p v, psus.GetValue p = .ok v → 2 ≤ v) (M : List Dbl)
    (h : s.Variance psus categories area = .ok M) :
    M = List.replicate (s.n_cats_ * s.n_cats_) 0 := by
  unfold Variance at h
  rw [bind_eq_ok] at h
  obtain ⟨l, _, h⟩ := h
  unfold VarianceFrom at h
  rw [bind_eq_ok] at h
  obtain ⟨st, hst, h⟩ := h
  simp only [pure, Except.pure, Except.ok.injEq] at h
  rw [← h]
  have := foldlM_inv
    (fun x : VarState => x.covs = List.replicate (s.n_cats_ * s.n_cats_) 0 ∧
      ∀ c, x.all_nils.getD c true = true) _ _
    (fun b a b' _ hb hstep => by
      obtain ⟨e1, e2⟩ := phase_allnil s hs psus categories area l b b' a (hsize a) hb.2 hstep
      exact ⟨e1.trans hb.1, by rw [e2]; exact hb.2⟩)
    (varInit s.n_cats_) st
    ⟨rfl, fun c => getD_replicate_self _ _ _⟩ hst
  exact this.1

end TractStore
end Nilsier

namespace Nilsier

/-! ## PSU tables -/

theorem rd_ok {α : Type} (xs : List α) (i : Nat) (x : α) (h : rd xs i = .ok x) :
    xs[i]? = some x := by
  unfold rd at h
  split at h
  · rename_i y hy; injection h with h; rw [hy, h]
  · cases h

theorem psuStep_ok (col : List Int) (map map' : KeyValueMap) (i : Nat)
    (h : psuStep col map i = .ok map') :
    ∃ x, col[i]? = some x ∧
      (0 < i → ∃ y, col[i - 1]? = some y ∧ x < y) ∧
      map' = { map with values_ := map.values_ ++ [sizeOfInt x] } := by
  unfold psuStep at h
  rw [bind_eq_ok] at h
  obtain ⟨x, hx, h⟩ := h
  refine ⟨x, rd_ok _ _ _ hx, ?_⟩
  split at h
  · rw [bind_eq_ok] at h
    obtain ⟨y, hy, h⟩ := h
    split at h
    · cases h
    · rename_i hge
      simp only [pure, Except.pure, Except.ok.injEq] at h
      exact ⟨fun _ => ⟨y, rd_ok _ _ _ hy, by omega⟩, h.symm⟩
  · rename_i hi
    simp only [pure, Except.pure, Except.ok.injEq] at h
    exact ⟨fun h0 => absurd h0 hi, h.symm⟩

theorem psuFold (col : List Int) (map0 : KeyValueMap) (hv0 : map0.values_ = []) (k : Nat)
    (map : KeyValueMap) (h : (List.range k).foldlM (psuStep col) map0 = .ok map) :
    map.size_ = map0.size_ ∧ map.keys_ = map0.keys_ ∧ map.values_.length = k ∧
    (∀ i, i < k → ∃ a, col[i]? = some a ∧ map.values_[i]? = some (sizeOfInt a)) ∧
    (∀ i j a b, i < j → j < k → col[i]? = some a → col[j]? = some b → b < a) := by
  induction k generalizing map with
  | zero =>
    simp only [List.range_zero, List.foldlM, pure, Except.pure, Except.ok.injEq] at h
    subst h
    exact ⟨rfl, rfl, by rw [hv0]; rfl, fun i hi => absurd hi (Nat.not_lt_zero _),
      fun i j a b _ hj => absurd hj (Nat.not_lt_zero _)⟩
  | succ k ih =>
    rw [List.range_succ, List.foldlM_append, bind_eq_ok] at h
    obtain ⟨m0, h0, h⟩ := h
    obtain ⟨i1, i2, i3, i4, i5⟩ := ih m0 h0
    rw [List.foldlM_cons, bind_eq_ok] at h
    obtain ⟨m1, h1, h⟩ := h
    simp only [List.foldlM, pure, Except.pure, Except.ok.injEq] at h
    subst h
    obtain ⟨x, hx, hprev, hm⟩ := psuStep_ok col m0 m1 k h1
    subst hm
    refine ⟨i1, i2, by simp [i3], ?_, ?_⟩
    · intro i hi
      show ∃ a, col[i]? = some a ∧ (m0.values_ ++ [sizeOfInt x])[i]? = some (sizeOfInt a)
      by_cases hik : i < k
      · obtain ⟨a, ha, hva⟩ := i4 i hik
        refine ⟨a, ha, ?_⟩
        rw [List.getElem?_append_left (by omega), hva]
      · have : i = k := by omega
        subst this
        refine ⟨x, hx, ?_⟩
        rw [List.getElem?_append_right (by omega), i3]
        simp
    · intro i j a b hij hj ha hb
      by_cases hjk : j < k
      · exact i5 i j a b hij hjk ha hb
      · have hjk : j = k := by omega
        subst hjk
        rw [hx] at hb
        injection hb with hb
        subst hb
        obtain ⟨y, hy, hxy⟩ := hprev (by omega)
        by_cases hi1 : i = j - 1
        · subst hi1
          rw [hy] at ha
          injection ha with ha
          omega
        · have := i5 i (j - 1) a y (by omega) (by omega) ha hy
          omega

theorem sizeOfInt_pos (x : Int) (hx : 0 < x) : sizeOfInt x = x.toNat ∧ 0 < sizeOfInt x := by
  unfold sizeOfInt
  rw [if_pos (by omega)]
  exact ⟨rfl, by omega⟩

theorem CreatePsuKeyValueMap_valid (mat : IntegerMatrix) (psus : KeyValueMap)
    (h : CreatePsuKeyValueMap mat = .ok psus) :
    ValidPsus psus ∧ psus.size_ = mat.nrow := by
  unfold CreatePsuKeyValueMap at h
  rw [bind_eq_ok] at h
  obtain ⟨map0, hmap0, h⟩ := h
  unfold KeyValueMap.new at hmap0
  split at hmap0
  · cases hmap0
  · rename_i hn
    injection hmap0 with hmap0
    subst hmap0
    dsimp only at h
    rw [if_neg hn] at h
    split at h
    · cases h
    · rw [bind_eq_ok] at h
      obtain ⟨last, hlast, h⟩ := h
      have hlast := rd_ok _ _ _ hlast
      split at h
      · cases h
      · rename_i hpos
        obtain ⟨i1, _, i3, i4, i5⟩ := psuFold (mat.data.drop mat.nrow) _ rfl mat.nrow psus h
        have hsz : psus.size_ = mat.nrow := i1
        have hge : ∀ i a, i < mat.nrow → (mat.data.drop mat.nrow)[i]? = some a → 0 < a := by
          intro i a hi ha
          by_cases hil : i = mat.nrow - 1
          · subst hil
            rw [hlast] at ha
            injection ha with ha
            omega
          · have := i5 i (mat.nrow - 1) a last (by omega) (by omega) ha hlast
            omega
        refine ⟨⟨by rw [i3, hsz], by omega, ?_, ?_⟩, hsz⟩
        · rw [List.pairwise_iff_getElem]
          intro i j hi hj hij
          obtain ⟨a, ha, hva⟩ := i4 i (by omega)
          obtain ⟨b, hb, hvb⟩ := i4 j (by omega)
          have e1 : psus.values_[i] = sizeOfInt a := by
            rw [List.getElem?_eq_getElem hi] at hva; injection hva
          have e2 : psus.values_[j] = sizeOfInt b := by
            rw [List.getElem?_eq_getElem hj] at hvb; injection hvb
          rw [e1, e2, (sizeOfInt_pos a (hge i a (by omega) ha)).1,
            (sizeOfInt_pos b (hge j b (by omega) hb)).1]
          have := i5 i j a b hij (by omega) ha hb
          have := hge j b (by omega) hb
          omega
        · intro v hv
          rw [List.getLast?_eq_getElem?, i3] at hv
          obtain ⟨a, ha, hva⟩ := i4 (mat.nrow - 1) (by omega)
          rw [hva] at hv
          injection hv with hv
          rw [← hv]
          exact (sizeOfInt_pos a (hge _ a (by omega) ha)).2

theorem ValidPsus_ge_last (psus : KeyValueMap) (hv : ValidPsus psus) (p : Nat)
    (hp : p < psus.Size) :
    ∃ N last, psus.GetValue p = .ok N ∧ psus.values_.getLast? = some last ∧ last ≤ N := by
  obtain ⟨h1, h2, h3, _⟩ := hv
  have hp' : p < psus.values_.length := by rw [h1]; exact hp
  have hl : psus.size_ - 1 < psus.values_.length := by omega
  refine ⟨psus.values_[p], psus.values_[psus.size_ - 1], ?_, ?_, ?_⟩
  · unfold KeyValueMap.GetValue
    rw [if_neg (by unfold KeyValueMap.Size at hp; omega)]
    unfold rd
    rw [List.getElem?_eq_getElem hp']
  · rw [List.getLast?_eq_getElem?, h1, List.getElem?_eq_getElem hl]
  · by_cases hpl : p = psus.size_ - 1
    · subst hpl; exact Nat.le_refl _
    · rw [List.pairwise_iff_getElem] at h3
      have := h3 p (psus.size_ - 1) hp' hl (by unfold KeyValueMap.Size at hp; omega)
      omega

theorem ValidPsus_pos (psus : KeyValueMap) (hv : ValidPsus psus) (p : Nat)
    (hp : p < psus.Size) : ∃ N, psus.GetValue p = .ok N ∧ 0 < N := by
  obtain ⟨N, last, h1, h2, h3⟩ := ValidPsus_ge_last psus hv p hp
  have := hv.2.2.2 last h2
  exact ⟨N, h1, by omega⟩

end Nilsier

namespace Nilsier

/-! ## Rows of zero weight or value -/

theorem PlotRow.amount_zero (row : PlotRow) (tract_area : Dbl) (hz : row.isZero = true)
    (hw : row.weight.IsNum) (hv : row.value.IsNum) (ha : tract_area.IsNum)
    (ha0 : tract_area ≠ 0) : row.amount tract_area = 0 := by
  obtain ⟨id, cat, w, v⟩ := row
  unfold PlotRow.isZero at hz
  unfold PlotRow.amount
  cases w with
  | nan => exact absurd rfl hw
  | fin w =>
    cases v with
    | nan => exact absurd rfl hv
    | fin v =>
      cases tract_area with
      | nan => exact absurd rfl ha
      | fin a =>
        have ha' : a ≠ 0 := fun h => ha0 (by rw [h]; rfl)
        have hwv : w * v = 0 := by
          simp only [Bool.or_eq_true] at hz
          rcases hz with hz | hz
          · have : w = 0 := by simpa [Dbl.eqz] using hz
            rw [this, zero_mul]
          · have : v = 0 := by simpa [Dbl.eqz] using hz
            rw [this, mul_zero]
        show Dbl.div (Dbl.mul (Dbl.fin w) (Dbl.fin v)) (Dbl.fin a) = Dbl.fin 0
        simp only [Dbl.mul, Dbl.div, if_neg ha', hwv, zero_div]

theorem sum_rowsOf_eq (s : TractStore) (categories : KeyValueMap) (i c : Nat)
    (tract_area : Dbl) (data : List PlotRow)
    (hz : ∀ row ∈ data, row.isZero = true → row.amount tract_area = 0) :
    Dbl.sum ((rowsOf s categories i c data).map (fun row => row.amount tract_area)) =
      Dbl.sum ((allRowsOf s categories i c data).map (fun row => row.amount tract_area)) := by
  unfold rowsOf allRowsOf
  induction data with
  | nil => rfl
  | cons row data ih =>
    have ih' := ih (fun r hr => hz r (List.mem_cons_of_mem _ hr))
    rw [List.filter_cons, List.filter_cons]
    by_cases hA : ((s.FindExternal row.id == some i) && row.hasCat categories c) = true
    · rw [if_pos hA]
      by_cases hzero : row.isZero = true
      · have hf : ¬ (!row.isZero && (s.FindExternal row.id == some i) &&
            row.hasCat categories c) = true := by
          rw [hzero]; simp
        rw [if_neg hf, List.map_cons, Dbl.sum_cons,
          hz row (List.mem_cons_self _ _) hzero, Dbl.zero_add', ih']
      · have hzero' : row.isZero = false := by simpa using hzero
        have hf : (!row.isZero && (s.FindExternal row.id == some i) &&
            row.hasCat categories c) = true := by
          rw [hzero']
          simpa using hA
        rw [if_pos hf, List.map_cons, List.map_cons, Dbl.sum_cons, Dbl.sum_cons, ih']
    · rw [if_neg hA]
      have hf : ¬ (!row.isZero && (s.FindExternal row.id == some i) &&
          row.hasCat categories c) = true := by
        intro h
        apply hA
        simp only [Bool.and_eq_true] at h ⊢
        exact ⟨h.1.2, h.2⟩
      rw [if_neg hf, ih']

theorem Tract.Add_keeps_zero (t t' : Tract) (cat : Nat) (value : Dbl)
    (ht : t.nonnil_ = false → ∀ v ∈ t.values_, v = 0) (h : t.Add cat value = .ok t') :
    t'.nonnil_ = false → ∀ v ∈ t'.values_, v = 0 := by
  obtain ⟨a1, a2, _, _, _, a6⟩ := Tract.Add_ok t t' cat value h
  intro hnn v hv
  rw [a6] at hnn
  have hnn1 : t.nonnil_ = false := by
    cases h1 : t.nonnil_
    · rfl
    · rw [h1] at hnn; simp at hnn
  have hnn2 : value.eqz = true := by
    rw [hnn1] at hnn
    unfold Dbl.nez at hnn
    simpa using hnn
  rw [a2, (Dbl.eqz_iff _).mp hnn2] at hv
  have hold : t.values_.getD cat 0 = 0 := by
    apply ht hnn1
    rw [List.getD_eq_getElem?_getD, List.getElem?_eq_getElem a1]
    exact List.getElem_mem _
  rw [hold, Dbl.add_zero'] at hv
  rcases List.mem_or_eq_of_mem_set hv with hv | hv
  · exact ht hnn1 v hv
  · exact hv

theorem FindExternal_none_of_no_tract (s : TractStore) (hs : s.WF) (e : Int)
    (h : ∀ t ∈ s.tract_map_, t.external_id_ ≠ e) : s.FindExternal e = none := by
  unfold TractStore.FindExternal
  cases hl : s.internal_id_map_.lookup e with
  | none => rfl
  | some i =>
    obtain ⟨t, ht, hte⟩ := hs.2.2 e i hl
    exact absurd hte (h t (List.getElem?_mem ht))

/-! ## Facts about the concrete inputs -/

theorem onePhase_fit : TablesFit 1 onePhasePsus onePhaseCats := by
  constructor
  · intro c hc
    interval_cases c
    exact ⟨0, by decide, by decide⟩
  · intro p hp
    have hp : p < 1 := hp
    interval_cases p
    exact ⟨4, by decide⟩

theorem threePhase_fit : TablesFit 3 threePhasePsus threePhaseCats := by
  constructor
  · intro c hc
    interval_cases c
    · exact ⟨0, by decide, by decide⟩
    · exact ⟨2, by decide, by decide⟩
    · exact ⟨1, by decide, by decide⟩
  · intro p hp
    have hp : p < 3 := hp
    interval_cases p
    · exact ⟨3, by decide⟩
    · exact ⟨2, by decide⟩
    · exact ⟨1, by decide⟩

theorem twoPhase_deep_fit : TablesFit 1 twoPhasePsus deepCats := by
  constructor
  · intro c hc
    interval_cases c
    exact ⟨1, by decide, by decide⟩
  · intro p hp
    have hp : p < 2 := hp
    interval_cases p
    · exact ⟨4, by decide⟩
    · exact ⟨2, by decide⟩

theorem onePhase_new :
    TractStore.new [1, 2, 3, 4] [10, 10, 10, 10] 4 onePhasePsus 1 = .ok onePhaseFresh := by
  decide!

theorem onePhase_fill : onePhaseFresh.Fill onePhaseRows onePhaseCats 1 = .ok onePhaseStore := by
  decide!

theorem onePhase_reachable : Reachable onePhaseStore :=
  Reachable.fill onePhaseFresh onePhaseStore onePhaseRows onePhaseCats 1
    (Reachable.new _ _ _ _ _ _ onePhase_new) onePhase_fill

theorem twoPhase_new :
    TractStore.new [11, 12, 13, 14] [2, 2, 1, 1] 4 twoPhasePsus 1 = .ok twoPhaseFresh := by
  decide!

theorem twoPhase_reachable : Reachable twoPhaseStore :=
  Reachable.fill twoPhaseFresh twoPhaseStore [⟨11, 100, 1, Dbl.fin 2⟩] deepCats 1
    (Reachable.new _ _ _ _ _ _ twoPhase_new) (by decide!)

theorem twoPhase_valid : ValidPsus twoPhasePsus := by
  refine ⟨rfl, by decide, ?_, ?_⟩
  · simp [twoPhasePsus]
  · intro v hv
    simp [twoPhasePsus] at hv
    omega

theorem unit_valid : ValidPsus unitPsus := by
  refine ⟨rfl, by decide, ?_, ?_⟩
  · simp [unitPsus]
  · intro v hv
    simp [unitPsus] at hv
    omega

end Nilsier

namespace Nilsier

/-! ## KeyValueMap -/

theorem getElem?_of_lt {α : Type} (l : List α) (d : α) (i : Nat) (h : i < l.length) :
    l[i]? = some (l.getD i d) := by
  rw [List.getD_eq_getElem?_getD, List.getElem?_eq_getElem h]
  rfl

theorem getD_of_getElem? {α : Type} (l : List α) (d x : α) (i : Nat) (h : l[i]? = some x) :
    l.getD i d = x := by
  rw [List.getD_eq_getElem?_getD, h]
  rfl

theorem rd_of_lt {α : Type} (l : List α) (d : α) (i : Nat) (h : i < l.length) :
    rd l i = .ok (l.getD i d) := by
  unfold rd
  rw [getElem?_of_lt l d i h]

theorem scanKeys_spec (keys : List Int) (e : Int) (fuel i : Nat)
    (hlen : i + fuel ≤ keys.length) :
    (∀ j, KeyValueMap.scanKeys keys e fuel i = .ok j ↔
      (i ≤ j ∧ j < i + fuel ∧ keys.getD j 0 = e ∧ ∀ j', i ≤ j' → j' < j → keys.getD j' 0 ≠ e)) ∧
    (KeyValueMap.scanKeys keys e fuel i = .error .range_error ↔
      ∀ j, i ≤ j → j < i + fuel → keys.getD j 0 ≠ e) ∧
    ((∃ j, KeyValueMap.scanKeys keys e fuel i = .ok j) ∨ KeyValueMap.scanKeys keys e fuel i = .error .range_error) := by
  induction fuel generalizing i with
  | zero =>
    refine ⟨?_, ?_, Or.inr rfl⟩
    · intro j
      constructor
      · intro h; cases h
      · intro h; omega
    · constructor
      · intro _ j h1 h2; omega
      · intro _; rfl
  | succ fuel ih =>
    have hi : i < keys.length := by omega
    obtain ⟨ih1, ih2, ih3⟩ := ih (i + 1) (by omega)
    have hstep : KeyValueMap.scanKeys keys e (fuel + 1) i =
        if keys.getD i 0 = e then .ok i else KeyValueMap.scanKeys keys e fuel (i + 1) := by
      rw [KeyValueMap.scanKeys, getElem?_of_lt keys 0 i hi]
    rw [hstep]
    by_cases hk : keys.getD i 0 = e
    · rw [if_pos hk]
      refine ⟨?_, ?_, Or.inl ⟨i, rfl⟩⟩
      · intro j
        constructor
        · intro h
          injection h with h
          subst h
          exact ⟨Nat.le_refl _, by omega, hk, fun j' h1 h2 => by omega⟩
        · intro ⟨h1, _, _, h4⟩
          by_cases hij : i = j
          · rw [hij]
          · exact absurd hk (h4 i (Nat.le_refl _) (by omega))
      · constructor
        · intro h; cases h
        · intro h; exact absurd hk (h i (Nat.le_refl _) (by omega))
    · rw [if_neg hk]
      refine ⟨?_, ?_, ih3⟩
      · intro j
        rw [ih1 j]
        constructor
        · intro ⟨h1, h2, h3, h4⟩
          refine ⟨by omega, by omega, h3, ?_⟩
          intro j' h5 h6
          by_cases hj' : j' = i
          · rw [hj']; exact hk
          · exact h4 j' (by omega) h6
        · intro ⟨h1, h2, h3, h4⟩
          have hne : i ≠ j := fun h => hk (h ▸ h3)
          exact ⟨by omega, by omega, h3, fun j' h5 h6 => h4 j' (by omega) h6⟩
      · rw [ih2]
        constructor
        · intro h j h1 h2
          by_cases hj : j = i
          · rw [hj]; exact hk
          · exact h j (by omega) (by omega)
        · intro h j h1 h2
          exact h j (by omega) (by omega)

theorem KeyValueMap.GetInternalKey_ok_iff (m : KeyValueMap) (hm : m.Stored) (e : Int) (i : Nat) :
    m.GetInternalKey e = .ok i ↔
      (i < m.size_ ∧ m.key i = e ∧ ∀ j, j < i → m.key j ≠ e) := by
  unfold KeyValueMap.GetInternalKey KeyValueMap.Size KeyValueMap.key
  rw [(scanKeys_spec m.keys_ e m.size_ 0 (by rw [Nat.zero_add]; exact hm.1)).1 i]
  constructor
  · intro ⟨_, h2, h3, h4⟩
    exact ⟨by omega, h3, fun j hj => h4 j (Nat.zero_le _) hj⟩
  · intro ⟨h1, h2, h3⟩
    exact ⟨Nat.zero_le _, by omega, h2, fun j _ hj => h3 j hj⟩

theorem KeyValueMap.GetInternalKey_error_iff (m : KeyValueMap) (hm : m.Stored) (e : Int) :
    m.GetInternalKey e = .error .range_error ↔ ¬ m.HasKey e := by
  unfold KeyValueMap.GetInternalKey KeyValueMap.Size KeyValueMap.HasKey KeyValueMap.key
  rw [(scanKeys_spec m.keys_ e m.size_ 0 (by rw [Nat.zero_add]; exact hm.1)).2.1]
  constructor
  · intro h ⟨i, hi, hk⟩
    exact h i (Nat.zero_le _) (by omega) hk
  · intro h j _ hj hk
    exact h ⟨j, by omega, hk⟩

theorem KeyValueMap.GetInternalKey_cases (m : KeyValueMap) (hm : m.Stored) (e : Int) :
    (∃ i, m.GetInternalKey e = .ok i) ∨ m.GetInternalKey e = .error .range_error := by
  unfold KeyValueMap.GetInternalKey KeyValueMap.Size
  exact (scanKeys_spec m.keys_ e m.size_ 0 (by rw [Nat.zero_add]; exact hm.1)).2.2

theorem KeyValueMap.GetInternalKey_ok_of_hasKey (m : KeyValueMap) (hm : m.Stored) (e : Int)
    (h : m.HasKey e) : ∃ i, m.GetInternalKey e = .ok i := by
  rcases KeyValueMap.GetInternalKey_cases m hm e with h1 | h1
  · exact h1
  · exact absurd h ((KeyValueMap.GetInternalKey_error_iff m hm e).mp h1)

theorem KeyValueMap.GetExternalKey_eq (m : KeyValueMap) (hm : m.Stored) (i : Nat) :
    m.GetExternalKey i = if i < m.size_ then .ok (m.key i) else .error .out_of_range := by
  unfold KeyValueMap.GetExternalKey KeyValueMap.key
  by_cases h : i < m.size_
  · rw [if_neg (by omega), if_pos h]
    exact rd_of_lt _ _ _ (by have := hm.1; omega)
  · rw [if_pos (by omega), if_neg h]

theorem KeyValueMap.GetValue_eq (m : KeyValueMap) (hm : m.Stored) (i : Nat) :
    m.GetValue i = if i < m.size_ then .ok (m.values_.getD i 0) else .error .out_of_range := by
  unfold KeyValueMap.GetValue
  by_cases h : i < m.size_
  · rw [if_neg (by omega), if_pos h]
    exact rd_of_lt _ _ _ (by rw [hm.2]; exact h)
  · rw [if_pos (by omega), if_neg h]

end Nilsier

namespace Nilsier
namespace TractStore

/-! ## The constructor, in full -/

theorem new_fold_full (tract_ids tract_external_psus : List Int) (psus : KeyValueMap)
    (n_cats : Nat) (k : Nat) (st : TractStore)
    (h : (List.range k).foldlM (newStep tract_ids tract_external_psus psus n_cats)
      { tract_map_ := [], internal_id_map_ := [], n_cats_ := n_cats } = .ok st) :
    st.tract_map_.length = k ∧
    (∀ i, i < k → ∃ e x p, tract_ids[i]? = some e ∧ tract_external_psus[i]? = some x ∧
      psus.GetInternalKey x = .ok p ∧ st.tract_map_[i]? = some (Tract.new n_cats e p)) ∧
    (∀ e i, st.internal_id_map_.lookup e = some i → i < k ∧ tract_ids[i]? = some e) ∧
    (∀ i e, i < k → tract_ids[i]? = some e → st.internal_id_map_.lookup e = some i) := by
  induction k generalizing st with
  | zero =>
    simp only [List.range_zero, List.foldlM, pure, Except.pure, Except.ok.injEq] at h
    subst h
    refine ⟨rfl, fun i hi => absurd hi (Nat.not_lt_zero _), ?_,
      fun i e hi => absurd hi (Nat.not_lt_zero _)⟩
    intro e i hl
    simp [List.lookup] at hl
  | succ k ih =>
    rw [List.range_succ, List.foldlM_append, bind_eq_ok] at h
    obtain ⟨st0, h0, h⟩ := h
    obtain ⟨j1, j2, j3, j4⟩ := ih st0 h0
    rw [List.foldlM_cons, bind_eq_ok] at h
    obtain ⟨st1, h1, h⟩ := h
    simp only [List.foldlM, pure, Except.pure, Except.ok.injEq] at h
    subst h
    obtain ⟨e, p, he, hnone, ⟨x, hx, hp⟩, hst⟩ := newStep_ok _ _ _ _ _ _ _ h1
    subst hst
    refine ⟨by simp [j1], ?_, ?_, ?_⟩
    · intro i hi
      by_cases hik : i < k
      · obtain ⟨e', x', p', a1, a2, a3, a4⟩ := j2 i hik
        refine ⟨e', x', p', a1, a2, a3, ?_⟩
        show (st0.tract_map_ ++ [Tract.new n_cats e p])[i]? = _
        rw [List.getElem?_append_left (by omega), a4]
      · have hik : i = k := by omega
        subst hik
        refine ⟨e, x, p, he, hx, hp, ?_⟩
        show (st0.tract_map_ ++ [Tract.new n_cats e p])[i]? = _
        rw [List.getElem?_append_right (by omega), j1]
        simp
    · intro e' i hl
      have hl' : (st0.internal_id_map_ ++ [(e, k)]).lookup e' = some i := hl
      rw [lookup_append_single] at hl'
      split at hl'
      · rename_i j hj
        injection hl' with hl'
        subst hl'
        obtain ⟨a, b⟩ := j3 e' j hj
        exact ⟨by omega, b⟩
      · split at hl'
        · rename_i hee
          injection hl' with hl'
          subst hl'
          exact ⟨by omega, by rw [hee]; exact he⟩
        · cases hl'
    · intro i e' hi hie
      show (st0.internal_id_map_ ++ [(e, k)]).lookup e' = some i
      rw [lookup_append_single]
      by_cases hik : i < k
      · rw [j4 i e' hik hie]
      · have hik : i = k := by omega
        subst hik
        rw [he] at hie
        injection hie with hie
        subst hie
        rw [hnone, if_pos rfl]

theorem new_fold_total (tract_ids tract_external_psus : List Int) (psus : KeyValueMap)
    (n_cats : Nat) (k : Nat) (hids : k ≤ tract_ids.length)
    (hext : k ≤ tract_external_psus.length)
    (hdist : ∀ i j, i < j → j < k → tract_ids.getD i 0 ≠ tract_ids.getD j 0)
    (hkeys : ∀ i, i < k → ∃ p, psus.GetInternalKey (tract_external_psus.getD i 0) = .ok p) :
    ∃ st, (List.range k).foldlM (newStep tract_ids tract_external_psus psus n_cats)
      { tract_map_ := [], internal_id_map_ := [], n_cats_ := n_cats } = .ok st := by
  induction k with
  | zero => exact ⟨_, rfl⟩
  | succ k ih =>
    obtain ⟨st0, h0⟩ := ih (by omega) (by omega)
      (fun i j hij hj => hdist i j hij (by omega)) (fun i hi => hkeys i (by omega))
    obtain ⟨_, _, j3, _⟩ := new_fold_full _ _ _ _ _ _ h0
    obtain ⟨p, hp⟩ := hkeys k (by omega)
    have hnone : st0.internal_id_map_.lookup (tract_ids.getD k 0) = none := by
      cases hl : st0.internal_id_map_.lookup (tract_ids.getD k 0) with
      | none => rfl
      | some i =>
        obtain ⟨a, b⟩ := j3 _ i hl
        exfalso
        apply hdist i k a (by omega)
        rw [List.getD_eq_getElem?_getD, b]
        rfl
    refine ⟨{ st0 with
      tract_map_ := st0.tract_map_ ++ [Tract.new n_cats (tract_ids.getD k 0) p]
      internal_id_map_ := st0.internal_id_map_ ++ [(tract_ids.getD k 0, k)] }, ?_⟩
    rw [List.range_succ, List.foldlM_append, h0, bind_eq_ok]
    refine ⟨st0, rfl, ?_⟩
    rw [List.foldlM_cons, bind_eq_ok]
    refine ⟨_, ?_, rfl⟩
    unfold newStep
    rw [rd_of_lt tract_ids 0 k (by omega)]
    show (match st0.internal_id_map_.lookup (tract_ids.getD k 0) with
      | some _ => _ | none => _) = _
    rw [hnone]
    show (rd tract_external_psus k >>= _) = _
    rw [rd_of_lt tract_external_psus 0 k (by omega)]
    show (psus.GetInternalKey (tract_external_psus.getD k 0) >>= _) = _
    rw [hp]
    rfl

/-- What a successful construction has checked and built. -/
theorem new_ok_full (tract_ids tract_external_psus : List Int) (n_tracts : Nat)
    (psus : KeyValueMap) (n_cats : Nat) (s : TractStore)
    (h : TractStore.new tract_ids tract_external_psus n_tracts psus n_cats = .ok s) :
    psus.GetValue 0 = .ok n_tracts ∧ s.n_cats_ = n_cats ∧ s.tract_map_.length = n_tracts ∧
    (∀ i, i < n_tracts → ∃ p, psus.GetInternalKey (tract_external_psus.getD i 0) = .ok p ∧
      s.tract_map_[i]? = some (Tract.new n_cats (tract_ids.getD i 0) p)) ∧
    (∀ i j, i < j → j < n_tracts → tract_ids.getD i 0 ≠ tract_ids.getD j 0) ∧
    (∀ i, i < n_tracts → s.FindExternal (tract_ids.getD i 0) = some i) ∧
    (∀ e, (∀ i, i < n_tracts → tract_ids.getD i 0 ≠ e) → s.FindExternal e = none) := by
  obtain ⟨a1, a2, _, _, a5⟩ := new_ok _ _ _ _ _ _ h
  unfold TractStore.new at h
  rw [bind_eq_ok] at h
  obtain ⟨largest, _, h⟩ := h
  split at h
  · cases h
  · obtain ⟨j1, j2, j3, j4⟩ := new_fold_full _ _ _ _ _ _ h
    have hfind : ∀ i, i < n_tracts → s.FindExternal (tract_ids.getD i 0) = some i := by
      intro i hi
      obtain ⟨e, x, p, b1, _, _, _⟩ := j2 i hi
      rw [getD_of_getElem? _ _ _ _ b1]
      exact j4 i e hi b1
    refine ⟨a5, a1, a2, ?_, ?_, hfind, ?_⟩
    · intro i hi
      obtain ⟨e, x, p, b1, b2, b3, b4⟩ := j2 i hi
      refine ⟨p, ?_, ?_⟩
      · rw [getD_of_getElem? _ _ _ _ b2]; exact b3
      · rw [getD_of_getElem? _ _ _ _ b1]; exact b4
    · intro i j hij hj heq
      have h1 := hfind i (by omega)
      have h2 := hfind j hj
      rw [heq, h2] at h1
      injection h1 with h1
      omega
    · intro e he
      unfold FindExternal
      cases hl : s.internal_id_map_.lookup e with
      | none => rfl
      | some i =>
        obtain ⟨b1, b2⟩ := j3 e i hl
        exact absurd (getD_of_getElem? _ 0 _ _ b2) (he i b1)

end TractStore
end Nilsier

namespace Nilsier

/-! ## Facts about the concrete inputs, continued -/

theorem onePhase_stored : onePhasePsus.Stored := ⟨by decide, by decide⟩

theorem threePhase_stored : threePhasePsus.Stored := ⟨by decide, by decide⟩

end Nilsier

namespace Nilsier

/-! ## The tables built from matrices -/

theorem col_getElem? (mat : IntegerMatrix) (hshape : mat.Shaped) (j i : Nat) (hj : j < mat.ncol)
    (hi : i < mat.nrow) :
    (mat.data.drop (j * mat.nrow))[i]? = some (mat.at i j) ∧
    (mat.data.drop (mat.nrow * j))[i]? = some (mat.at i j) := by
  have hlt : j * mat.nrow + i < mat.data.length := by
    rw [hshape]
    calc j * mat.nrow + i < j * mat.nrow + mat.nrow := by omega
      _ = (j + 1) * mat.nrow := by ring
      _ ≤ mat.ncol * mat.nrow := Nat.mul_le_mul_right _ hj
      _ = mat.nrow * mat.ncol := Nat.mul_comm _ _
  have h1 : (mat.data.drop (j * mat.nrow))[i]? = some (mat.at i j) := by
    rw [List.getElem?_drop]
    unfold IntegerMatrix.at
    exact getElem?_of_lt _ _ _ hlt
  refine ⟨h1, ?_⟩
  rw [Nat.mul_comm]
  exact h1

theorem psuFold_total (col : List Int) (map0 : KeyValueMap) (k : Nat) (hk : k ≤ col.length)
    (hdec : ∀ i, i + 1 < k → col.getD (i + 1) 0 < col.getD i 0) :
    ∃ map, (List.range k).foldlM (psuStep col) map0 = .ok map := by
  induction k with
  | zero => exact ⟨map0, rfl⟩
  | succ k ih =>
    obtain ⟨m0, h0⟩ := ih (by omega) (fun i hi => hdec i (by omega))
    refine ⟨{ m0 with values_ := m0.values_ ++ [sizeOfInt (col.getD k 0)] }, ?_⟩
    rw [List.range_succ, List.foldlM_append, h0, bind_eq_ok]
    refine ⟨m0, rfl, ?_⟩
    rw [List.foldlM_cons, bind_eq_ok]
    refine ⟨_, ?_, rfl⟩
    unfold psuStep
    rw [rd_of_lt col 0 k (by omega)]
    show (if k > 0 then _ else _) = _
    by_cases hk0 : k > 0
    · rw [if_pos hk0, rd_of_lt col 0 (k - 1) (by omega)]
      show (if col.getD k 0 ≥ col.getD (k - 1) 0 then _ else _) = _
      have := hdec (k - 1) (by omega)
      have e : k - 1 + 1 = k := by omega
      rw [e] at this
      rw [if_neg (by omega)]
      rfl
    · rw [if_neg hk0]
      rfl

theorem CreatePsuKeyValueMap_ok (mat : IntegerMatrix) (hshape : mat.Shaped) (psus : KeyValueMap)
    (h : CreatePsuKeyValueMap mat = .ok psus) :
    1 ≤ mat.nrow ∧ 2 ≤ mat.ncol ∧ (∀ i, i + 1 < mat.nrow → mat.at (i + 1) 1 < mat.at i 1) ∧
    0 < mat.at (mat.nrow - 1) 1 ∧ psus.size_ = mat.nrow ∧ psus.keys_ = mat.data ∧
    psus.values_.length = mat.nrow ∧
    (∀ i, i < mat.nrow → 0 < mat.at i 1 ∧
      psus.values_[i]? = some (mat.at i 1).toNat) := by
  unfold CreatePsuKeyValueMap at h
  rw [bind_eq_ok] at h
  obtain ⟨map0, hmap0, h⟩ := h
  unfold KeyValueMap.new at hmap0
  split at hmap0
  · cases hmap0
  · rename_i hn
    injection hmap0 with hmap0
    subst hmap0
    dsimp only at h
    rw [if_neg hn] at h
    split at h
    · cases h
    · rename_i hcol
      rw [bind_eq_ok] at h
      obtain ⟨last, hlast, h⟩ := h
      have hlast := rd_ok _ _ _ hlast
      split at h
      · cases h
      · rename_i hpos
        have hc : ∀ i, i < mat.nrow →
            (mat.data.drop mat.nrow)[i]? = some (mat.at i 1) := by
          intro i hi
          have := (col_getElem? mat hshape 1 i (by omega) hi).1
          rwa [Nat.one_mul] at this
        obtain ⟨i1, i2, i3, i4, i5⟩ := psuFold (mat.data.drop mat.nrow) _ rfl mat.nrow psus h
        have hl : last = mat.at (mat.nrow - 1) 1 := by
          rw [hc (mat.nrow - 1) (by omega)] at hlast
          injection hlast with hlast
          exact hlast.symm
        have hge : ∀ i, i < mat.nrow → 0 < mat.at i 1 := by
          intro i hi
          by_cases hil : i = mat.nrow - 1
          · rw [hil, ← hl]; omega
          · have := i5 i (mat.nrow - 1) _ _ (by omega) (by omega) (hc i hi)
              (hc (mat.nrow - 1) (by omega))
            rw [← hl] at this
            omega
        refine ⟨by omega, by omega, ?_, by rw [← hl]; omega, i1, i2, i3, ?_⟩
        · intro i hi
          exact i5 i (i + 1) _ _ (by omega) hi (hc i (by omega)) (hc (i + 1) hi)
        · intro i hi
          obtain ⟨a, ha, hva⟩ := i4 i hi
          rw [hc i hi] at ha
          injection ha with ha
          subst ha
          exact ⟨hge i hi, by rw [hva, (sizeOfInt_pos _ (hge i hi)).1]⟩

theorem CreatePsuKeyValueMap_total (mat : IntegerMatrix) (hshape : mat.Shaped)
    (hrow : 1 ≤ mat.nrow) (hcol : 2 ≤ mat.ncol)
    (hdec : ∀ i, i + 1 < mat.nrow → mat.at (i + 1) 1 < mat.at i 1)
    (hlast : 0 < mat.at (mat.nrow - 1) 1) : ∃ psus, CreatePsuKeyValueMap mat = .ok psus := by
  have hc : ∀ i, i < mat.nrow → (mat.data.drop mat.nrow)[i]? = some (mat.at i 1) := by
    intro i hi
    have := (col_getElem? mat hshape 1 i (by omega) hi).1
    rwa [Nat.one_mul] at this
  have hlen : mat.nrow ≤ (mat.data.drop mat.nrow).length := by
    by_contra hcon
    have := hc (mat.nrow - 1) (by omega)
    rw [List.getElem?_eq_none (by omega)] at this
    cases this
  obtain ⟨psus, hp⟩ := psuFold_total (mat.data.drop mat.nrow)
    { keys_ := mat.data, size_ := mat.nrow, values_ := [] } mat.nrow hlen
    (fun i hi => by
      rw [getD_of_getElem? _ _ _ _ (hc (i + 1) hi), getD_of_getElem? _ _ _ _ (hc i (by omega))]
      exact hdec i hi)
  refine ⟨psus, ?_⟩
  have hn0 : ¬ mat.nrow = 0 := by omega
  have hc2 : ¬ mat.ncol < 2 := by omega
  have hl0 : ¬ mat.at (mat.nrow - 1) 1 ≤ 0 := by omega
  unfold CreatePsuKeyValueMap KeyValueMap.new
  dsimp only
  rw [if_neg hn0, bind_eq_ok]
  refine ⟨_, rfl, ?_⟩
  rw [if_neg hn0, if_neg hc2, bind_eq_ok]
  refine ⟨mat.at (mat.nrow - 1) 1, ?_, ?_⟩
  · unfold rd
    rw [hc (mat.nrow - 1) (by omega)]
  · rw [if_neg hl0]
    exact hp

theorem neighboursStep_ok (col : List Int) (map map' : KeyValueMap) (i : Nat)
    (h : neighboursStep col map i = .ok map') :
    ∃ x, col[i]? = some x ∧ 1 < x ∧
      map' = { map with values_ := map.values_ ++ [sizeOfInt x] } := by
  unfold neighboursStep at h
  rw [bind_eq_ok] at h
  obtain ⟨x, hx, h⟩ := h
  refine ⟨x, rd_ok _ _ _ hx, ?_⟩
  split at h
  · cases h
  · simp only [pure, Except.pure, Except.ok.injEq] at h
    exact ⟨by omega, h.symm⟩

theorem neighboursFold (col : List Int) (map0 : KeyValueMap) (hv0 : map0.values_ = [])
    (k : Nat) (map : KeyValueMap)
    (h : (List.range k).foldlM (neighboursStep col) map0 = .ok map) :
    map.size_ = map0.size_ ∧ map.keys_ = map0.keys_ ∧ map.values_.length = k ∧
    (∀ i, i < k → ∃ a, col[i]? = some a ∧ 1 < a ∧
      map.values_[i]? = some (sizeOfInt a)) := by
  induction k generalizing map with
  | zero =>
    simp only [List.range_zero, List.foldlM, pure, Except.pure, Except.ok.injEq] at h
    subst h
    exact ⟨rfl, rfl, by rw [hv0]; rfl, fun i hi => absurd hi (Nat.not_lt_zero _)⟩
  | succ k ih =>
    rw [List.range_succ, List.foldlM_append, bind_eq_ok] at h
    obtain ⟨m0, h0, h⟩ := h
    obtain ⟨i1, i2, i3, i4⟩ := ih m0 h0
    rw [List.foldlM_cons, bind_eq_ok] at h
    obtain ⟨m1, h1, h⟩ := h
    simp only [List.foldlM, pure, Except.pure, Except.ok.injEq] at h
    subst h
    obtain ⟨x, hx, hx1, hm⟩ := neighboursStep_ok col m0 m1 k h1
    subst hm
    refine ⟨i1, i2, by simp [i3], ?_⟩
    intro i hi
    show ∃ a, col[i]? = some a ∧ 1 < a ∧
      (m0.values_ ++ [sizeOfInt x])[i]? = some (sizeOfInt a)
    by_cases hik : i < k
    · obtain ⟨a, ha, ha1, hva⟩ := i4 i hik
      refine ⟨a, ha, ha1, ?_⟩
      rw [List.getElem?_append_left (by omega), hva]
    · have : i = k := by omega
      subst this
      refine ⟨x, hx, hx1, ?_⟩
      rw [List.getElem?_append_right (by omega), i3]
      simp

theorem neighboursFold_total (col : List Int) (map0 : KeyValueMap) (k : Nat)
    (hk : k ≤ col.length) (hgt : ∀ i, i < k → 1 < col.getD i 0) :
    ∃ map, (List.range k).foldlM (neighboursStep col) map0 = .ok map := by
  induction k with
  | zero => exact ⟨map0, rfl⟩
  | succ k ih =>
    obtain ⟨m0, h0⟩ := ih (by omega) (fun i hi => hgt i (by omega))
    refine ⟨{ m0 with values_ := m0.values_ ++ [sizeOfInt (col.getD k 0)] }, ?_⟩
    rw [List.range_succ, List.foldlM_append, h0, bind_eq_ok]
    refine ⟨m0, rfl, ?_⟩
    rw [List.foldlM_cons, bind_eq_ok]
    refine ⟨_, ?_, rfl⟩
    unfold neighboursStep
    rw [rd_of_lt col 0 k (by omega)]
    show (if col.getD k 0 ≤ 1 then _ else _) = _
    have := hgt k (by omega)
    rw [if_neg (by omega)]
    rfl

end Nilsier

namespace Nilsier

theorem CreateNeighboursKeyValueMap_ok (mat : IntegerMatrix) (hshape : mat.Shaped)
    (psus map : KeyValueMap) (h : CreateNeighboursKeyValueMap mat psus = .ok map) :
    mat.nrow = psus.Size ∧ 3 ≤ mat.ncol ∧ (∀ i, i < mat.nrow → 1 < mat.at i 2) ∧
    map.size_ = psus.size_ ∧ map.keys_ = psus.keys_ ∧ map.values_.length = psus.size_ ∧
    (∀ i, i < mat.nrow → map.values_[i]? = some (mat.at i 2).toNat) := by
  unfold CreateNeighboursKeyValueMap at h
  dsimp only at h
  split at h
  · cases h
  · rename_i hrow
    have hrow : mat.nrow = psus.Size := by simpa using hrow
    split at h
    · cases h
    · rename_i hcol
      rw [bind_eq_ok] at h
      obtain ⟨map0, hmap0, h⟩ := h
      unfold KeyValueMap.new at hmap0
      split at hmap0
      · cases hmap0
      · injection hmap0 with hmap0
        subst hmap0
        have hc : ∀ i, i < mat.nrow →
            (mat.data.drop (psus.Size * 2))[i]? = some (mat.at i 2) := by
          intro i hi
          rw [← hrow]
          exact (col_getElem? mat hshape 2 i (by omega) hi).2
        obtain ⟨i1, i2, i3, i4⟩ := neighboursFold _ _ rfl psus.Size map h
        have hval : ∀ i, i < mat.nrow → 1 < mat.at i 2 ∧
            map.values_[i]? = some (mat.at i 2).toNat := by
          intro i hi
          obtain ⟨a, ha, ha1, hva⟩ := i4 i (by omega)
          rw [hc i hi] at ha
          injection ha with ha
          subst ha
          exact ⟨ha1, by rw [hva, (sizeOfInt_pos _ (by omega)).1]⟩
        exact ⟨hrow, by omega, fun i hi => (hval i hi).1, i1, i2, i3,
          fun i hi => (hval i hi).2⟩

theorem CreateNeighboursKeyValueMap_total (mat : IntegerMatrix) (hshape : mat.Shaped)
    (psus : KeyValueMap) (hpsus : 0 < psus.Size) (hrow : mat.nrow = psus.Size)
    (hcol : 3 ≤ mat.ncol) (hgt : ∀ i, i < mat.nrow → 1 < mat.at i 2) :
    ∃ map, CreateNeighboursKeyValueMap mat psus = .ok map := by
  have hc : ∀ i, i < mat.nrow → (mat.data.drop (psus.Size * 2))[i]? = some (mat.at i 2) := by
    intro i hi
    rw [← hrow]
    exact (col_getElem? mat hshape 2 i (by omega) hi).2
  have hlen : psus.Size ≤ (mat.data.drop (psus.Size * 2)).length := by
    by_contra hcon
    have := hc (mat.nrow - 1) (by omega)
    rw [List.getElem?_eq_none (by omega)] at this
    cases this
  obtain ⟨map, hp⟩ := neighboursFold_total (mat.data.drop (psus.Size * 2))
    { keys_ := psus.keys_, size_ := psus.Size, values_ := [] } psus.Size hlen
    (fun i hi => by
      rw [getD_of_getElem? _ _ _ _ (hc i (by omega))]
      exact hgt i (by omega))
  refine ⟨map, ?_⟩
  have h1 : ¬ mat.nrow ≠ psus.Size := by omega
  have h2 : ¬ mat.ncol < 3 := by omega
  have h3 : ¬ psus.Size = 0 := by omega
  unfold CreateNeighboursKeyValueMap KeyValueMap.new
  dsimp only
  rw [if_neg h1, if_neg h2, if_neg h3, bind_eq_ok]
  exact ⟨_, rfl, hp⟩

theorem Dbl.ofNat_sub_one_ne_zero (v : Nat) (hv : 2 ≤ v) : Dbl.ofNat v - 1 ≠ 0 := by
  show Dbl.fin ((v : ℚ) - 1) ≠ Dbl.fin 0
  intro h
  injection h with h
  have h2 : (2 : ℚ) ≤ (v : ℚ) := by exact_mod_cast hv
  linarith

end Nilsier

namespace Nilsier
namespace TractStore

/-! ## Non-nil tracts and non-zero values -/

theorem hasValue_nonnil (s : TractStore) (hs : s.WF) (t : Tract) (ht : t ∈ s.tract_map_)
    (hv : t.hasValue = true) : t.nonnil_ = true := by
  cases hnn : t.nonnil_ with
  | true => rfl
  | false =>
    unfold Tract.hasValue at hv
    rw [List.any_eq_true] at hv
    obtain ⟨v, hvm, hvz⟩ := hv
    rw [hs.2.1 t ht hnn v hvm] at hvz
    exact absurd hvz (by decide)

theorem gtz_fin (x : Dbl) (h : x.gtz = true) : ∃ a : ℚ, x = Dbl.fin a ∧ 0 < a := by
  cases x with
  | nan => cases h
  | fin a => exact ⟨a, rfl, by simpa [Dbl.gtz] using h⟩

theorem mem_set_cases {α : Type} (l : List α) (i : Nat) (a x : α) (hx : x ∈ l.set i a) :
    x ∈ l ∨ x = a := by
  rw [List.mem_iff_getElem?] at hx
  obtain ⟨j, hj⟩ := hx
  rw [List.getElem?_set] at hj
  split at hj
  · split at hj
    · right; injection hj with hj; exact hj.symm
    · cases hj
  · left; exact List.getElem?_mem hj

theorem FillRow_nonneg (categories : KeyValueMap) (tract_area : Dbl) (s s' : TractStore)
    (row : PlotRow) (hrow : row.isZero = true ∨ (row.amount tract_area).gtz = true)
    (hs : s.WF) (hnn : ∀ t ∈ s.tract_map_, t.NonNeg)
    (h : FillRow categories tract_area s row = .ok s') : ∀ t ∈ s'.tract_map_, t.NonNeg := by
  rcases FillRow_ok _ _ _ _ _ h with h | ⟨ptr, c, p, t', hz, hptr, _, _, _, hadd, h⟩
  · subst h; exact hnn
  · subst h
    obtain ⟨t, ht, _⟩ := hs.2.2 row.id ptr hptr
    rw [FindInternal_of_getElem? s ptr t ht] at hadd
    have htm : t ∈ s.tract_map_ := List.getElem?_mem ht
    obtain ⟨a1, a2, _, _, _, _⟩ := Tract.Add_ok t t' c _ hadd
    have hg : (row.amount tract_area).gtz = true := by
      rcases hrow with hr | hr
      · rw [hz] at hr; cases hr
      · exact hr
    obtain ⟨a, ha, hapos⟩ := gtz_fin _ hg
    obtain ⟨q, hq, hqpos⟩ := (hnn t htm).1 (t.values_.getD c 0) (by
      rw [List.getD_eq_getElem?_getD, List.getElem?_eq_getElem a1]
      exact List.getElem_mem _)
    have hnew : t.values_.getD c 0 + row.amount tract_area = Dbl.fin (q + a) := by
      rw [hq, ha]; rfl
    intro x hx
    rcases mem_set_cases _ _ _ _ hx with hx | hx
    · exact hnn x hx
    · subst hx
      constructor
      · intro v hv
        rw [a2] at hv
        rcases mem_set_cases _ _ _ _ hv with hv | hv
        · exact (hnn t htm).1 v hv
        · exact ⟨q + a, by rw [hv, hnew], by linarith⟩
      · intro _
        unfold Tract.hasValue
        rw [List.any_eq_true]
        refine ⟨Dbl.fin (q + a), ?_, ?_⟩
        · rw [a2, hnew, List.mem_iff_getElem?]
          exact ⟨c, by rw [List.getElem?_set]; simp [a1]⟩
        · have : q + a ≠ 0 := by linarith
          simp [Dbl.nez, Dbl.eqz, this]

theorem Fill_nonneg (categories : KeyValueMap) (tract_area : Dbl) (data : List PlotRow)
    (hrows : ∀ row ∈ data, row.isZero = true ∨ (row.amount tract_area).gtz = true)
    (s s' : TractStore) (hs : s.WF) (hnn : ∀ t ∈ s.tract_map_, t.NonNeg)
    (h : s.Fill data categories tract_area = .ok s') : ∀ t ∈ s'.tract_map_, t.NonNeg := by
  unfold Fill at h
  have := foldlM_inv (fun x : TractStore => x.WF ∧ ∀ t ∈ x.tract_map_, t.NonNeg) _ data
    (fun b a b' ha hb hstep =>
      ⟨FillRow_WF categories tract_area b b' a hb.1 hstep,
        FillRow_nonneg categories tract_area b b' a (hrows a ha) hb.1 hb.2 hstep⟩)
    s s' ⟨hs, hnn⟩ h
  exact this.2

theorem Fresh_nonneg (s : TractStore) (hs : s.Fresh) : ∀ t ∈ s.tract_map_, t.NonNeg := by
  intro t ht
  obtain ⟨h1, h2, _⟩ := hs t ht
  constructor
  · intro v hv
    rw [h1] at hv
    rw [(List.mem_replicate.mp hv).2]
    exact ⟨0, rfl, le_refl _⟩
  · intro h; rw [h2] at h; cases h

theorem countP_congr_mem {α : Type} (p q : α → Bool) (l : List α)
    (h : ∀ x ∈ l, p x = q x) : l.countP p = l.countP q := by
  induction l with
  | nil => rfl
  | cons a l ih =>
    rw [List.countP_cons, List.countP_cons, ih (fun x hx => h x (List.mem_cons_of_mem _ hx)),
      h a (List.mem_cons_self _ _)]

end TractStore
end Nilsier

namespace Nilsier

/-! ## Symmetry of the balanced covariance matrix -/

theorem cell_set (n : Nat) (M : List Dbl) (k l i j : Nat) (v : Dbl)
    (hM : M.length = n * n) (hk : k < n) (hl : l < n) (hj : j < n) :
    cell n (M.set (k * n + l) v) i j = if i = k ∧ j = l then v else cell n M i j := by
  unfold cell
  rw [getD_set _ _ _ _ _ (by rw [hM]; exact idx_lt hk hl)]
  by_cases h : k * n + l = i * n + j
  · have := idx_inj hl hj h
    simp [h, this.1.symm, this.2.symm]
  · have e : ¬ (i = k ∧ j = l) := fun e => h (by rw [e.1, e.2])
    simp [h, e]

theorem symExcept_of_symmetric (n : Nat) (R : List (Nat × Nat)) (M : List Dbl)
    (h : IsSymmetric n M) : SymExcept n R M :=
  ⟨h.1, fun i j hi hj => Or.inl (h.2 i j hi hj)⟩

theorem symmetric_of_symExcept (n : Nat) (M : List Dbl) (h : SymExcept n [] M) :
    IsSymmetric n M := by
  refine ⟨h.1, fun i j hi hj => ?_⟩
  rcases h.2 i j hi hj with h | h | h
  · exact h
  · cases h
  · cases h

theorem symExcept_set (n : Nat) (R : List (Nat × Nat)) (M : List Dbl) (k l : Nat) (v : Dbl)
    (hM : SymExcept n R M) (hk : k < n) (hl : l < n) (hmem : (k, l) ∈ R) :
    SymExcept n R (M.set (k * n + l) v) := by
  refine ⟨by rw [List.length_set]; exact hM.1, ?_⟩
  intro i j hi hj
  by_cases h1 : i = k ∧ j = l
  · right; left; rw [h1.1, h1.2]; exact hmem
  · by_cases h2 : j = k ∧ i = l
    · right; right; rw [h2.1, h2.2]; exact hmem
    · rw [cell_set n M k l i j v hM.1 hk hl hj, cell_set n M k l j i v hM.1 hk hl hi,
        if_neg h1, if_neg h2]
      exact hM.2 i j hi hj

theorem symExcept_mirror (n : Nat) (R : List (Nat × Nat)) (M : List Dbl) (k l : Nat) (v : Dbl)
    (hM : SymExcept n ((k, l) :: R) M) (hk : k < n) (hl : l < n) :
    SymExcept n R ((M.set (k * n + l) v).set (l * n + k) v) := by
  refine ⟨by simp [hM.1], ?_⟩
  intro i j hi hj
  rw [cell_mirror n M k l i j v hM.1 hk hl hi hj, cell_mirror n M k l j i v hM.1 hk hl hj hi]
  by_cases h1 : (i = k ∧ j = l) ∨ (i = l ∧ j = k)
  · have h2 : (j = k ∧ i = l) ∨ (j = l ∧ i = k) := by tauto
    left
    rw [if_pos h1, if_pos h2]
  · have h2 : ¬ ((j = k ∧ i = l) ∨ (j = l ∧ i = k)) := by tauto
    rw [if_neg h1, if_neg h2]
    rcases hM.2 i j hi hj with h | h | h
    · exact Or.inl h
    · rw [List.mem_cons] at h
      rcases h with h | h
      · exfalso; apply h1; left
        exact ⟨congrArg Prod.fst h, congrArg Prod.snd h⟩
      · exact Or.inr (Or.inl h)
    · rw [List.mem_cons] at h
      rcases h with h | h
      · exfalso; apply h1; right
        exact ⟨congrArg Prod.snd h, congrArg Prod.fst h⟩
      · exact Or.inr (Or.inr h)

theorem symExcept_diag (n : Nat) (R : List (Nat × Nat)) (M : List Dbl) (k : Nat) (v : Dbl)
    (hM : SymExcept n ((k, k) :: R) M) (hk : k < n) :
    SymExcept n R (M.set (k * n + k) v) := by
  have := symExcept_mirror n R M k k v hM hk hk
  rwa [List.set_set] at this

namespace TractStore

theorem balNanLoop_symmetric (n : Nat) (cats : List Nat) (hcats : ∀ c ∈ cats, c < n)
    (m : Nat) (M : List Dbl) (hM : IsSymmetric n M) :
    IsSymmetric n (balNanLoop n cats m M) := by
  induction cats generalizing m M with
  | nil => cases m <;> exact hM
  | cons k rest ih =>
    cases m with
    | zero => exact hM
    | succ m =>
      rw [balNanLoop]
      have hk : k < n := hcats k (List.mem_cons_self _ _)
      have hrest : ∀ c ∈ rest, c < n := fun c hc => hcats c (List.mem_cons_of_mem _ hc)
      refine ih hrest m _ ?_
      apply nanInner_symmetric n k hk rest hrest
      have : k * (n + 1) = k * n + k := by ring
      rw [this]
      exact symmetric_diag n _ k _ hM hk

theorem balAccInner_symExcept (n : Nat) (R : List (Nat × Nat)) (all_nils : List Bool)
    (tract : Tract) (means : List Dbl) (k l : Nat) (hk : k < n) (hl : l < n)
    (hmem : (k, l) ∈ R) (M : List Dbl) (hM : SymExcept n R M) :
    SymExcept n R (balAccInner n all_nils tract means k M l) := by
  unfold balAccInner
  split
  · exact hM
  · exact symExcept_set n R M k l _ hM hk hl hmem

theorem balAccLoop_symExcept (n : Nat) (R : List (Nat × Nat)) (all_nils : List Bool)
    (tract : Tract) (means : List Dbl) (cats : List Nat) (hcats : ∀ c ∈ cats, c < n)
    (m : Nat) (hR : ∀ p ∈ pairsOf cats m, p ∈ R) (M : List Dbl) (hM : SymExcept n R M) :
    SymExcept n R (balAccLoop n all_nils tract means cats m M) := by
  induction cats generalizing m M with
  | nil => cases m <;> exact hM
  | cons k rest ih =>
    cases m with
    | zero => exact hM
    | succ m =>
      rw [balAccLoop]
      have hk : k < n := hcats k (List.mem_cons_self _ _)
      have hrest : ∀ c ∈ rest, c < n := fun c hc => hcats c (List.mem_cons_of_mem _ hc)
      have hR2 : ∀ p ∈ pairsOf rest m, p ∈ R := by
        intro p hp
        apply hR
        rw [pairsOf]
        exact List.mem_append_right _ hp
      split
      · exact ih hrest m hR2 M hM
      · refine ih hrest m hR2 _ ?_
        refine foldl_inv (SymExcept n R) _ (k :: rest) ?_ M hM
        intro b a ha hb
        refine balAccInner_symExcept n R all_nils tract means k a hk (hcats a ha) ?_ b hb
        apply hR
        rw [pairsOf]
        exact List.mem_append_left _ (List.mem_map.mpr ⟨a, ha, rfl⟩)

theorem balScaleStep_symExcept (s : TractStore) (psus categories : KeyValueMap)
    (area psu_size nsd : Dbl) (R : List (Nat × Nat)) (k l : Nat) (hk : k < s.n_cats_)
    (hl : l < s.n_cats_) (M M' : List Dbl) (hM : SymExcept s.n_cats_ ((k, l) :: R) M)
    (h : balScaleStep s psus categories area psu_size nsd k M l = .ok M') :
    SymExcept s.n_cats_ R M' := by
  unfold balScaleStep at h
  rw [bind_eq_ok] at h
  obtain ⟨r, _, h⟩ := h
  rw [bind_eq_ok] at h
  obtain ⟨v, _, h⟩ := h
  dsimp only at h
  split at h
  · simp only [pure, Except.pure, Except.ok.injEq] at h
    rw [← h]
    exact symExcept_mirror _ R M k l _ hM hk hl
  · rename_i hkl
    have hkl : l = k := by simpa using hkl
    simp only [pure, Except.pure, Except.ok.injEq] at h
    subst hkl
    rw [← h]
    exact symExcept_diag _ R M l _ hM hl

theorem balScaleInner_symExcept (s : TractStore) (psus categories : KeyValueMap)
    (area psu_size nsd : Dbl) (R : List (Nat × Nat)) (k : Nat) (hk : k < s.n_cats_)
    (L : List Nat) (hL : ∀ c ∈ L, c < s.n_cats_) (M M' : List Dbl)
    (hM : SymExcept s.n_cats_ (L.map (fun l => (k, l)) ++ R) M)
    (h : L.foldlM (balScaleStep s psus categories area psu_size nsd k) M = .ok M') :
    SymExcept s.n_cats_ R M' := by
  induction L generalizing M with
  | nil =>
    simp only [List.foldlM_nil, pure, Except.pure, Except.ok.injEq] at h
    rw [← h]; exact hM
  | cons l L ih =>
    rw [List.foldlM_cons, bind_eq_ok] at h
    obtain ⟨M1, h1, h⟩ := h
    refine ih (fun c hc => hL c (List.mem_cons_of_mem _ hc)) M1 ?_ h
    exact balScaleStep_symExcept s psus categories area psu_size nsd _ k l hk
      (hL l (List.mem_cons_self _ _)) M M1 hM h1

theorem balScaleLoop_symmetric (s : TractStore) (psus categories : KeyValueMap)
    (area psu_size nsd : Dbl) (cats : List Nat) (hcats : ∀ c ∈ cats, c < s.n_cats_)
    (m : Nat) (M M' : List Dbl) (hM : SymExcept s.n_cats_ (pairsOf cats m) M)
    (h : balScaleLoop s psus categories area psu_size nsd cats m M = .ok M') :
    IsSymmetric s.n_cats_ M' := by
  induction cats generalizing m M with
  | nil =>
    cases m <;>
    · simp only [balScaleLoop, pure, Except.pure, Except.ok.injEq] at h
      rw [← h]
      exact symmetric_of_symExcept _ _ (by simpa [pairsOf] using hM)
  | cons k rest ih =>
    cases m with
    | zero =>
      simp only [balScaleLoop, pure, Except.pure, Except.ok.injEq] at h
      rw [← h]
      exact symmetric_of_symExcept _ _ (by simpa [pairsOf] using hM)
    | succ m =>
      rw [balScaleLoop, bind_eq_ok] at h
      obtain ⟨M1, h1, h⟩ := h
      refine ih (fun c hc => hcats c (List.mem_cons_of_mem _ hc)) m M1 ?_ h
      rw [pairsOf] at hM
      exact balScaleInner_symExcept s psus categories area psu_size nsd _ k
        (hcats k (List.mem_cons_self _ _)) (k :: rest) hcats M M1 hM h1

end TractStore
end Nilsier

namespace Nilsier
namespace TractStore

theorem balPrepareStep_frame (n psu i : Nat) (t : Tract) (st : BalState) :
    (balPrepareStep n psu i t st).covs = st.covs ∧
      (balPrepareStep n psu i t st).first_cat = st.first_cat ∧
      (balPrepareStep n psu i t st).last_cat = st.last_cat := by
  unfold balPrepareStep
  split
  · exact ⟨rfl, rfl, rfl⟩
  · split
    · exact ⟨rfl, rfl, rfl⟩
    · exact ⟨rfl, rfl, rfl⟩

theorem balPrepareIds_frame (s : TractStore) (psu : Nat) (st : BalState) :
    (balPrepareIds s psu st).covs = st.covs ∧
      (balPrepareIds s psu st).first_cat = st.first_cat ∧
      (balPrepareIds s psu st).last_cat = st.last_cat := by
  unfold balPrepareIds
  refine foldr_inv
    (fun x => x.covs = st.covs ∧ x.first_cat = st.first_cat ∧ x.last_cat = st.last_cat)
    _ _ ?_ st ⟨rfl, rfl, rfl⟩
  intro a b _ hb
  have := balPrepareStep_frame s.n_cats_ psu a.1 a.2 b
  exact ⟨this.1.trans hb.1, this.2.1.trans hb.2.1, this.2.2.trans hb.2.2⟩

theorem balPhase_symmetric (find : NeighbourIndex) (s : TractStore)
    (psus categories : KeyValueMap) (area : Dbl) (neighbours : KeyValueMap)
    (sorted_cats : List Nat) (hcats : ∀ c ∈ sorted_cats, c < s.n_cats_) (st st' : BalState)
    (psu : Nat) (hM : IsSymmetric s.n_cats_ st.covs)
    (h : balPhase find s psus categories area neighbours sorted_cats st psu = .ok st') :
    IsSymmetric s.n_cats_ st'.covs := by
  unfold balPhase at h
  dsimp only at h
  rw [bind_eq_ok] at h
  obtain ⟨v, _, h⟩ := h
  rw [bind_eq_ok] at h
  obtain ⟨last, _, h⟩ := h
  have hM2 : IsSymmetric s.n_cats_
      (if psus.Size > 0 then balPrepareIds s psu st else st).covs := by
    split
    · rw [(balPrepareIds_frame s psu st).1]; exact hM
    · exact hM
  generalize (if psus.Size > 0 then balPrepareIds s psu st else st) = st1 at h hM2
  have hd : ∀ c ∈ sorted_cats.drop st1.last_cat, c < s.n_cats_ :=
    fun c hc => hcats c (List.mem_of_mem_drop hc)
  split at h
  · simp only [pure, Except.pure, Except.ok.injEq] at h
    rw [← h]
    exact balNanLoop_symmetric _ _ hd _ _ hM2
  · rw [bind_eq_ok] at h
    obtain ⟨k, _, h⟩ := h
    rw [bind_eq_ok] at h
    obtain ⟨covs, hc, h⟩ := h
    simp only [pure, Except.pure, Except.ok.injEq] at h
    rw [← h]
    refine balScaleLoop_symmetric s psus categories area _ _ _ hd _ _ _ ?_ hc
    refine foldr_inv (SymExcept s.n_cats_ (pairsOf (sorted_cats.drop st1.last_cat)
      (last - st1.last_cat))) _ _ ?_ _ (symExcept_of_symmetric _ _ _ hM2)
    intro a b _ hb
    unfold balTract
    exact balAccLoop_symExcept _ _ _ _ _ _ hd _ (fun p hp => hp) _ hb

theorem VarianceBalancedFrom_symmetric (find : NeighbourIndex) (s : TractStore)
    (psus categories : KeyValueMap) (area : Dbl) (neighbours : KeyValueMap)
    (sorted_cats : List Nat) (hcats : ∀ c ∈ sorted_cats, c < s.n_cats_) (M : List Dbl)
    (h : VarianceBalancedFrom find s psus categories area neighbours sorted_cats = .ok M) :
    IsSymmetric s.n_cats_ M := by
  unfold VarianceBalancedFrom at h
  rw [bind_eq_ok] at h
  obtain ⟨_, _, h⟩ := h
  rw [bind_eq_ok] at h
  obtain ⟨st, hst, h⟩ := h
  simp only [pure, Except.pure, Except.ok.injEq] at h
  rw [← h]
  refine foldlM_inv (fun x => IsSymmetric s.n_cats_ x.covs) _ _ ?_ _ _ ?_ hst
  · intro b a b' _ hb hstep
    exact balPhase_symmetric find s psus categories area neighbours sorted_cats hcats b b' a
      hb hstep
  · exact symmetric_zero s.n_cats_

theorem VarianceBalanced_ok_symmetric (find : NeighbourIndex) (s : TractStore)
    (psus categories : KeyValueMap) (area : Dbl) (neighbours : KeyValueMap) (M : List Dbl)
    (h : s.VarianceBalanced find psus categories area neighbours = .ok M) :
    IsSymmetric s.n_cats_ M := by
  unfold VarianceBalanced at h
  rw [bind_eq_ok] at h
  obtain ⟨l, hl, h⟩ := h
  exact VarianceBalancedFrom_symmetric find s psus categories area neighbours l
    (sortedCats_lt categories _ l hl) M h

/-! ## VarianceBalanced returns a matrix when the tables fit the store -/

theorem advanceLast_total (categories : KeyValueMap) (psu : Nat) (cats : List Nat)
    (hcats : ∀ c ∈ cats, ∃ r, categories.GetValue c = .ok r) (last : Nat) :
    ∃ last', advanceLast categories psu cats last = .ok last' := by
  induction cats generalizing last with
  | nil => exact ⟨last, rfl⟩
  | cons k rest ih =>
    obtain ⟨r, hr⟩ := hcats k (List.mem_cons_self _ _)
    rw [advanceLast, hr]
    show ∃ last', (if r < psu then _ else _) = Except.ok last'
    split
    · exact ⟨_, rfl⟩
    · exact ih (fun c hc => hcats c (List.mem_cons_of_mem _ hc)) _

theorem balScaleStep_total (s : TractStore) (psus categories : KeyValueMap)
    (area psu_size nsd : Dbl) (k : Nat) (M : List Dbl) (l : Nat)
    (hl : ∃ r, categories.GetValue l = .ok r ∧ ∃ v, psus.GetValue r = .ok v) :
    ∃ M', balScaleStep s psus categories area psu_size nsd k M l = .ok M' := by
  obtain ⟨r, hr, v, hv⟩ := hl
  unfold balScaleStep
  rw [hr]
  show ∃ M', (psus.GetValue r >>= _) = Except.ok M'
  rw [hv]
  show ∃ M', (if l ≠ k then _ else _) = Except.ok M'
  split
  · exact ⟨_, rfl⟩
  · exact ⟨_, rfl⟩

theorem balScaleLoop_total (s : TractStore) (psus categories : KeyValueMap)
    (area psu_size nsd : Dbl) (cats : List Nat)
    (hcats : ∀ c ∈ cats, ∃ r, categories.GetValue c = .ok r ∧ ∃ v, psus.GetValue r = .ok v)
    (m : Nat) (M : List Dbl) :
    ∃ M', balScaleLoop s psus categories area psu_size nsd cats m M = .ok M' := by
  induction cats generalizing m M with
  | nil => cases m <;> exact ⟨M, rfl⟩
  | cons k rest ih =>
    cases m with
    | zero => exact ⟨M, rfl⟩
    | succ m =>
      obtain ⟨covs, hcovs, _⟩ := foldlM_total (fun _ => True)
        (balScaleStep s psus categories area psu_size nsd k) (k :: rest)
        (fun b a ha _ => by
          obtain ⟨M', hM'⟩ := balScaleStep_total s psus categories area psu_size nsd k b a
            (hcats a ha)
          exact ⟨M', hM', trivial⟩) M trivial
      rw [balScaleLoop, hcovs]
      exact ih (fun c hc => hcats c (List.mem_cons_of_mem _ hc)) _ _

theorem balPhase_total (find : NeighbourIndex) (s : TractStore) (psus categories : KeyValueMap)
    (area : Dbl) (neighbours : KeyValueMap) (sorted_cats : List Nat)
    (hfit : TablesFit s.n_cats_ psus categories) (hnb : NeighboursFit psus neighbours)
    (hcats : ∀ c ∈ sorted_cats, c < s.n_cats_) (st : BalState) (psu : Nat)
    (hpsu : psu < psus.Size) :
    ∃ st', balPhase find s psus categories area neighbours sorted_cats st psu = .ok st' := by
  obtain ⟨v, hv⟩ := hfit.2 psu hpsu
  obtain ⟨k, hk⟩ := hnb.2 psu hpsu
  have hd : ∀ i, ∀ c ∈ sorted_cats.drop i,
      ∃ r, categories.GetValue c = .ok r ∧ ∃ v, psus.GetValue r = .ok v := by
    intro i c hc
    obtain ⟨r, hr, hlt⟩ := hfit.1 c (hcats c (List.mem_of_mem_drop hc))
    exact ⟨r, hr, hfit.2 r hlt⟩
  unfold balPhase
  dsimp only
  generalize (if psus.Size > 0 then balPrepareIds s psu st else st) = st1
  rw [hv]
  obtain ⟨last, hlast⟩ := advanceLast_total categories psu (sorted_cats.drop st1.last_cat)
    (fun c hc => by obtain ⟨r, hr, _⟩ := hd _ c hc; exact ⟨r, hr⟩) st1.last_cat
  show ∃ st', (advanceLast categories psu (sorted_cats.drop st1.last_cat) st1.last_cat >>= _) =
    Except.ok st'
  rw [hlast]
  show ∃ st', (if (Dbl.ofNat v).le 1 = true then _ else _) = Except.ok st'
  split
  · exact ⟨_, rfl⟩
  · show ∃ st', (neighbours.GetValue psu >>= _) = Except.ok st'
    rw [hk]
    obtain ⟨M', hM'⟩ := balScaleLoop_total s psus categories area (Dbl.ofNat v) (Dbl.ofNat k)
      (sorted_cats.drop st1.last_cat) (hd _) (last - st1.last_cat)
      (st1.ids.foldr (balTract find s sorted_cats
        { st1 with first_cat := st1.last_cat, last_cat := last } k) st1.covs)
    show ∃ st', (balScaleLoop s psus categories area (Dbl.ofNat v) (Dbl.ofNat k)
      (sorted_cats.drop st1.last_cat) (last - st1.last_cat)
      (st1.ids.foldr (balTract find s sorted_cats
        { st1 with first_cat := st1.last_cat, last_cat := last } k) st1.covs) >>= _) =
      Except.ok st'
    rw [hM']
    exact ⟨_, rfl⟩

theorem VarianceBalanced_total (find : NeighbourIndex) (s : TractStore)
    (psus categories : KeyValueMap) (area : Dbl) (neighbours : KeyValueMap)
    (hfit : TablesFit s.n_cats_ psus categories) (hnb : NeighboursFit psus neighbours) :
    ∃ M, s.VarianceBalanced find psus categories area neighbours = .ok M := by
  obtain ⟨l, hl⟩ := sortedCats_total categories s.n_cats_
    (fun c hc => by obtain ⟨r, hr, _⟩ := hfit.1 c hc; exact ⟨r, hr⟩)
  have hlt := sortedCats_lt categories _ l hl
  obtain ⟨v0, hv0⟩ := hnb.1
  obtain ⟨st, hst, _⟩ := foldlM_total (fun _ => True)
    (balPhase find s psus categories area neighbours l) (List.range psus.Size).reverse
    (fun b a ha _ => by
      obtain ⟨st', h'⟩ := balPhase_total find s psus categories area neighbours l hfit hnb hlt
        b a (List.mem_range.mp (List.mem_reverse.mp ha))
      exact ⟨st', h', trivial⟩) (balInit s.n_cats_) trivial
  refine ⟨st.covs, ?_⟩
  unfold VarianceBalanced
  rw [hl]
  show VarianceBalancedFrom find s psus categories area neighbours l = _
  unfold VarianceBalancedFrom
  rw [hv0]
  show ((List.range psus.Size).reverse.foldlM
    (balPhase find s psus categories area neighbours l) (balInit s.n_cats_) >>=
      fun st => pure st.covs) = Except.ok st.covs
  rw [hst]
  rfl

end TractStore
end Nilsier

namespace Nilsier

/-! ## A category that is zero on every tract -/

theorem getD_set_ne {α : Type} (l : List α) (a b : Nat) (v d : α) (h : a ≠ b) :
    (l.set a v).getD b d = l.getD b d := by
  simp only [List.getD_eq_getElem?_getD, List.getElem?_set_ne h]

namespace TractStore

theorem accumCats_keeps_nil (n : Nat) (t : Tract) (c : Nat) (hz : t.Get c = 0) (st : VarState)
    (h : st.all_nils.getD c true = true) : (accumCats n t st).all_nils.getD c true = true := by
  unfold accumCats
  refine foldl_inv (fun x : VarState => x.all_nils.getD c true = true) _ _ ?_ st h
  intro b a _ hb
  split
  · exact hb
  · rename_i hne
    have hac : a ≠ c := by
      intro e
      rw [e, hz] at hne
      exact hne (by decide)
    show (b.all_nils.set a false).getD c true = true
    rw [getD_set_ne _ _ _ _ _ hac]
    exact hb

theorem prepareIds_keeps_nil (s : TractStore) (psu : Nat) (c : Nat)
    (hz : ∀ t ∈ s.tract_map_, t.Get c = 0) (st : VarState)
    (h : st.all_nils.getD c true = true) :
    (prepareIds s psu st).all_nils.getD c true = true := by
  unfold prepareIds
  refine foldr_inv (fun x : VarState => x.all_nils.getD c true = true) _ _ ?_ st h
  intro a b ha hb
  unfold prepareStep
  split
  · exact hb
  · split
    · exact hb
    · exact accumCats_keeps_nil _ _ c (hz a.2 (List.snd_mem_of_mem_enum ha)) _ hb

theorem covInnerStep_zeroCat (s : TractStore) (psus categories : KeyValueMap) (area : Dbl)
    (psu_size : Dbl) (st : VarState) (k : Nat) (mean_k : Dbl) (M M' : List Dbl) (l c : Nat)
    (hk : k < s.n_cats_) (hl : l < s.n_cats_) (hnil : st.all_nils.getD c true = true)
    (hkc : st.all_nils.getD k true = false)
    (hM : M.length = s.n_cats_ * s.n_cats_ ∧
      ∀ j, j < s.n_cats_ → cell s.n_cats_ M c j = 0 ∧ cell s.n_cats_ M j c = 0)
    (hc : c < s.n_cats_)
    (h : covInnerStep s psus categories area psu_size st k mean_k M l = .ok M') :
    M'.length = s.n_cats_ * s.n_cats_ ∧
      ∀ j, j < s.n_cats_ → cell s.n_cats_ M' c j = 0 ∧ cell s.n_cats_ M' j c = 0 := by
  have hkc' : k ≠ c := by
    intro e; rw [e, hnil] at hkc; cases hkc
  unfold covInnerStep at h
  split at h
  · simp only [pure, Except.pure, Except.ok.injEq] at h
    exact h ▸ hM
  · rename_i hlnil
    have hlc : l ≠ c := by
      intro e; rw [e, hnil] at hlnil; exact hlnil rfl
    rw [bind_eq_ok] at h
    obtain ⟨r, _, h⟩ := h
    rw [bind_eq_ok] at h
    obtain ⟨v, _, h⟩ := h
    have key : ∀ x : Dbl,
        ((M.set (k * s.n_cats_ + l) x).set (l * s.n_cats_ + k) x).length =
          s.n_cats_ * s.n_cats_ ∧
        ∀ j, j < s.n_cats_ →
          cell s.n_cats_ ((M.set (k * s.n_cats_ + l) x).set (l * s.n_cats_ + k) x) c j = 0 ∧
          cell s.n_cats_ ((M.set (k * s.n_cats_ + l) x).set (l * s.n_cats_ + k) x) j c = 0 := by
      intro x
      refine ⟨by simp [hM.1], ?_⟩
      intro j hj
      rw [cell_mirror _ M k l c j x hM.1 hk hl hc hj, cell_mirror _ M k l j c x hM.1 hk hl hj hc]
      have e1 : ¬ ((c = k ∧ j = l) ∨ (c = l ∧ j = k)) := by
        rintro (e | e)
        · exact hkc' e.1.symm
        · exact hlc e.1.symm
      have e2 : ¬ ((j = k ∧ c = l) ∨ (j = l ∧ c = k)) := by
        rintro (e | e)
        · exact hlc e.2.symm
        · exact hkc' e.2.symm
      rw [if_neg e1, if_neg e2]
      exact hM.2 j hj
    split at h
    · simp only [pure, Except.pure, Except.ok.injEq] at h
      rw [← h]
      exact key _
    · rename_i hkl
      have hkl : k = l := by simpa using hkl
      simp only [pure, Except.pure, Except.ok.injEq] at h
      rw [← h]
      have := key (covSum s st.ids k l mean_k (st.sums.getD l 0 / psu_size)
        (M.getD (k * s.n_cats_ + l) 0) *
        (area / psu_size * (area / Dbl.ofNat v) * (psu_size / (psu_size - 1))))
      rw [← hkl, List.set_set] at this
      rw [← hkl]
      exact this

theorem covLoop_zeroCat (s : TractStore) (psus categories : KeyValueMap) (area : Dbl)
    (psu : Nat) (psu_size : Dbl) (cats : List Nat) (hcats : ∀ x ∈ cats, x < s.n_cats_)
    (c : Nat) (hc : c < s.n_cats_) (ki : Nat) (st st' : VarState)
    (hz : ZeroCat s.n_cats_ c st)
    (h : covLoop s psus categories area psu psu_size cats ki st = .ok st') :
    ZeroCat s.n_cats_ c st' := by
  induction cats generalizing ki st with
  | nil =>
    simp only [covLoop, pure, Except.pure, Except.ok.injEq] at h
    exact h ▸ hz
  | cons k rest ih =>
    rw [covLoop, bind_eq_ok] at h
    obtain ⟨reach, _, h⟩ := h
    have hrest : ∀ x ∈ rest, x < s.n_cats_ := fun x hx => hcats x (List.mem_cons_of_mem _ hx)
    split at h
    · simp only [pure, Except.pure, Except.ok.injEq] at h
      rw [← h]; exact hz
    · split at h
      · exact ih hrest _ _ hz h
      · rename_i hknil
        have hknil : st.all_nils.getD k true = false := by simpa using hknil
        rw [bind_eq_ok] at h
        obtain ⟨covs, hcv, h⟩ := h
        refine ih hrest _ _ ?_ h
        have := foldlM_inv
          (fun M : List Dbl => M.length = s.n_cats_ * s.n_cats_ ∧
            ∀ j, j < s.n_cats_ → cell s.n_cats_ M c j = 0 ∧ cell s.n_cats_ M j c = 0)
          _ (k :: rest)
          (fun b a b' ha hb hstep =>
            covInnerStep_zeroCat s psus categories area psu_size st k _ b b' a c
              (hcats k (List.mem_cons_self _ _)) (hcats a ha) hz.2.1 hknil hb hc hstep)
          _ _ ⟨hz.1, hz.2.2⟩ hcv
        exact ⟨this.1, hz.2.1, this.2⟩

theorem phase_zeroCat (s : TractStore) (psus categories : KeyValueMap) (area : Dbl)
    (sorted_cats : List Nat) (hcats : ∀ x ∈ sorted_cats, x < s.n_cats_) (c : Nat)
    (hc : c < s.n_cats_) (hzero : ∀ t ∈ s.tract_map_, t.Get c = 0) (st st' : VarState)
    (psu : Nat) (hsize : ∀ v, psus.GetValue psu = .ok v → 2 ≤ v)
    (hz : ZeroCat s.n_cats_ c st)
    (h : phase s psus categories area sorted_cats st psu = .ok st') :
    ZeroCat s.n_cats_ c st' := by
  unfold phase at h
  rw [bind_eq_ok] at h
  obtain ⟨v, hv, h⟩ := h
  have hle : ¬ (Dbl.ofNat v).le 1 = true := by
    rw [Dbl.le_ofNat_one]; have := hsize v hv; omega
  dsimp only at h
  rw [if_neg hle] at h
  have hz2 : ZeroCat s.n_cats_ c (prepareIds s psu st) := by
    refine ⟨?_, prepareIds_keeps_nil s psu c hzero st hz.2.1, ?_⟩
    · rw [(prepareIds_frame s psu st).1]; exact hz.1
    · rw [(prepareIds_frame s psu st).1]; exact hz.2.2
  exact covLoop_zeroCat s psus categories area psu _ _
    (fun x hx => hcats x (List.mem_of_mem_drop hx)) c hc _ _ _ hz2 h

theorem cell_zero (n i j : Nat) (hi : i < n) (hj : j < n) :
    cell n (List.replicate (n * n) 0) i j = 0 := by
  unfold cell
  simp [List.getD_eq_getElem?_getD, List.getElem?_replicate, idx_lt hi hj]

theorem Variance_zeroCat (s : TractStore) (psus categories : KeyValueMap) (area : Dbl)
    (hsize : ∀ p v, psus.GetValue p = .ok v → 2 ≤ v) (c : Nat) (hc : c < s.n_cats_)
    (hzero : ∀ t ∈ s.tract_map_, t.Get c = 0) (M : List Dbl)
    (h : s.Variance psus categories area = .ok M) :
    ∀ j, j < s.n_cats_ → cell s.n_cats_ M c j = 0 ∧ cell s.n_cats_ M j c = 0 := by
  unfold Variance at h
  rw [bind_eq_ok] at h
  obtain ⟨l, hl, h⟩ := h
  unfold VarianceFrom at h
  rw [bind_eq_ok] at h
  obtain ⟨st, hst, h⟩ := h
  simp only [pure, Except.pure, Except.ok.injEq] at h
  rw [← h]
  have := foldlM_inv (ZeroCat s.n_cats_ c) _ _
    (fun b a b' _ hb hstep =>
      phase_zeroCat s psus categories area l (sortedCats_lt categories _ l hl) c hc hzero
        b b' a (hsize a) hb hstep)
    (varInit s.n_cats_) st
    ⟨varInit_covs_length _, getD_replicate_self _ _ _,
      fun j hj => ⟨cell_zero _ _ _ hc hj, cell_zero _ _ _ hj hc⟩⟩ hst
  exact this.2.2

/-- The full summation for a category that is zero on every tract of the id-set. -/
theorem covSum_zero_left (s : TractStore) (ids : List Nat) (c l : Nat) (v : Nat) (hv : 2 ≤ v)
    (mean_l : ℚ) (hc : ∀ id ∈ ids, (s.FindInternal id).Get c = 0)
    (hl : ∀ id ∈ ids, ((s.FindInternal id).Get l).IsNum) :
    covSum s ids c l (0 / Dbl.ofNat v) (Dbl.fin mean_l) 0 = 0 ∧
    covSum s ids l c (Dbl.fin mean_l) (0 / Dbl.ofNat v) 0 = 0 := by
  have hq : (v : ℚ) ≠ 0 := by
    have : (2 : ℚ) ≤ (v : ℚ) := by exact_mod_cast hv
    linarith
  have hm : (0 : Dbl) / Dbl.ofNat v = 0 := by
    show (if (v : ℚ) = 0 then Dbl.nan else Dbl.fin (0 / (v : ℚ))) = Dbl.fin 0
    rw [if_neg hq, zero_div]
  rw [hm]
  unfold covSum
  induction ids with
  | nil => exact ⟨rfl, rfl⟩
  | cons a ids ih =>
    obtain ⟨ih1, ih2⟩ := ih (fun id hid => hc id (List.mem_cons_of_mem _ hid))
      (fun id hid => hl id (List.mem_cons_of_mem _ hid))
    rw [List.foldr_cons, List.foldr_cons, ih1, ih2, hc a (List.mem_cons_self _ _)]
    have := hl a (List.mem_cons_self _ _)
    cases hx : (s.FindInternal a).Get l with
    | nan => exact absurd hx this
    | fin q =>
      constructor
      · show Dbl.fin (0 + (0 - 0) * (q - mean_l)) = Dbl.fin 0
        congr 1; ring
      · show Dbl.fin (0 + (q - mean_l) * (0 - 0)) = Dbl.fin 0
        congr 1; ring

end TractStore
end Nilsier

namespace Nilsier

theorem twoCats_fit : TablesFit 2 onePhasePsus twoCats := by
  constructor
  · intro c hc
    interval_cases c
    · exact ⟨0, by decide, by decide⟩
    · exact ⟨0, by decide, by decide⟩
  · intro p hp
    have hp : p < 1 := hp
    interval_cases p
    exact ⟨4, by decide⟩

theorem onePhase_sizes : ∀ p v, onePhasePsus.GetValue p = .ok v → 2 ≤ v := by
  intro p v h
  cases p with
  | zero =>
    have : onePhasePsus.GetValue 0 = .ok 4 := by decide
    rw [this] at h
    injection h with h
    omega
  | succ p =>
    have : onePhasePsus.GetValue (p + 1) = .error .out_of_range := by
      unfold KeyValueMap.GetValue
      rw [if_pos (by show p + 1 ≥ 1; omega)]
    rw [this] at h
    cases h

theorem twoCatStore_mem (t : Tract) (ht : t ∈ twoCatStore.tract_map_) :
    t = ⟨[Dbl.fin 2, 0], 1, 0, true, true⟩ ∨ t = Tract.new 2 2 0 ∨
      t = ⟨[Dbl.fin 2, 0], 3, 0, true, true⟩ ∨ t = Tract.new 2 4 0 := by
  have ht : t ∈ [⟨[Dbl.fin 2, 0], 1, 0, true, true⟩, Tract.new 2 2 0,
    ⟨[Dbl.fin 2, 0], 3, 0, true, true⟩, Tract.new 2 4 0] := ht
  simpa using ht

namespace TractStore

theorem FindInternal_mem (s : TractStore) (id : Nat) (h : id < s.Size) :
    s.FindInternal id ∈ s.tract_map_ := by
  have h : id < s.tract_map_.length := h
  rw [FindInternal_of_getElem? s id _ (List.getElem?_eq_getElem h)]
  exact List.getElem_mem _

end TractStore
end Nilsier

namespace Nilsier

/-! ## Cell-wise description of the loops over pairs of categories -/

theorem mirrorOp_length (n : Nat) (f : Nat → Nat → Dbl → Dbl) (g : Nat → Nat → Bool)
    (M : List Dbl) (p : Nat × Nat) : (mirrorOp n f g M p).length = M.length := by
  unfold mirrorOp
  split <;> simp

theorem mirrorOp_cell (n : Nat) (f : Nat → Nat → Dbl → Dbl) (g : Nat → Nat → Bool)
    (M : List Dbl) (hM : M.length = n * n) (k l : Nat) (hk : k < n) (hl : l < n)
    (i j : Nat) (hi : i < n) (hj : j < n) :
    cell n (mirrorOp n f g M (k, l)) i j =
      if g k l = true ∧ ((i = k ∧ j = l) ∨ (i = l ∧ j = k)) then f k l (cell n M k l)
      else cell n M i j := by
  unfold mirrorOp
  by_cases hg : g k l = true
  · simp only [hg, if_true, true_and]
    exact cell_mirror n M k l i j _ hM hk hl hi hj
  · simp only [hg, false_and, if_false]
    rfl

theorem mirror_fold_cell (n : Nat) (f : Nat → Nat → Dbl → Dbl) (g : Nat → Nat → Bool)
    (PL : List (Nat × Nat)) (hdist : PairsDistinct PL)
    (hlt : ∀ p ∈ PL, p.1 < n ∧ p.2 < n) (M : List Dbl) (hM : M.length = n * n) :
    (PL.foldl (mirrorOp n f g) M).length = n * n ∧
    ∀ i j, i < n → j < n →
      cell n (PL.foldl (mirrorOp n f g) M) i j =
        if (i, j) ∈ PL ∧ g i j = true then f i j (cell n M i j)
        else if (j, i) ∈ PL ∧ g j i = true then f j i (cell n M j i)
        else cell n M i j := by
  induction PL generalizing M with
  | nil =>
    refine ⟨hM, ?_⟩
    intro i j _ _
    simp
  | cons p PL ih =>
    obtain ⟨k, l⟩ := p
    rw [List.foldl_cons]
    have hd := List.pairwise_cons.mp hdist
    have hkl := hlt (k, l) (List.mem_cons_self _ _)
    obtain ⟨h1, h2⟩ := ih hd.2 (fun p hp => hlt p (List.mem_cons_of_mem _ hp))
      (mirrorOp n f g M (k, l)) (by rw [mirrorOp_length]; exact hM)
    refine ⟨h1, ?_⟩
    intro i j hi hj
    rw [h2 i j hi hj]
    have c1 := mirrorOp_cell n f g M hM k l hkl.1 hkl.2 i j hi hj
    have c2 := mirrorOp_cell n f g M hM k l hkl.1 hkl.2 j i hj hi
    have nin1 : (i, j) ∈ PL → ¬ ((i = k ∧ j = l) ∨ (i = l ∧ j = k)) := by
      intro hm hc
      have := hd.1 (i, j) hm
      rcases hc with hc | hc
      · exact this.1 (by rw [hc.1, hc.2])
      · exact this.2 (by rw [hc.1, hc.2])
    have nin2 : (j, i) ∈ PL → ¬ ((i = k ∧ j = l) ∨ (i = l ∧ j = k)) := by
      intro hm hc
      have := hd.1 (j, i) hm
      rcases hc with hc | hc
      · exact this.2 (by rw [hc.1, hc.2])
      · exact this.1 (by rw [hc.1, hc.2])
    by_cases a1 : (i, j) ∈ PL ∧ g i j = true
    · have a2 : (i, j) ∈ (k, l) :: PL ∧ g i j = true := ⟨List.mem_cons_of_mem _ a1.1, a1.2⟩
      rw [if_pos a1, if_pos a2, c1, if_neg (fun h => nin1 a1.1 h.2)]
    · rw [if_neg a1]
      by_cases b1 : (j, i) ∈ PL ∧ g j i = true
      · rw [if_pos b1, c2,
          if_neg (fun h => nin2 b1.1 (by rcases h.2 with h | h <;> [right; left] <;> exact ⟨h.2, h.1⟩))]
        have a2 : ¬ ((i, j) ∈ (k, l) :: PL ∧ g i j = true) := by
          intro h
          rcases List.mem_cons.mp h.1 with e | e
          · exact nin2 b1.1 (Or.inl ⟨congrArg Prod.fst e, congrArg Prod.snd e⟩)
          · exact a1 ⟨e, h.2⟩
        have b2 : (j, i) ∈ (k, l) :: PL ∧ g j i = true := ⟨List.mem_cons_of_mem _ b1.1, b1.2⟩
        rw [if_neg a2, if_pos b2]
      · rw [if_neg b1, c1]
        by_cases hg : g k l = true
        · by_cases e1 : i = k ∧ j = l
          · rw [if_pos ⟨hg, Or.inl e1⟩]
            have a2 : (i, j) ∈ (k, l) :: PL ∧ g i j = true := by
              rw [e1.1, e1.2]; exact ⟨List.mem_cons_self _ _, hg⟩
            rw [if_pos a2, e1.1, e1.2]
          · by_cases e2 : i = l ∧ j = k
            · rw [if_pos ⟨hg, Or.inr e2⟩]
              have a2 : ¬ ((i, j) ∈ (k, l) :: PL ∧ g i j = true) := by
                intro h
                rcases List.mem_cons.mp h.1 with e | e
                · exact e1 ⟨congrArg Prod.fst e, congrArg Prod.snd e⟩
                · exact a1 ⟨e, h.2⟩
              have b2 : (j, i) ∈ (k, l) :: PL ∧ g j i = true := by
                rw [e2.1, e2.2]; exact ⟨List.mem_cons_self _ _, hg⟩
              rw [if_neg a2, if_pos b2, e2.1, e2.2]
            · have e3 : ¬ (g k l = true ∧ ((i = k ∧ j = l) ∨ (i = l ∧ j = k))) := by tauto
              have a2 : ¬ ((i, j) ∈ (k, l) :: PL ∧ g i j = true) := by
                intro h
                rcases List.mem_cons.mp h.1 with e | e
                · exact e1 ⟨congrArg Prod.fst e, congrArg Prod.snd e⟩
                · exact a1 ⟨e, h.2⟩
              have b2 : ¬ ((j, i) ∈ (k, l) :: PL ∧ g j i = true) := by
                intro h
                rcases List.mem_cons.mp h.1 with e | e
                · exact e2 ⟨congrArg Prod.snd e, congrArg Prod.fst e⟩
                · exact b1 ⟨e, h.2⟩
              rw [if_neg e3, if_neg a2, if_neg b2]
        · have e3 : ¬ (g k l = true ∧ ((i = k ∧ j = l) ∨ (i = l ∧ j = k))) := fun h => hg h.1
          have a2 : ¬ ((i, j) ∈ (k, l) :: PL ∧ g i j = true) := by
            intro h
            rcases List.mem_cons.mp h.1 with e | e
            · apply hg
              have e1 : i = k := congrArg Prod.fst e
              have e2 : j = l := congrArg Prod.snd e
              rw [← e1, ← e2]; exact h.2
            · exact a1 ⟨e, h.2⟩
          have b2 : ¬ ((j, i) ∈ (k, l) :: PL ∧ g j i = true) := by
            intro h
            rcases List.mem_cons.mp h.1 with e | e
            · apply hg
              have e1 : j = k := congrArg Prod.fst e
              have e2 : i = l := congrArg Prod.snd e
              rw [← e1, ← e2]; exact h.2
            · exact b1 ⟨e, h.2⟩
          rw [if_neg e3, if_neg a2, if_neg b2]

end Nilsier

namespace Nilsier

theorem mem_pairsOf (L : List Nat) (m : Nat) (p : Nat × Nat) (h : p ∈ pairsOf L m) :
    p.1 ∈ L.take m ∧ p.2 ∈ L := by
  induction L generalizing m with
  | nil => cases m <;> simp [pairsOf] at h
  | cons k rest ih =>
    cases m with
    | zero => simp [pairsOf] at h
    | succ m =>
      rw [pairsOf, List.mem_append] at h
      rw [List.take_succ_cons]
      rcases h with h | h
      · obtain ⟨l, hl, e⟩ := List.mem_map.mp h
        rw [← e]
        exact ⟨List.mem_cons_self _ _, hl⟩
      · obtain ⟨a, b⟩ := ih m h
        exact ⟨List.mem_cons_of_mem _ a, List.mem_cons_of_mem _ b⟩

theorem pairsOf_lt (n : Nat) (L : List Nat) (hL : ∀ c ∈ L, c < n) (m : Nat) :
    ∀ p ∈ pairsOf L m, p.1 < n ∧ p.2 < n := by
  intro p hp
  obtain ⟨a, b⟩ := mem_pairsOf L m p hp
  exact ⟨hL _ (List.mem_of_mem_take a), hL _ b⟩

theorem pairsOf_distinct (L : List Nat) (hL : L.Nodup) (m : Nat) :
    PairsDistinct (pairsOf L m) := by
  unfold PairsDistinct
  induction L generalizing m with
  | nil => cases m <;> simp [pairsOf]
  | cons k rest ih =>
    cases m with
    | zero => simp [pairsOf]
    | succ m =>
      have hn := List.nodup_cons.mp hL
      rw [pairsOf, List.pairwise_append]
      refine ⟨?_, ih hn.2 m, ?_⟩
      · rw [List.pairwise_map]
        refine List.Pairwise.imp ?_ hL
        intro a b hab
        constructor
        · intro e
          exact hab (congrArg Prod.snd e).symm
        · intro e
          have e1 : k = a := congrArg Prod.fst e
          have e2 : b = k := congrArg Prod.snd e
          exact hab (by rw [← e1, e2])
      · intro p hp q hq
        obtain ⟨l, _, e⟩ := List.mem_map.mp hp
        obtain ⟨qa, qb⟩ := mem_pairsOf rest m q hq
        have qa := List.mem_of_mem_take qa
        rw [← e]
        constructor
        · intro e2
          have : q.1 = k := congrArg Prod.fst e2
          rw [this] at qa
          exact hn.1 qa
        · intro e2
          have : q.2 = k := congrArg Prod.snd e2
          rw [this] at qb
          exact hn.1 qb

theorem pairsOf_nodup (L : List Nat) (hL : L.Nodup) (m : Nat) : (pairsOf L m).Nodup := by
  have := pairsOf_distinct L hL m
  unfold PairsDistinct at this
  exact List.Pairwise.imp (fun h e => h.1 e.symm) this

theorem pairsOf_full (L : List Nat) (i j : Nat) (hi : i ∈ L) (hj : j ∈ L) :
    (i, j) ∈ pairsOf L L.length ∨ (j, i) ∈ pairsOf L L.length := by
  induction L with
  | nil => cases hi
  | cons k rest ih =>
    rw [List.length_cons, pairsOf]
    rcases List.mem_cons.mp hi with hi | hi
    · left
      rw [hi]
      exact List.mem_append_left _ (List.mem_map.mpr ⟨j, hj, rfl⟩)
    · rcases List.mem_cons.mp hj with hj | hj
      · right
        rw [hj]
        exact List.mem_append_left _
          (List.mem_map.mpr ⟨i, List.mem_cons_of_mem _ hi, rfl⟩)
      · rcases ih hi hj with h | h
        · exact Or.inl (List.mem_append_right _ h)
        · exact Or.inr (List.mem_append_right _ h)

theorem setOp_length (n : Nat) (f : Nat → Nat → Dbl → Dbl) (g : Nat → Nat → Bool)
    (M : List Dbl) (p : Nat × Nat) : (setOp n f g M p).length = M.length := by
  unfold setOp
  split <;> simp

theorem setOp_cell (n : Nat) (f : Nat → Nat → Dbl → Dbl) (g : Nat → Nat → Bool)
    (M : List Dbl) (hM : M.length = n * n) (k l : Nat) (hk : k < n) (hl : l < n)
    (i j : Nat) (hj : j < n) :
    cell n (setOp n f g M (k, l)) i j =
      if g k l = true ∧ i = k ∧ j = l then f k l (cell n M k l) else cell n M i j := by
  unfold setOp
  by_cases hg : g k l = true
  · simp only [hg, if_true, true_and]
    exact cell_set n M k l i j _ hM hk hl hj
  · simp only [hg, false_and, if_false]
    rfl

theorem set_fold_cell (n : Nat) (f : Nat → Nat → Dbl → Dbl) (g : Nat → Nat → Bool)
    (PL : List (Nat × Nat)) (hnd : PL.Nodup)
    (hlt : ∀ p ∈ PL, p.1 < n ∧ p.2 < n) (M : List Dbl) (hM : M.length = n * n) :
    (PL.foldl (setOp n f g) M).length = n * n ∧
    ∀ i j, i < n → j < n →
      cell n (PL.foldl (setOp n f g) M) i j =
        if (i, j) ∈ PL ∧ g i j = true then f i j (cell n M i j) else cell n M i j := by
  induction PL generalizing M with
  | nil =>
    refine ⟨hM, ?_⟩
    intro i j _ _
    simp
  | cons p PL ih =>
    obtain ⟨k, l⟩ := p
    rw [List.foldl_cons]
    have hd := List.nodup_cons.mp hnd
    have hkl := hlt (k, l) (List.mem_cons_self _ _)
    obtain ⟨h1, h2⟩ := ih hd.2 (fun p hp => hlt p (List.mem_cons_of_mem _ hp))
      (setOp n f g M (k, l)) (by rw [setOp_length]; exact hM)
    refine ⟨h1, ?_⟩
    intro i j hi hj
    rw [h2 i j hi hj, setOp_cell n f g M hM k l hkl.1 hkl.2 i j hj]
    by_cases a1 : (i, j) ∈ PL ∧ g i j = true
    · have a2 : (i, j) ∈ (k, l) :: PL ∧ g i j = true := ⟨List.mem_cons_of_mem _ a1.1, a1.2⟩
      have ne : ¬ (g k l = true ∧ i = k ∧ j = l) := by
        intro h
        apply hd.1
        rw [← h.2.1, ← h.2.2]
        exact a1.1
      rw [if_pos a1, if_pos a2, if_neg ne]
    · rw [if_neg a1]
      by_cases e1 : g k l = true ∧ i = k ∧ j = l
      · have a2 : (i, j) ∈ (k, l) :: PL ∧ g i j = true := by
          rw [e1.2.1, e1.2.2]; exact ⟨List.mem_cons_self _ _, e1.1⟩
        rw [if_pos e1, if_pos a2, e1.2.1, e1.2.2]
      · have a2 : ¬ ((i, j) ∈ (k, l) :: PL ∧ g i j = true) := by
          intro h
          rcases List.mem_cons.mp h.1 with e | e
          · have ei : i = k := congrArg Prod.fst e
            have ej : j = l := congrArg Prod.snd e
            apply e1
            refine ⟨?_, ei, ej⟩
            rw [← ei, ← ej]; exact h.2
          · exact a1 ⟨e, h.2⟩
        rw [if_neg e1, if_neg a2]

theorem fold_mirrorOp_skip (n : Nat) (f : Nat → Nat → Dbl → Dbl) (g : Nat → Nat → Bool)
    (PL : List (Nat × Nat)) (hg : ∀ p ∈ PL, g p.1 p.2 = false) (M : List Dbl) :
    PL.foldl (mirrorOp n f g) M = M := by
  induction PL generalizing M with
  | nil => rfl
  | cons p PL ih =>
    rw [List.foldl_cons]
    have : mirrorOp n f g M p = M := by
      unfold mirrorOp
      rw [hg p (List.mem_cons_self _ _)]
      rfl
    rw [this]
    exact ih (fun q hq => hg q (List.mem_cons_of_mem _ hq)) M

theorem fold_setOp_skip (n : Nat) (f : Nat → Nat → Dbl → Dbl) (g : Nat → Nat → Bool)
    (PL : List (Nat × Nat)) (hg : ∀ p ∈ PL, g p.1 p.2 = false) (M : List Dbl) :
    PL.foldl (setOp n f g) M = M := by
  induction PL generalizing M with
  | nil => rfl
  | cons p PL ih =>
    rw [List.foldl_cons]
    have : setOp n f g M p = M := by
      unfold setOp
      rw [hg p (List.mem_cons_self _ _)]
      rfl
    rw [this]
    exact ih (fun q hq => hg q (List.mem_cons_of_mem _ hq)) M

end Nilsier

namespace Nilsier

theorem sizeAt_eq (psus : KeyValueMap) (r v : Nat) (h : psus.GetValue r = .ok v) :
    sizeAt psus r = v := by
  unfold sizeAt
  rw [h]

namespace TractStore

/-! ## The regular branch of Variance as a fold over the pairs of categories -/

theorem covInnerStep_eq (s : TractStore) (psus categories : KeyValueMap) (area psu_size : Dbl)
    (st : VarState) (k l : Nat) (M : List Dbl)
    (hk : st.all_nils.getD k true = false)
    (hl : ∃ r, categories.GetValue l = .ok r ∧ ∃ v, psus.GetValue r = .ok v) :
    covInnerStep s psus categories area psu_size st k (st.sums.getD k 0 / psu_size) M l =
      .ok (mirrorOp s.n_cats_ (covValue s psus categories area psu_size st.ids st.sums)
        (notNil st.all_nils) M (k, l)) := by
  obtain ⟨r, hr, v, hv⟩ := hl
  unfold covInnerStep mirrorOp notNil
  by_cases hln : st.all_nils.getD l true = true
  · rw [if_pos hln]
    simp only [hk, hln, Bool.not_true, Bool.and_false, Bool.false_eq_true, if_false]
    rfl
  · have hln' : st.all_nils.getD l true = false := by simpa using hln
    rw [if_neg hln, hr]
    show (psus.GetValue r >>= _) = _
    rw [hv]
    simp only [hk, hln', Bool.not_false, Bool.and_self, if_true]
    unfold covValue cell
    rw [reachOf_eq categories l r hr, sizeAt_eq psus r v hv]
    by_cases hkl : k = l
    · subst hkl
      show (if k ≠ k then _ else _) = _
      rw [if_neg (by simp), List.set_set]
      rfl
    · show (if k ≠ l then _ else _) = _
      rw [if_pos hkl]
      rfl

theorem covInner_fold (s : TractStore) (psus categories : KeyValueMap) (area psu_size : Dbl)
    (st : VarState) (k : Nat) (hk : st.all_nils.getD k true = false) (ls : List Nat)
    (hls : ∀ l ∈ ls, ∃ r, categories.GetValue l = .ok r ∧ ∃ v, psus.GetValue r = .ok v)
    (M : List Dbl) :
    ls.foldlM (covInnerStep s psus categories area psu_size st k (st.sums.getD k 0 / psu_size))
        M =
      .ok ((ls.map (fun l => (k, l))).foldl
        (mirrorOp s.n_cats_ (covValue s psus categories area psu_size st.ids st.sums)
          (notNil st.all_nils)) M) := by
  induction ls generalizing M with
  | nil => rfl
  | cons l ls ih =>
    rw [List.foldlM_cons, covInnerStep_eq s psus categories area psu_size st k l M hk
      (hls l (List.mem_cons_self _ _))]
    show ls.foldlM _ _ = _
    rw [ih (fun x hx => hls x (List.mem_cons_of_mem _ hx))]
    rfl

theorem covLoop_eq (s : TractStore) (psus categories : KeyValueMap) (area : Dbl) (psu : Nat)
    (psu_size : Dbl) (L : List Nat)
    (hL : ∀ l ∈ L, ∃ r, categories.GetValue l = .ok r ∧ ∃ v, psus.GetValue r = .ok v)
    (ki : Nat) (st : VarState) :
    covLoop s psus categories area psu psu_size L ki st =
      .ok ⟨st.sums, st.all_nils,
        (pairsOf L (takeReach categories psu L)).foldl
          (mirrorOp s.n_cats_ (covValue s psus categories area psu_size st.ids st.sums)
            (notNil st.all_nils)) st.covs,
        st.ids,
        if takeReach categories psu L < L.length then ki + takeReach categories psu L
        else st.first_cat⟩ := by
  induction L generalizing ki st with
  | nil => rfl
  | cons k rest ih =>
    obtain ⟨r, hr, _⟩ := hL k (List.mem_cons_self _ _)
    have hrest := fun l hl => hL l (List.mem_cons_of_mem k hl)
    rw [covLoop, hr, takeReach, reachOf_eq categories k r hr]
    show (if r < psu then _ else _) = _
    by_cases hlt : r < psu
    · rw [if_pos hlt, if_pos hlt]
      simp only [pairsOf, List.foldl_nil, List.length_cons, Nat.zero_lt_succ, if_true,
        Nat.add_zero]
      rfl
    · rw [if_neg hlt, if_neg hlt, pairsOf, List.foldl_append]
      have harith : (if takeReach categories psu rest + 1 < (k :: rest).length then
            ki + (takeReach categories psu rest + 1) else st.first_cat) =
          (if takeReach categories psu rest < rest.length then
            ki + 1 + takeReach categories psu rest else st.first_cat) := by
        rw [List.length_cons]
        by_cases h : takeReach categories psu rest < rest.length
        · rw [if_pos h, if_pos (by omega)]; omega
        · rw [if_neg h, if_neg (by omega)]
      rw [harith]
      by_cases hnil : st.all_nils.getD k true = true
      · rw [if_pos hnil, ih hrest (ki + 1) st]
        rw [fold_mirrorOp_skip _ _ _ ((k :: rest).map (fun l => (k, l)))]
        intro p hp
        obtain ⟨l, _, e⟩ := List.mem_map.mp hp
        rw [← e]
        unfold notNil
        rw [hnil]
        rfl
      · have hnil' : st.all_nils.getD k true = false := by simpa using hnil
        rw [if_neg hnil]
        dsimp only
        rw [covInner_fold s psus categories area psu_size st k hnil' (k :: rest) hL st.covs]
        show covLoop s psus categories area psu psu_size rest (ki + 1) _ = _
        rw [ih hrest (ki + 1) _]

end TractStore
end Nilsier

namespace Nilsier
namespace TractStore

/-! ## The sums and flags of the prepared ids -/

theorem accumCats_getD (m : Nat) (t : Tract) (st : VarState) (hs : m ≤ st.sums.length)
    (hn : m ≤ st.all_nils.length) :
    (accumCats m t st).sums.length = st.sums.length ∧
    (accumCats m t st).all_nils.length = st.all_nils.length ∧
    (accumCats m t st).ids = st.ids ∧
    ∀ c,
      (accumCats m t st).sums.getD c 0 =
        (if c < m ∧ (t.Get c).eqz = false then st.sums.getD c 0 + t.Get c
          else st.sums.getD c 0) ∧
      (accumCats m t st).all_nils.getD c true =
        (if c < m ∧ (t.Get c).eqz = false then false else st.all_nils.getD c true) := by
  unfold accumCats
  induction m with
  | zero =>
    refine ⟨rfl, rfl, rfl, ?_⟩
    intro c
    simp
  | succ m ih =>
    obtain ⟨i1, i2, i3, i4⟩ := ih (by omega) (by omega)
    rw [List.range_succ, List.foldl_append, List.foldl_cons, List.foldl_nil]
    by_cases hz : (t.Get m).eqz = true
    · rw [if_pos hz]
      refine ⟨i1, i2, i3, ?_⟩
      intro c
      rw [(i4 c).1, (i4 c).2]
      by_cases hc : c = m
      · subst hc
        have e1 : ¬ (c < c ∧ (t.Get c).eqz = false) := by omega
        have e2 : ¬ (c < c + 1 ∧ (t.Get c).eqz = false) := by
          intro h; rw [hz] at h; cases h.2
        rw [if_neg e1, if_neg e2, if_neg e1, if_neg e2]
        exact ⟨rfl, rfl⟩
      · have e : (c < m + 1 ∧ (t.Get c).eqz = false) ↔ (c < m ∧ (t.Get c).eqz = false) := by
          constructor
          · intro h; exact ⟨by omega, h.2⟩
          · intro h; exact ⟨by omega, h.2⟩
        simp [e]
    · rw [if_neg hz]
      have hz' : (t.Get m).eqz = false := by simpa using hz
      refine ⟨by dsimp only; rw [List.length_set]; exact i1,
        by dsimp only; rw [List.length_set]; exact i2, i3, ?_⟩
      intro c
      dsimp only
      by_cases hc : c = m
      · subst hc
        rw [getD_set _ _ _ _ _ (by rw [i1]; omega), getD_set _ _ _ _ _ (by rw [i2]; omega),
          if_pos rfl, if_pos rfl, (i4 c).1]
        have e1 : ¬ (c < c ∧ (t.Get c).eqz = false) := by omega
        have e2 : c < c + 1 ∧ (t.Get c).eqz = false := ⟨by omega, hz'⟩
        rw [if_neg e1, if_pos e2, if_pos e2]
        exact ⟨rfl, rfl⟩
      · rw [getD_set_ne _ _ _ _ _ (Ne.symm hc), getD_set_ne _ _ _ _ _ (Ne.symm hc), (i4 c).1,
          (i4 c).2]
        have e : (c < m + 1 ∧ (t.Get c).eqz = false) ↔ (c < m ∧ (t.Get c).eqz = false) := by
          constructor
          · intro h; exact ⟨by omega, h.2⟩
          · intro h; exact ⟨by omega, h.2⟩
        simp [e]

theorem sumOver_append (s : TractStore) (ids : List Nat) (i c : Nat) :
    sumOver s (ids ++ [i]) c = sumOver s ids c + (s.FindInternal i).Get c := by
  unfold sumOver
  rw [List.foldl_append]
  rfl

theorem nilOver_append (s : TractStore) (ids : List Nat) (i c : Nat) :
    nilOver s (ids ++ [i]) c = (nilOver s ids c && ((s.FindInternal i).Get c).eqz) := by
  unfold nilOver
  rw [List.all_append]
  simp

theorem prepareStep_coherent (s : TractStore) (hs : s.WF) (psu i : Nat) (t : Tract)
    (ht : s.tract_map_[i]? = some t) (st : VarState) (hst : Coherent s st) :
    Coherent s (prepareStep s.n_cats_ psu i t st) ∧
    (prepareStep s.n_cats_ psu i t st).ids =
      (if t.GetInternalPsu = psu then st.ids ++ [i] else st.ids) := by
  have hfi := FindInternal_of_getElem? s i t ht
  have htm : t ∈ s.tract_map_ := List.getElem?_mem ht
  unfold prepareStep
  by_cases hp : t.GetInternalPsu = psu
  · rw [if_neg (by simpa using hp), if_pos hp]
    dsimp only
    by_cases hnn : t.nonnil_ = true
    · rw [if_neg (by simpa using hnn)]
      obtain ⟨a1, a2, a3, a4⟩ := accumCats_getD s.n_cats_ t
        { st with ids := st.ids ++ [i] } (by rw [hst.1]) (by rw [hst.2.1])
      refine ⟨⟨by rw [a1]; exact hst.1, by rw [a2]; exact hst.2.1, ?_⟩, a3⟩
      intro c hc
      rw [(a4 c).1, (a4 c).2, a3]
      show _ ∧ _ = nilOver s (st.ids ++ [i]) c
      rw [sumOver_append, nilOver_append, hfi]
      obtain ⟨b1, b2⟩ := hst.2.2 c hc
      by_cases hz : (t.Get c).eqz = true
      · have e : ¬ (c < s.n_cats_ ∧ (t.Get c).eqz = false) := by
          intro h; rw [hz] at h; cases h.2
        rw [if_neg e, if_neg e, hz, Bool.and_true]
        refine ⟨?_, b2⟩
        show st.sums.getD c 0 = _
        rw [(Dbl.eqz_iff _).mp hz, Dbl.add_zero']
        exact b1
      · have hz' : (t.Get c).eqz = false := by simpa using hz
        rw [if_pos ⟨hc, hz'⟩, if_pos ⟨hc, hz'⟩, hz', Bool.and_false]
        refine ⟨?_, rfl⟩
        show st.sums.getD c 0 + _ = _
        rw [b1]
    · have hnn' : t.nonnil_ = false := by simpa using hnn
      rw [if_pos (by simpa using hnn')]
      refine ⟨⟨hst.1, hst.2.1, ?_⟩, rfl⟩
      intro c hc
      show st.sums.getD c 0 = sumOver s (st.ids ++ [i]) c ∧
        st.all_nils.getD c true = nilOver s (st.ids ++ [i]) c
      rw [sumOver_append, nilOver_append, hfi, Get_zero_of_not_nonnil s hs t htm hnn' c]
      obtain ⟨b1, b2⟩ := hst.2.2 c hc
      rw [Dbl.add_zero']
      refine ⟨b1, ?_⟩
      rw [b2]
      have : (0 : Dbl).eqz = true := rfl
      rw [this, Bool.and_true]
  · rw [if_pos (by simpa using hp), if_neg hp]
    exact ⟨hst, rfl⟩

theorem prepare_fold_coherent (s : TractStore) (hs : s.WF) (psu : Nat)
    (l : List (Nat × Tract)) (hl : ∀ p ∈ l, s.tract_map_[p.1]? = some p.2) (st : VarState)
    (hst : Coherent s st) :
    Coherent s (l.foldr (fun p st => prepareStep s.n_cats_ psu p.1 p.2 st) st) ∧
    (l.foldr (fun p st => prepareStep s.n_cats_ psu p.1 p.2 st) st).ids =
      st.ids ++ ((l.filter (fun p => p.2.GetInternalPsu == psu)).map (fun p => p.1)).reverse := by
  induction l with
  | nil => exact ⟨hst, by simp⟩
  | cons p l ih =>
    obtain ⟨i1, i2⟩ := ih (fun q hq => hl q (List.mem_cons_of_mem _ hq))
    rw [List.foldr_cons]
    obtain ⟨a1, a2⟩ := prepareStep_coherent s hs psu p.1 p.2 (hl p (List.mem_cons_self _ _)) _ i1
    refine ⟨a1, ?_⟩
    rw [a2, i2, List.filter_cons]
    by_cases hp : p.2.GetInternalPsu = psu
    · rw [if_pos hp, if_pos (by simpa using hp), List.map_cons, List.reverse_cons,
        List.append_assoc]
    · rw [if_neg hp, if_neg (by simpa using hp)]

theorem enum_getElem? {α : Type} (l : List α) (p : Nat × α) (hp : p ∈ l.enum) :
    l[p.1]? = some p.2 := by
  obtain ⟨i, x⟩ := p
  exact List.mem_enum_iff_getElem?.mp hp

theorem prepareIds_coherent (s : TractStore) (hs : s.WF) (psu : Nat) (st : VarState)
    (hst : Coherent s st) :
    Coherent s (prepareIds s psu st) ∧ (prepareIds s psu st).ids = st.ids ++ phaseIds s psu := by
  unfold prepareIds phaseIds
  exact prepare_fold_coherent s hs psu _ (fun p hp => enum_getElem? _ p hp) st hst

theorem varInit_coherent (s : TractStore) : Coherent s (varInit s.n_cats_) := by
  refine ⟨by simp [varInit], by simp [varInit], ?_⟩
  intro c _
  exact ⟨getD_replicate_self _ _ _, getD_replicate_self _ _ _⟩

end TractStore
end Nilsier

namespace Nilsier

/-! ## Sums of doubles -/

theorem Dbl.mul_comm' (x y : Dbl) : x * y = y * x := by
  cases x <;> cases y <;> first | rfl | (show Dbl.fin _ = Dbl.fin _; rw [mul_comm])

theorem Dbl.sum_nil : Dbl.sum [] = 0 := rfl

theorem Dbl.sum_perm (l1 l2 : List Dbl) (h : l1.Perm l2) : Dbl.sum l1 = Dbl.sum l2 := by
  induction h with
  | nil => rfl
  | cons x _ ih => rw [Dbl.sum_cons, Dbl.sum_cons, ih]
  | swap x y l =>
    rw [Dbl.sum_cons, Dbl.sum_cons, Dbl.sum_cons, Dbl.sum_cons, ← Dbl.add_assoc',
      ← Dbl.add_assoc', Dbl.add_comm' y x]
  | trans _ _ ih1 ih2 => rw [ih1, ih2]

theorem Dbl.foldl_add_eq_sum {α : Type} (f : α → Dbl) (l : List α) :
    l.foldl (fun acc x => acc + f x) 0 = Dbl.sum (l.map f) := by
  unfold Dbl.sum
  rw [List.foldl_map]

theorem Dbl.foldr_add_eq_sum {α : Type} (f : α → Dbl) (l : List α) (init : Dbl) :
    l.foldr (fun x acc => acc + f x) init = init + Dbl.sum (l.map f) := by
  induction l with
  | nil => rw [List.foldr_nil, List.map_nil, Dbl.sum_nil, Dbl.add_zero']
  | cons a l ih =>
    rw [List.foldr_cons, ih, List.map_cons, Dbl.sum_cons, Dbl.add_assoc',
      Dbl.add_comm' (Dbl.sum _) (f a)]

theorem Dbl.sum_zeros (l : List Dbl) (h : ∀ x ∈ l, x = 0) : Dbl.sum l = 0 := by
  induction l with
  | nil => rfl
  | cons a l ih =>
    rw [Dbl.sum_cons, h a (List.mem_cons_self _ _),
      ih (fun x hx => h x (List.mem_cons_of_mem _ hx)), Dbl.add_zero']

theorem Dbl.sum_isNum (l : List Dbl) (h : ∀ x ∈ l, x.IsNum) : (Dbl.sum l).IsNum := by
  induction l with
  | nil => intro e; cases e
  | cons a l ih =>
    rw [Dbl.sum_cons]
    have ha := h a (List.mem_cons_self _ _)
    have hl := ih (fun x hx => h x (List.mem_cons_of_mem _ hx))
    cases a with
    | nan => exact absurd rfl ha
    | fin q =>
      cases hs : Dbl.sum l with
      | nan => exact absurd hs hl
      | fin r => intro e; cases e

theorem Dbl.isNum_iff (x : Dbl) : x.IsNum ↔ ∃ q, x = Dbl.fin q := by
  cases x with
  | nan => exact ⟨fun h => absurd rfl h, fun ⟨q, h⟩ => by cases h⟩
  | fin q => exact ⟨fun _ => ⟨q, rfl⟩, fun _ e => by cases e⟩

/-- The scale factor of a single phase of size `n`. -/
theorem Dbl.single_phase_scale (x area : Dbl) (n : Nat) (hn : 2 ≤ n) :
    x * ((area / Dbl.ofNat n) * (area / Dbl.ofNat n) * (Dbl.ofNat n / (Dbl.ofNat n - 1))) =
      area * area / (Dbl.ofNat n * (Dbl.ofNat n - 1)) * x := by
  have h2 : (2 : ℚ) ≤ (n : ℚ) := by exact_mod_cast hn
  have hq : (n : ℚ) ≠ 0 := by linarith
  have hq1 : (n : ℚ) - 1 ≠ 0 := by linarith
  have hq2 : (n : ℚ) * ((n : ℚ) - 1) ≠ 0 := mul_ne_zero hq hq1
  have e1 : ∀ a : ℚ, Dbl.fin a / Dbl.ofNat n = Dbl.fin (a / n) := by
    intro a
    show (if (n : ℚ) = 0 then Dbl.nan else Dbl.fin (a / n)) = _
    rw [if_neg hq]
  have e2 : Dbl.ofNat n / (Dbl.ofNat n - 1) = Dbl.fin ((n : ℚ) / ((n : ℚ) - 1)) := by
    show (if (n : ℚ) - 1 = 0 then Dbl.nan else Dbl.fin ((n : ℚ) / ((n : ℚ) - 1))) = _
    rw [if_neg hq1]
  have e3 : ∀ a : ℚ, Dbl.fin a * Dbl.fin a / (Dbl.ofNat n * (Dbl.ofNat n - 1)) =
      Dbl.fin (a * a / ((n : ℚ) * ((n : ℚ) - 1))) := by
    intro a
    show (if (n : ℚ) * ((n : ℚ) - 1) = 0 then Dbl.nan else
      Dbl.fin (a * a / ((n : ℚ) * ((n : ℚ) - 1)))) = _
    rw [if_neg hq2]
  cases area with
  | nan =>
    cases x <;> rfl
  | fin a =>
    rw [e1, e2, e3]
    cases x with
    | nan => rfl
    | fin q =>
      show Dbl.fin _ = Dbl.fin _
      congr 1
      field_simp
      ring

end Nilsier

namespace Nilsier

/-! ## A single phase -/

theorem takeReach_zero (categories : KeyValueMap) (L : List Nat) :
    takeReach categories 0 L = L.length := by
  induction L with
  | nil => rfl
  | cons c rest ih =>
    rw [takeReach, if_neg (Nat.not_lt_zero _), ih, List.length_cons]

namespace TractStore

theorem phaseIds_all (s : TractStore) (psu : Nat)
    (h : ∀ t ∈ s.tract_map_, t.GetInternalPsu = psu) :
    phaseIds s psu = (List.range s.Size).reverse := by
  unfold phaseIds Size
  have : s.tract_map_.enum.filter (fun p => p.2.GetInternalPsu == psu) = s.tract_map_.enum := by
    rw [List.filter_eq_self]
    intro p hp
    have := h p.2 (List.snd_mem_of_mem_enum hp)
    simpa using this
  rw [this]
  have e : (fun p : Nat × Tract => p.1) = Prod.fst := rfl
  rw [e, List.enum_map_fst]

theorem map_range_FindInternal {β : Type} (s : TractStore) (F : Tract → β) :
    (List.range s.Size).map (fun id => F (s.FindInternal id)) = s.tract_map_.map F := by
  apply List.ext_getElem?
  intro i
  rw [List.getElem?_map, List.getElem?_map]
  unfold Size
  by_cases hi : i < s.tract_map_.length
  · rw [List.getElem?_eq_getElem hi, List.getElem?_eq_getElem (by simpa using hi)]
    simp only [List.getElem_range, Option.map_some']
    rw [FindInternal_of_getElem? s i _ (List.getElem?_eq_getElem hi)]
  · have e : s.tract_map_[i]? = none := List.getElem?_eq_none (by omega)
    rw [List.getElem?_eq_none (by simpa using hi), e]
    rfl

theorem sumOver_all (s : TractStore) (c : Nat) :
    sumOver s (List.range s.Size).reverse c = Dbl.sum (s.tract_map_.map (fun t => t.Get c)) := by
  unfold sumOver
  rw [Dbl.foldl_add_eq_sum, List.map_reverse,
    Dbl.sum_perm _ _ (List.reverse_perm _), map_range_FindInternal s (fun t => t.Get c)]

theorem covSum_all (s : TractStore) (k l : Nat) (mk ml : Dbl) :
    covSum s (List.range s.Size).reverse k l mk ml 0 =
      Dbl.sum (s.tract_map_.map (fun t => (t.Get k - mk) * (t.Get l - ml))) := by
  unfold covSum
  rw [Dbl.foldr_add_eq_sum
    (fun id => ((s.FindInternal id).Get k - mk) * ((s.FindInternal id).Get l - ml)),
    Dbl.zero_add', List.map_reverse, Dbl.sum_perm _ _ (List.reverse_perm _),
    map_range_FindInternal s (fun t => (t.Get k - mk) * (t.Get l - ml))]

theorem nilOver_all (s : TractStore) (c : Nat) :
    nilOver s (List.range s.Size).reverse c = s.allZero c := by
  unfold nilOver allZero
  rw [Bool.eq_iff_iff, List.all_eq_true, List.all_eq_true]
  constructor
  · intro h t ht
    obtain ⟨i, hi⟩ := List.mem_iff_getElem?.mp ht
    have hlt : i < s.tract_map_.length := by
      by_contra hc
      rw [List.getElem?_eq_none (by omega)] at hi
      cases hi
    have := h i (List.mem_reverse.mpr (List.mem_range.mpr hlt))
    rw [FindInternal_of_getElem? s i t hi] at this
    exact this
  · intro h i hi
    exact h _ (FindInternal_mem s i (List.mem_range.mp (List.mem_reverse.mp hi)))

end TractStore
end Nilsier

namespace Nilsier
namespace TractStore

theorem tablesFit_cats (n : Nat) (psus categories : KeyValueMap)
    (hfit : TablesFit n psus categories) (L : List Nat) (hL : ∀ c ∈ L, c < n) :
    ∀ l ∈ L, ∃ r, categories.GetValue l = .ok r ∧ ∃ v, psus.GetValue r = .ok v := by
  intro l hl
  obtain ⟨r, hr, hlt⟩ := hfit.1 l (hL l hl)
  exact ⟨r, hr, hfit.2 r hlt⟩

theorem Variance_single_phase (s : TractStore) (hs : s.WF) (psus categories : KeyValueMap)
    (area : Dbl) (N : Nat) (hsize : psus.Size = 1) (hN : psus.GetValue 0 = .ok N)
    (h2 : 2 ≤ N) (hpsu : ∀ t ∈ s.tract_map_, t.GetInternalPsu = 0)
    (hfit : TablesFit s.n_cats_ psus categories) :
    ∃ M, s.Variance psus categories area = .ok M ∧ M.length = s.n_cats_ * s.n_cats_ ∧
      ∀ k l, k < s.n_cats_ → l < s.n_cats_ →
        cell s.n_cats_ M k l =
          if s.allZero k = true ∨ s.allZero l = true then 0
          else sampleCovariance s area N k l := by
  obtain ⟨L, hL⟩ := sortedCats_total categories s.n_cats_
    (fun c hc => by obtain ⟨r, hr, _⟩ := hfit.1 c hc; exact ⟨r, hr⟩)
  have hlt := sortedCats_lt categories _ L hL
  have hperm := sortedCats_perm categories _ L hL
  have hnd : L.Nodup := hperm.nodup_iff.mpr (List.nodup_range _)
  have hcats := tablesFit_cats _ psus categories hfit L hlt
  obtain ⟨hco, hids⟩ := prepareIds_coherent s hs 0 (varInit s.n_cats_) (varInit_coherent s)
  obtain ⟨hcv, hfc⟩ := prepareIds_frame s 0 (varInit s.n_cats_)
  have hids' : (prepareIds s 0 (varInit s.n_cats_)).ids = (List.range s.Size).reverse := by
    rw [hids, phaseIds_all s 0 hpsu]; rfl
  have hle : ¬ (Dbl.ofNat N).le 1 = true := by
    rw [Dbl.le_ofNat_one]; omega
  have hphase := covLoop_eq s psus categories area 0 (Dbl.ofNat N) L hcats 0
    (prepareIds s 0 (varInit s.n_cats_))
  rw [takeReach_zero] at hphase
  obtain ⟨m1, m2⟩ := mirror_fold_cell s.n_cats_
    (covValue s psus categories area (Dbl.ofNat N) (prepareIds s 0 (varInit s.n_cats_)).ids
      (prepareIds s 0 (varInit s.n_cats_)).sums)
    (notNil (prepareIds s 0 (varInit s.n_cats_)).all_nils)
    (pairsOf L L.length) (pairsOf_distinct L hnd _) (pairsOf_lt _ L hlt _)
    (prepareIds s 0 (varInit s.n_cats_)).covs (by rw [hcv]; exact varInit_covs_length _)
  refine ⟨_, ?_, m1, ?_⟩
  · have hph : phase s psus categories area L (varInit s.n_cats_) 0 =
        covLoop s psus categories area 0 (Dbl.ofNat N) L 0
          (prepareIds s 0 (varInit s.n_cats_)) := by
      unfold phase
      rw [hN]
      show (if (Dbl.ofNat N).le 1 = true then _ else _) = _
      rw [if_neg hle, hfc]
      rfl
    unfold Variance
    rw [hL]
    show VarianceFrom s psus categories area L = _
    unfold VarianceFrom
    have hr : (List.range psus.Size).reverse = [0] := by rw [hsize]; rfl
    rw [hr, List.foldlM_cons, hph, hphase]
    rfl
  · intro k l hk hl
    rw [m2 k l hk hl]
    have hkL : k ∈ L := hperm.mem_iff.mpr (List.mem_range.mpr hk)
    have hlL : l ∈ L := hperm.mem_iff.mpr (List.mem_range.mpr hl)
    have hnil : ∀ c, c < s.n_cats_ →
        (prepareIds s 0 (varInit s.n_cats_)).all_nils.getD c true = s.allZero c := by
      intro c hc
      rw [(hco.2.2 c hc).2, hids', nilOver_all]
    have hsum : ∀ c, c < s.n_cats_ →
        (prepareIds s 0 (varInit s.n_cats_)).sums.getD c 0 / Dbl.ofNat N = tractMean s N c := by
      intro c hc
      rw [(hco.2.2 c hc).1, hids', sumOver_all]
      rfl
    have hzero : ∀ i j, i < s.n_cats_ → j < s.n_cats_ →
        cell s.n_cats_ (prepareIds s 0 (varInit s.n_cats_)).covs i j = 0 := by
      intro i j hi hj
      rw [hcv]
      exact cell_zero _ _ _ hi hj
    have hval : ∀ i j, i < s.n_cats_ → j < s.n_cats_ →
        covValue s psus categories area (Dbl.ofNat N) (prepareIds s 0 (varInit s.n_cats_)).ids
          (prepareIds s 0 (varInit s.n_cats_)).sums i j 0 = sampleCovariance s area N i j := by
      intro i j hi hj
      obtain ⟨r, hr, hrlt⟩ := hfit.1 j hj
      have hr0 : r = 0 := by rw [hsize] at hrlt; omega
      subst hr0
      unfold covValue sampleCovariance
      rw [hsum i hi, hsum j hj, hids', covSum_all, reachOf_eq categories j 0 hr,
        sizeAt_eq psus 0 N hN]
      exact Dbl.single_phase_scale _ area N h2
    have hnn : ∀ i j, i < s.n_cats_ → j < s.n_cats_ →
        (notNil (prepareIds s 0 (varInit s.n_cats_)).all_nils i j = true ↔
          ¬ (s.allZero i = true ∨ s.allZero j = true)) := by
      intro i j hi hj
      unfold notNil
      rw [hnil i hi, hnil j hj]
      cases s.allZero i <;> cases s.allZero j <;> simp
    by_cases hz : s.allZero k = true ∨ s.allZero l = true
    · rw [if_pos hz]
      have n1 : ¬ ((k, l) ∈ pairsOf L L.length ∧
          notNil (prepareIds s 0 (varInit s.n_cats_)).all_nils k l = true) :=
        fun h => (hnn k l hk hl).mp h.2 hz
      have n2 : ¬ ((l, k) ∈ pairsOf L L.length ∧
          notNil (prepareIds s 0 (varInit s.n_cats_)).all_nils l k = true) :=
        fun h => (hnn l k hl hk).mp h.2 (Or.symm hz)
      rw [if_neg n1, if_neg n2]
      exact hzero k l hk hl
    · rw [if_neg hz]
      have hz' : ¬ (s.allZero l = true ∨ s.allZero k = true) := fun h => hz (Or.symm h)
      by_cases p1 : (k, l) ∈ pairsOf L L.length
      · rw [if_pos ⟨p1, (hnn k l hk hl).mpr hz⟩, hzero k l hk hl]
        exact hval k l hk hl
      · have p2 : (l, k) ∈ pairsOf L L.length := by
          rcases pairsOf_full L k l hkL hlL with h | h
          · exact absurd h p1
          · exact h
        rw [if_neg (fun h => p1 h.1), if_pos ⟨p2, (hnn l k hl hk).mpr hz'⟩, hzero l k hl hk,
          hval l k hl hk]
        unfold sampleCovariance
        have e : (fun t : Tract => (t.Get l - tractMean s N l) * (t.Get k - tractMean s N k)) =
            (fun t : Tract => (t.Get k - tractMean s N k) * (t.Get l - tractMean s N l)) :=
          funext (fun t => Dbl.mul_comm' _ _)
        rw [e]

end TractStore
end Nilsier

namespace Nilsier

theorem tractMean_isNum (s : TractStore) (n c : Nat) (hn : 2 ≤ n)
    (hv : ∀ t ∈ s.tract_map_, (t.Get c).IsNum) : (tractMean s n c).IsNum := by
  have h2 : (2 : ℚ) ≤ (n : ℚ) := by exact_mod_cast hn
  have hq : (n : ℚ) ≠ 0 := by linarith
  unfold tractMean
  have := Dbl.sum_isNum (s.tract_map_.map (fun t => t.Get c)) (by
    intro x hx
    obtain ⟨t, ht, e⟩ := List.mem_map.mp hx
    rw [← e]
    exact hv t ht)
  obtain ⟨q, hq'⟩ := (Dbl.isNum_iff _).mp this
  rw [hq']
  show (if (n : ℚ) = 0 then Dbl.nan else Dbl.fin (q / n)) ≠ Dbl.nan
  rw [if_neg hq]
  intro e; cases e

theorem tractMean_zero (s : TractStore) (n c : Nat) (hn : 2 ≤ n)
    (hz : ∀ t ∈ s.tract_map_, t.Get c = 0) : tractMean s n c = 0 := by
  have h2 : (2 : ℚ) ≤ (n : ℚ) := by exact_mod_cast hn
  have hq : (n : ℚ) ≠ 0 := by linarith
  unfold tractMean
  rw [Dbl.sum_zeros _ (by
    intro x hx
    obtain ⟨t, ht, e⟩ := List.mem_map.mp hx
    rw [← e]
    exact hz t ht)]
  show (if (n : ℚ) = 0 then Dbl.nan else Dbl.fin (0 / (n : ℚ))) = Dbl.fin 0
  rw [if_neg hq, zero_div]

theorem allZero_iff (s : TractStore) (c : Nat) :
    s.allZero c = true ↔ ∀ t ∈ s.tract_map_, t.Get c = 0 := by
  unfold TractStore.allZero
  rw [List.all_eq_true]
  constructor
  · intro h t ht
    exact (Dbl.eqz_iff _).mp (h t ht)
  · intro h t ht
    exact (Dbl.eqz_iff _).mpr (h t ht)

/-- The single-phase formula gives 0 for a category that is zero on every tract, when the
values and the area are numbers. -/
theorem sampleCovariance_zero (s : TractStore) (area : Dbl) (n k l : Nat) (hn : 2 ≤ n)
    (hz : s.allZero k = true ∨ s.allZero l = true) (ha : area.IsNum)
    (hv : ∀ t ∈ s.tract_map_, ∀ c, (t.Get c).IsNum) :
    sampleCovariance s area n k l = 0 := by
  have h2 : (2 : ℚ) ≤ (n : ℚ) := by exact_mod_cast hn
  have hq : (n : ℚ) * ((n : ℚ) - 1) ≠ 0 := mul_ne_zero (by linarith) (by linarith)
  unfold sampleCovariance
  have hsum : Dbl.sum (s.tract_map_.map
      (fun t => (t.Get k - tractMean s n k) * (t.Get l - tractMean s n l))) = 0 := by
    apply Dbl.sum_zeros
    intro x hx
    obtain ⟨t, ht, e⟩ := List.mem_map.mp hx
    rw [← e]
    obtain ⟨mk, hmk⟩ := (Dbl.isNum_iff _).mp
      (tractMean_isNum s n k hn (fun t ht => hv t ht k))
    obtain ⟨ml, hml⟩ := (Dbl.isNum_iff _).mp
      (tractMean_isNum s n l hn (fun t ht => hv t ht l))
    obtain ⟨xk, hxk⟩ := (Dbl.isNum_iff _).mp (hv t ht k)
    obtain ⟨xl, hxl⟩ := (Dbl.isNum_iff _).mp (hv t ht l)
    rcases hz with hz | hz
    · have e1 := (allZero_iff s k).mp hz t ht
      have e2 := tractMean_zero s n k hn ((allZero_iff s k).mp hz)
      rw [e1, e2, hxl, hml]
      show Dbl.fin ((0 - 0) * (xl - ml)) = Dbl.fin 0
      congr 1; ring
    · have e1 := (allZero_iff s l).mp hz t ht
      have e2 := tractMean_zero s n l hn ((allZero_iff s l).mp hz)
      rw [e1, e2, hxk, hmk]
      show Dbl.fin ((xk - mk) * (0 - 0)) = Dbl.fin 0
      congr 1; ring
  rw [hsum]
  obtain ⟨a, ha'⟩ := (Dbl.isNum_iff _).mp ha
  rw [ha']
  show (if (n : ℚ) * ((n : ℚ) - 1) = 0 then Dbl.nan
    else Dbl.fin (a * a / ((n : ℚ) * ((n : ℚ) - 1)))) * Dbl.fin 0 = Dbl.fin 0
  rw [if_neg hq]
  show Dbl.fin (_ * 0) = Dbl.fin 0
  rw [mul_zero]

theorem pair_new :
    TractStore.new [1, 2, 3, 4] [10, 10, 10, 10] 4 onePhasePsus 2 = .ok pairFresh := by
  decide!

theorem pair_reachable : Reachable pairStore :=
  Reachable.fill pairFresh pairStore pairRows twoCats 1
    (Reachable.new _ _ _ _ _ _ pair_new) (by decide!)

end Nilsier

namespace Nilsier
namespace TractStore

/-! ## The loops of VarianceBalanced as folds over the pairs of categories -/

theorem advanceLast_eq (categories : KeyValueMap) (psu : Nat) (L : List Nat)
    (hL : ∀ c ∈ L, ∃ r, categories.GetValue c = .ok r) (last : Nat) :
    advanceLast categories psu L last = .ok (last + takeReach categories psu L) := by
  induction L generalizing last with
  | nil => rfl
  | cons c rest ih =>
    obtain ⟨r, hr⟩ := hL c (List.mem_cons_self _ _)
    rw [advanceLast, hr, takeReach, reachOf_eq categories c r hr]
    show (if r < psu then _ else _) = _
    by_cases hlt : r < psu
    · rw [if_pos hlt, if_pos hlt]
      rfl
    · rw [if_neg hlt, if_neg hlt, ih (fun x hx => hL x (List.mem_cons_of_mem _ hx))]
      congr 1
      omega

theorem nanInner_eq (n k : Nat) (rest : List Nat) (M : List Dbl) :
    nanInner n k rest M = (rest.map (fun l => (k, l))).foldl (mirrorOp n nanValue anyPair) M := by
  unfold nanInner
  rw [List.foldl_map]
  rfl

theorem balNanLoop_eq (n : Nat) (L : List Nat) (m : Nat) (M : List Dbl) :
    balNanLoop n L m M = (pairsOf L m).foldl (mirrorOp n nanValue anyPair) M := by
  induction L generalizing m M with
  | nil => cases m <;> rfl
  | cons k rest ih =>
    cases m with
    | zero => rfl
    | succ m =>
      rw [balNanLoop, pairsOf, List.foldl_append, List.map_cons, List.foldl_cons, ih,
        nanInner_eq]
      have : mirrorOp n nanValue anyPair M (k, k) = M.set (k * (n + 1)) Dbl.nan := by
        unfold mirrorOp anyPair nanValue
        rw [if_pos rfl, List.set_set]
        have e : k * (n + 1) = k * n + k := by ring
        rw [e]
      rw [this]

theorem nanLoop_eq (categories : KeyValueMap) (n psu : Nat) (L : List Nat)
    (hL : ∀ c ∈ L, ∃ r, categories.GetValue c = .ok r) (ki : Nat) (st : VarState) :
    nanLoop categories n psu L ki st =
      .ok ⟨st.sums, st.all_nils,
        (pairsOf L (takeReach categories psu L)).foldl (mirrorOp n nanValue anyPair) st.covs,
        st.ids,
        if takeReach categories psu L < L.length then ki + takeReach categories psu L
        else st.first_cat⟩ := by
  induction L generalizing ki st with
  | nil => rfl
  | cons k rest ih =>
    obtain ⟨r, hr⟩ := hL k (List.mem_cons_self _ _)
    have hrest := fun l hl => hL l (List.mem_cons_of_mem k hl)
    rw [nanLoop, hr, takeReach, reachOf_eq categories k r hr]
    show (if r < psu then _ else _) = _
    by_cases hlt : r < psu
    · rw [if_pos hlt, if_pos hlt]
      simp only [pairsOf, List.foldl_nil, List.length_cons, Nat.zero_lt_succ, if_true,
        Nat.add_zero]
      rfl
    · rw [if_neg hlt, if_neg hlt, pairsOf, List.foldl_append]
      have harith : (if takeReach categories psu rest + 1 < (k :: rest).length then
            ki + (takeReach categories psu rest + 1) else st.first_cat) =
          (if takeReach categories psu rest < rest.length then
            ki + 1 + takeReach categories psu rest else st.first_cat) := by
        rw [List.length_cons]
        by_cases h : takeReach categories psu rest < rest.length
        · rw [if_pos h, if_pos (by omega)]; omega
        · rw [if_neg h, if_neg (by omega)]
      rw [harith]
      rw [ih hrest (ki + 1) _, List.map_cons, List.foldl_cons, nanInner_eq]
      have : mirrorOp n nanValue anyPair st.covs (k, k) = st.covs.set (k * (n + 1)) Dbl.nan := by
        unfold mirrorOp anyPair nanValue
        rw [if_pos rfl, List.set_set]
        have e : k * (n + 1) = k * n + k := by ring
        rw [e]
      rw [this]

theorem balAccInner_eq (n : Nat) (all_nils : List Bool) (tract : Tract) (means : List Dbl)
    (k l : Nat) (hk : all_nils.getD k true = false) (M : List Dbl) :
    balAccInner n all_nils tract means k M l =
      setOp n (accValue tract means) (notNil all_nils) M (k, l) := by
  unfold balAccInner setOp notNil
  by_cases hl : all_nils.getD l true = true
  · rw [if_pos hl]
    simp only [hk, hl, Bool.not_true, Bool.and_false, Bool.false_eq_true, if_false]
  · have hl' : all_nils.getD l true = false := by simpa using hl
    rw [if_neg hl]
    simp only [hk, hl', Bool.not_false, Bool.and_self, if_true]
    rfl

theorem balAccLoop_eq (n : Nat) (all_nils : List Bool) (tract : Tract) (means : List Dbl)
    (L : List Nat) (m : Nat) (M : List Dbl) :
    balAccLoop n all_nils tract means L m M =
      (pairsOf L m).foldl (setOp n (accValue tract means) (notNil all_nils)) M := by
  induction L generalizing m M with
  | nil => cases m <;> rfl
  | cons k rest ih =>
    cases m with
    | zero => rfl
    | succ m =>
      rw [balAccLoop, pairsOf, List.foldl_append]
      by_cases hk : all_nils.getD k true = true
      · rw [if_pos hk, ih, fold_setOp_skip _ _ _ ((k :: rest).map (fun l => (k, l)))]
        intro p hp
        obtain ⟨l, _, e⟩ := List.mem_map.mp hp
        rw [← e]
        unfold notNil
        rw [hk]
        rfl
      · have hk' : all_nils.getD k true = false := by simpa using hk
        rw [if_neg hk, ih, List.foldl_map]
        congr 1
        apply List.foldl_ext
        intro M' l _
        exact balAccInner_eq n all_nils tract means k l hk' M'

theorem balScaleStep_eq (s : TractStore) (psus categories : KeyValueMap)
    (area psu_size nsd : Dbl) (k l : Nat) (M : List Dbl)
    (hl : ∃ r, categories.GetValue l = .ok r ∧ ∃ v, psus.GetValue r = .ok v) :
    balScaleStep s psus categories area psu_size nsd k M l =
      .ok (mirrorOp s.n_cats_ (scaleValue psus categories area psu_size nsd) anyPair M
        (k, l)) := by
  obtain ⟨r, hr, v, hv⟩ := hl
  unfold balScaleStep mirrorOp anyPair scaleValue
  rw [hr]
  show (psus.GetValue r >>= _) = _
  rw [hv, if_pos rfl, reachOf_eq categories l r hr, sizeAt_eq psus r v hv]
  unfold cell
  by_cases hkl : l = k
  · subst hkl
    show (if l ≠ l then _ else _) = _
    rw [if_neg (by simp), List.set_set]
    rfl
  · show (if l ≠ k then _ else _) = _
    rw [if_pos hkl]
    rfl

theorem balScaleInner_fold (s : TractStore) (psus categories : KeyValueMap)
    (area psu_size nsd : Dbl) (k : Nat) (ls : List Nat)
    (hls : ∀ l ∈ ls, ∃ r, categories.GetValue l = .ok r ∧ ∃ v, psus.GetValue r = .ok v)
    (M : List Dbl) :
    ls.foldlM (balScaleStep s psus categories area psu_size nsd k) M =
      .ok ((ls.map (fun l => (k, l))).foldl
        (mirrorOp s.n_cats_ (scaleValue psus categories area psu_size nsd) anyPair) M) := by
  induction ls generalizing M with
  | nil => rfl
  | cons l ls ih =>
    rw [List.foldlM_cons, balScaleStep_eq s psus categories area psu_size nsd k l M
      (hls l (List.mem_cons_self _ _))]
    show ls.foldlM _ _ = _
    rw [ih (fun x hx => hls x (List.mem_cons_of_mem _ hx))]
    rfl

theorem balScaleLoop_eq (s : TractStore) (psus categories : KeyValueMap)
    (area psu_size nsd : Dbl) (L : List Nat)
    (hL : ∀ l ∈ L, ∃ r, categories.GetValue l = .ok r ∧ ∃ v, psus.GetValue r = .ok v)
    (m : Nat) (M : List Dbl) :
    balScaleLoop s psus categories area psu_size nsd L m M =
      .ok ((pairsOf L m).foldl
        (mirrorOp s.n_cats_ (scaleValue psus categories area psu_size nsd) anyPair) M) := by
  induction L generalizing m M with
  | nil => cases m <;> rfl
  | cons k rest ih =>
    cases m with
    | zero => rfl
    | succ m =>
      rw [balScaleLoop, balScaleInner_fold s psus categories area psu_size nsd k (k :: rest) hL]
      show balScaleLoop s psus categories area psu_size nsd rest m _ = _
      rw [ih (fun l hl => hL l (List.mem_cons_of_mem _ hl)), pairsOf, List.foldl_append]

end TractStore
end Nilsier

namespace Nilsier

/-! ## The means over the neighbours -/

theorem listFold_getD {α : Type} (d : α) (upd : Nat → α → α) (L : List Nat) (hnd : L.Nodup)
    (xs : List α) (hlt : ∀ c ∈ L, c < xs.length) :
    (L.foldl (fun m c => m.set c (upd c (m.getD c d))) xs).length = xs.length ∧
    ∀ c, (L.foldl (fun m c => m.set c (upd c (m.getD c d))) xs).getD c d =
      if c ∈ L then upd c (xs.getD c d) else xs.getD c d := by
  induction L generalizing xs with
  | nil => exact ⟨rfl, fun c => by simp⟩
  | cons a L ih =>
    have hn := List.nodup_cons.mp hnd
    rw [List.foldl_cons]
    obtain ⟨h1, h2⟩ := ih hn.2 (xs.set a (upd a (xs.getD a d)))
      (fun c hc => by rw [List.length_set]; exact hlt c (List.mem_cons_of_mem _ hc))
    refine ⟨by rw [h1, List.length_set], ?_⟩
    intro c
    rw [h2 c]
    have ha : a < xs.length := hlt a (List.mem_cons_self _ _)
    by_cases hc : c ∈ L
    · have hca : a ≠ c := fun e => hn.1 (e ▸ hc)
      rw [if_pos hc, if_pos (List.mem_cons_of_mem _ hc), getD_set_ne _ _ _ _ _ hca]
    · rw [if_neg hc]
      by_cases hca : a = c
      · subst hca
        rw [if_pos (List.mem_cons_self _ _), getD_set _ _ _ _ _ ha, if_pos rfl]
      · have : c ∉ a :: L := by
          intro h
          rcases List.mem_cons.mp h with h | h
          · exact hca h.symm
          · exact hc h
        rw [if_neg this, getD_set_ne _ _ _ _ _ hca]

namespace TractStore

theorem neighbourSums_getD (s : TractStore) (L : List Nat) (hnd : L.Nodup)
    (hlt : ∀ c ∈ L, c < s.n_cats_) (nb : List Nat) :
    (nb.foldr
      (fun j means =>
        L.foldl (fun means cat => means.set cat (means.getD cat 0 + (s.FindInternal j).Get cat))
          means)
      (List.replicate s.n_cats_ 0)).length = s.n_cats_ ∧
    ∀ c, (nb.foldr
      (fun j means =>
        L.foldl (fun means cat => means.set cat (means.getD cat 0 + (s.FindInternal j).Get cat))
          means)
      (List.replicate s.n_cats_ 0)).getD c 0 =
      if c ∈ L then nb.foldr (fun j acc => acc + (s.FindInternal j).Get c) 0 else 0 := by
  induction nb with
  | nil =>
    refine ⟨by simp, ?_⟩
    intro c
    rw [List.foldr_nil, getD_replicate_self]
    simp
  | cons j nb ih =>
    obtain ⟨i1, i2⟩ := ih
    rw [List.foldr_cons]
    obtain ⟨h1, h2⟩ := listFold_getD (0 : Dbl) (fun cat x => x + (s.FindInternal j).Get cat) L
      hnd _ (fun c hc => by rw [i1]; exact hlt c hc)
    refine ⟨by rw [h1, i1], ?_⟩
    intro c
    rw [h2 c, i2 c]
    by_cases hc : c ∈ L
    · simp only [hc, if_true, List.foldr_cons]
    · simp only [hc, if_false]

theorem neighbourMeans_getD (s : TractStore) (L : List Nat) (hnd : L.Nodup)
    (hlt : ∀ c ∈ L, c < s.n_cats_) (nb : List Nat) (c : Nat) (hc : c ∈ L) :
    (neighbourMeans s L nb).getD c 0 =
      nb.foldr (fun j acc => acc + (s.FindInternal j).Get c) 0 / Dbl.ofNat nb.length := by
  unfold neighbourMeans
  obtain ⟨i1, i2⟩ := neighbourSums_getD s L hnd hlt nb
  obtain ⟨_, h2⟩ := listFold_getD (0 : Dbl) (fun _ x => x / Dbl.ofNat nb.length) L hnd _
    (fun c hc => by rw [i1]; exact hlt c hc)
  dsimp only
  rw [h2 c, if_pos hc, i2 c, if_pos hc]

/-- With a neighbour list that is a rearrangement of the ids, the mean over the neighbours is
the sum over the ids divided by their number. -/
theorem neighbourMeans_perm (s : TractStore) (L : List Nat) (hnd : L.Nodup)
    (hlt : ∀ c ∈ L, c < s.n_cats_) (nb ids : List Nat) (hp : nb.Perm ids) (c : Nat)
    (hc : c ∈ L) :
    (neighbourMeans s L nb).getD c 0 = sumOver s ids c / Dbl.ofNat ids.length := by
  rw [neighbourMeans_getD s L hnd hlt nb c hc, Dbl.foldr_add_eq_sum, Dbl.zero_add',
    Dbl.sum_perm _ _ (hp.map _), hp.length_eq]
  unfold sumOver
  rw [Dbl.foldl_add_eq_sum]

end TractStore
end Nilsier

namespace Nilsier

theorem ext_cells (n : Nat) (M M' : List Dbl) (hM : M.length = n * n) (hM' : M'.length = n * n)
    (h : ∀ i j, i < n → j < n → cell n M i j = cell n M' i j) : M = M' := by
  apply List.ext_getElem (by rw [hM, hM'])
  intro q h1 h2
  have hq : q < n * n := by rw [← hM]; exact h1
  have hn : 0 < n := by
    rcases Nat.eq_zero_or_pos n with h0 | h0
    · rw [h0] at hq; omega
    · exact h0
  have hi : q / n < n := Nat.div_lt_of_lt_mul hq
  have hj : q % n < n := Nat.mod_lt _ hn
  have e : q / n * n + q % n = q := by
    rw [Nat.mul_comm]; exact Nat.div_add_mod q n
  have := h (q / n) (q % n) hi hj
  unfold cell at this
  rw [e, List.getD_eq_getElem?_getD, List.getD_eq_getElem?_getD, List.getElem?_eq_getElem h1,
    List.getElem?_eq_getElem h2] at this
  exact this

namespace TractStore

/-! ## The accumulation loop of VarianceBalanced, cell by cell -/

theorem balAccumulate_cell (s : TractStore) (PL : List (Nat × Nat)) (hnd : PL.Nodup)
    (hlt : ∀ p ∈ PL, p.1 < s.n_cats_ ∧ p.2 < s.n_cats_) (g : Nat → Nat → Bool)
    (meansOf : Nat → List Dbl) (ids : List Nat) (M : List Dbl)
    (hM : M.length = s.n_cats_ * s.n_cats_) :
    (ids.foldr
      (fun id covs => PL.foldl (setOp s.n_cats_ (accValue (s.FindInternal id) (meansOf id)) g)
        covs) M).length = s.n_cats_ * s.n_cats_ ∧
    ∀ i j, i < s.n_cats_ → j < s.n_cats_ →
      cell s.n_cats_ (ids.foldr
        (fun id covs => PL.foldl (setOp s.n_cats_ (accValue (s.FindInternal id) (meansOf id)) g)
          covs) M) i j =
        if (i, j) ∈ PL ∧ g i j = true then
          ids.foldr (fun id acc => accValue (s.FindInternal id) (meansOf id) i j acc)
            (cell s.n_cats_ M i j)
        else cell s.n_cats_ M i j := by
  induction ids with
  | nil =>
    refine ⟨hM, ?_⟩
    intro i j _ _
    simp
  | cons id ids ih =>
    obtain ⟨i1, i2⟩ := ih
    rw [List.foldr_cons]
    obtain ⟨h1, h2⟩ := set_fold_cell s.n_cats_ (accValue (s.FindInternal id) (meansOf id)) g PL
      hnd hlt _ i1
    refine ⟨h1, ?_⟩
    intro i j hi hj
    rw [h2 i j hi hj, i2 i j hi hj]
    by_cases hp : (i, j) ∈ PL ∧ g i j = true
    · simp only [hp, and_self, if_true, List.foldr_cons]
    · simp only [hp, if_false]

theorem accFold_eq_covSum (s : TractStore) (meansOf : Nat → List Dbl) (ids : List Nat)
    (i j : Nat) (mi mj : Dbl)
    (hm : ∀ id ∈ ids, (meansOf id).getD i 0 = mi ∧ (meansOf id).getD j 0 = mj) (init : Dbl) :
    ids.foldr (fun id acc => accValue (s.FindInternal id) (meansOf id) i j acc) init =
      covSum s ids i j mi mj init := by
  unfold covSum
  induction ids with
  | nil => rfl
  | cons id ids ih =>
    rw [List.foldr_cons, List.foldr_cons, ih (fun x hx => hm x (List.mem_cons_of_mem _ hx))]
    unfold accValue
    rw [(hm id (List.mem_cons_self _ _)).1, (hm id (List.mem_cons_self _ _)).2]

theorem notNil_comm (all_nils : List Bool) (k l : Nat) :
    notNil all_nils k l = notNil all_nils l k := by
  unfold notNil
  exact Bool.and_comm _ _

/-- The regular branch of one phase: the accumulation and scaling loops of `VarianceBalanced`
give the matrix of the category loop of `Variance`, when the means over the neighbours are the
means over the ids, the scale factors are numbers and the cells of the categories that are
left hold zeros. -/
theorem regular_phase_eq (s : TractStore) (psus categories : KeyValueMap)
    (area psu_size : Dbl) (ids : List Nat) (sums : List Dbl) (all_nils : List Bool)
    (L : List Nat) (hnd : L.Nodup) (hlt : ∀ c ∈ L, c < s.n_cats_) (m : Nat)
    (meansOf : Nat → List Dbl)
    (hmeans : ∀ id ∈ ids, ∀ c ∈ L, (meansOf id).getD c 0 = sums.getD c 0 / psu_size)
    (M : List Dbl) (hM : M.length = s.n_cats_ * s.n_cats_)
    (hzero : ∀ i j, i ∈ L → j ∈ L → cell s.n_cats_ M i j = 0)
    (hscale : ∀ l ∈ L, ∃ q : ℚ,
      (area / psu_size) * (area / Dbl.ofNat (sizeAt psus (reachOf categories l))) *
        (psu_size / (psu_size - 1)) = Dbl.fin q) :
    (pairsOf L m).foldl
        (mirrorOp s.n_cats_ (scaleValue psus categories area psu_size psu_size) anyPair)
        (ids.foldr
          (fun id covs =>
            (pairsOf L m).foldl
              (setOp s.n_cats_ (accValue (s.FindInternal id) (meansOf id)) (notNil all_nils))
              covs) M) =
      (pairsOf L m).foldl
        (mirrorOp s.n_cats_ (covValue s psus categories area psu_size ids sums)
          (notNil all_nils)) M := by
  have hplt := pairsOf_lt s.n_cats_ L hlt m
  have hdist := pairsOf_distinct L hnd m
  obtain ⟨a1, a2⟩ := balAccumulate_cell s (pairsOf L m) (pairsOf_nodup L hnd m) hplt
    (notNil all_nils) meansOf ids M hM
  obtain ⟨b1, b2⟩ := mirror_fold_cell s.n_cats_
    (scaleValue psus categories area psu_size psu_size) anyPair (pairsOf L m) hdist hplt _ a1
  obtain ⟨c1, c2⟩ := mirror_fold_cell s.n_cats_
    (covValue s psus categories area psu_size ids sums) (notNil all_nils) (pairsOf L m) hdist
    hplt M hM
  apply ext_cells s.n_cats_ _ _ b1 c1
  intro i j hi hj
  rw [b2 i j hi hj, c2 i j hi hj]
  have key : ∀ k l, (k, l) ∈ pairsOf L m → k < s.n_cats_ → l < s.n_cats_ →
      scaleValue psus categories area psu_size psu_size k l
        (cell s.n_cats_ (ids.foldr
          (fun id covs =>
            (pairsOf L m).foldl
              (setOp s.n_cats_ (accValue (s.FindInternal id) (meansOf id)) (notNil all_nils))
              covs) M) k l) =
      if notNil all_nils k l = true then
        covValue s psus categories area psu_size ids sums k l (cell s.n_cats_ M k l)
      else 0 := by
    intro k l hp hk hl
    obtain ⟨hkL, hlL⟩ := mem_pairsOf L m (k, l) hp
    have hkL : k ∈ L := List.mem_of_mem_take hkL
    rw [a2 k l hk hl]
    by_cases hg : notNil all_nils k l = true
    · rw [if_pos ⟨hp, hg⟩, if_pos hg,
        accFold_eq_covSum s meansOf ids k l (sums.getD k 0 / psu_size)
          (sums.getD l 0 / psu_size)
          (fun id hid => ⟨hmeans id hid k hkL, hmeans id hid l hlL⟩)]
      rfl
    · rw [if_neg (fun h => hg h.2), if_neg hg, hzero k l hkL hlL]
      obtain ⟨q, hq⟩ := hscale l hlL
      unfold scaleValue
      rw [hq]
      show Dbl.fin (0 * q) = Dbl.fin 0
      rw [zero_mul]
  by_cases p1 : (i, j) ∈ pairsOf L m
  · have hiL := List.mem_of_mem_take (mem_pairsOf L m (i, j) p1).1
    have hjL := (mem_pairsOf L m (i, j) p1).2
    have q1 : (i, j) ∈ pairsOf L m ∧ anyPair i j = true := ⟨p1, rfl⟩
    rw [if_pos q1, key i j p1 hi hj]
    by_cases hg : notNil all_nils i j = true
    · have r1 : (i, j) ∈ pairsOf L m ∧ notNil all_nils i j = true := ⟨p1, hg⟩
      rw [if_pos hg, if_pos r1]
    · have r1 : ¬ ((i, j) ∈ pairsOf L m ∧ notNil all_nils i j = true) := fun h => hg h.2
      have r2 : ¬ ((j, i) ∈ pairsOf L m ∧ notNil all_nils j i = true) := by
        intro h
        apply hg
        rw [notNil_comm]
        exact h.2
      rw [if_neg hg, if_neg r1, if_neg r2, hzero i j hiL hjL]
  · have q1 : ¬ ((i, j) ∈ pairsOf L m ∧ anyPair i j = true) := fun h => p1 h.1
    have r1 : ¬ ((i, j) ∈ pairsOf L m ∧ notNil all_nils i j = true) := fun h => p1 h.1
    rw [if_neg q1, if_neg r1]
    by_cases p2 : (j, i) ∈ pairsOf L m
    · have hjL := List.mem_of_mem_take (mem_pairsOf L m (j, i) p2).1
      have hiL := (mem_pairsOf L m (j, i) p2).2
      have q2 : (j, i) ∈ pairsOf L m ∧ anyPair j i = true := ⟨p2, rfl⟩
      rw [if_pos q2, key j i p2 hj hi]
      by_cases hg : notNil all_nils j i = true
      · have r2 : (j, i) ∈ pairsOf L m ∧ notNil all_nils j i = true := ⟨p2, hg⟩
        rw [if_pos hg, if_pos r2]
      · have r2 : ¬ ((j, i) ∈ pairsOf L m ∧ notNil all_nils j i = true) := fun h => hg h.2
        rw [if_neg hg, if_neg r2, hzero i j hiL hjL]
    · have q2 : ¬ ((j, i) ∈ pairsOf L m ∧ anyPair j i = true) := fun h => p2 h.1
      have r2 : ¬ ((j, i) ∈ pairsOf L m ∧ notNil all_nils j i = true) := fun h => p2 h.1
      rw [if_neg q2, if_neg r2, a2 i j hi hj, if_neg r1]

end TractStore
end Nilsier

namespace Nilsier

/-! ## Variance and VarianceBalanced, phase by phase -/

theorem set_false_self (an : List Bool) (c : Nat) (h : an.getD c true = false) :
    an.set c false = an := by
  apply List.ext_getElem?
  intro i
  rw [List.getElem?_set]
  by_cases hci : c = i
  · subst hci
    rw [if_pos rfl]
    rw [List.getD_eq_getElem?_getD] at h
    by_cases hlt : c < an.length
    · rw [if_pos hlt]
      rw [List.getElem?_eq_getElem hlt] at h ⊢
      exact congrArg some h.symm
    · rw [if_neg hlt, List.getElem?_eq_none (by omega)]
  · rw [if_neg hci]

theorem takeReach_le (categories : KeyValueMap) (psu : Nat) (L : List Nat) :
    takeReach categories psu L ≤ L.length := by
  induction L with
  | nil => exact Nat.le_refl _
  | cons c rest ih =>
    rw [takeReach, List.length_cons]
    split <;> omega

theorem takeReach_lt (categories : KeyValueMap) (psu : Nat) (L : List Nat) (c : Nat)
    (hc : c ∈ L) (hr : reachOf categories c < psu) :
    takeReach categories psu L < L.length := by
  induction L with
  | nil => cases hc
  | cons a rest ih =>
    rw [takeReach, List.length_cons]
    by_cases ha : reachOf categories a < psu
    · rw [if_pos ha]; omega
    · rw [if_neg ha]
      rcases List.mem_cons.mp hc with h | h
      · rw [h] at hr; exact absurd hr ha
      · have := ih h
        omega

theorem mem_drop_takeReach (categories : KeyValueMap) (psu : Nat) (L : List Nat) (c : Nat)
    (hc : c ∈ L) (hr : reachOf categories c < psu) :
    c ∈ L.drop (takeReach categories psu L) := by
  induction L with
  | nil => cases hc
  | cons a rest ih =>
    rw [takeReach]
    by_cases ha : reachOf categories a < psu
    · rw [if_pos ha]; exact hc
    · rw [if_neg ha, List.drop_succ_cons]
      rcases List.mem_cons.mp hc with h | h
      · rw [h] at hr; exact absurd hr ha
      · exact ih h

theorem not_mem_take_of_mem_drop (L : List Nat) (hnd : L.Nodup) (m c : Nat)
    (hc : c ∈ L.drop m) : c ∉ L.take m := by
  intro h
  have hd : (L.take m ++ L.drop m).Nodup := by rw [List.take_append_drop]; exact hnd
  exact (List.nodup_append.mp hd).2.2 h hc

/-- The cells of two categories that the loops of a phase leave for later are not written. -/
theorem mirror_fold_rest (n : Nat) (f : Nat → Nat → Dbl → Dbl) (g : Nat → Nat → Bool)
    (L : List Nat) (hnd : L.Nodup) (hlt : ∀ c ∈ L, c < n) (m : Nat) (M : List Dbl)
    (hM : M.length = n * n) (i j : Nat) (hi : i ∈ L.drop m) (hj : j ∈ L.drop m) :
    cell n ((pairsOf L m).foldl (mirrorOp n f g) M) i j = cell n M i j := by
  obtain ⟨_, h2⟩ := mirror_fold_cell n f g (pairsOf L m) (pairsOf_distinct L hnd m)
    (pairsOf_lt n L hlt m) M hM
  have p1 : ¬ ((i, j) ∈ pairsOf L m ∧ g i j = true) := fun h =>
    not_mem_take_of_mem_drop L hnd m i hi (mem_pairsOf L m (i, j) h.1).1
  have p2 : ¬ ((j, i) ∈ pairsOf L m ∧ g j i = true) := fun h =>
    not_mem_take_of_mem_drop L hnd m j hj (mem_pairsOf L m (j, i) h.1).1
  rw [h2 i j (hlt i (List.mem_of_mem_drop hi)) (hlt j (List.mem_of_mem_drop hj)), if_neg p1,
    if_neg p2]

theorem countP_enumFrom {α : Type} (P : α → Bool) (l : List α) (k : Nat) :
    (l.enumFrom k).countP (fun q => P q.2) = l.countP P := by
  induction l generalizing k with
  | nil => rfl
  | cons a l ih =>
    rw [List.enumFrom_cons, List.countP_cons, List.countP_cons, ih]

theorem countP_split (l : List Tract) (p : Nat) :
    l.countP (fun t => decide (p + 1 ≤ t.GetInternalPsu)) +
        l.countP (fun t => t.GetInternalPsu == p) =
      l.countP (fun t => decide (p ≤ t.GetInternalPsu)) := by
  induction l with
  | nil => rfl
  | cons a l ih =>
    rw [List.countP_cons, List.countP_cons, List.countP_cons, ← ih]
    by_cases h1 : p + 1 ≤ a.GetInternalPsu
    · have h2 : ¬ a.GetInternalPsu = p := by omega
      have h3 : p ≤ a.GetInternalPsu := by omega
      simp [h1, h2, h3]
      omega
    · by_cases h2 : a.GetInternalPsu = p
      · have h3 : p ≤ a.GetInternalPsu := by omega
        simp [h1, h2]
        omega
      · have h3 : ¬ p ≤ a.GetInternalPsu := by omega
        simp [h1, h2, h3]

theorem phaseIds_length (s : TractStore) (p : Nat) :
    (phaseIds s p).length = s.tract_map_.countP (fun t => t.GetInternalPsu == p) := by
  unfold phaseIds
  rw [List.length_reverse, List.length_map, ← List.countP_eq_length_filter]
  exact countP_enumFrom (fun t => t.GetInternalPsu == p) s.tract_map_ 0

/-- The scale factor of a phase is a number when the area is a number, the size of the phase is
at least 2 and the size of the phase of the category is positive. -/
theorem scale_isNum (area : Dbl) (ha : area.IsNum) (v w : Nat) (hv : 2 ≤ v) (hw : 0 < w) :
    ∃ q : ℚ, (area / Dbl.ofNat v) * (area / Dbl.ofNat w) *
      (Dbl.ofNat v / (Dbl.ofNat v - 1)) = Dbl.fin q := by
  obtain ⟨a, ha'⟩ := (Dbl.isNum_iff _).mp ha
  have h2 : (2 : ℚ) ≤ (v : ℚ) := by exact_mod_cast hv
  have hv0 : (v : ℚ) ≠ 0 := by linarith
  have hv1 : (v : ℚ) - 1 ≠ 0 := by linarith
  have hw0 : (w : ℚ) ≠ 0 := by exact_mod_cast (Nat.pos_iff_ne_zero.mp hw)
  rw [ha']
  have e1 : Dbl.fin a / Dbl.ofNat v = Dbl.fin (a / v) := by
    show (if (v : ℚ) = 0 then Dbl.nan else Dbl.fin (a / v)) = _
    rw [if_neg hv0]
  have e2 : Dbl.fin a / Dbl.ofNat w = Dbl.fin (a / w) := by
    show (if (w : ℚ) = 0 then Dbl.nan else Dbl.fin (a / w)) = _
    rw [if_neg hw0]
  have e3 : Dbl.ofNat v / (Dbl.ofNat v - 1) = Dbl.fin ((v : ℚ) / ((v : ℚ) - 1)) := by
    show (if (v : ℚ) - 1 = 0 then Dbl.nan else Dbl.fin ((v : ℚ) / ((v : ℚ) - 1))) = _
    rw [if_neg hv1]
  rw [e1, e2, e3]
  exact ⟨_, rfl⟩

namespace TractStore

theorem accum_nil_sync (t : Tract) (l : List Nat) (st : VarState) :
    (l.foldl
      (fun st cat =>
        if (t.Get cat).eqz then st
        else { st with
          sums := st.sums.set cat (st.sums.getD cat 0 + t.Get cat)
          all_nils := st.all_nils.set cat false })
      st).all_nils =
    l.foldl
      (fun an cat => if an.getD cat true && (t.Get cat).nez then an.set cat false else an)
      st.all_nils := by
  induction l generalizing st with
  | nil => rfl
  | cons c l ih =>
    rw [List.foldl_cons, List.foldl_cons, ih]
    congr 1
    by_cases hz : (t.Get c).eqz = true
    · have hn : (t.Get c).nez = false := by unfold Dbl.nez; rw [hz]; rfl
      rw [if_pos hz, hn, Bool.and_false]
      rfl
    · have hn : (t.Get c).nez = true := by
        unfold Dbl.nez
        have : (t.Get c).eqz = false := by simpa using hz
        rw [this]; rfl
      rw [if_neg hz, hn, Bool.and_true]
      by_cases ha : st.all_nils.getD c true = true
      · rw [if_pos ha]
      · rw [if_neg ha]
        exact set_false_self _ _ (by simpa using ha)

theorem prepareStep_sync (n psu i : Nat) (t : Tract) (st : VarState) (bt : BalState)
    (hids : st.ids = bt.ids) (hnil : st.all_nils = bt.all_nils) :
    (prepareStep n psu i t st).ids = (balPrepareStep n psu i t bt).ids ∧
    (prepareStep n psu i t st).all_nils = (balPrepareStep n psu i t bt).all_nils := by
  unfold prepareStep balPrepareStep
  by_cases hp : t.GetInternalPsu ≠ psu
  · rw [if_pos hp, if_pos hp]
    exact ⟨hids, hnil⟩
  · rw [if_neg hp, if_neg hp]
    dsimp only
    by_cases hnn : (!t.nonnil_) = true
    · rw [if_pos hnn, if_pos hnn]
      exact ⟨by rw [hids], hnil⟩
    · rw [if_neg hnn, if_neg hnn]
      refine ⟨?_, ?_⟩
      · rw [(accumCats_frame n t _).2.2]
        show st.ids ++ [i] = bt.ids ++ [i]
        rw [hids]
      · unfold accumCats nilCats
        rw [accum_nil_sync]
        show List.foldl _ st.all_nils _ = List.foldl _ bt.all_nils _
        rw [hnil]

theorem prepareIds_sync (s : TractStore) (psu : Nat) (st : VarState) (bt : BalState)
    (hids : st.ids = bt.ids) (hnil : st.all_nils = bt.all_nils) :
    (prepareIds s psu st).ids = (balPrepareIds s psu bt).ids ∧
    (prepareIds s psu st).all_nils = (balPrepareIds s psu bt).all_nils := by
  unfold prepareIds balPrepareIds
  induction s.tract_map_.enum with
  | nil => exact ⟨hids, hnil⟩
  | cons p l ih =>
    rw [List.foldr_cons, List.foldr_cons]
    exact prepareStep_sync s.n_cats_ psu p.1 p.2 _ _ ih.1 ih.2

end TractStore
end Nilsier

namespace Nilsier
namespace TractStore

theorem phase_unfold (s : TractStore) (psus categories : KeyValueMap) (area : Dbl)
    (sorted_cats : List Nat) (st : VarState) (p v : Nat) (hv : psus.GetValue p = .ok v) :
    phase s psus categories area sorted_cats st p =
      if (Dbl.ofNat v).le 1 = true then
        nanLoop categories s.n_cats_ p (sorted_cats.drop st.first_cat) st.first_cat
          (prepareIds s p st)
      else
        covLoop s psus categories area p (Dbl.ofNat v) (sorted_cats.drop st.first_cat)
          st.first_cat (prepareIds s p st) := by
  unfold phase
  rw [hv, ← (prepareIds_frame s p st).2]
  rfl

theorem balPhase_nan (find : NeighbourIndex) (s : TractStore) (psus categories : KeyValueMap)
    (area : Dbl) (neighbours : KeyValueMap) (sorted_cats : List Nat) (bt : BalState)
    (p v last : Nat) (hsz : psus.Size > 0) (hv : psus.GetValue p = .ok v)
    (hle : (Dbl.ofNat v).le 1 = true)
    (hlast : advanceLast categories p (sorted_cats.drop bt.last_cat) bt.last_cat = .ok last) :
    balPhase find s psus categories area neighbours sorted_cats bt p =
      .ok ⟨(balPrepareIds s p bt).all_nils,
        balNanLoop s.n_cats_ (sorted_cats.drop bt.last_cat) (last - bt.last_cat)
          (balPrepareIds s p bt).covs,
        (balPrepareIds s p bt).ids, bt.last_cat, last⟩ := by
  unfold balPhase
  dsimp only
  rw [if_pos hsz, hv, (balPrepareIds_frame s p bt).2.2]
  show (advanceLast categories p (sorted_cats.drop bt.last_cat) bt.last_cat >>= _) = _
  rw [hlast]
  show (if (Dbl.ofNat v).le 1 = true then _ else _) = _
  rw [if_pos hle]
  rfl

theorem balPhase_regular (find : NeighbourIndex) (s : TractStore)
    (psus categories : KeyValueMap) (area : Dbl) (neighbours : KeyValueMap)
    (sorted_cats : List Nat) (bt : BalState) (p v last k : Nat) (covs : List Dbl)
    (hsz : psus.Size > 0) (hv : psus.GetValue p = .ok v) (hle : ¬ (Dbl.ofNat v).le 1 = true)
    (hlast : advanceLast categories p (sorted_cats.drop bt.last_cat) bt.last_cat = .ok last)
    (hk : neighbours.GetValue p = .ok k)
    (hcovs : balScaleLoop s psus categories area (Dbl.ofNat v) (Dbl.ofNat k)
      (sorted_cats.drop bt.last_cat) (last - bt.last_cat)
      ((balPrepareIds s p bt).ids.foldr
        (balTract find s sorted_cats
          ⟨(balPrepareIds s p bt).all_nils, (balPrepareIds s p bt).covs,
            (balPrepareIds s p bt).ids, bt.last_cat, last⟩ k)
        (balPrepareIds s p bt).covs) = .ok covs) :
    balPhase find s psus categories area neighbours sorted_cats bt p =
      .ok ⟨(balPrepareIds s p bt).all_nils, covs, (balPrepareIds s p bt).ids, bt.last_cat,
        last⟩ := by
  unfold balPhase
  dsimp only
  rw [if_pos hsz, hv, (balPrepareIds_frame s p bt).2.2]
  show (advanceLast categories p (sorted_cats.drop bt.last_cat) bt.last_cat >>= _) = _
  rw [hlast]
  show (if (Dbl.ofNat v).le 1 = true then _ else _) = _
  rw [if_neg hle]
  show (neighbours.GetValue p >>= _) = _
  rw [hk]
  show (balScaleLoop s psus categories area (Dbl.ofNat v) (Dbl.ofNat k)
      (sorted_cats.drop bt.last_cat) (last - bt.last_cat)
      ((balPrepareIds s p bt).ids.foldr
        (balTract find s sorted_cats
          ⟨(balPrepareIds s p bt).all_nils, (balPrepareIds s p bt).covs,
            (balPrepareIds s p bt).ids, bt.last_cat, last⟩ k)
        (balPrepareIds s p bt).covs) >>= _) = _
  rw [hcovs]
  rfl

theorem balTract_eq (find : NeighbourIndex) (s : TractStore) (sorted_cats : List Nat)
    (bt : BalState) (k : Nat) :
    balTract find s sorted_cats bt k =
      fun id covs =>
        (pairsOf (sorted_cats.drop bt.first_cat) (bt.last_cat - bt.first_cat)).foldl
          (setOp s.n_cats_
            (accValue (s.FindInternal id)
              (neighbourMeans s (sorted_cats.drop bt.first_cat) (find bt.ids k id)))
            (notNil bt.all_nils)) covs := by
  funext id covs
  unfold balTract
  dsimp only
  rw [balAccLoop_eq]

end TractStore
end Nilsier

namespace Nilsier
namespace TractStore

theorem loopInv_after (s : TractStore) (categories : KeyValueMap) (sorted_cats : List Nat)
    (hnd : sorted_cats.Nodup) (hlt : ∀ c ∈ sorted_cats, c < s.n_cats_) (p f : Nat)
    (sums : List Dbl) (nils : List Bool) (ids : List Nat) (M : List Dbl)
    (F : Nat → Nat → Dbl → Dbl) (G : Nat → Nat → Bool)
    (hco : Coherent s ⟨sums, nils, M, ids, f⟩) (hM : M.length = s.n_cats_ * s.n_cats_)
    (hzero : ∀ i j, i ∈ sorted_cats.drop f → j ∈ sorted_cats.drop f → cell s.n_cats_ M i j = 0)
    (hcnt : ids.length = s.tract_map_.countP (fun t => decide (p ≤ t.GetInternalPsu)))
    (c0 : Nat) (hc0 : c0 ∈ sorted_cats.drop f) (hr0 : reachOf categories c0 = 0) :
    LoopInv s categories sorted_cats p
      ⟨sums, nils,
        (pairsOf (sorted_cats.drop f) (takeReach categories p (sorted_cats.drop f))).foldl
          (mirrorOp s.n_cats_ F G) M,
        ids,
        if takeReach categories p (sorted_cats.drop f) < (sorted_cats.drop f).length then
          f + takeReach categories p (sorted_cats.drop f)
        else f⟩
      ⟨nils,
        (pairsOf (sorted_cats.drop f) (takeReach categories p (sorted_cats.drop f))).foldl
          (mirrorOp s.n_cats_ F G) M,
        ids, f, f + takeReach categories p (sorted_cats.drop f)⟩ := by
  cases p with
  | zero => exact rfl
  | succ q =>
    have hLnd : (sorted_cats.drop f).Nodup := hnd.sublist (List.drop_sublist _ _)
    have hLlt : ∀ c ∈ sorted_cats.drop f, c < s.n_cats_ :=
      fun c hc => hlt c (List.mem_of_mem_drop hc)
    have hr : reachOf categories c0 < q + 1 := by rw [hr0]; omega
    have ht := takeReach_lt categories (q + 1) (sorted_cats.drop f) c0 hc0 hr
    have hdd : sorted_cats.drop (f + takeReach categories (q + 1) (sorted_cats.drop f)) =
        (sorted_cats.drop f).drop (takeReach categories (q + 1) (sorted_cats.drop f)) := by
      rw [List.drop_drop]
    show PhaseInv s categories sorted_cats q _ _
    unfold PhaseInv
    dsimp only
    rw [if_pos ht, hdd]
    refine ⟨rfl, rfl, rfl, rfl, hco, ?_, ?_, hcnt, c0, ?_, hr0⟩
    · exact (mirror_fold_cell s.n_cats_ F G _ (pairsOf_distinct _ hLnd _)
        (pairsOf_lt _ _ hLlt _) M hM).1
    · intro i j hi hj
      rw [mirror_fold_rest s.n_cats_ F G _ hLnd hLlt _ M hM i j hi hj]
      exact hzero i j (List.mem_of_mem_drop hi) (List.mem_of_mem_drop hj)
    · exact mem_drop_takeReach categories (q + 1) _ c0 hc0 hr

end TractStore
end Nilsier

namespace Nilsier
namespace TractStore

theorem phase_sim (find : NeighbourIndex) (hfind : WholeSet find) (s : TractStore)
    (hs : s.WF) (psus categories neighbours : KeyValueMap) (area : Dbl) (harea : area.IsNum)
    (sorted_cats : List Nat) (hperm : sorted_cats.Perm (List.range s.n_cats_))
    (hfit : TablesFit s.n_cats_ psus categories) (hvalid : ValidPsus psus)
    (hcount : ∀ p, p < psus.Size →
      psus.GetValue p = .ok (s.tract_map_.countP (fun t => decide (p ≤ t.GetInternalPsu))))
    (hnb : ∀ p, p < psus.Size → neighbours.GetValue p = psus.GetValue p)
    (p : Nat) (hp : p < psus.Size) (st : VarState) (bt : BalState)
    (hinv : PhaseInv s categories sorted_cats p st bt) :
    ∃ st' bt', phase s psus categories area sorted_cats st p = .ok st' ∧
      balPhase find s psus categories area neighbours sorted_cats bt p = .ok bt' ∧
      LoopInv s categories sorted_cats p st' bt' := by
  obtain ⟨hcovs, hids, hnil, hcur, hco, hlen, hzero, hcnt, c0, hc0, hr0⟩ := hinv
  have hnd : sorted_cats.Nodup := hperm.nodup_iff.mpr (List.nodup_range _)
  have hlt : ∀ c ∈ sorted_cats, c < s.n_cats_ :=
    fun c hc => List.mem_range.mp (hperm.mem_iff.mp hc)
  have hLnd : (sorted_cats.drop st.first_cat).Nodup := hnd.sublist (List.drop_sublist _ _)
  have hLlt : ∀ c ∈ sorted_cats.drop st.first_cat, c < s.n_cats_ :=
    fun c hc => hlt c (List.mem_of_mem_drop hc)
  have hLfit := tablesFit_cats s.n_cats_ psus categories hfit _ hLlt
  have hLfit' : ∀ c ∈ sorted_cats.drop st.first_cat, ∃ r, categories.GetValue c = .ok r :=
    fun c hc => by obtain ⟨r, hr, _⟩ := hLfit c hc; exact ⟨r, hr⟩
  obtain ⟨hco1, hids1⟩ := prepareIds_coherent s hs p st hco
  obtain ⟨hcv1, hfc1⟩ := prepareIds_frame s p st
  obtain ⟨bcv1, _, _⟩ := balPrepareIds_frame s p bt
  obtain ⟨sids, snil⟩ := prepareIds_sync s p st bt hids hnil
  have hN := hcount p hp
  have hlen1 : (prepareIds s p st).ids.length =
      s.tract_map_.countP (fun t => decide (p ≤ t.GetInternalPsu)) := by
    rw [hids1, List.length_append, hcnt, phaseIds_length, countP_split]
  have hsz : psus.Size > 0 := by omega
  have hlast := advanceLast_eq categories p (sorted_cats.drop st.first_cat) hLfit' st.first_cat
  have hsub : st.first_cat + takeReach categories p (sorted_cats.drop st.first_cat) -
      st.first_cat = takeReach categories p (sorted_cats.drop st.first_cat) :=
    Nat.add_sub_cancel_left _ _
  have hco2 : Coherent s ⟨(prepareIds s p st).sums, (prepareIds s p st).all_nils, st.covs,
      (prepareIds s p st).ids, st.first_cat⟩ := hco1
  have hV := phase_unfold s psus categories area sorted_cats st p _ hN
  by_cases hle : (Dbl.ofNat (s.tract_map_.countP
      (fun t => decide (p ≤ t.GetInternalPsu)))).le 1 = true
  · rw [if_pos hle, nanLoop_eq categories s.n_cats_ p _ hLfit', hcv1, hfc1] at hV
    have hB := balPhase_nan find s psus categories area neighbours sorted_cats bt p _ _ hsz hN
      hle (by rw [← hcur]; exact hlast)
    rw [← hcur, hsub, balNanLoop_eq, ← sids, ← snil, bcv1, ← hcovs] at hB
    exact ⟨_, _, hV, hB,
      loopInv_after s categories sorted_cats hnd hlt p st.first_cat _ _ _ st.covs nanValue
        anyPair hco2 hlen hzero hlen1 c0 hc0 hr0⟩
  · rw [if_neg hle, covLoop_eq s psus categories area p _ _ hLfit, hcv1, hfc1] at hV
    have h2 : 2 ≤ s.tract_map_.countP (fun t => decide (p ≤ t.GetInternalPsu)) := by
      rw [Dbl.le_ofNat_one] at hle; omega
    have hk : neighbours.GetValue p =
        .ok (s.tract_map_.countP (fun t => decide (p ≤ t.GetInternalPsu))) := by
      rw [hnb p hp]; exact hN
    have hscale : balScaleLoop s psus categories area
        (Dbl.ofNat (s.tract_map_.countP (fun t => decide (p ≤ t.GetInternalPsu))))
        (Dbl.ofNat (s.tract_map_.countP (fun t => decide (p ≤ t.GetInternalPsu))))
        (sorted_cats.drop bt.last_cat)
        (st.first_cat + takeReach categories p (sorted_cats.drop st.first_cat) - bt.last_cat)
        ((balPrepareIds s p bt).ids.foldr
          (balTract find s sorted_cats
            ⟨(balPrepareIds s p bt).all_nils, (balPrepareIds s p bt).covs,
              (balPrepareIds s p bt).ids, bt.last_cat,
              st.first_cat + takeReach categories p (sorted_cats.drop st.first_cat)⟩
            (s.tract_map_.countP (fun t => decide (p ≤ t.GetInternalPsu))))
          (balPrepareIds s p bt).covs) =
        .ok ((pairsOf (sorted_cats.drop st.first_cat)
            (takeReach categories p (sorted_cats.drop st.first_cat))).foldl
          (mirrorOp s.n_cats_
            (covValue s psus categories area
              (Dbl.ofNat (s.tract_map_.countP (fun t => decide (p ≤ t.GetInternalPsu))))
              (prepareIds s p st).ids (prepareIds s p st).sums)
            (notNil (prepareIds s p st).all_nils)) st.covs) := by
      rw [← hcur, hsub, balScaleLoop_eq s psus categories area _ _ _ hLfit, balTract_eq]
      dsimp only
      rw [hsub, ← sids, ← snil, bcv1, ← hcovs]
      congr 1
      apply regular_phase_eq s psus categories area _ _ _ _ _ hLnd hLlt _ _ ?_ st.covs hlen
        hzero ?_
      · intro id hid c hc
        have hpm := hfind (prepareIds s p st).ids id hid
        rw [hlen1] at hpm
        rw [neighbourMeans_perm s _ hLnd hLlt _ _ hpm c hc, hlen1, (hco1.2.2 c (hLlt c hc)).1]
      · intro l hl
        obtain ⟨r, hr, hrlt⟩ := hfit.1 l (hLlt l hl)
        obtain ⟨w, hw, hwpos⟩ := ValidPsus_pos psus hvalid r hrlt
        rw [reachOf_eq categories l r hr, sizeAt_eq psus r w hw]
        exact scale_isNum area harea _ w h2 hwpos
    have hB := balPhase_regular find s psus categories area neighbours sorted_cats bt p _ _ _ _
      hsz hN hle (by rw [← hcur]; exact hlast) hk hscale
    rw [← hcur, ← sids, ← snil] at hB
    exact ⟨_, _, hV, hB,
      loopInv_after s categories sorted_cats hnd hlt p st.first_cat _ _ _ st.covs _ _ hco2
        hlen hzero hlen1 c0 hc0 hr0⟩

end TractStore
end Nilsier

namespace Nilsier
namespace TractStore

theorem loop_sim (find : NeighbourIndex) (hfind : WholeSet find) (s : TractStore)
    (hs : s.WF) (psus categories neighbours : KeyValueMap) (area : Dbl) (harea : area.IsNum)
    (sorted_cats : List Nat) (hperm : sorted_cats.Perm (List.range s.n_cats_))
    (hfit : TablesFit s.n_cats_ psus categories) (hvalid : ValidPsus psus)
    (hcount : ∀ p, p < psus.Size →
      psus.GetValue p = .ok (s.tract_map_.countP (fun t => decide (p ≤ t.GetInternalPsu))))
    (hnb : ∀ p, p < psus.Size → neighbours.GetValue p = psus.GetValue p)
    (k : Nat) (hk : k ≤ psus.Size) (st : VarState) (bt : BalState)
    (hinv : LoopInv s categories sorted_cats k st bt) :
    ∃ st' bt',
      (List.range k).reverse.foldlM (phase s psus categories area sorted_cats) st = .ok st' ∧
      (List.range k).reverse.foldlM
        (balPhase find s psus categories area neighbours sorted_cats) bt = .ok bt' ∧
      st'.covs = bt'.covs := by
  induction k generalizing st bt with
  | zero => exact ⟨st, bt, rfl, rfl, hinv⟩
  | succ k ih =>
    have hr : (List.range (k + 1)).reverse = k :: (List.range k).reverse := by
      rw [List.range_succ, List.reverse_append]
      rfl
    obtain ⟨st1, bt1, h1, h2, h3⟩ := phase_sim find hfind s hs psus categories neighbours area
      harea sorted_cats hperm hfit hvalid hcount hnb k (by omega) st bt hinv
    obtain ⟨st2, bt2, g1, g2, g3⟩ := ih (by omega) st1 bt1 h3
    refine ⟨st2, bt2, ?_, ?_, g3⟩
    · rw [hr, List.foldlM_cons, h1]
      exact g1
    · rw [hr, List.foldlM_cons, h2]
      exact g2

/-- With an index that returns the whole id-set, `VarianceBalanced` returns the matrix of
`Variance`. -/
theorem VarianceBalanced_eq (find : NeighbourIndex) (hfind : WholeSet find) (s : TractStore)
    (hs : s.WF) (psus categories neighbours : KeyValueMap) (area : Dbl) (harea : area.IsNum)
    (hfit : TablesFit s.n_cats_ psus categories) (hvalid : ValidPsus psus)
    (hstore : ∀ t ∈ s.tract_map_, t.GetInternalPsu < psus.Size)
    (hcount : ∀ p, p < psus.Size →
      psus.GetValue p = .ok (s.tract_map_.countP (fun t => decide (p ≤ t.GetInternalPsu))))
    (hnb : ∀ p, p < psus.Size → neighbours.GetValue p = psus.GetValue p)
    (hreach : ∃ c, c < s.n_cats_ ∧ categories.GetValue c = .ok 0) :
    ∃ M, s.Variance psus categories area = .ok M ∧
      s.VarianceBalanced find psus categories area neighbours = .ok M := by
  obtain ⟨L, hL⟩ := sortedCats_total categories s.n_cats_
    (fun c hc => by obtain ⟨r, hr, _⟩ := hfit.1 c hc; exact ⟨r, hr⟩)
  have hperm := sortedCats_perm categories _ L hL
  have hlt := sortedCats_lt categories _ L hL
  have hpos : 0 < psus.Size := hvalid.2.1
  obtain ⟨P, hP⟩ : ∃ P, psus.Size = P + 1 := ⟨psus.Size - 1, by omega⟩
  obtain ⟨c0, hc0, hr0⟩ := hreach
  have hinit : LoopInv s categories L (P + 1) (varInit s.n_cats_) (balInit s.n_cats_) := by
    show PhaseInv s categories L P _ _
    refine ⟨rfl, rfl, rfl, rfl, varInit_coherent s, varInit_covs_length _, ?_, ?_, c0, ?_,
      reachOf_eq categories c0 0 hr0⟩
    · intro i j hi hj
      exact cell_zero _ _ _ (hlt i (List.mem_of_mem_drop hi)) (hlt j (List.mem_of_mem_drop hj))
    · symm
      show List.countP _ _ = 0
      rw [List.countP_eq_zero]
      intro t ht
      have := hstore t ht
      simp only [decide_eq_true_eq]
      omega
    · show c0 ∈ L.drop 0
      rw [List.drop_zero]
      exact hperm.mem_iff.mpr (List.mem_range.mpr hc0)
  obtain ⟨st', bt', h1, h2, h3⟩ := loop_sim find hfind s hs psus categories neighbours area
    harea L hperm hfit hvalid hcount hnb (P + 1) (by omega) _ _ hinit
  rw [← hP] at h1 h2
  obtain ⟨v0, hv0⟩ := hfit.2 0 hpos
  refine ⟨st'.covs, ?_, ?_⟩
  · unfold Variance
    rw [hL]
    show VarianceFrom s psus categories area L = _
    unfold VarianceFrom
    rw [h1]
    rfl
  · unfold VarianceBalanced
    rw [hL]
    show VarianceBalancedFrom find s psus categories area neighbours L = _
    unfold VarianceBalancedFrom
    rw [hnb 0 hpos, hv0]
    show ((List.range psus.Size).reverse.foldlM
      (balPhase find s psus categories area neighbours L) (balInit s.n_cats_) >>=
        fun st => pure st.covs) = Except.ok st'.covs
    rw [h2, h3]
    rfl

end TractStore
end Nilsier

namespace Nilsier

theorem otherIds_contract : IndexContract otherIds := by
  intro ids max_size id hnd hid
  unfold otherIds
  have hf : (ids.filter (fun j => j != id)).Nodup := hnd.filter _
  have hlen : (ids.filter (fun j => j != id)).length = ids.length - 1 := by
    rw [← List.Nodup.erase_eq_filter hnd id, List.length_erase_of_mem hid]
  refine ⟨hf.sublist (List.take_sublist _ _), ?_, ?_⟩
  · intro j hj
    have := List.mem_filter.mp (List.mem_of_mem_take hj)
    exact ⟨this.1, by simpa using this.2⟩
  · rw [List.length_take, hlen]

theorem wholeIds_wholeSet : WholeSet wholeIds := fun ids _ _ => List.Perm.refl ids

theorem mixed_fit : TablesFit 2 twoPhasePsus mixedCats := by
  constructor
  · intro c hc
    interval_cases c
    · exact ⟨1, by decide, by decide⟩
    · exact ⟨0, by decide, by decide⟩
  · intro p hp
    have hp : p < 2 := hp
    interval_cases p
    · exact ⟨4, by decide⟩
    · exact ⟨2, by decide⟩

theorem mixed_new :
    TractStore.new [11, 12, 13, 14] [2, 2, 1, 1] 4 twoPhasePsus 2 = .ok mixedFresh := by
  decide!

theorem mixed_reachable : Reachable mixedStore :=
  Reachable.fill mixedFresh mixedStore mixedRows mixedCats 1
    (Reachable.new _ _ _ _ _ _ mixed_new) (by decide!)

theorem mixed_count : ∀ p, p < twoPhasePsus.Size →
    twoPhasePsus.GetValue p =
      .ok (mixedStore.tract_map_.countP (fun t => decide (p ≤ t.GetInternalPsu))) := by
  intro p hp
  have hp : p < 2 := hp
  interval_cases p <;> decide

theorem mixed_neighbours : ∀ p, p < twoPhasePsus.Size →
    twoPhaseNeighbours.GetValue p = twoPhasePsus.GetValue p := by
  intro p hp
  have hp : p < 2 := hp
  interval_cases p <;> decide

end Nilsier

namespace Nilsier

/-! ## Sum -/

theorem Sum_cons (x : Dbl) (vec : List Dbl) :
    Sum (x :: vec) = if x.isnan = true then Sum vec else Sum vec + x := by
  unfold Sum
  rw [List.foldr_cons]
  cases x <;> rfl

theorem Sum_eq_filter (vec : List Dbl) :
    Sum vec = (vec.filter (fun x => !x.isnan)).foldr (fun x tot => tot + x) 0 := by
  induction vec with
  | nil => rfl
  | cons x vec ih =>
    rw [Sum_cons, List.filter_cons]
    cases x with
    | nan => exact ih
    | fin q =>
      show Sum vec + Dbl.fin q = _
      rw [ih]
      rfl

theorem Sum_isNum (vec : List Dbl) : ∃ q : ℚ, Sum vec = Dbl.fin q := by
  induction vec with
  | nil => exact ⟨0, rfl⟩
  | cons x vec ih =>
    obtain ⟨q, hq⟩ := ih
    rw [Sum_cons]
    cases x with
    | nan => exact ⟨q, hq⟩
    | fin r =>
      show ∃ q', Sum vec + Dbl.fin r = Dbl.fin q'
      rw [hq]
      exact ⟨q + r, rfl⟩

theorem Sum_all_nan (vec : List Dbl) (h : ∀ x ∈ vec, x = Dbl.nan) : Sum vec = 0 := by
  induction vec with
  | nil => rfl
  | cons x vec ih =>
    rw [Sum_cons, h x (List.mem_cons_self _ _)]
    exact ih (fun y hy => h y (List.mem_cons_of_mem _ hy))

theorem Ieee.Sum_step (rnd : ℚ → Ieee) (x : Ieee) (vec : List Ieee) :
    Ieee.Sum rnd (x :: vec) =
      if x.isnan = true then Ieee.Sum rnd vec else Ieee.add rnd (Ieee.Sum rnd vec) x := by
  unfold Ieee.Sum
  rw [List.foldr_cons]
  cases x <;> rfl

theorem Ieee.Sum_as_filter (rnd : ℚ → Ieee) (vec : List Ieee) :
    Ieee.Sum rnd vec =
      (vec.filter (fun x => !x.isnan)).foldr (fun x tot => Ieee.add rnd tot x) (Ieee.fin 0) := by
  induction vec with
  | nil => rfl
  | cons x vec ih =>
    rw [Ieee.Sum_step, List.filter_cons]
    cases x with
    | nan => exact ih
    | fin q =>
      show Ieee.add rnd (Ieee.Sum rnd vec) (Ieee.fin q) = _
      rw [ih]
      rfl
    | pinf =>
      show Ieee.add rnd (Ieee.Sum rnd vec) Ieee.pinf = _
      rw [ih]
      rfl
    | ninf =>
      show Ieee.add rnd (Ieee.Sum rnd vec) Ieee.ninf = _
      rw [ih]
      rfl

theorem Ieee.Sum_zero_of_nans (rnd : ℚ → Ieee) (vec : List Ieee)
    (h : ∀ x ∈ vec, x = Ieee.nan) : Ieee.Sum rnd vec = Ieee.fin 0 := by
  induction vec with
  | nil => rfl
  | cons x vec ih =>
    rw [Ieee.Sum_step, h x (List.mem_cons_self _ _)]
    exact ih (fun y hy => h y (List.mem_cons_of_mem _ hy))

/-- With finite entries only, the running total of `Sum` is finite or, after an overflow, an
infinity, and an infinite total stays what it is. -/
theorem Ieee.Sum_finite_entries (rnd : ℚ → Ieee) (hrnd : Ieee.IsRounding rnd)
    (vec : List Ieee) (h : ∀ x ∈ vec, x.isnan = true ∨ x.isFinite = true) :
    Ieee.Sum rnd vec ≠ Ieee.nan := by
  induction vec with
  | nil => intro e; cases e
  | cons x vec ih =>
    have ih' := ih (fun y hy => h y (List.mem_cons_of_mem _ hy))
    rw [Ieee.Sum_step]
    cases x with
    | nan => exact ih'
    | fin q =>
      show Ieee.add rnd (Ieee.Sum rnd vec) (Ieee.fin q) ≠ Ieee.nan
      cases hs : Ieee.Sum rnd vec with
      | fin r => exact hrnd _
      | pinf => intro e; cases e
      | ninf => intro e; cases e
      | nan => exact absurd hs ih'
    | pinf =>
      rcases h Ieee.pinf (List.mem_cons_self _ _) with e | e <;> cases e
    | ninf =>
      rcases h Ieee.ninf (List.mem_cons_self _ _) with e | e <;> cases e

/-- Once the vector holds an infinity, the total of `Sum` is that infinity or NaN. -/
theorem Ieee.Sum_infinite_entry (rnd : ℚ → Ieee) (vec : List Ieee) :
    (Ieee.pinf ∈ vec → Ieee.Sum rnd vec = Ieee.pinf ∨ Ieee.Sum rnd vec = Ieee.nan) ∧
    (Ieee.ninf ∈ vec → Ieee.Sum rnd vec = Ieee.ninf ∨ Ieee.Sum rnd vec = Ieee.nan) := by
  induction vec with
  | nil =>
    exact ⟨fun h => absurd h (List.not_mem_nil _), fun h => absurd h (List.not_mem_nil _)⟩
  | cons x vec ih =>
    obtain ⟨i1, i2⟩ := ih
    rw [Ieee.Sum_step]
    cases x with
    | nan =>
      refine ⟨fun h => ?_, fun h => ?_⟩
      · rcases List.mem_cons.mp h with e | e
        · cases e
        · exact i1 e
      · rcases List.mem_cons.mp h with e | e
        · cases e
        · exact i2 e
    | fin q =>
      show (_ → Ieee.add rnd (Ieee.Sum rnd vec) (Ieee.fin q) = _ ∨
          Ieee.add rnd (Ieee.Sum rnd vec) (Ieee.fin q) = _) ∧
        (_ → Ieee.add rnd (Ieee.Sum rnd vec) (Ieee.fin q) = _ ∨
          Ieee.add rnd (Ieee.Sum rnd vec) (Ieee.fin q) = _)
      refine ⟨fun h => ?_, fun h => ?_⟩
      · rcases List.mem_cons.mp h with e | e
        · cases e
        · rcases i1 e with e1 | e1 <;> rw [e1]
          · exact Or.inl rfl
          · exact Or.inr rfl
      · rcases List.mem_cons.mp h with e | e
        · cases e
        · rcases i2 e with e1 | e1 <;> rw [e1]
          · exact Or.inl rfl
          · exact Or.inr rfl
    | pinf =>
      show (_ → Ieee.add rnd (Ieee.Sum rnd vec) Ieee.pinf = _ ∨
          Ieee.add rnd (Ieee.Sum rnd vec) Ieee.pinf = _) ∧
        (_ → Ieee.add rnd (Ieee.Sum rnd vec) Ieee.pinf = _ ∨
          Ieee.add rnd (Ieee.Sum rnd vec) Ieee.pinf = _)
      refine ⟨fun _ => ?_, fun h => ?_⟩
      · cases Ieee.Sum rnd vec with
        | fin r => exact Or.inl rfl
        | pinf => exact Or.inl rfl
        | ninf => exact Or.inr rfl
        | nan => exact Or.inr rfl
      · rcases List.mem_cons.mp h with e | e
        · cases e
        · rcases i2 e with e1 | e1 <;> rw [e1] <;> exact Or.inr rfl
    | ninf =>
      show (_ → Ieee.add rnd (Ieee.Sum rnd vec) Ieee.ninf = _ ∨
          Ieee.add rnd (Ieee.Sum rnd vec) Ieee.ninf = _) ∧
        (_ → Ieee.add rnd (Ieee.Sum rnd vec) Ieee.ninf = _ ∨
          Ieee.add rnd (Ieee.Sum rnd vec) Ieee.ninf = _)
      refine ⟨fun h => ?_, fun _ => ?_⟩
      · rcases List.mem_cons.mp h with e | e
        · cases e
        · rcases i1 e with e1 | e1 <;> rw [e1] <;> exact Or.inr rfl
      · cases Ieee.Sum rnd vec with
        | fin r => exact Or.inl rfl
        | pinf => exact Or.inr rfl
        | ninf => exact Or.inl rfl
        | nan => exact Or.inr rfl

theorem Ieee.Sum_both_infinities (rnd : ℚ → Ieee) (vec : List Ieee)
    (hp : Ieee.pinf ∈ vec) (hn : Ieee.ninf ∈ vec) : Ieee.Sum rnd vec = Ieee.nan := by
  obtain ⟨i1, i2⟩ := Ieee.Sum_infinite_entry rnd vec
  rcases i1 hp with e1 | e1
  · rcases i2 hn with e2 | e2
    · rw [e1] at e2; cases e2
    · exact e2
  · exact e1

theorem Ieee.overflow_isRounding : Ieee.IsRounding Ieee.overflow := by
  intro q
  unfold Ieee.overflow
  split
  · intro e; cases e
  · split <;> (intro e; cases e)

theorem Ieee.fin_isRounding : Ieee.IsRounding Ieee.fin := by
  intro q e
  cases e

theorem Ieee.Sum_map_toIeee (vec : List Dbl) :
    Ieee.Sum Ieee.fin (vec.map Dbl.toIeee) = (Nilsier.Sum vec).toIeee := by
  induction vec with
  | nil => rfl
  | cons x vec ih =>
    rw [List.map_cons, Ieee.Sum_step, Nilsier.Sum_cons, ih]
    obtain ⟨q, hq⟩ := Nilsier.Sum_isNum vec
    rw [hq]
    cases x <;> rfl

theorem NilsEstimate_sums (a b c : IntegerMatrix) (rows : List PlotRow) (area tract_area : Dbl)
    (res : NilsResult) (h : NilsEstimate a b c rows area tract_area = .ok res) :
    res.estimate = Sum res.cat_estimates ∧ res.variance = Sum res.cat_covmat := by
  unfold NilsEstimate at h
  obtain ⟨psus, -, h⟩ := (bind_eq_ok _ _ _).mp h
  obtain ⟨cats, -, h⟩ := (bind_eq_ok _ _ _).mp h
  obtain ⟨s0, -, h⟩ := (bind_eq_ok _ _ _).mp h
  obtain ⟨s, -, h⟩ := (bind_eq_ok _ _ _).mp h
  obtain ⟨est, -, h⟩ := (bind_eq_ok _ _ _).mp h
  obtain ⟨cov, -, h⟩ := (bind_eq_ok _ _ _).mp h
  cases h
  exact ⟨rfl, rfl⟩

end Nilsier

namespace Nilsier

/-! ## CreateTranslatedKeyValueMap -/

theorem scanKeys_bound (keys : List Int) (e : Int) (fuel i j : Nat)
    (h : KeyValueMap.scanKeys keys e fuel i = .ok j) : i ≤ j ∧ j < i + fuel := by
  induction fuel generalizing i with
  | zero =>
    unfold KeyValueMap.scanKeys at h
    cases h
  | succ fuel ih =>
    unfold KeyValueMap.scanKeys at h
    split at h
    · cases h
    · split at h
      · injection h with h
        omega
      · have := ih (i + 1) h
        omega

theorem KeyValueMap.GetInternalKey_lt (m : KeyValueMap) (e : Int) (i : Nat)
    (h : m.GetInternalKey e = .ok i) : i < m.Size := by
  have := scanKeys_bound _ _ _ _ _ h
  omega

theorem translatedStep_ok (col : List Int) (tm map map' : KeyValueMap) (i : Nat)
    (h : translatedStep col tm map i = .ok map') :
    ∃ x p, col[i]? = some x ∧ tm.GetInternalKey x = .ok p ∧
      map' = { map with values_ := map.values_ ++ [p] } := by
  unfold translatedStep at h
  rw [bind_eq_ok] at h
  obtain ⟨x, hx, h⟩ := h
  rw [bind_eq_ok] at h
  obtain ⟨p, hp, h⟩ := h
  simp only [pure, Except.pure, Except.ok.injEq] at h
  exact ⟨x, p, rd_ok _ _ _ hx, hp, h.symm⟩

theorem translatedFold (col : List Int) (tm map0 : KeyValueMap) (hv0 : map0.values_ = [])
    (k : Nat) (map : KeyValueMap)
    (h : (List.range k).foldlM (translatedStep col tm) map0 = .ok map) :
    map.size_ = map0.size_ ∧ map.keys_ = map0.keys_ ∧ map.values_.length = k ∧
    (∀ i, i < k → ∃ a p, col[i]? = some a ∧ tm.GetInternalKey a = .ok p ∧
      map.values_[i]? = some p) := by
  induction k generalizing map with
  | zero =>
    simp only [List.range_zero, List.foldlM, pure, Except.pure, Except.ok.injEq] at h
    subst h
    exact ⟨rfl, rfl, by rw [hv0]; rfl, fun i hi => absurd hi (Nat.not_lt_zero _)⟩
  | succ k ih =>
    rw [List.range_succ, List.foldlM_append, bind_eq_ok] at h
    obtain ⟨m0, h0, h⟩ := h
    obtain ⟨i1, i2, i3, i4⟩ := ih m0 h0
    rw [List.foldlM_cons, bind_eq_ok] at h
    obtain ⟨m1, h1, h⟩ := h
    simp only [List.foldlM, pure, Except.pure, Except.ok.injEq] at h
    subst h
    obtain ⟨x, p, hx, hp, hm⟩ := translatedStep_ok col tm m0 m1 k h1
    subst hm
    refine ⟨i1, i2, by simp [i3], ?_⟩
    intro i hi
    show ∃ a q, col[i]? = some a ∧ tm.GetInternalKey a = .ok q ∧
      (m0.values_ ++ [p])[i]? = some q
    by_cases hik : i < k
    · obtain ⟨a, q, ha, hq, hva⟩ := i4 i hik
      refine ⟨a, q, ha, hq, ?_⟩
      rw [List.getElem?_append_left (by omega), hva]
    · have : i = k := by omega
      subst this
      refine ⟨x, p, hx, hp, ?_⟩
      rw [List.getElem?_append_right (by omega), i3]
      simp

theorem CreateTranslatedKeyValueMap_ok (mat : IntegerMatrix) (hshape : mat.Shaped)
    (tm map : KeyValueMap) (h : CreateTranslatedKeyValueMap mat tm = .ok map) :
    1 ≤ mat.nrow ∧ 2 ≤ mat.ncol ∧ map.size_ = mat.nrow ∧ map.keys_ = mat.data ∧
    map.values_.length = mat.nrow ∧
    (∀ i, i < mat.nrow → ∃ p, tm.GetInternalKey (mat.at i 1) = .ok p ∧
      map.values_[i]? = some p) := by
  unfold CreateTranslatedKeyValueMap at h
  dsimp only at h
  rw [bind_eq_ok] at h
  obtain ⟨map0, hmap0, h⟩ := h
  unfold KeyValueMap.new at hmap0
  split at hmap0
  · cases hmap0
  · injection hmap0 with hmap0
    subst hmap0
    split at h
    · cases h
    · rename_i hrow
      split at h
      · cases h
      · rename_i hcol
        obtain ⟨i1, i2, i3, i4⟩ := translatedFold _ _ _ rfl mat.nrow map h
        refine ⟨by omega, by omega, i1, i2, i3, ?_⟩
        intro i hi
        obtain ⟨a, p, ha, hp, hv⟩ := i4 i hi
        have hc := (col_getElem? mat hshape 1 i (by omega) hi).2
        rw [Nat.mul_one] at hc
        rw [hc] at ha
        injection ha with ha
        subst ha
        exact ⟨p, hp, hv⟩

theorem CreateTranslatedKeyValueMap_stored (mat : IntegerMatrix) (hshape : mat.Shaped)
    (tm map : KeyValueMap) (h : CreateTranslatedKeyValueMap mat tm = .ok map) :
    map.Stored := by
  obtain ⟨h1, h2, h3, h4, h5, -⟩ := CreateTranslatedKeyValueMap_ok mat hshape tm map h
  unfold KeyValueMap.Stored
  unfold IntegerMatrix.Shaped at hshape
  rw [h3, h4, h5, hshape]
  refine ⟨?_, rfl⟩
  calc mat.nrow = mat.nrow * 1 := (Nat.mul_one _).symm
    _ ≤ mat.nrow * mat.ncol := Nat.mul_le_mul_left _ (by omega)

theorem CreatePsuKeyValueMap_stored (mat : IntegerMatrix) (hshape : mat.Shaped)
    (psus : KeyValueMap) (h : CreatePsuKeyValueMap mat = .ok psus) : psus.Stored := by
  obtain ⟨h1, h2, -, -, h3, h4, h5, -⟩ := CreatePsuKeyValueMap_ok mat hshape psus h
  unfold KeyValueMap.Stored
  unfold IntegerMatrix.Shaped at hshape
  rw [h3, h4, h5, hshape]
  refine ⟨?_, rfl⟩
  calc mat.nrow = mat.nrow * 1 := (Nat.mul_one _).symm
    _ ≤ mat.nrow * mat.ncol := Nat.mul_le_mul_left _ (by omega)

/-- The tables that `CreatePsuKeyValueMap` and `CreateTranslatedKeyValueMap` build fit a store
of `categories.Size()` categories. -/
theorem created_tables_fit (mat_psu mat_cat : IntegerMatrix) (hp : mat_psu.Shaped)
    (hc : mat_cat.Shaped) (psus categories : KeyValueMap)
    (hpsus : CreatePsuKeyValueMap mat_psu = .ok psus)
    (hcats : CreateTranslatedKeyValueMap mat_cat psus = .ok categories) :
    (∀ c, c < categories.Size → ∃ r, psus.GetInternalKey (mat_cat.at c 1) = .ok r ∧
      categories.GetValue c = .ok r ∧ r < psus.Size) ∧
    TablesFit categories.Size psus categories := by
  have sp := CreatePsuKeyValueMap_stored mat_psu hp psus hpsus
  have sc := CreateTranslatedKeyValueMap_stored mat_cat hc psus categories hcats
  obtain ⟨-, -, h3, -, h5, h6⟩ := CreateTranslatedKeyValueMap_ok mat_cat hc psus categories hcats
  have key : ∀ c, c < categories.Size → ∃ r, psus.GetInternalKey (mat_cat.at c 1) = .ok r ∧
      categories.GetValue c = .ok r ∧ r < psus.Size := by
    intro c hcl
    have hcl' : c < categories.size_ := hcl
    obtain ⟨p, hp1, hp2⟩ := h6 c (by omega)
    refine ⟨p, hp1, ?_, KeyValueMap.GetInternalKey_lt _ _ _ hp1⟩
    rw [KeyValueMap.GetValue_eq _ sc, if_pos hcl', getD_of_getElem? _ _ _ _ hp2]
  refine ⟨key, ?_, ?_⟩
  · intro c hcl
    obtain ⟨r, -, h1, h2⟩ := key c hcl
    exact ⟨r, h1, h2⟩
  · intro p hpl
    have hpl' : p < psus.size_ := hpl
    exact ⟨_, by rw [KeyValueMap.GetValue_eq _ sp, if_pos hpl']⟩

/-! ## Stores filled with one category table -/

theorem FilledFrom_reachable (psus categories : KeyValueMap) (n : Nat) (s : TractStore)
    (h : FilledFrom psus categories n s) : Reachable s := by
  induction h with
  | new a b c s h => exact Reachable.new _ _ _ _ _ _ h
  | fill s s' data ta _ h ih => exact Reachable.fill _ _ _ _ _ ih h

namespace TractStore

theorem Fill_n_cats (categories : KeyValueMap) (tract_area : Dbl) (data : List PlotRow)
    (s s' : TractStore) (h : s.Fill data categories tract_area = .ok s') :
    s'.n_cats_ = s.n_cats_ ∧ s'.tract_map_.length = s.tract_map_.length := by
  unfold TractStore.Fill at h
  exact foldlM_inv
    (fun x : TractStore => x.n_cats_ = s.n_cats_ ∧ x.tract_map_.length = s.tract_map_.length)
    _ data
    (fun b a b' _ hb hf => by
      obtain ⟨f1, -, f3⟩ := FillRow_frame _ _ _ _ _ hf
      exact ⟨f1.trans hb.1, f3.trans hb.2⟩) s s' ⟨rfl, rfl⟩ h

theorem FilledFrom_n_cats (psus categories : KeyValueMap) (n : Nat) (s : TractStore)
    (h : FilledFrom psus categories n s) : s.n_cats_ = n := by
  induction h with
  | new a b c s h => exact (new_ok _ _ _ _ _ _ h).1
  | fill s s' data ta _ h ih => exact (Fill_n_cats _ _ _ _ _ h).1.trans ih

/-- The outcome of one row of `Fill` on a store whose tracts have one value per category of the
table: the row is processed, or its category id is not in the table. -/
theorem FillRow_outcome (categories : KeyValueMap) (hst : categories.Stored)
    (tract_area : Dbl) (s : TractStore) (hs : s.WF) (hn : s.n_cats_ = categories.Size)
    (row : PlotRow) :
    (∃ s', FillRow categories tract_area s row = .ok s') ∨
    (FillRow categories tract_area s row = .error .range_error ∧
      categories.GetInternalKey row.cat = .error .range_error) := by
  unfold FillRow
  split
  · exact Or.inl ⟨s, rfl⟩
  · split
    · exact Or.inl ⟨s, rfl⟩
    · rename_i ptr hptr
      rcases KeyValueMap.GetInternalKey_cases categories hst row.cat with ⟨c, hc⟩ | he
      · have hcl : c < categories.size_ := KeyValueMap.GetInternalKey_lt _ _ _ hc
        have hv : categories.GetValue c = .ok (categories.values_.getD c 0) := by
          rw [KeyValueMap.GetValue_eq _ hst, if_pos hcl]
        left
        rw [hc]
        show ∃ s', (categories.GetValue c >>= _) = .ok s'
        rw [hv]
        show ∃ s' : TractStore,
          (if (s.FindInternal ptr).GetInternalPsu < categories.values_.getD c 0 then _ else _) =
            Except.ok s'
        split
        · exact ⟨s, rfl⟩
        · obtain ⟨t, ht, -⟩ := hs.2.2 row.id ptr hptr
          have hft := FindInternal_of_getElem? s ptr t ht
          have hlen : t.values_.length = s.n_cats_ := hs.1 t (List.getElem?_mem ht)
          have hcv : c < t.values_.length := by
            rw [hlen, hn]
            exact hcl
          rw [hft]
          unfold Tract.Add
          rw [List.getElem?_eq_getElem hcv]
          exact ⟨_, rfl⟩
      · right
        rw [he]
        exact ⟨rfl, rfl⟩

theorem Fill_outcome (categories : KeyValueMap) (hst : categories.Stored)
    (tract_area : Dbl) (data : List PlotRow) (s : TractStore) (hs : s.WF)
    (hn : s.n_cats_ = categories.Size) :
    (∃ s', s.Fill data categories tract_area = .ok s') ∨
    (s.Fill data categories tract_area = .error .range_error ∧
      ∃ row ∈ data, categories.GetInternalKey row.cat = .error .range_error) := by
  unfold TractStore.Fill
  induction data generalizing s with
  | nil => exact Or.inl ⟨s, rfl⟩
  | cons row data ih =>
    rw [List.foldlM_cons]
    rcases FillRow_outcome categories hst tract_area s hs hn row with ⟨s1, h1⟩ | ⟨h1, h2⟩
    · rw [h1]
      have hs1 := FillRow_WF _ _ _ _ _ hs h1
      have hn1 : s1.n_cats_ = categories.Size := (FillRow_frame _ _ _ _ _ h1).1.trans hn
      rcases ih s1 hs1 hn1 with h | ⟨h, r, hr, hr2⟩
      · exact Or.inl h
      · exact Or.inr ⟨h, r, List.mem_cons_of_mem _ hr, hr2⟩
    · rw [h1]
      exact Or.inr ⟨rfl, row, List.mem_cons_self _ _, h2⟩

theorem mixed_filled : FilledFrom twoPhasePsus mixedCats 2 mixedStore :=
  FilledFrom.fill mixedFresh mixedStore mixedRows 1
    (FilledFrom.new _ _ _ _ mixed_new) (by decide!)

end TractStore

end Nilsier

namespace Nilsier
namespace TractStore

/-! ## The invariants of ingestion -/

theorem fresh_withinReach (categories : KeyValueMap) (s : TractStore) (hs : s.Fresh) :
    WithinReach categories s := by
  intro t ht c hne
  exfalso
  apply hne
  unfold Tract.Get
  rw [(hs t ht).1]
  exact getD_replicate_self _ _ _

theorem FillRow_withinReach (categories : KeyValueMap) (tract_area : Dbl) (s s' : TractStore)
    (row : PlotRow) (hwf : s.WF) (hs : WithinReach categories s)
    (h : FillRow categories tract_area s row = .ok s') : WithinReach categories s' := by
  rcases FillRow_ok categories tract_area s s' row h with e | ⟨ptr, c, p, t', -, hptr, -, hp,
    hpsu, hadd, e⟩
  · rw [e]; exact hs
  · subst e
    obtain ⟨t0, ht0, -⟩ := hwf.2.2 row.id ptr hptr
    have hf := FindInternal_of_getElem? s ptr t0 ht0
    rw [hf] at hadd hpsu
    have hm0 : t0 ∈ s.tract_map_ := List.getElem?_mem ht0
    obtain ⟨-, hv, -, hpsu', -, -⟩ := Tract.Add_ok _ _ _ _ hadd
    intro t ht c' hne
    rcases mem_set_cases _ _ _ _ ht with hm | e
    · exact hs t hm c' hne
    · subst e
      have epsu : t.GetInternalPsu = t0.GetInternalPsu := hpsu'
      rw [epsu]
      by_cases hcc : c = c'
      · subst hcc
        exact ⟨p, hp, by omega⟩
      · apply hs t0 hm0 c'
        intro h0
        apply hne
        unfold Tract.Get
        rw [hv, getD_set_ne _ _ _ _ _ hcc]
        exact h0

theorem FillRow_psuBound (categories : KeyValueMap) (tract_area : Dbl) (s s' : TractStore)
    (row : PlotRow) (hwf : s.WF) (P : Nat) (hs : ∀ t ∈ s.tract_map_, t.GetInternalPsu < P)
    (h : FillRow categories tract_area s row = .ok s') :
    ∀ t ∈ s'.tract_map_, t.GetInternalPsu < P := by
  rcases FillRow_ok categories tract_area s s' row h with e | ⟨ptr, c, p, t', -, hptr, -, hp,
    hpsu, hadd, e⟩
  · rw [e]; exact hs
  · subst e
    obtain ⟨t0, ht0, -⟩ := hwf.2.2 row.id ptr hptr
    have hf := FindInternal_of_getElem? s ptr t0 ht0
    rw [hf] at hadd
    have hm0 : t0 ∈ s.tract_map_ := List.getElem?_mem ht0
    obtain ⟨-, -, -, hpsu', -, -⟩ := Tract.Add_ok _ _ _ _ hadd
    intro t ht
    rcases mem_set_cases _ _ _ _ ht with hm | e
    · exact hs t hm
    · subst e
      have epsu : t.GetInternalPsu = t0.GetInternalPsu := hpsu'
      rw [epsu]
      exact hs t0 hm0

theorem new_psuBound (tract_ids tract_external_psus : List Int) (n_tracts : Nat)
    (psus : KeyValueMap) (n_cats : Nat) (s : TractStore)
    (h : TractStore.new tract_ids tract_external_psus n_tracts psus n_cats = .ok s) :
    ∀ t ∈ s.tract_map_, t.GetInternalPsu < psus.Size := by
  obtain ⟨-, -, hlen, hall, -⟩ := new_ok_full _ _ _ _ _ _ h
  intro t ht
  obtain ⟨i, hi⟩ := List.mem_iff_getElem?.mp ht
  have hlt : i < s.tract_map_.length := by
    by_contra hc
    rw [List.getElem?_eq_none (by omega)] at hi
    cases hi
  obtain ⟨p, hp, hti⟩ := hall i (by omega)
  rw [hti] at hi
  injection hi with hi
  subst hi
  exact KeyValueMap.GetInternalKey_lt _ _ _ hp

/-- A store filled with one category table is well formed, its non-zero values lie within the
reach of their categories, and its tracts lie in phases of the PSU table. -/
theorem FilledFrom_inv (psus categories : KeyValueMap) (n : Nat) (s : TractStore)
    (h : FilledFrom psus categories n s) :
    s.WF ∧ WithinReach categories s ∧ ∀ t ∈ s.tract_map_, t.GetInternalPsu < psus.Size := by
  induction h with
  | new a b c s h =>
    obtain ⟨-, -, hf, hwf, -⟩ := new_ok _ _ _ _ _ _ h
    exact ⟨hwf, fresh_withinReach categories s hf, new_psuBound _ _ _ _ _ _ h⟩
  | fill s s' data ta _ h ih =>
    unfold TractStore.Fill at h
    exact foldlM_inv
      (fun x : TractStore => x.WF ∧ WithinReach categories x ∧
        ∀ t ∈ x.tract_map_, t.GetInternalPsu < psus.Size)
      _ data
      (fun b a b' _ hb hf =>
        ⟨FillRow_WF _ _ _ _ _ hb.1 hf, FillRow_withinReach _ _ _ _ _ hb.1 hb.2.1 hf,
          FillRow_psuBound _ _ _ _ _ hb.1 _ hb.2.2 hf⟩) s s' ih h

end TractStore
end Nilsier

namespace Nilsier
namespace TractStore

/-! ## The ids and sums of Variance from phase to phase -/

theorem phase_coherent (s : TractStore) (hs : s.WF) (psus categories : KeyValueMap)
    (area : Dbl) (sorted_cats : List Nat) (hfit : TablesFit s.n_cats_ psus categories)
    (hcats : ∀ c ∈ sorted_cats, c < s.n_cats_) (st : VarState) (hst : Coherent s st)
    (p : Nat) (hp : p < psus.Size) :
    ∃ st', phase s psus categories area sorted_cats st p = .ok st' ∧ Coherent s st' ∧
      st'.ids = st.ids ++ phaseIds s p := by
  obtain ⟨v, hv⟩ := hfit.2 p hp
  obtain ⟨hco, hids⟩ := prepareIds_coherent s hs p st hst
  have hL := tablesFit_cats s.n_cats_ psus categories hfit (sorted_cats.drop st.first_cat)
    (fun c hc => hcats c (List.mem_of_mem_drop hc))
  rw [phase_unfold s psus categories area sorted_cats st p v hv]
  split
  · rw [nanLoop_eq categories s.n_cats_ p _ (fun c hc => by
      obtain ⟨r, hr, -⟩ := hL c hc
      exact ⟨r, hr⟩)]
    exact ⟨_, rfl, hco, hids⟩
  · rw [covLoop_eq s psus categories area p _ _ hL]
    exact ⟨_, rfl, hco, hids⟩

theorem phases_coherent (s : TractStore) (hs : s.WF) (psus categories : KeyValueMap)
    (area : Dbl) (sorted_cats : List Nat) (hfit : TablesFit s.n_cats_ psus categories)
    (hcats : ∀ c ∈ sorted_cats, c < s.n_cats_) (L : List Nat)
    (hL : ∀ p ∈ L, p < psus.Size) (st : VarState) (hst : Coherent s st) :
    ∃ st', L.foldlM (phase s psus categories area sorted_cats) st = .ok st' ∧
      Coherent s st' ∧ st'.ids = st.ids ++ idsOfPhases s L := by
  induction L generalizing st with
  | nil => exact ⟨st, rfl, hst, by simp [idsOfPhases]⟩
  | cons p L ih =>
    obtain ⟨st1, h1, hco1, hids1⟩ := phase_coherent s hs psus categories area sorted_cats hfit
      hcats st hst p (hL p (List.mem_cons_self _ _))
    obtain ⟨st2, h2, hco2, hids2⟩ := ih (fun q hq => hL q (List.mem_cons_of_mem _ hq)) st1 hco1
    refine ⟨st2, ?_, hco2, ?_⟩
    · rw [List.foldlM_cons, h1]
      exact h2
    · rw [hids2, hids1, List.append_assoc]
      rfl

theorem mem_phaseIds (s : TractStore) (p i : Nat) :
    i ∈ phaseIds s p ↔ i < s.Size ∧ (s.FindInternal i).GetInternalPsu = p := by
  unfold phaseIds
  rw [List.mem_reverse, List.mem_map]
  constructor
  · rintro ⟨q, hq, rfl⟩
    rw [List.mem_filter] at hq
    have hq1 := enum_getElem? _ q hq.1
    have hlt : q.1 < s.tract_map_.length := by
      by_contra hc
      rw [List.getElem?_eq_none (by omega)] at hq1
      cases hq1
    refine ⟨hlt, ?_⟩
    rw [FindInternal_of_getElem? s q.1 q.2 hq1]
    simpa using hq.2
  · rintro ⟨hlt, hpsu⟩
    have hlt' : i < s.tract_map_.length := hlt
    have hi : s.tract_map_[i]? = some (s.tract_map_[i]) := List.getElem?_eq_getElem hlt'
    refine ⟨(i, s.tract_map_[i]), ?_, rfl⟩
    rw [List.mem_filter]
    refine ⟨?_, ?_⟩
    · exact List.mk_mem_enum_iff_getElem?.mpr hi
    · rw [← FindInternal_of_getElem? s i _ hi]
      simpa using hpsu

theorem phaseIds_nodup (s : TractStore) (p : Nat) : (phaseIds s p).Nodup := by
  unfold phaseIds
  rw [List.nodup_reverse]
  have hsub : ((s.tract_map_.enum.filter (fun q => q.2.GetInternalPsu == p)).map
      (fun q => q.1)).Sublist (s.tract_map_.enum.map (fun q => q.1)) :=
    (List.filter_sublist _).map _
  have hnd : (s.tract_map_.enum.map (fun q => q.1)).Nodup := by
    have e : s.tract_map_.enum.map (fun q => q.1) = List.range s.tract_map_.length :=
      List.enum_map_fst _
    rw [e]
    exact List.nodup_range _
  exact hnd.sublist hsub

theorem idsOfPhases_spec (s : TractStore) (L : List Nat) (hL : L.Nodup) :
    (idsOfPhases s L).Nodup ∧
    ∀ i, i ∈ idsOfPhases s L ↔ i < s.Size ∧ (s.FindInternal i).GetInternalPsu ∈ L := by
  induction L with
  | nil =>
    refine ⟨List.nodup_nil, ?_⟩
    intro i
    simp [idsOfPhases]
  | cons p L ih =>
    obtain ⟨hp, hL'⟩ := List.nodup_cons.mp hL
    obtain ⟨i1, i2⟩ := ih hL'
    have hmem : ∀ i, i ∈ idsOfPhases s (p :: L) ↔
        i < s.Size ∧ (s.FindInternal i).GetInternalPsu ∈ p :: L := by
      intro i
      show i ∈ phaseIds s p ++ idsOfPhases s L ↔ _
      rw [List.mem_append, mem_phaseIds, i2, List.mem_cons]
      constructor
      · rintro (⟨h1, h2⟩ | ⟨h1, h2⟩)
        · exact ⟨h1, Or.inl h2⟩
        · exact ⟨h1, Or.inr h2⟩
      · rintro ⟨h1, h2 | h2⟩
        · exact Or.inl ⟨h1, h2⟩
        · exact Or.inr ⟨h1, h2⟩
    refine ⟨?_, hmem⟩
    show (phaseIds s p ++ idsOfPhases s L).Nodup
    rw [List.nodup_append]
    refine ⟨phaseIds_nodup s p, i1, ?_⟩
    intro i h1 h2
    rw [mem_phaseIds] at h1
    rw [i2] at h2
    rw [h1.2] at h2
    exact hp h2.2

/-! ## The phases before a phase -/

theorem phases_split (P r : Nat) (hr : r < P) :
    (List.range P).reverse = phasesBefore P r ++ r :: (List.range r).reverse ∧
    (phasesBefore P r).Nodup ∧ ∀ p, p ∈ phasesBefore P r ↔ r < p ∧ p < P := by
  have hP : P = (r + 1) + (P - 1 - r) := by omega
  have hsplit : List.range P =
      List.range r ++ r :: (List.range (P - 1 - r)).map (fun j => r + 1 + j) := by
    conv_lhs => rw [hP]
    rw [List.range_add, List.range_succ, List.append_assoc]
    rfl
  have hrev : (List.range P).reverse =
      ((List.range (P - 1 - r)).map (fun j => r + 1 + j)).reverse ++
        r :: (List.range r).reverse := by
    rw [hsplit, List.reverse_append, List.reverse_cons, List.append_assoc]
    rfl
  have hX : phasesBefore P r = ((List.range (P - 1 - r)).map (fun j => r + 1 + j)).reverse := by
    unfold phasesBefore
    rw [hrev]
    apply List.take_left'
    simp
  rw [hX]
  refine ⟨hrev, ?_, ?_⟩
  · have hnd : (List.range P).reverse.Nodup := List.nodup_reverse.mpr (List.nodup_range _)
    rw [hrev] at hnd
    exact (List.nodup_append.mp hnd).1
  · intro p
    rw [List.mem_reverse, List.mem_map]
    constructor
    · rintro ⟨j, hj, rfl⟩
      have := List.mem_range.mp hj
      omega
    · rintro ⟨h1, h2⟩
      exact ⟨p - (r + 1), List.mem_range.mpr (by omega), by omega⟩

/-! ## Sums that leave out zeros -/

theorem Dbl.sum_filter_zero {α : Type} (f : α → Dbl) (q : α → Bool) (l : List α)
    (h : ∀ x ∈ l, q x = false → f x = 0) :
    Dbl.sum ((l.filter q).map f) = Dbl.sum (l.map f) := by
  induction l with
  | nil => rfl
  | cons x l ih =>
    have ih' := ih (fun y hy => h y (List.mem_cons_of_mem _ hy))
    rw [List.filter_cons]
    cases hq : q x with
    | true =>
      simp only [if_true, List.map_cons]
      rw [Dbl.sum_cons, Dbl.sum_cons, ih']
    | false =>
      simp only [Bool.false_eq_true, if_false, List.map_cons]
      rw [Dbl.sum_cons, h x (List.mem_cons_self _ _) hq, Dbl.zero_add', ih']

end TractStore
end Nilsier

namespace Nilsier
namespace TractStore

/-! ## The sum of a category over the tracts of its reach -/

theorem catTotal_eq_all (s : TractStore) (hs : s.WF) (c : Nat) :
    catTotal s c = Dbl.sum (s.tract_map_.map (fun t => t.Get c)) := by
  unfold catTotal
  apply Dbl.sum_filter_zero
  intro t ht hq
  exact Get_zero_of_not_nonnil s hs t ht hq c

theorem sumOver_reach (categories : KeyValueMap) (s : TractStore) (hs : s.WF)
    (hin : WithinReach categories s) (c r : Nat) (hr : categories.GetValue c = .ok r)
    (ids : List Nat) (hnd : ids.Nodup)
    (hmem : ∀ i, i ∈ ids ↔ i < s.Size ∧ r ≤ (s.FindInternal i).GetInternalPsu) :
    sumOver s ids c = catTotal s c := by
  have hperm : ids.Perm ((List.range s.Size).filter
      (fun i => decide (r ≤ (s.FindInternal i).GetInternalPsu))) := by
    rw [List.perm_ext_iff_of_nodup hnd ((List.nodup_range _).filter _)]
    intro i
    rw [hmem, List.mem_filter, List.mem_range, decide_eq_true_eq]
  unfold sumOver
  rw [Dbl.foldl_add_eq_sum (fun id => (s.FindInternal id).Get c),
    Dbl.sum_perm _ _ (hperm.map _),
    Dbl.sum_filter_zero (fun id => (s.FindInternal id).Get c) _ (List.range s.Size),
    map_range_FindInternal s (fun t => t.Get c), catTotal_eq_all s hs c]
  intro i hi hq
  have hlt : i < s.Size := List.mem_range.mp hi
  have hq' : ¬ r ≤ (s.FindInternal i).GetInternalPsu := by simpa using hq
  by_contra hne
  obtain ⟨r', h1, h2⟩ := hin _ (FindInternal_mem s i hlt) c hne
  rw [hr] at h1
  injection h1 with h1
  omega

end TractStore
end Nilsier

namespace Nilsier
namespace TractStore

/-! ## Claims -/

/-- C1: for every store state (in particular every state reached by the constructor followed by
`Fill`), every PSU table, category table and area, the matrix `M` returned by
`TractStore::Variance` has `n_cats * n_cats` cells and `M[i * n_cats + j] = M[j * n_cats + i]`
for all category indices `i, j`, a NaN cell being equal to a NaN cell; and `Variance` does return
a matrix whenever the tables fit the store. -/
theorem Variance_symmetric (s : TractStore) (psus categories : KeyValueMap) (area : Dbl) :
    (TablesFit s.n_cats_ psus categories → ∃ M, s.Variance psus categories area = .ok M) ∧
    ∀ M, s.Variance psus categories area = .ok M → IsSymmetric s.n_cats_ M :=
  ⟨fun hfit => Variance_total s psus categories area hfit,
    fun M h => Variance_ok_symmetric s psus categories area M h⟩

/-- Witness of C1: the three-phase store, whose matrix has NaN cells and numbers. -/
theorem Variance_symmetric_witness :
    TablesFit threePhaseStore.n_cats_ threePhasePsus threePhaseCats ∧
    (∃ M, threePhaseStore.Variance threePhasePsus threePhaseCats 1 = .ok M) ∧
    IsSymmetric threePhaseStore.n_cats_
      [Dbl.fin (4 / 9), Dbl.nan, Dbl.fin (-4 / 3), Dbl.nan, Dbl.nan, Dbl.nan,
        Dbl.fin (-4 / 3), Dbl.nan, Dbl.fin 4] :=
  ⟨threePhase_fit,
    (Variance_symmetric threePhaseStore threePhasePsus threePhaseCats 1).1 threePhase_fit,
    (Variance_symmetric threePhaseStore threePhasePsus threePhaseCats 1).2 _ (by decide!)⟩

/-- C2, evaluated at the failing input: PSU table `[(1, 4), (2, 2)]`, category table
`[(100, 2)]`, tracts 11 and 12 in phase 2 and 13 and 14 in phase 1, one row giving 2 to tract 11,
tract area 1, area 1.  The input is valid and the store is the one the constructor and `Fill`
build.  The category is resolved at phase index 1, where its cell becomes 1, the value of the
formula of the claim, and the cursor `first_cat` stays at 0 because the category loop ends without
a `break`; the category is then processed again at phase index 0, and `Variance`, so
`NilsEstimate`, returns `(1 + 3) * (1 / 6) = 2 / 3`. -/
theorem Variance_reprocesses_resolved_category :
    CreatePsuKeyValueMap ⟨2, 2, [1, 2, 4, 2]⟩ = .ok twoPhasePsus ∧
    CreateTranslatedKeyValueMap ⟨1, 2, [100, 2]⟩ twoPhasePsus = .ok deepCats ∧
    (TractStore.new [11, 12, 13, 14] [2, 2, 1, 1] 4 twoPhasePsus 1 >>= fun s =>
      s.Fill [⟨11, 100, 1, Dbl.fin 2⟩] deepCats 1) = .ok twoPhaseStore ∧
    (phase twoPhaseStore twoPhasePsus deepCats 1 [0] (varInit 1) 1 >>= fun st =>
      pure (st.covs, st.first_cat)) = .ok ([Dbl.fin 1], 0) ∧
    twoPhaseStore.Variance twoPhasePsus deepCats 1 = .ok [Dbl.fin (2 / 3)] ∧
    specCovariance twoPhaseStore twoPhasePsus deepCats 1 0 0 = .ok (Dbl.fin 1) ∧
    NilsEstimate ⟨2, 2, [1, 2, 4, 2]⟩ ⟨1, 2, [100, 2]⟩ ⟨4, 2, [11, 12, 13, 14, 2, 2, 1, 1]⟩
        [⟨11, 100, 1, Dbl.fin 2⟩] 1 1 =
      .ok { estimate := Dbl.fin 1, variance := Dbl.fin (2 / 3), cat_estimates := [Dbl.fin 1],
            cat_covmat := [Dbl.fin (2 / 3)], nonnil_tracts := 1,
            positive_tracts_per_cat := [1] } := by
  refine ⟨by decide, by decide, by decide!, by decide!, by decide!, by decide!, by decide!⟩

/-- C3: when the deepest phase `p = psus.Size() - 1` of the PSU table has population size at most
1 and the tables fit the store, `TractStore::Variance` returns a matrix in which, for every
category `k` whose reach is at least `p` and every category `l`, the cells `M[k][l]` and `M[l][k]`
(the diagonal cell included) are NaN, whatever the tracts hold; with a single phase every cell of
the matrix is NaN. -/
theorem Variance_nan_of_degenerate_deepest_phase (s : TractStore) (psus categories : KeyValueMap)
    (area : Dbl) (v : Nat) (hdeep : psus.GetValue (psus.Size - 1) = .ok v) (hv : v ≤ 1)
    (hfit : TablesFit s.n_cats_ psus categories) :
    ∃ M, s.Variance psus categories area = .ok M ∧
      (∀ k r l, k < s.n_cats_ → l < s.n_cats_ → categories.GetValue k = .ok r →
        psus.Size - 1 ≤ r →
        cell s.n_cats_ M k l = Dbl.nan ∧ cell s.n_cats_ M l k = Dbl.nan) ∧
      (psus.Size = 1 → ∀ i j, i < s.n_cats_ → j < s.n_cats_ → cell s.n_cats_ M i j = Dbl.nan) := by
  obtain ⟨M, hM⟩ := Variance_total s psus categories area hfit
  have hM' := hM
  unfold Variance at hM'
  rw [bind_eq_ok] at hM'
  obtain ⟨l, hl, hfrom⟩ := hM'
  have hrows := VarianceFrom_nanrows s psus categories area l (sortedCats_perm _ _ l hl)
    (sortedCats_sorted _ _ l hl) v hdeep hv M hfrom
  refine ⟨M, hM, ?_, ?_⟩
  · intro k r l' hk hl' hr hreach
    have hK : psus.Size - 1 ≤ reachOf categories k := by
      rw [reachOf_eq categories k r hr]; exact hreach
    exact ⟨hrows.2 k l' hk hl' (Or.inl hK), hrows.2 l' k hl' hk (Or.inr hK)⟩
  · intro hone i j hi hj
    refine hrows.2 i j hi hj (Or.inl ?_)
    rw [hone]
    exact Nat.zero_le _

/-- Witness of C3: the PSU table `[(1, 3), (2, 2), (3, 1)]`, whose deepest phase has size 1. -/
theorem Variance_nan_of_degenerate_deepest_phase_witness :
    threePhasePsus.GetValue (threePhasePsus.Size - 1) = .ok 1 ∧
    TablesFit threePhaseStore.n_cats_ threePhasePsus threePhaseCats ∧
    ∃ M, threePhaseStore.Variance threePhasePsus threePhaseCats 1 = .ok M ∧
      (∀ k r l, k < threePhaseStore.n_cats_ → l < threePhaseStore.n_cats_ →
        threePhaseCats.GetValue k = .ok r → threePhasePsus.Size - 1 ≤ r →
        cell threePhaseStore.n_cats_ M k l = Dbl.nan ∧
          cell threePhaseStore.n_cats_ M l k = Dbl.nan) ∧
      (threePhasePsus.Size = 1 → ∀ i j, i < threePhaseStore.n_cats_ →
        j < threePhaseStore.n_cats_ → cell threePhaseStore.n_cats_ M i j = Dbl.nan) :=
  ⟨by decide, threePhase_fit,
    Variance_nan_of_degenerate_deepest_phase threePhaseStore threePhasePsus threePhaseCats 1 1
      (by decide) (by decide) threePhase_fit⟩

/-- C4 as stated fails: a plot row whose value is NaN is accepted by `Fill`, and `CatEstimates`
then returns NaN for category 100 although the population size of its phase is 4. -/
theorem CatEstimates_nan_with_positive_size :
    TractStore.new [1, 2, 3, 4] [10, 10, 10, 10] 4 onePhasePsus 1 = .ok onePhaseFresh ∧
    (onePhaseFresh.Fill [⟨1, 100, 1, Dbl.nan⟩] onePhaseCats 1 >>= fun s =>
      s.CatEstimates onePhasePsus onePhaseCats 1) = .ok [Dbl.nan] ∧
    (onePhaseCats.GetValue 0 >>= fun r => onePhasePsus.GetValue r) = .ok 4 := by
  refine ⟨by decide!, by decide!, by decide⟩

/-- C4, amended: for every store state whose tables fit, `CatEstimates` returns one value per
category; at position `c` it is `area * (sum of value[t][c] over the non-nil tracts t) / N_c`
when the population size `N_c` of the phase `c` reaches is positive and NaN when `N_c` is 0; and
a value that is not NaN is returned only when `N_c` is positive and neither `area` nor that sum
is NaN, so that NaN is returned whenever `N_c` is 0, the area is NaN or the sum is NaN. -/
theorem CatEstimates_value (s : TractStore) (psus categories : KeyValueMap) (area : Dbl)
    (hfit : TablesFit s.n_cats_ psus categories) :
    ∃ est, s.CatEstimates psus categories area = .ok est ∧ est.length = s.n_cats_ ∧
      ∀ c r N, c < s.n_cats_ → categories.GetValue c = .ok r → psus.GetValue r = .ok N →
        (0 < N → est.getD c 0 = area * catTotal s c / Dbl.ofNat N) ∧
        (N = 0 → est.getD c 0 = Dbl.nan) ∧
        (est.getD c 0 ≠ Dbl.nan → 0 < N ∧ area ≠ Dbl.nan ∧ catTotal s c ≠ Dbl.nan) := by
  obtain ⟨est, h0, h1, h2⟩ := CatEstimates_eq s psus categories area
    (fun c hc => by
      obtain ⟨r, hr, hlt⟩ := hfit.1 c hc
      obtain ⟨N, hN⟩ := hfit.2 r hlt
      exact ⟨r, N, hr, hN⟩)
  refine ⟨est, h0, h1, ?_⟩
  intro c r N hc hr hN
  have hval := h2 c hc
  rw [scaled_eq psus categories area c r N _ hr hN] at hval
  refine ⟨?_, ?_, ?_⟩
  · intro hpos
    rw [hval, if_pos hpos, Dbl.mul_div_ofNat _ _ _ hpos]
  · intro hz
    rw [hval, if_neg (by omega)]
  · intro hne
    have hpos : 0 < N := by
      by_contra hz
      apply hne
      rw [hval, if_neg hz]
    rw [hval, if_pos hpos] at hne
    refine ⟨hpos, ?_, ?_⟩
    · intro ha
      apply hne
      rw [ha]
      cases catTotal s c <;> rfl
    · intro hs
      apply hne
      rw [hs]
      rfl

/-- Witness of C4, amended: the scenario of the claim with area 3; the sum of category 100 over the non-nil tracts is `2 + 2`. -/
theorem CatEstimates_value_witness :
    TablesFit onePhaseStore.n_cats_ onePhasePsus onePhaseCats ∧
    catTotal onePhaseStore 0 = Dbl.fin 2 + Dbl.fin 2 ∧
    ∃ est, onePhaseStore.CatEstimates onePhasePsus onePhaseCats (Dbl.fin 3) = .ok est ∧
      est.length = onePhaseStore.n_cats_ ∧
      ∀ c r N, c < onePhaseStore.n_cats_ → onePhaseCats.GetValue c = .ok r →
        onePhasePsus.GetValue r = .ok N →
        (0 < N → est.getD c 0 = Dbl.fin 3 * catTotal onePhaseStore c / Dbl.ofNat N) ∧
        (N = 0 → est.getD c 0 = Dbl.nan) ∧
        (est.getD c 0 ≠ Dbl.nan →
          0 < N ∧ Dbl.fin 3 ≠ Dbl.nan ∧ catTotal onePhaseStore c ≠ Dbl.nan) :=
  ⟨onePhase_fit, by decide!,
    CatEstimates_value onePhaseStore onePhasePsus onePhaseCats (Dbl.fin 3) onePhase_fit⟩

/-- C5: in every store state reachable from the constructor by `Fill` calls,
`PositiveTractsPerCat()[c] <= NonNilTracts() <= Size()` for every category `c`, and a tract with a
strictly positive value in some category has its `nonnil_` flag set; `Tract::Add` keeps the
property behind it, that a tract whose flag is unset holds only zeros. -/
theorem PositiveTractsPerCat_le_NonNilTracts (s : TractStore) (hs : Reachable s) :
    (∀ c, c < s.n_cats_ → s.PositiveTractsPerCat.getD c 0 ≤ s.NonNilTracts) ∧
    s.NonNilTracts ≤ s.Size ∧
    (∀ t ∈ s.tract_map_, ∀ c, (t.Get c).gtz = true → t.nonnil_ = true) ∧
    (∀ (t t' : Tract) (cat : Nat) (value : Dbl),
      (t.nonnil_ = false → ∀ v ∈ t.values_, v = 0) → t.Add cat value = .ok t' →
      (t'.nonnil_ = false → ∀ v ∈ t'.values_, v = 0)) := by
  have hwf := Reachable_WF s hs
  refine ⟨?_, ?_, ?_, ?_⟩
  · intro c hc
    rw [(PositiveTractsPerCat_getD s).2 c hc, NonNilTracts_eq_countP]
    exact countP_le_of_imp _ _ _ (fun t ht hpos => nonnil_of_positive s hwf t ht c hpos)
  · rw [NonNilTracts_eq_countP]
    exact List.countP_le_length _
  · intro t ht c hpos
    exact nonnil_of_positive s hwf t ht c hpos
  · intro t t' cat value ht hadd
    exact Tract.Add_keeps_zero t t' cat value ht hadd

/-- Witness of C5: the one-phase store, with 2 positive tracts in category 100, 2 non-nil tracts and 4 tracts. -/
theorem PositiveTractsPerCat_le_NonNilTracts_witness :
    Reachable onePhaseStore ∧ onePhaseStore.PositiveTractsPerCat = [2] ∧
    onePhaseStore.NonNilTracts = 2 ∧ onePhaseStore.Size = 4 ∧
    (∀ c, c < onePhaseStore.n_cats_ →
      onePhaseStore.PositiveTractsPerCat.getD c 0 ≤ onePhaseStore.NonNilTracts) ∧
    onePhaseStore.NonNilTracts ≤ onePhaseStore.Size :=
  ⟨onePhase_reachable, by decide!, by decide, by decide,
    (PositiveTractsPerCat_le_NonNilTracts onePhaseStore onePhase_reachable).1,
    (PositiveTractsPerCat_le_NonNilTracts onePhaseStore onePhase_reachable).2.1⟩

/-- C6: `Fill` is additive.  For a freshly constructed store and rows that each reference a tract
of the store and a category of the table whose phase is the phase of the tract, `Fill` returns a
store in which the value of tract `i` in category `c` is the sum of `weight * value / tract_area`
over the rows of tract `i` and category `c` that are not skipped for a zero weight or value; when
the weights, the values and the tract area are numbers and the tract area is not zero, the rows
of zero weight or value add nothing and the value is the sum over all rows of tract `i` and
category `c`.  In any store a row with `weight = 0` or `value = 0` leaves the store, hence every
total and every `nonnil_` flag, as it is. -/
theorem Fill_additive (tract_ids tract_external_psus : List Int) (n_tracts : Nat)
    (psus : KeyValueMap) (n_cats : Nat) (s0 : TractStore) (data : List PlotRow)
    (categories : KeyValueMap) (tract_area : Dbl)
    (hnew : TractStore.new tract_ids tract_external_psus n_tracts psus n_cats = .ok s0)
    (hrows : ∀ row ∈ data, RowMatches s0 categories row) :
    (∃ s, s0.Fill data categories tract_area = .ok s ∧
      (∀ i c, valueAt s i c =
        Dbl.sum ((rowsOf s0 categories i c data).map (fun row => row.amount tract_area))) ∧
      (tract_area.IsNum → tract_area ≠ 0 →
        (∀ row ∈ data, row.weight.IsNum ∧ row.value.IsNum) →
        ∀ i c, valueAt s i c =
          Dbl.sum ((allRowsOf s0 categories i c data).map (fun row => row.amount tract_area)))) ∧
    (∀ (st : TractStore) (row : PlotRow), row.isZero = true →
      FillRow categories tract_area st row = .ok st) := by
  obtain ⟨_, _, hfresh, hwf, _⟩ := new_ok _ _ _ _ _ _ hnew
  obtain ⟨s, hs, hval⟩ := Fill_value categories tract_area data s0 hwf hrows
  have hsum : ∀ i c, valueAt s i c =
      Dbl.sum ((rowsOf s0 categories i c data).map (fun row => row.amount tract_area)) := by
    intro i c
    rw [hval i c, valueAt_fresh s0 hfresh i c]
    rfl
  refine ⟨⟨s, hs, hsum, ?_⟩, fun st row hz => FillRow_zero categories tract_area st row hz⟩
  intro ha ha0 hnum i c
  rw [hsum i c]
  exact sum_rowsOf_eq s0 categories i c tract_area data
    (fun row hrow hz => PlotRow.amount_zero row tract_area hz (hnum row hrow).1
      (hnum row hrow).2 ha ha0)

/-- Witness of C6: two rows of tract 1 add up to `1 * 2 / 2 + 3 * 5 / 2`, the row of zero weight of tract 3 adds nothing. -/
theorem Fill_additive_witness :
    (∀ row ∈ [(⟨1, 100, 1, Dbl.fin 2⟩ : PlotRow), ⟨1, 100, Dbl.fin 3, Dbl.fin 5⟩,
        ⟨3, 100, 0, Dbl.fin 7⟩], RowMatches onePhaseFresh onePhaseCats row) ∧
    (∃ s, onePhaseFresh.Fill [⟨1, 100, 1, Dbl.fin 2⟩, ⟨1, 100, Dbl.fin 3, Dbl.fin 5⟩,
        ⟨3, 100, 0, Dbl.fin 7⟩] onePhaseCats (Dbl.fin 2) = .ok s ∧
      valueAt s 0 0 = Dbl.fin 1 + Dbl.fin (15 / 2) ∧ valueAt s 2 0 = 0) := by
  have hrows : ∀ row ∈ [(⟨1, 100, 1, Dbl.fin 2⟩ : PlotRow), ⟨1, 100, Dbl.fin 3, Dbl.fin 5⟩,
      ⟨3, 100, 0, Dbl.fin 7⟩], RowMatches onePhaseFresh onePhaseCats row := by
    intro row hrow
    simp only [List.mem_cons, List.mem_singleton, List.not_mem_nil, or_false] at hrow
    rcases hrow with rfl | rfl | rfl
    · exact ⟨0, 0, 0, by decide, by decide, by decide, by decide, by decide⟩
    · exact ⟨0, 0, 0, by decide, by decide, by decide, by decide, by decide⟩
    · exact ⟨2, 0, 0, by decide, by decide, by decide, by decide, by decide⟩
  obtain ⟨s, hs, hsum, _⟩ := (Fill_additive [1, 2, 3, 4] [10, 10, 10, 10] 4 onePhasePsus 1
    onePhaseFresh _ onePhaseCats (Dbl.fin 2) onePhase_new hrows).1
  refine ⟨hrows, s, hs, ?_, ?_⟩
  · rw [hsum 0 0]; decide!
  · rw [hsum 2 0]; decide!

/-- C7 as stated fails: tract 11 has phase index 1, category 100 has phase index 0, and the row
of tract 11 and category 100 is accepted: `Fill` adds its amount 2 to the tract, although the
phase index of the tract is strictly larger than that of the category. -/
theorem Fill_accepts_deeper_tract :
    (TractStore.new [11, 12, 13, 14] [2, 2, 1, 1] 4 twoPhasePsus 1 >>= fun s =>
      s.Fill [⟨11, 100, 1, Dbl.fin 2⟩] shallowCats 1) = .ok twoPhaseStore ∧
    twoPhaseStore.FindExternal 11 = some 0 ∧
    (twoPhaseStore.FindInternal 0).GetInternalPsu = 1 ∧
    (shallowCats.GetInternalKey 100 >>= fun c => shallowCats.GetValue c) = .ok 0 ∧
    valueAt twoPhaseStore 0 0 = Dbl.fin 2 := by
  refine ⟨by decide!, by decide, by decide, by decide, by decide!⟩

/-- C7, amended: in a reachable store, a row with non-zero weight and value, a known tract and a
known category (with an index below `n_cats_`) is accepted exactly when the phase index of the
tract is greater than or equal to the phase index of the category: then its amount is added to
the value of that tract in that category and nothing else changes; a row whose tract has a
strictly smaller phase index than the category is skipped and leaves the store as it is. -/
theorem FillRow_nesting_check (s : TractStore) (hs : Reachable s) (categories : KeyValueMap)
    (tract_area : Dbl) (row : PlotRow) (i c p : Nat) (hz : row.isZero = false)
    (hi : s.FindExternal row.id = some i) (hc : categories.GetInternalKey row.cat = .ok c)
    (hcn : c < s.n_cats_) (hp : categories.GetValue c = .ok p) :
    ((s.FindInternal i).GetInternalPsu < p → FillRow categories tract_area s row = .ok s) ∧
    (p ≤ (s.FindInternal i).GetInternalPsu →
      ∃ s', FillRow categories tract_area s row = .ok s' ∧
        ∀ j d, valueAt s' j d =
          if j = i ∧ d = c then valueAt s j d + row.amount tract_area else valueAt s j d) := by
  constructor
  · intro hlt
    unfold FillRow
    have hz2 : ¬ (row.weight.eqz || row.value.eqz) = true := by
      unfold PlotRow.isZero at hz; rw [hz]; simp
    rw [if_neg hz2, hi]
    show (categories.GetInternalKey row.cat >>= _) = _
    rw [hc]
    show (categories.GetValue c >>= _) = _
    rw [hp]
    show (if (s.FindInternal i).GetInternalPsu < p then _ else _) = _
    rw [if_pos hlt]
  · intro hle
    obtain ⟨s', h1, h2⟩ := FillRow_value categories tract_area s (Reachable_WF s hs) row i c p
      hi hc hcn hp hle
    refine ⟨s', h1, ?_⟩
    intro j d
    rw [h2 j d]
    by_cases hjd : j = i ∧ d = c
    · rw [if_pos ⟨hz, hjd⟩, if_pos hjd]
    · rw [if_neg (fun h => hjd h.2), if_neg hjd]

/-- Witness of C7, amended: tract 13 has phase index 0 and the category has phase index 1. -/
theorem FillRow_nesting_check_witness :
    Reachable twoPhaseStore ∧
    ((twoPhaseStore.FindInternal 2).GetInternalPsu < 1 →
      FillRow deepCats 1 twoPhaseStore ⟨13, 100, 1, Dbl.fin 2⟩ = .ok twoPhaseStore) ∧
    (1 ≤ (twoPhaseStore.FindInternal 2).GetInternalPsu →
      ∃ s', FillRow deepCats 1 twoPhaseStore ⟨13, 100, 1, Dbl.fin 2⟩ = .ok s' ∧
        ∀ j d, valueAt s' j d =
          if j = 2 ∧ d = 0 then
            valueAt twoPhaseStore j d + PlotRow.amount ⟨13, 100, 1, Dbl.fin 2⟩ 1
          else valueAt twoPhaseStore j d) :=
  ⟨twoPhase_reachable,
    FillRow_nesting_check twoPhaseStore twoPhase_reachable deepCats 1 ⟨13, 100, 1, Dbl.fin 2⟩
      2 0 1 (by decide!) (by decide) (by decide) (by decide) (by decide)⟩

/-- C8: in every reachable store, a plot row whose tract id is the external id of no tract of the
store is skipped without an exception, whatever its category id, weight and value: the store, so
every value, `recorded_` flag and `nonnil_` flag, stays as it is and `Fill` goes on with the rows
that follow. -/
theorem Fill_skips_unknown_tract (s : TractStore) (hs : Reachable s) (categories : KeyValueMap)
    (tract_area : Dbl) (row : PlotRow) (rest : List PlotRow)
    (hrow : ∀ t ∈ s.tract_map_, t.external_id_ ≠ row.id) :
    FillRow categories tract_area s row = .ok s ∧
    s.Fill (row :: rest) categories tract_area = s.Fill rest categories tract_area := by
  have hnone := FindExternal_none_of_no_tract s (Reachable_WF s hs) row.id hrow
  have hstep := FillRow_unknown categories tract_area s row hnone
  refine ⟨hstep, ?_⟩
  unfold Fill
  rw [List.foldlM_cons, hstep]
  rfl

/-- Witness of C8: a row of tract 7, which the store does not hold, with a category id that the table does not hold either. -/
theorem Fill_skips_unknown_tract_witness :
    Reachable onePhaseStore ∧
    (∀ t ∈ onePhaseStore.tract_map_, t.external_id_ ≠ (⟨7, 555, 1, Dbl.fin 2⟩ : PlotRow).id) ∧
    onePhaseCats.GetInternalKey 555 = .error .range_error ∧
    FillRow onePhaseCats 1 onePhaseStore ⟨7, 555, 1, Dbl.fin 2⟩ = .ok onePhaseStore ∧
    onePhaseStore.Fill [⟨7, 555, 1, Dbl.fin 2⟩, ⟨2, 100, 1, Dbl.fin 2⟩] onePhaseCats 1 =
      onePhaseStore.Fill [⟨2, 100, 1, Dbl.fin 2⟩] onePhaseCats 1 :=
  have hrow : ∀ t ∈ onePhaseStore.tract_map_,
      t.external_id_ ≠ (⟨7, 555, 1, Dbl.fin 2⟩ : PlotRow).id := by decide
  ⟨onePhase_reachable, hrow, by decide,
    (Fill_skips_unknown_tract onePhaseStore onePhase_reachable onePhaseCats 1
      ⟨7, 555, 1, Dbl.fin 2⟩ [⟨2, 100, 1, Dbl.fin 2⟩] hrow).1,
    (Fill_skips_unknown_tract onePhaseStore onePhase_reachable onePhaseCats 1
      ⟨7, 555, 1, Dbl.fin 2⟩ [⟨2, 100, 1, Dbl.fin 2⟩] hrow).2⟩

/-- C9 as stated fails: the PSU table `[(1, 1)]` is valid (sizes strictly decreasing, last size
positive), the only plot row has weight 0, and `Variance` returns the matrix whose only cell is
NaN, not 0. -/
theorem Variance_nan_without_nonzero_row :
    ValidPsus unitPsus ∧
    (TractStore.new [5] [1] 1 unitPsus 1 >>= fun s =>
      s.Fill [⟨5, 100, 0, Dbl.fin 2⟩] unitCats 1 >>= fun s =>
        s.Variance unitPsus unitCats 1) = .ok [Dbl.nan] :=
  ⟨unit_valid, by decide!⟩

/-- C9, amended: if every plot row given to `Fill` has `weight = 0` or `value = 0`, then for
every PSU table with strictly decreasing sizes and last size greater than 1, every category table
that fits and every tract set, `Fill` returns a store for which `Variance` returns the
`n_cats x n_cats` matrix of zeros. -/
theorem Variance_zero_of_zero_rows (tract_ids tract_external_psus : List Int) (n_tracts : Nat)
    (psus : KeyValueMap) (n_cats : Nat) (s0 : TractStore) (data : List PlotRow)
    (categories : KeyValueMap) (tract_area area : Dbl)
    (hnew : TractStore.new tract_ids tract_external_psus n_tracts psus n_cats = .ok s0)
    (hz : ∀ row ∈ data, row.isZero = true) (hvalid : ValidPsus psus)
    (hlast : ∀ v, psus.values_.getLast? = some v → 1 < v)
    (hfit : TablesFit n_cats psus categories) :
    ∃ s, s0.Fill data categories tract_area = .ok s ∧
      s.Variance psus categories area = .ok (List.replicate (n_cats * n_cats) 0) := by
  obtain ⟨hn, _, hfresh, _, _⟩ := new_ok _ _ _ _ _ _ hnew
  refine ⟨s0, Fill_zero categories tract_area data s0 hz, ?_⟩
  obtain ⟨M, hM⟩ := Variance_total s0 psus categories area (by rw [hn]; exact hfit)
  have hsize : ∀ p v, psus.GetValue p = .ok v → 2 ≤ v := by
    intro p v hpv
    have hp : p < psus.Size := by
      by_contra hcon
      unfold KeyValueMap.GetValue at hpv
      rw [if_pos (by unfold KeyValueMap.Size at hcon; omega)] at hpv
      cases hpv
    obtain ⟨N, last, h1, h2, h3⟩ := ValidPsus_ge_last psus hvalid p hp
    rw [hpv] at h1
    injection h1 with h1
    have := hlast last h2
    omega
  rw [hM, Variance_fresh s0 hfresh psus categories area hsize M hM, hn]

/-- Witness of C9, amended: the PSU table `[(1, 4), (2, 2)]` and two rows of zero weight or value. -/
theorem Variance_zero_of_zero_rows_witness :
    ValidPsus twoPhasePsus ∧
    ∃ s, twoPhaseFresh.Fill [⟨11, 100, 0, Dbl.fin 2⟩, ⟨12, 100, Dbl.fin 3, 0⟩] deepCats 1
        = .ok s ∧
      s.Variance twoPhasePsus deepCats 1 = .ok (List.replicate (1 * 1) 0) :=
  ⟨twoPhase_valid,
    Variance_zero_of_zero_rows [11, 12, 13, 14] [2, 2, 1, 1] 4 twoPhasePsus 1 twoPhaseFresh
      [⟨11, 100, 0, Dbl.fin 2⟩, ⟨12, 100, Dbl.fin 3, 0⟩] deepCats 1 1 twoPhase_new
      (by decide) twoPhase_valid (by decide) twoPhase_deep_fit⟩

/-- C10 as stated fails for an area that is not a number: the only plot row has weight 0, the
PSU table `[(10, 4)]` is accepted by `CreatePsuKeyValueMap`, and `CatEstimates` called with a
NaN area returns NaN, not 0, for category 100. -/
theorem CatEstimates_nan_area :
    CreatePsuKeyValueMap ⟨1, 2, [10, 4]⟩ = .ok onePhasePsus ∧
    TractStore.new [1, 2, 3, 4] [10, 10, 10, 10] 4 onePhasePsus 1 = .ok onePhaseFresh ∧
    (onePhaseFresh.Fill [⟨1, 100, 0, Dbl.fin 2⟩] onePhaseCats 1 >>= fun s =>
      s.CatEstimates onePhasePsus onePhaseCats Dbl.nan) = .ok [Dbl.nan] := by
  refine ⟨by decide, by decide!, by decide!⟩

/-- C10, amended: if every plot row given to `Fill` has `weight = 0` or `value = 0`, then no
tract is non-nil (`NonNilTracts() = 0`) and, for every PSU table accepted by
`CreatePsuKeyValueMap`, every category table that fits and every finite area `a` (neither NaN
nor an infinity), `CatEstimates` returns 0 for every category: the sums are exactly 0, every
population size is positive, and `0 * (a / N)` is 0 for a finite `a`. -/
theorem CatEstimates_zero_of_zero_rows (mat : IntegerMatrix)
    (tract_ids tract_external_psus : List Int) (n_tracts : Nat)
    (psus : KeyValueMap) (n_cats : Nat) (s0 : TractStore) (data : List PlotRow)
    (categories : KeyValueMap) (tract_area : Dbl) (a : ℚ)
    (hpsus : CreatePsuKeyValueMap mat = .ok psus)
    (hnew : TractStore.new tract_ids tract_external_psus n_tracts psus n_cats = .ok s0)
    (hz : ∀ row ∈ data, row.isZero = true)
    (hfit : TablesFit n_cats psus categories) :
    ∃ s, s0.Fill data categories tract_area = .ok s ∧ s.NonNilTracts = 0 ∧
      (∀ t ∈ s.tract_map_, ∀ c, t.Get c = 0) ∧
      ∃ est, s.CatEstimates psus categories (Dbl.fin a) = .ok est ∧ est.length = n_cats ∧
        ∀ c, c < n_cats → est.getD c 0 = 0 := by
  obtain ⟨hn, _, hfresh, _, _⟩ := new_ok _ _ _ _ _ _ hnew
  have hvalid := (CreatePsuKeyValueMap_valid mat psus hpsus).1
  refine ⟨s0, Fill_zero categories tract_area data s0 hz, NonNilTracts_fresh s0 hfresh,
    fun t ht c => by
      unfold Tract.Get
      rw [(hfresh t ht).1]
      exact getD_replicate_self _ _ _, ?_⟩
  obtain ⟨est, h0, h1, h2⟩ := CatEstimates_eq s0 psus categories (Dbl.fin a)
    (fun c hc => by
      obtain ⟨r, hr, hlt⟩ := hfit.1 c (by rw [← hn]; exact hc)
      obtain ⟨N, hN⟩ := hfit.2 r hlt
      exact ⟨r, N, hr, hN⟩)
  refine ⟨est, h0, by rw [h1, hn], ?_⟩
  intro c hc
  obtain ⟨r, hr, hlt⟩ := hfit.1 c hc
  obtain ⟨N, hN, hpos⟩ := ValidPsus_pos psus hvalid r hlt
  rw [h2 c (by rw [hn]; exact hc), scaled_eq psus categories (Dbl.fin a) c r N _ hr hN,
    if_pos hpos, catTotal_fresh s0 hfresh c]
  have hq : (N : ℚ) ≠ 0 := by exact_mod_cast (Nat.pos_iff_ne_zero.mp hpos)
  show Dbl.mul (Dbl.fin 0) (Dbl.div (Dbl.fin a) (Dbl.fin N)) = Dbl.fin 0
  simp only [Dbl.div, Dbl.mul, if_neg hq, zero_mul]

/-- Witness of C10, amended: the PSU table `[(10, 4)]`, two rows of zero weight or value and area 3. -/
theorem CatEstimates_zero_of_zero_rows_witness :
    ∃ s, onePhaseFresh.Fill [⟨1, 100, 0, Dbl.fin 2⟩, ⟨3, 100, Dbl.fin 3, 0⟩] onePhaseCats 1
        = .ok s ∧ s.NonNilTracts = 0 ∧
      (∀ t ∈ s.tract_map_, ∀ c, t.Get c = 0) ∧
      ∃ est, s.CatEstimates onePhasePsus onePhaseCats (Dbl.fin 3) = .ok est ∧ est.length = 1 ∧
        ∀ c, c < 1 → est.getD c 0 = 0 :=
  CatEstimates_zero_of_zero_rows ⟨1, 2, [10, 4]⟩ [1, 2, 3, 4] [10, 10, 10, 10] 4 onePhasePsus 1
    onePhaseFresh [⟨1, 100, 0, Dbl.fin 2⟩, ⟨3, 100, Dbl.fin 3, 0⟩] onePhaseCats 1 3
    (by decide) onePhase_new (by decide) onePhase_fit

end TractStore
end Nilsier

namespace Nilsier
namespace TractStore

/-- C12: for a PSU table whose storage is complete and whose index 0 holds the population size
`v0`, and arrays holding `n` tract ids and `n` PSU ids, the constructor fails if and only if
`n` differs from `v0`, or some tract id occurs twice, or the PSU id of some row is not a key of
the PSU table; so an array whose length differs from the phase-0 population size is always
rejected.  On success the store holds exactly `n` tracts, tract `i` has the external id
`tract_ids[i]`, the phase index `GetInternalKey(tract_external_psus[i])`, `n_cats` values equal
to 0 and both flags unset. -/
theorem new_fails_iff (tract_ids tract_external_psus : List Int) (n : Nat) (psus : KeyValueMap)
    (n_cats v0 : Nat) (hpsus : psus.Stored) (hv0 : psus.GetValue 0 = .ok v0)
    (hids : n ≤ tract_ids.length) (hext : n ≤ tract_external_psus.length) :
    ((∃ err, TractStore.new tract_ids tract_external_psus n psus n_cats = .error err) ↔
      (n ≠ v0 ∨ (∃ i j, i < j ∧ j < n ∧ tract_ids.getD i 0 = tract_ids.getD j 0) ∨
        ∃ i, i < n ∧ ¬ psus.HasKey (tract_external_psus.getD i 0))) ∧
    (n ≠ v0 → TractStore.new tract_ids tract_external_psus n psus n_cats
      = .error .range_error) ∧
    (∀ s, TractStore.new tract_ids tract_external_psus n psus n_cats = .ok s →
      s.n_cats_ = n_cats ∧ s.Size = n ∧
      ∀ i, i < n → ∃ p, psus.GetInternalKey (tract_external_psus.getD i 0) = .ok p ∧
        s.tract_map_[i]? = some
          { values_ := List.replicate n_cats 0, external_id_ := tract_ids.getD i 0,
            internal_psu_ := p, recorded_ := false, nonnil_ := false }) := by
  have hsize : n ≠ v0 → TractStore.new tract_ids tract_external_psus n psus n_cats
      = .error .range_error := by
    intro hne
    unfold TractStore.new
    rw [hv0]
    show (if n ≠ v0 then _ else _) = _
    rw [if_pos hne]
  refine ⟨?_, hsize, ?_⟩
  · constructor
    · intro ⟨err, herr⟩
      by_contra hcon
      have h1 : n = v0 := by
        by_contra hne; exact hcon (Or.inl hne)
      have h2 : ∀ i j, i < j → j < n → tract_ids.getD i 0 ≠ tract_ids.getD j 0 :=
        fun i j hij hj heq => hcon (Or.inr (Or.inl ⟨i, j, hij, hj, heq⟩))
      have h3 : ∀ i, i < n →
          ∃ p, psus.GetInternalKey (tract_external_psus.getD i 0) = .ok p := by
        intro i hi
        apply KeyValueMap.GetInternalKey_ok_of_hasKey psus hpsus
        by_contra hk
        exact hcon (Or.inr (Or.inr ⟨i, hi, hk⟩))
      obtain ⟨st, hst⟩ := new_fold_total tract_ids tract_external_psus psus n_cats n hids hext
        h2 h3
      have : TractStore.new tract_ids tract_external_psus n psus n_cats = .ok st := by
        unfold TractStore.new
        rw [hv0]
        show (if n ≠ v0 then _ else _) = _
        rw [if_neg (by omega)]
        exact hst
      rw [this] at herr
      cases herr
    · intro hcond
      cases hnew : TractStore.new tract_ids tract_external_psus n psus n_cats with
      | error err => exact ⟨err, rfl⟩
      | ok s =>
        exfalso
        obtain ⟨b1, _, _, b4, b5, _, _⟩ := new_ok_full _ _ _ _ _ _ hnew
        rcases hcond with hne | ⟨i, j, hij, hj, heq⟩ | ⟨i, hi, hk⟩
        · rw [hv0] at b1
          injection b1 with b1
          exact hne b1.symm
        · exact b5 i j hij hj heq
        · obtain ⟨p, hp, _⟩ := b4 i hi
          apply hk
          obtain ⟨c1, c2, _⟩ := (KeyValueMap.GetInternalKey_ok_iff psus hpsus _ p).mp hp
          exact ⟨p, c1, c2⟩
  · intro s hs
    obtain ⟨_, b2, b3, b4, _, _, _⟩ := new_ok_full _ _ _ _ _ _ hs
    exact ⟨b2, b3, b4⟩

/-- Witness of C12: four tracts of phase 10 for the PSU table `[(10, 4)]`. -/
theorem new_fails_iff_witness :
    onePhasePsus.Stored ∧ onePhasePsus.GetValue 0 = .ok 4 ∧
    TractStore.new [1, 2, 3, 4] [10, 10, 10, 10] 3 onePhasePsus 1 = .error .range_error ∧
    (∀ s, TractStore.new [1, 2, 3, 4] [10, 10, 10, 10] 4 onePhasePsus 1 = .ok s →
      s.n_cats_ = 1 ∧ s.Size = 4 ∧
      ∀ i, i < 4 → ∃ p, onePhasePsus.GetInternalKey
          (([10, 10, 10, 10] : List Int).getD i 0) = .ok p ∧
        s.tract_map_[i]? = some
          { values_ := List.replicate 1 0, external_id_ := ([1, 2, 3, 4] : List Int).getD i 0,
            internal_psu_ := p, recorded_ := false, nonnil_ := false }) :=
  ⟨onePhase_stored, by decide,
    (new_fails_iff [1, 2, 3, 4] [10, 10, 10, 10] 3 onePhasePsus 1 4 onePhase_stored (by decide)
      (by decide) (by decide)).2.1 (by decide),
    (new_fails_iff [1, 2, 3, 4] [10, 10, 10, 10] 4 onePhasePsus 1 4 onePhase_stored (by decide)
      (by decide) (by decide)).2.2⟩

/-- C13: in a store that the constructor has built from the tract ids `tract_ids[0..n-1]`,
`FindExternal(tract_ids[i])` is the tract at position `i`, the one `FindInternal(i)` returns,
for every `i < n`, and `FindExternal(e)` is the null pointer, without an exception, for every
`e` that is none of the tract ids. -/
theorem FindExternal_after_new (tract_ids tract_external_psus : List Int) (n : Nat)
    (psus : KeyValueMap) (n_cats : Nat) (s : TractStore)
    (h : TractStore.new tract_ids tract_external_psus n psus n_cats = .ok s) :
    (∀ i, i < n → s.FindExternal (tract_ids.getD i 0) = some i ∧
      s.tract_map_[i]? = some (s.FindInternal i) ∧
      (s.FindInternal i).external_id_ = tract_ids.getD i 0) ∧
    (∀ e, (∀ i, i < n → tract_ids.getD i 0 ≠ e) → s.FindExternal e = none) := by
  obtain ⟨_, _, _, b4, _, b6, b7⟩ := new_ok_full _ _ _ _ _ _ h
  refine ⟨?_, b7⟩
  intro i hi
  obtain ⟨p, _, hp⟩ := b4 i hi
  have hfi := FindInternal_of_getElem? s i _ hp
  refine ⟨b6 i hi, by rw [hfi]; exact hp, by rw [hfi]; rfl⟩

/-- Witness of C13: the store of four tracts with ids 1 to 4; id 7 is not among them. -/
theorem FindExternal_after_new_witness :
    TractStore.new [1, 2, 3, 4] [10, 10, 10, 10] 4 onePhasePsus 1 = .ok onePhaseFresh ∧
    (∀ i, i < 4 → onePhaseFresh.FindExternal (([1, 2, 3, 4] : List Int).getD i 0) = some i ∧
      onePhaseFresh.tract_map_[i]? = some (onePhaseFresh.FindInternal i) ∧
      (onePhaseFresh.FindInternal i).external_id_ = ([1, 2, 3, 4] : List Int).getD i 0) ∧
    onePhaseFresh.FindExternal 7 = none :=
  ⟨onePhase_new,
    (FindExternal_after_new [1, 2, 3, 4] [10, 10, 10, 10] 4 onePhasePsus 1 onePhaseFresh
      onePhase_new).1,
    (FindExternal_after_new [1, 2, 3, 4] [10, 10, 10, 10] 4 onePhasePsus 1 onePhaseFresh
      onePhase_new).2 7 (by decide)⟩

end TractStore

/-- C18: for a lookup of size `n` whose storage holds its keys and payloads, and every external
key `e`: `GetInternalKey(e)` returns `i` exactly when `i` is the smallest index below `n` with
`keys[i] = e`, and it raises (a `range_error`) exactly when no index below `n` holds `e`; so
`GetExternalKey(GetInternalKey(e)) = e` whenever `e` is present, and
`GetInternalKey(GetExternalKey(i)) = i` for every `i < n` when the keys are pairwise distinct;
`GetExternalKey(i)` and `GetValue(i)` raise (an `out_of_range`) exactly when `i >= n` and return
`keys[i]` and the payload `values[i]` otherwise. -/
theorem KeyValueMap_lookup_laws (m : KeyValueMap) (hm : m.Stored) :
    (∀ e i, m.GetInternalKey e = .ok i ↔
      (i < m.size_ ∧ m.key i = e ∧ ∀ j, j < i → m.key j ≠ e)) ∧
    (∀ e, (∃ err, m.GetInternalKey e = .error err) ↔ ¬ m.HasKey e) ∧
    (∀ e, m.HasKey e → ∃ i, m.GetInternalKey e = .ok i ∧ m.GetExternalKey i = .ok e) ∧
    ((∀ i j, i < m.size_ → j < m.size_ → m.key i = m.key j → i = j) →
      ∀ i, i < m.size_ → ∃ e, m.GetExternalKey i = .ok e ∧ m.GetInternalKey e = .ok i) ∧
    (∀ i, ((∃ err, m.GetExternalKey i = .error err) ↔ m.size_ ≤ i) ∧
      ((∃ err, m.GetValue i = .error err) ↔ m.size_ ≤ i)) ∧
    (∀ i, i < m.size_ →
      m.GetExternalKey i = .ok (m.key i) ∧ m.GetValue i = .ok (m.values_.getD i 0)) := by
  refine ⟨fun e i => KeyValueMap.GetInternalKey_ok_iff m hm e i, ?_, ?_, ?_, ?_, ?_⟩
  · intro e
    constructor
    · intro ⟨err, herr⟩ hk
      obtain ⟨i, hi⟩ := KeyValueMap.GetInternalKey_ok_of_hasKey m hm e hk
      rw [hi] at herr
      cases herr
    · intro hk
      exact ⟨_, (KeyValueMap.GetInternalKey_error_iff m hm e).mpr hk⟩
  · intro e hk
    obtain ⟨i, hi⟩ := KeyValueMap.GetInternalKey_ok_of_hasKey m hm e hk
    obtain ⟨h1, h2, _⟩ := (KeyValueMap.GetInternalKey_ok_iff m hm e i).mp hi
    refine ⟨i, hi, ?_⟩
    rw [KeyValueMap.GetExternalKey_eq m hm i, if_pos h1, h2]
  · intro hdist i hi
    refine ⟨m.key i, ?_, ?_⟩
    · rw [KeyValueMap.GetExternalKey_eq m hm i, if_pos hi]
    · rw [KeyValueMap.GetInternalKey_ok_iff m hm]
      refine ⟨hi, rfl, ?_⟩
      intro j hj heq
      have := hdist j i (by omega) hi heq
      omega
  · intro i
    rw [KeyValueMap.GetExternalKey_eq m hm i, KeyValueMap.GetValue_eq m hm i]
    constructor
    · constructor
      · intro ⟨err, herr⟩
        by_contra hlt
        rw [if_pos (by omega)] at herr
        cases herr
      · intro hle
        rw [if_neg (by omega)]
        exact ⟨_, rfl⟩
    · constructor
      · intro ⟨err, herr⟩
        by_contra hlt
        rw [if_pos (by omega)] at herr
        cases herr
      · intro hle
        rw [if_neg (by omega)]
        exact ⟨_, rfl⟩
  · intro i hi
    rw [KeyValueMap.GetExternalKey_eq m hm i, KeyValueMap.GetValue_eq m hm i, if_pos hi,
      if_pos hi]
    exact ⟨rfl, rfl⟩

/-- Witness of C18: the PSU table `[(1, 3), (2, 2), (3, 1)]`; key 2 is at index 1 and key 9 is
absent. -/
theorem KeyValueMap_lookup_laws_witness :
    threePhasePsus.Stored ∧ threePhasePsus.GetInternalKey 2 = .ok 1 ∧
    (∃ err, threePhasePsus.GetInternalKey 9 = .error err) ∧
    (¬ threePhasePsus.HasKey 9) ∧
    (∀ i, i < threePhasePsus.size_ →
      threePhasePsus.GetExternalKey i = .ok (threePhasePsus.key i) ∧
        threePhasePsus.GetValue i = .ok (threePhasePsus.values_.getD i 0)) :=
  ⟨threePhase_stored, by decide, ⟨Error.range_error, by decide⟩,
    ((KeyValueMap_lookup_laws threePhasePsus threePhase_stored).2.1 9).mp
      ⟨Error.range_error, by decide⟩,
    (KeyValueMap_lookup_laws threePhasePsus threePhase_stored).2.2.2.2.2⟩

/-- C14: a table of (external PSU id, population size) rows, stored as a matrix, is accepted by
`CreatePsuKeyValueMap` if and only if it has at least one row and at least two columns, its
sizes are strictly decreasing from row to row and its last size is positive; the lookup of an
accepted table has `Size()` equal to the row count, external key `i` equal to the id of row `i`
and payload `i` equal to the size of row `i`. -/
theorem CreatePsuKeyValueMap_accepts_iff (mat : IntegerMatrix) (hshape : mat.Shaped) :
    ((∃ psus, CreatePsuKeyValueMap mat = .ok psus) ↔
      (1 ≤ mat.nrow ∧ 2 ≤ mat.ncol ∧
        (∀ i, i + 1 < mat.nrow → mat.at (i + 1) 1 < mat.at i 1) ∧
        0 < mat.at (mat.nrow - 1) 1)) ∧
    (∀ psus, CreatePsuKeyValueMap mat = .ok psus →
      psus.Size = mat.nrow ∧
      ∀ i, i < mat.nrow → psus.GetExternalKey i = .ok (mat.at i 0) ∧
        ∃ v, psus.GetValue i = .ok v ∧ (v : Int) = mat.at i 1) := by
  constructor
  · constructor
    · intro ⟨psus, h⟩
      obtain ⟨a1, a2, a3, a4, _⟩ := CreatePsuKeyValueMap_ok mat hshape psus h
      exact ⟨a1, a2, a3, a4⟩
    · intro ⟨a1, a2, a3, a4⟩
      exact CreatePsuKeyValueMap_total mat hshape a1 a2 a3 a4
  · intro psus h
    obtain ⟨_, a2, _, _, a5, a6, a7, a8⟩ := CreatePsuKeyValueMap_ok mat hshape psus h
    refine ⟨a5, ?_⟩
    intro i hi
    constructor
    · unfold KeyValueMap.GetExternalKey
      rw [if_neg (by omega), a6]
      have := (col_getElem? mat hshape 0 i (by omega) hi).1
      rw [Nat.zero_mul, List.drop_zero] at this
      unfold rd
      rw [this]
    · obtain ⟨hpos, hv⟩ := a8 i hi
      refine ⟨(mat.at i 1).toNat, ?_, Int.toNat_of_nonneg (by omega)⟩
      unfold KeyValueMap.GetValue
      rw [if_neg (by omega)]
      unfold rd
      rw [hv]

/-- Witness of C14: `[(1, 3), (2, 2), (3, 1)]` is accepted and `[(1, 2), (2, 3)]` is
rejected. -/
theorem CreatePsuKeyValueMap_accepts_iff_witness :
    (∃ psus, CreatePsuKeyValueMap ⟨3, 2, [1, 2, 3, 3, 2, 1]⟩ = .ok psus) ∧
    CreatePsuKeyValueMap ⟨3, 2, [1, 2, 3, 3, 2, 1]⟩ = .ok threePhasePsus ∧
    (¬ ∃ psus, CreatePsuKeyValueMap ⟨2, 2, [1, 2, 2, 3]⟩ = .ok psus) ∧
    CreatePsuKeyValueMap ⟨2, 2, [1, 2, 2, 3]⟩ = .error .range_error :=
  ⟨(CreatePsuKeyValueMap_accepts_iff ⟨3, 2, [1, 2, 3, 3, 2, 1]⟩
      (by unfold IntegerMatrix.Shaped; decide)).1.mpr
      ⟨by decide, by decide, fun i hi => by
        have hi2 : i + 1 < 3 := hi
        have hi3 : i < 2 := by omega
        interval_cases i <;> decide, by decide⟩,
    by decide,
    fun h => by
      have := ((CreatePsuKeyValueMap_accepts_iff ⟨2, 2, [1, 2, 2, 3]⟩
        (by unfold IntegerMatrix.Shaped; decide)).1.mp h).2.2.1
        0 (by decide)
      exact absurd this (by decide),
    by decide⟩

/-- C17: for a PSU lookup (which has at least one entry) and a table stored as a matrix,
`CreateNeighboursKeyValueMap` succeeds if and only if the table has exactly `psus.Size()` rows,
at least three columns and every neighbor count (third column) is greater than 1; a count of 1,
0 or a negative count is rejected.  On success the lookup has the keys and the size of the PSU
table and payload `i` equal to the neighbor count of row `i`, which is at least 2, so that
`neighborCount - 1` is not zero. -/
theorem CreateNeighboursKeyValueMap_succeeds_iff (mat : IntegerMatrix) (hshape : mat.Shaped)
    (psus : KeyValueMap) (hpsus : 0 < psus.Size) :
    ((∃ map, CreateNeighboursKeyValueMap mat psus = .ok map) ↔
      (mat.nrow = psus.Size ∧ 3 ≤ mat.ncol ∧ ∀ i, i < mat.nrow → 1 < mat.at i 2)) ∧
    (∀ i, i < mat.nrow → mat.at i 2 ≤ 1 →
      ∃ err, CreateNeighboursKeyValueMap mat psus = .error err) ∧
    (∀ map, CreateNeighboursKeyValueMap mat psus = .ok map →
      map.Size = psus.Size ∧ map.keys_ = psus.keys_ ∧
      ∀ i, i < psus.Size → ∃ v, map.GetValue i = .ok v ∧ (v : Int) = mat.at i 2 ∧ 2 ≤ v ∧
        Dbl.ofNat v - 1 ≠ 0) := by
  have hiff : (∃ map, CreateNeighboursKeyValueMap mat psus = .ok map) ↔
      (mat.nrow = psus.Size ∧ 3 ≤ mat.ncol ∧ ∀ i, i < mat.nrow → 1 < mat.at i 2) := by
    constructor
    · intro ⟨map, h⟩
      obtain ⟨a1, a2, a3, _⟩ := CreateNeighboursKeyValueMap_ok mat hshape psus map h
      exact ⟨a1, a2, a3⟩
    · intro ⟨a1, a2, a3⟩
      exact CreateNeighboursKeyValueMap_total mat hshape psus hpsus a1 a2 a3
  refine ⟨hiff, ?_, ?_⟩
  · intro i hi hle
    cases hc : CreateNeighboursKeyValueMap mat psus with
    | error err => exact ⟨err, rfl⟩
    | ok map =>
      have := (hiff.mp ⟨map, hc⟩).2.2 i hi
      omega
  · intro map h
    obtain ⟨a1, _, a3, a4, a5, a6, a7⟩ := CreateNeighboursKeyValueMap_ok mat hshape psus map h
    refine ⟨a4, a5, ?_⟩
    intro i hi
    have hi' : i < mat.nrow := by omega
    have hgt := a3 i hi'
    have hv2 : 2 ≤ (mat.at i 2).toNat := by omega
    refine ⟨(mat.at i 2).toNat, ?_, Int.toNat_of_nonneg (by omega), hv2,
      Dbl.ofNat_sub_one_ne_zero _ hv2⟩
    unfold KeyValueMap.GetValue
    have hsz : i < map.size_ := by rw [a4]; exact hi
    rw [if_neg (by omega)]
    unfold rd
    rw [a7 i hi']

/-- Witness of C17: the table `[(10, 4, 4)]` over the PSU table `[(10, 4)]` succeeds, the
table `[(10, 4, 1)]` is rejected. -/
theorem CreateNeighboursKeyValueMap_succeeds_iff_witness :
    (∃ map, CreateNeighboursKeyValueMap ⟨1, 3, [10, 4, 4]⟩ onePhasePsus = .ok map) ∧
    CreateNeighboursKeyValueMap ⟨1, 3, [10, 4, 4]⟩ onePhasePsus =
      .ok { keys_ := [10, 4], size_ := 1, values_ := [4] } ∧
    (∃ err, CreateNeighboursKeyValueMap ⟨1, 3, [10, 4, 1]⟩ onePhasePsus = .error err) :=
  ⟨(CreateNeighboursKeyValueMap_succeeds_iff ⟨1, 3, [10, 4, 4]⟩
      (by unfold IntegerMatrix.Shaped; decide) onePhasePsus (by decide)).1.mpr
      ⟨by decide, by decide, fun i hi => by
        have hi : i < 1 := hi
        interval_cases i; decide⟩,
    by decide,
    (CreateNeighboursKeyValueMap_succeeds_iff ⟨1, 3, [10, 4, 1]⟩
      (by unfold IntegerMatrix.Shaped; decide) onePhasePsus (by decide)).2.1 0 (by decide) (by decide)⟩

end Nilsier

namespace Nilsier
namespace TractStore

/-- C11 as stated fails: tract 1 receives `1 * 2 / 1` and then `1 * (-2) / 1` in category 100.
The store is the one the constructor and `Fill` build, no tract holds a non-zero accumulated
value, and `NonNilTracts` returns 1, because `Tract::Add` sets `nonnil_` for a non-zero
contribution and nothing unsets it. -/
theorem NonNilTracts_counts_cancelled_tract :
    (TractStore.new [1, 2, 3, 4] [10, 10, 10, 10] 4 onePhasePsus 1 >>= fun s =>
      s.Fill cancelRows onePhaseCats 1) = .ok cancelStore ∧
    cancelStore.tract_map_.countP Tract.hasValue = 0 ∧
    (∀ t ∈ cancelStore.tract_map_, ∀ c, t.Get c = 0) ∧
    cancelStore.NonNilTracts = 1 := by
  refine ⟨by decide!, by decide!, ?_, by decide⟩
  intro t ht c
  have ht : t ∈ [⟨[Dbl.fin 0], 1, 0, true, true⟩, Tract.new 1 2 0, Tract.new 1 3 0,
    Tract.new 1 4 0] := ht
  simp only [List.mem_cons, List.mem_singleton, List.not_mem_nil, or_false] at ht
  rcases ht with h | h | h | h <;> subst h <;> cases c <;> rfl

/-- C11, amended: for every store state reachable by construction followed by `Fill`,
`NonNilTracts()` is the number of tracts whose `nonnil_` flag is set (the flag that
`Tract::Add` sets when it adds a non-zero amount); every tract with at least one non-zero
accumulated category value has the flag set, so the number of such tracts is at most
`NonNilTracts()`; and the two numbers are equal after a `Fill` of a freshly constructed store
in which every row that is not skipped for a zero weight or value has a positive amount
`weight * value / tract_area`. -/
theorem NonNilTracts_counts_flagged (s : TractStore) (hs : Reachable s) :
    s.NonNilTracts = s.tract_map_.countP (fun t => t.nonnil_) ∧
    (∀ t ∈ s.tract_map_, t.hasValue = true → t.nonnil_ = true) ∧
    s.tract_map_.countP Tract.hasValue ≤ s.NonNilTracts ∧
    (s.Fresh → ∀ (data : List PlotRow) (categories : KeyValueMap) (tract_area : Dbl)
      (s' : TractStore),
      (∀ row ∈ data, row.isZero = true ∨ (row.amount tract_area).gtz = true) →
      s.Fill data categories tract_area = .ok s' →
      s'.NonNilTracts = s'.tract_map_.countP Tract.hasValue) := by
  have hwf := Reachable_WF s hs
  refine ⟨NonNilTracts_eq_countP s, fun t ht hv => hasValue_nonnil s hwf t ht hv, ?_, ?_⟩
  · rw [NonNilTracts_eq_countP]
    exact countP_le_of_imp _ _ _ (fun t ht hv => hasValue_nonnil s hwf t ht hv)
  · intro hfresh data categories tract_area s' hrows hfill
    have hwf' := Fill_WF categories tract_area data s s' hwf hfill
    have hnn := Fill_nonneg categories tract_area data hrows s s' hwf (Fresh_nonneg s hfresh)
      hfill
    rw [NonNilTracts_eq_countP]
    apply countP_congr_mem
    intro t ht
    cases hv : t.hasValue with
    | true => exact hasValue_nonnil s' hwf' t ht hv
    | false =>
      cases hf : t.nonnil_ with
      | false => rfl
      | true => rw [(hnn t ht).2 hf] at hv; cases hv

/-- Witness of C11, amended: the one-phase store of the end-to-end scenario, filled from the
fresh store with rows of amount 2; two tracts hold a non-zero value and `NonNilTracts` is 2. -/
theorem NonNilTracts_counts_flagged_witness :
    Reachable onePhaseFresh ∧
    onePhaseStore.NonNilTracts = onePhaseStore.tract_map_.countP Tract.hasValue ∧
    onePhaseStore.tract_map_.countP Tract.hasValue = 2 :=
  ⟨Reachable.new _ _ _ _ _ _ onePhase_new,
    (NonNilTracts_counts_flagged onePhaseFresh (Reachable.new _ _ _ _ _ _ onePhase_new)).2.2.2
      (new_ok _ _ _ _ _ _ onePhase_new).2.2.1 onePhaseRows onePhaseCats 1 onePhaseStore
      (by decide!) onePhase_fill,
    by decide!⟩

end TractStore
end Nilsier

namespace Nilsier
namespace TractStore

/-- C16: for every store, PSU table, category table, area and neighbour table, and for every
behaviour of the spatial neighbour index (an arbitrary function `find` that returns a list of
tract ids for each query), the matrix `M` returned by `TractStore::VarianceBalanced` has
`n_cats * n_cats` cells and `M[i * n_cats + j] = M[j * n_cats + i]` for all category indices
`i, j`, a NaN cell being equal to a NaN cell; and `VarianceBalanced` does return a matrix
whenever the tables fit the store. -/
theorem VarianceBalanced_symmetric (find : NeighbourIndex) (s : TractStore)
    (psus categories : KeyValueMap) (area : Dbl) (neighbours : KeyValueMap) :
    (TablesFit s.n_cats_ psus categories → NeighboursFit psus neighbours →
      ∃ M, s.VarianceBalanced find psus categories area neighbours = .ok M) ∧
    ∀ M, s.VarianceBalanced find psus categories area neighbours = .ok M →
      IsSymmetric s.n_cats_ M :=
  ⟨fun hfit hnb => VarianceBalanced_total find s psus categories area neighbours hfit hnb,
    fun M h => VarianceBalanced_ok_symmetric find s psus categories area neighbours M h⟩

/-- Witness of C16: the three-phase store with neighbour counts 3, 2, 2 and the index that
returns the other tracts of the id-set; the matrix has NaN cells and numbers. -/
theorem VarianceBalanced_symmetric_witness :
    threePhaseStore.VarianceBalanced otherIds threePhasePsus threePhaseCats 1
        threePhaseNeighbours =
      .ok [Dbl.fin 1, Dbl.nan, Dbl.fin (-16 / 3), Dbl.nan, Dbl.nan, Dbl.nan,
        Dbl.fin (-16 / 3), Dbl.nan, Dbl.fin 16] ∧
    IsSymmetric threePhaseStore.n_cats_
      [Dbl.fin 1, Dbl.nan, Dbl.fin (-16 / 3), Dbl.nan, Dbl.nan, Dbl.nan,
        Dbl.fin (-16 / 3), Dbl.nan, Dbl.fin 16] :=
  ⟨by decide!,
    (VarianceBalanced_symmetric otherIds threePhaseStore threePhasePsus threePhaseCats 1
      threePhaseNeighbours).2 _ (by decide!)⟩

end TractStore
end Nilsier

namespace Nilsier
namespace TractStore

/-- C20: all-zero shortcut of `Variance`.  For tables that fit the store, no phase of
population size at most 1, and a category `c` whose accumulated value is 0 on every tract,
`Variance` returns a matrix in which every entry of row `c` and of column `c` is 0; and 0 is
the value the full summation over an id-set gives for a pair with `c`, whenever the values of
the other category, its mean and the scale factor are numbers: the sum of the products of
deviations over the id-set, started at 0 with the mean `0 / size` of `c`, times the scale
factor, is 0. -/
theorem Variance_zero_category_shortcut (s : TractStore) (psus categories : KeyValueMap)
    (area : Dbl) (hfit : TablesFit s.n_cats_ psus categories)
    (hsize : ∀ p v, psus.GetValue p = .ok v → 2 ≤ v)
    (c : Nat) (hc : c < s.n_cats_) (hzero : ∀ t ∈ s.tract_map_, t.Get c = 0) :
    ∃ M, s.Variance psus categories area = .ok M ∧
      (∀ j, j < s.n_cats_ → cell s.n_cats_ M c j = 0 ∧ cell s.n_cats_ M j c = 0) ∧
      ∀ (ids : List Nat) (l v : Nat) (mean_l scale : ℚ), 2 ≤ v →
        (∀ id ∈ ids, id < s.Size) → (∀ t ∈ s.tract_map_, (t.Get l).IsNum) →
        covSum s ids c l (0 / Dbl.ofNat v) (Dbl.fin mean_l) 0 * Dbl.fin scale = 0 ∧
        covSum s ids l c (Dbl.fin mean_l) (0 / Dbl.ofNat v) 0 * Dbl.fin scale = 0 := by
  obtain ⟨M, hM⟩ := Variance_total s psus categories area hfit
  refine ⟨M, hM, Variance_zeroCat s psus categories area hsize c hc hzero M hM, ?_⟩
  intro ids l v mean_l scale hv hids hnum
  obtain ⟨h1, h2⟩ := covSum_zero_left s ids c l v hv mean_l
    (fun id hid => hzero _ (FindInternal_mem s id (hids id hid)))
    (fun id hid => hnum _ (FindInternal_mem s id (hids id hid)))
  rw [h1, h2]
  have : (0 : Dbl) * Dbl.fin scale = 0 := by
    show Dbl.fin (0 * scale) = Dbl.fin 0
    rw [zero_mul]
  exact ⟨this, this⟩

/-- Witness of C20: four tracts of one phase of size 4 and two categories, the second of which
is zero on every tract; the matrix is `[1 / 3, 0, 0, 0]`. -/
theorem Variance_zero_category_shortcut_witness :
    TablesFit twoCatStore.n_cats_ onePhasePsus twoCats ∧
    twoCatStore.Variance onePhasePsus twoCats 1 = .ok [Dbl.fin (1 / 3), 0, 0, 0] ∧
    ∃ M, twoCatStore.Variance onePhasePsus twoCats 1 = .ok M ∧
      (∀ j, j < twoCatStore.n_cats_ →
        cell twoCatStore.n_cats_ M 1 j = 0 ∧ cell twoCatStore.n_cats_ M j 1 = 0) ∧
      ∀ (ids : List Nat) (l v : Nat) (mean_l scale : ℚ), 2 ≤ v →
        (∀ id ∈ ids, id < twoCatStore.Size) →
        (∀ t ∈ twoCatStore.tract_map_, (t.Get l).IsNum) →
        covSum twoCatStore ids 1 l (0 / Dbl.ofNat v) (Dbl.fin mean_l) 0 * Dbl.fin scale = 0 ∧
        covSum twoCatStore ids l 1 (Dbl.fin mean_l) (0 / Dbl.ofNat v) 0 * Dbl.fin scale = 0 :=
  ⟨twoCats_fit, by decide!,
    Variance_zero_category_shortcut twoCatStore onePhasePsus twoCats 1 twoCats_fit
      onePhase_sizes 1 (by decide) (fun t ht => by
        rcases twoCatStore_mem t ht with h | h | h | h <;> subst h <;> rfl)⟩

end TractStore
end Nilsier

namespace Nilsier
namespace TractStore

/-- C19: single-phase case of `Variance`.  For a PSU table with one phase of population size
`n >= 2`, a reachable store whose tracts lie in that phase and a category table that fits,
`Variance` returns a matrix `M` of `n_cats * n_cats` cells in which every entry between two
categories that are not zero on every tract is
`area^2 / (n * (n - 1)) * SUM over all tracts t of (v_t[k] - m_k) * (v_t[l] - m_l)` with
`m_c = (SUM over all tracts of v_t[c]) / n`, and every entry that involves a category that is
zero on every tract is 0; when the area and the values of the tracts are numbers the formula
gives 0 for those entries as well, so every entry satisfies the formula. -/
theorem Variance_single_phase_formula (s : TractStore) (hs : Reachable s)
    (psus categories : KeyValueMap) (area : Dbl) (n : Nat) (hsize : psus.Size = 1)
    (hn : psus.GetValue 0 = .ok n) (h2 : 2 ≤ n)
    (hpsu : ∀ t ∈ s.tract_map_, t.GetInternalPsu < psus.Size)
    (hfit : TablesFit s.n_cats_ psus categories) :
    ∃ M, s.Variance psus categories area = .ok M ∧ M.length = s.n_cats_ * s.n_cats_ ∧
      ∀ k l, k < s.n_cats_ → l < s.n_cats_ →
        (s.allZero k = false → s.allZero l = false →
          cell s.n_cats_ M k l = sampleCovariance s area n k l) ∧
        (s.allZero k = true ∨ s.allZero l = true → cell s.n_cats_ M k l = 0) ∧
        (area.IsNum → (∀ t ∈ s.tract_map_, ∀ c, (t.Get c).IsNum) →
          cell s.n_cats_ M k l = sampleCovariance s area n k l) := by
  obtain ⟨M, hM, hlen, hcell⟩ := Variance_single_phase s (Reachable_WF s hs) psus categories
    area n hsize hn h2 (fun t ht => by have := hpsu t ht; rw [hsize] at this; omega) hfit
  refine ⟨M, hM, hlen, ?_⟩
  intro k l hk hl
  have hc := hcell k l hk hl
  refine ⟨?_, ?_, ?_⟩
  · intro zk zl
    rw [hc, if_neg (by rw [zk, zl]; simp)]
  · intro hz
    rw [hc, if_pos hz]
  · intro ha hv
    by_cases hz : s.allZero k = true ∨ s.allZero l = true
    · rw [hc, if_pos hz, sampleCovariance_zero s area n k l h2 hz ha hv]
    · rw [hc, if_neg hz]

/-- Witness of C19: four tracts of one phase of size 4, two categories with the values
`2, 0, 2, 0` and `1, 3, 0, 0`, area 3; the matrix is `[3, -3/2, -3/2, 9/2]`. -/
theorem Variance_single_phase_formula_witness :
    Reachable pairStore ∧
    pairStore.Variance onePhasePsus twoCats (Dbl.fin 3) =
      .ok [Dbl.fin 3, Dbl.fin (-3 / 2), Dbl.fin (-3 / 2), Dbl.fin (9 / 2)] ∧
    sampleCovariance pairStore (Dbl.fin 3) 4 0 1 = Dbl.fin (-3 / 2) ∧
    ∃ M, pairStore.Variance onePhasePsus twoCats (Dbl.fin 3) = .ok M ∧
      M.length = pairStore.n_cats_ * pairStore.n_cats_ ∧
      ∀ k l, k < pairStore.n_cats_ → l < pairStore.n_cats_ →
        (pairStore.allZero k = false → pairStore.allZero l = false →
          cell pairStore.n_cats_ M k l = sampleCovariance pairStore (Dbl.fin 3) 4 k l) ∧
        (pairStore.allZero k = true ∨ pairStore.allZero l = true →
          cell pairStore.n_cats_ M k l = 0) ∧
        ((Dbl.fin 3).IsNum → (∀ t ∈ pairStore.tract_map_, ∀ c, (t.Get c).IsNum) →
          cell pairStore.n_cats_ M k l = sampleCovariance pairStore (Dbl.fin 3) 4 k l) :=
  ⟨pair_reachable, by decide!, by decide!,
    Variance_single_phase_formula pairStore pair_reachable onePhasePsus twoCats (Dbl.fin 3) 4
      (by decide) (by decide) (by decide) (by decide) twoCats_fit⟩

end TractStore
end Nilsier

namespace Nilsier
namespace TractStore

/-- C15 as stated fails: with an index that follows the stated contract (the neighbours of a
tract are tracts of the id-set other than the tract itself), one phase of population size 2,
neighbour count 2, one category and the values 2 and 0, the mean over the neighbours of a
tract is the value of the other tract and not the mean over both; `Variance` returns `[1]` and
`VarianceBalanced` returns `[4]`.  The tables are the ones the `Create...KeyValueMap`
functions build and the store is the one the constructor and `Fill` build. -/
theorem VarianceBalanced_differs_without_self :
    CreatePsuKeyValueMap ⟨1, 2, [1, 2]⟩ = .ok duoPsus ∧
    CreateTranslatedKeyValueMap ⟨1, 2, [100, 1]⟩ duoPsus = .ok unitCats ∧
    CreateNeighboursKeyValueMap ⟨1, 3, [1, 2, 2]⟩ duoPsus = .ok duoNeighbours ∧
    (TractStore.new [21, 22] [1, 1] 2 duoPsus 1 >>= fun s =>
      s.Fill [⟨21, 100, 1, Dbl.fin 2⟩] unitCats 1) = .ok duoStore ∧
    IndexContract otherIds ∧
    duoStore.Variance duoPsus unitCats 1 = .ok [Dbl.fin 1] ∧
    duoStore.VarianceBalanced otherIds duoPsus unitCats 1 duoNeighbours = .ok [Dbl.fin 4] :=
  ⟨by decide, by decide, by decide, by decide!, otherIds_contract, by decide!, by decide!⟩

/-- C15, amended: with a spatial neighbour index that returns every tract of the accumulated
id-set, the query tract included, when its capacity is the size of the id-set, for every
reachable store built over the PSU table, tables that fit the store, a valid PSU table whose
population sizes are the numbers of tracts of the accumulated id-sets, neighbour counts equal
to the population sizes, an area that is a number and at least one category that reaches
phase 0, `TractStore::VarianceBalanced` returns a matrix and it is the matrix that
`TractStore::Variance` returns. -/
theorem VarianceBalanced_eq_Variance (find : NeighbourIndex) (hfind : WholeSet find)
    (s : TractStore) (hs : Reachable s) (psus categories neighbours : KeyValueMap) (area : Dbl)
    (harea : area.IsNum) (hfit : TablesFit s.n_cats_ psus categories) (hvalid : ValidPsus psus)
    (hstore : ∀ t ∈ s.tract_map_, t.GetInternalPsu < psus.Size)
    (hcount : ∀ p, p < psus.Size →
      psus.GetValue p = .ok (s.tract_map_.countP (fun t => decide (p ≤ t.GetInternalPsu))))
    (hnb : ∀ p, p < psus.Size → neighbours.GetValue p = psus.GetValue p)
    (hreach : ∃ c, c < s.n_cats_ ∧ categories.GetValue c = .ok 0) :
    (∃ M, s.VarianceBalanced find psus categories area neighbours = .ok M) ∧
    s.VarianceBalanced find psus categories area neighbours =
      s.Variance psus categories area := by
  obtain ⟨M, h1, h2⟩ := VarianceBalanced_eq find hfind s (Reachable_WF s hs) psus categories
    neighbours area harea hfit hvalid hstore hcount hnb hreach
  exact ⟨⟨M, h2⟩, by rw [h1, h2]⟩

/-- Witness of C15, amended: two phases of sizes 4 and 2, category 100 drawn from the deeper
phase and category 101 from phase 1, area 3; both estimators return
`[9, -9/2, -9/2, 15/4]`. -/
theorem VarianceBalanced_eq_Variance_witness :
    WholeSet wholeIds ∧ Reachable mixedStore ∧
    TablesFit mixedStore.n_cats_ twoPhasePsus mixedCats ∧ ValidPsus twoPhasePsus ∧
    mixedStore.Variance twoPhasePsus mixedCats (Dbl.fin 3) =
      .ok [Dbl.fin 9, Dbl.fin (-9 / 2), Dbl.fin (-9 / 2), Dbl.fin (15 / 4)] ∧
    (∃ M, mixedStore.VarianceBalanced wholeIds twoPhasePsus mixedCats (Dbl.fin 3)
      twoPhaseNeighbours = .ok M) ∧
    mixedStore.VarianceBalanced wholeIds twoPhasePsus mixedCats (Dbl.fin 3)
        twoPhaseNeighbours =
      mixedStore.Variance twoPhasePsus mixedCats (Dbl.fin 3) :=
  ⟨wholeIds_wholeSet, mixed_reachable, mixed_fit, twoPhase_valid, by decide!,
    VarianceBalanced_eq_Variance wholeIds wholeIds_wholeSet mixedStore mixed_reachable
      twoPhasePsus mixedCats twoPhaseNeighbours (Dbl.fin 3) (by intro h; cases h) mixed_fit
      twoPhase_valid (by decide) mixed_count mixed_neighbours ⟨1, by decide, by decide⟩⟩

end TractStore
end Nilsier

namespace Nilsier

/-- C22, refuted over doubles with infinities: `Sum` of the vector `(+inf, -inf)`, neither entry
of which is NaN, adds `-inf` and then `+inf` to the running total and returns NaN; and `Sum` of
`(-inf, 1e308, 1e308)` returns NaN as well, because the total of the two finite entries
overflows to `+inf` before `-inf` is added. -/
theorem Sum_nan_of_opposite_infinities :
    (∀ x ∈ [Ieee.pinf, Ieee.ninf], x.isnan = false) ∧
    Ieee.Sum Ieee.overflow [Ieee.pinf, Ieee.ninf] = Ieee.nan ∧
    Ieee.Sum Ieee.overflow [Ieee.ninf, Ieee.fin (10 ^ 308), Ieee.fin (10 ^ 308)] = Ieee.nan := by
  refine ⟨by decide, by decide, by decide!⟩

/-- C22, amended: the totals returned by `NilsEstimate` are `Sum` of the vector of category
estimates and `Sum` of the covariance matrix.  `Sum` returns the sum of exactly the entries of
its vector that are not NaN, added from the last to the first, and 0 when every entry is NaN, so
that the total variance is 0 when every cell of the covariance matrix is NaN.  Over doubles with
infinities and whatever the rounding of the finite sums, overflow included: the result is not
NaN when every entry is finite or NaN, and it is NaN when the vector holds both `+inf` and
`-inf`.  On vectors without infinities and without rounding, `Sum` over doubles with infinities
is the `Sum` of the embedding. -/
theorem NilsEstimate_totals_skip_nan (r_ordered_psu_size r_cat_psu r_tracts : IntegerMatrix)
    (r_plot_data : List PlotRow) (area tract_area : Dbl) (res : NilsResult)
    (h : NilsEstimate r_ordered_psu_size r_cat_psu r_tracts r_plot_data area tract_area =
      .ok res) :
    res.estimate = Sum res.cat_estimates ∧ res.variance = Sum res.cat_covmat ∧
    ((∀ x ∈ res.cat_covmat, x = Dbl.nan) → res.variance = 0) ∧
    (∀ vec : List Dbl,
      Sum vec = (vec.filter (fun x => !x.isnan)).foldr (fun x tot => tot + x) 0 ∧
      ((∀ x ∈ vec, x = Dbl.nan) → Sum vec = 0) ∧
      Ieee.Sum Ieee.fin (vec.map Dbl.toIeee) = (Sum vec).toIeee) ∧
    (∀ (rnd : ℚ → Ieee) (vec : List Ieee),
      Ieee.Sum rnd vec =
        (vec.filter (fun x => !x.isnan)).foldr (fun x tot => Ieee.add rnd tot x)
          (Ieee.fin 0) ∧
      ((∀ x ∈ vec, x = Ieee.nan) → Ieee.Sum rnd vec = Ieee.fin 0) ∧
      (Ieee.IsRounding rnd → (∀ x ∈ vec, x.isnan = true ∨ x.isFinite = true) →
        Ieee.Sum rnd vec ≠ Ieee.nan) ∧
      (Ieee.pinf ∈ vec → Ieee.ninf ∈ vec → Ieee.Sum rnd vec = Ieee.nan)) := by
  obtain ⟨e1, e2⟩ := NilsEstimate_sums _ _ _ _ _ _ _ h
  refine ⟨e1, e2, ?_, ?_, ?_⟩
  · intro hall
    rw [e2]
    exact Sum_all_nan _ hall
  · intro vec
    exact ⟨Sum_eq_filter vec, Sum_all_nan vec, Ieee.Sum_map_toIeee vec⟩
  · intro rnd vec
    exact ⟨Ieee.Sum_as_filter rnd vec, Ieee.Sum_zero_of_nans rnd vec,
      fun hr hf => Ieee.Sum_finite_entries rnd hr vec hf,
      fun hp hn => Ieee.Sum_both_infinities rnd vec hp hn⟩

/-- C22 at a concrete input: two phases, two categories, four tracts and three rows.  Three of the
four cells of the covariance matrix are NaN and the total variance is the fourth cell; the
rounding that only overflows is a rounding, under which the sum of the finite entries 1 and 2 and
a NaN is not NaN. -/
theorem NilsEstimate_totals_skip_nan_witness :
    NilsEstimate ⟨2, 2, [1, 2, 4, 1]⟩ ⟨2, 2, [100, 200, 1, 2]⟩
        ⟨4, 2, [11, 12, 13, 14, 2, 1, 1, 1]⟩
        [⟨11, 100, 1, Dbl.fin 2⟩, ⟨12, 100, 1, Dbl.fin 3⟩, ⟨11, 200, 1, Dbl.fin 3⟩] 1 1 =
      .ok { estimate := Dbl.fin (17 / 4), variance := Dbl.fin (9 / 16),
            cat_estimates := [Dbl.fin (5 / 4), Dbl.fin 3],
            cat_covmat := [Dbl.fin (9 / 16), Dbl.nan, Dbl.nan, Dbl.nan], nonnil_tracts := 2,
            positive_tracts_per_cat := [2, 1] } ∧
    Dbl.fin (9 / 16) = Sum [Dbl.fin (9 / 16), Dbl.nan, Dbl.nan, Dbl.nan] ∧
    Ieee.IsRounding Ieee.overflow ∧
    Ieee.Sum Ieee.overflow [Ieee.fin 1, Ieee.nan, Ieee.fin 2] ≠ Ieee.nan :=
  have h : NilsEstimate ⟨2, 2, [1, 2, 4, 1]⟩ ⟨2, 2, [100, 200, 1, 2]⟩
        ⟨4, 2, [11, 12, 13, 14, 2, 1, 1, 1]⟩
        [⟨11, 100, 1, Dbl.fin 2⟩, ⟨12, 100, 1, Dbl.fin 3⟩, ⟨11, 200, 1, Dbl.fin 3⟩] 1 1 =
      .ok { estimate := Dbl.fin (17 / 4), variance := Dbl.fin (9 / 16),
            cat_estimates := [Dbl.fin (5 / 4), Dbl.fin 3],
            cat_covmat := [Dbl.fin (9 / 16), Dbl.nan, Dbl.nan, Dbl.nan], nonnil_tracts := 2,
            positive_tracts_per_cat := [2, 1] } := by decide!
  have t := NilsEstimate_totals_skip_nan _ _ _ _ _ _ _ h
  ⟨h, t.2.1, Ieee.overflow_isRounding,
    (t.2.2.2.2 Ieee.overflow [Ieee.fin 1, Ieee.nan, Ieee.fin 2]).2.2.1
      Ieee.overflow_isRounding (by decide)⟩

end Nilsier

namespace Nilsier
namespace TractStore

/-- C23: let `psus` be built by `CreatePsuKeyValueMap` and `categories` from it by
`CreateTranslatedKeyValueMap`, both from matrices that hold `nrow * ncol` entries, and let the
store be constructed over `psus` with `n_cats = categories.Size()` and filled by any number of
`Fill` calls with `categories`.  Then the payload of every category `c < categories.Size()` is
the internal index of the PSU id of row `c`, it is below `psus.Size()`, and `GetValue` succeeds
on it in both tables; every tract has `n_cats` values; an internal category index that `Fill`
gets from `GetInternalKey` is below `n_cats` and `GetValue` succeeds on it; a further `Fill`
either returns or throws the `range_error` of `GetInternalKey` for a row whose category id is
not in the table, and no other failure; `CatEstimates` returns `n_cats` estimates; `Variance`
returns an `n_cats * n_cats` matrix, and the sorted categories it indexes the matrix with are
below `n_cats`, so that every cell index `k * n_cats + l` and `k * (n_cats + 1)` is inside the
matrix. -/
theorem created_tables_never_out_of_range (mat_psu mat_cat : IntegerMatrix)
    (hp : mat_psu.Shaped) (hc : mat_cat.Shaped) (psus categories : KeyValueMap)
    (hpsus : CreatePsuKeyValueMap mat_psu = .ok psus)
    (hcats : CreateTranslatedKeyValueMap mat_cat psus = .ok categories)
    (s : TractStore) (hs : FilledFrom psus categories categories.Size s)
    (data : List PlotRow) (area tract_area : Dbl) :
    (∀ c, c < categories.Size → ∃ r N, psus.GetInternalKey (mat_cat.at c 1) = .ok r ∧
      categories.GetValue c = .ok r ∧ r < psus.Size ∧ psus.GetValue r = .ok N) ∧
    s.n_cats_ = categories.Size ∧
    (∀ t ∈ s.tract_map_, t.values_.length = s.n_cats_) ∧
    (∀ row ∈ data, ∀ c, categories.GetInternalKey row.cat = .ok c →
      c < s.n_cats_ ∧ (∃ r, categories.GetValue c = .ok r) ∧
      ∀ t ∈ s.tract_map_, c < t.values_.length) ∧
    ((∃ s', s.Fill data categories tract_area = .ok s') ∨
      (s.Fill data categories tract_area = .error .range_error ∧
        ∃ row ∈ data, categories.GetInternalKey row.cat = .error .range_error)) ∧
    (∃ est, s.CatEstimates psus categories area = .ok est ∧ est.length = s.n_cats_) ∧
    (∃ sorted M, sortedCats categories s.n_cats_ = .ok sorted ∧
      s.Variance psus categories area = .ok M ∧ M.length = s.n_cats_ * s.n_cats_ ∧
      ∀ k ∈ sorted, ∀ l ∈ sorted, k < s.n_cats_ ∧ k * s.n_cats_ + l < M.length ∧
        k * (s.n_cats_ + 1) < M.length) := by
  obtain ⟨hpay, hfit⟩ := created_tables_fit mat_psu mat_cat hp hc psus categories hpsus hcats
  have hst := CreateTranslatedKeyValueMap_stored mat_cat hc psus categories hcats
  have hn : s.n_cats_ = categories.Size := FilledFrom_n_cats _ _ _ _ hs
  have hwf : s.WF := Reachable_WF s (FilledFrom_reachable _ _ _ _ hs)
  have hfit' : TablesFit s.n_cats_ psus categories := by rw [hn]; exact hfit
  have hpay' : ∀ c, c < categories.Size → ∃ r N, psus.GetInternalKey (mat_cat.at c 1) = .ok r ∧
      categories.GetValue c = .ok r ∧ r < psus.Size ∧ psus.GetValue r = .ok N := by
    intro c hcl
    obtain ⟨r, h1, h2, h3⟩ := hpay c hcl
    obtain ⟨N, hN⟩ := hfit.2 r h3
    exact ⟨r, N, h1, h2, h3, hN⟩
  refine ⟨hpay', hn, hwf.1, ?_, Fill_outcome categories hst tract_area data s hwf hn, ?_, ?_⟩
  · intro row _ c hcr
    have hcl := KeyValueMap.GetInternalKey_lt _ _ _ hcr
    obtain ⟨r, -, -, h2, -, -⟩ := hpay' c hcl
    refine ⟨by rw [hn]; exact hcl, ⟨r, h2⟩, ?_⟩
    intro t ht
    rw [hwf.1 t ht, hn]
    exact hcl
  · obtain ⟨est, he, hl, -⟩ := CatEstimates_eq s psus categories area (fun c hcl => by
      obtain ⟨r, N, -, h2, -, h4⟩ := hpay' c (by rw [← hn]; exact hcl)
      exact ⟨r, N, h2, h4⟩)
    exact ⟨est, he, hl⟩
  · obtain ⟨M, hM⟩ := Variance_total s psus categories area hfit'
    obtain ⟨sorted, hsorted⟩ := sortedCats_total categories s.n_cats_ (fun c hcl => by
      obtain ⟨r, hr, -⟩ := hfit'.1 c hcl
      exact ⟨r, hr⟩)
    have hlen : M.length = s.n_cats_ * s.n_cats_ := (Variance_ok_symmetric s _ _ _ M hM).1
    refine ⟨sorted, M, hsorted, hM, hlen, ?_⟩
    intro k hk l hl
    have hk' := sortedCats_lt _ _ _ hsorted k hk
    have hl' := sortedCats_lt _ _ _ hsorted l hl
    rw [hlen]
    refine ⟨hk', ?_, ?_⟩
    · calc k * s.n_cats_ + l < k * s.n_cats_ + s.n_cats_ := by omega
        _ = (k + 1) * s.n_cats_ := by rw [Nat.succ_mul]
        _ ≤ s.n_cats_ * s.n_cats_ := Nat.mul_le_mul_right _ hk'
    · calc k * (s.n_cats_ + 1) = k * s.n_cats_ + k := by rw [Nat.mul_succ]
        _ < k * s.n_cats_ + s.n_cats_ := by omega
        _ = (k + 1) * s.n_cats_ := by rw [Nat.succ_mul]
        _ ≤ s.n_cats_ * s.n_cats_ := Nat.mul_le_mul_right _ hk'

/-- C23 at a concrete input: PSU table `[(1, 4), (2, 2)]`, category table
`[(100, 2), (101, 1)]`, four tracts filled with four rows, and a further `Fill` with one row of
category 101 and one row of the unknown category 999. -/
theorem created_tables_never_out_of_range_witness :
    IntegerMatrix.Shaped ⟨2, 2, [1, 2, 4, 2]⟩ ∧ IntegerMatrix.Shaped ⟨2, 2, [100, 101, 2, 1]⟩ ∧
    CreatePsuKeyValueMap ⟨2, 2, [1, 2, 4, 2]⟩ = .ok twoPhasePsus ∧
    CreateTranslatedKeyValueMap ⟨2, 2, [100, 101, 2, 1]⟩ twoPhasePsus = .ok mixedCats ∧
    FilledFrom twoPhasePsus mixedCats mixedCats.Size mixedStore ∧
    mixedStore.Fill [⟨12, 101, 1, Dbl.fin 1⟩, ⟨11, 999, 1, Dbl.fin 1⟩] mixedCats 1 =
      .error .range_error ∧
    (∀ t ∈ mixedStore.tract_map_, t.values_.length = mixedStore.n_cats_) ∧
    (∃ est, mixedStore.CatEstimates twoPhasePsus mixedCats 1 = .ok est ∧
      est.length = mixedStore.n_cats_) :=
  have t := created_tables_never_out_of_range ⟨2, 2, [1, 2, 4, 2]⟩ ⟨2, 2, [100, 101, 2, 1]⟩
    (by unfold IntegerMatrix.Shaped; decide) (by unfold IntegerMatrix.Shaped; decide)
    twoPhasePsus mixedCats (by decide) (by decide) mixedStore mixed_filled
    [⟨12, 101, 1, Dbl.fin 1⟩, ⟨11, 999, 1, Dbl.fin 1⟩] 1 1
  ⟨by unfold IntegerMatrix.Shaped; decide, by unfold IntegerMatrix.Shaped; decide, by decide,
    by decide, mixed_filled, by decide!, t.2.2.1, t.2.2.2.2.2.1⟩

end TractStore
end Nilsier

namespace Nilsier
namespace TractStore

/-- C21: let the store be constructed over `psus` with `n` categories and filled by any number
of `Fill` calls that all use the category table `categories`.  Whenever a tract holds a value
other than zero in category `c`, the table assigns a reach to `c` and the internal phase index
of the tract is at least that reach.  Consequently, when the tables fit the store, for every
category `c < n` of reach `r`: the phase loop of `Variance` visits the phases
`psus.Size() - 1, ..., r + 1` before phase `r` and returns from each of them; after the loop that
prepares the ids at phase `r`, the id list holds, without repetition, exactly the tracts whose
phase index is at least `r`; the accumulated `sums[c]` is the sum of `c` over these ids; and this
sum is the sum of `c` over the non-nil tracts, which is the sum `sums[c]` that `CatEstimates`
scales (sums of exact numbers, which do not depend on the order of the terms). -/
theorem Fill_keeps_values_within_reach (psus categories : KeyValueMap) (n : Nat)
    (s : TractStore) (hs : FilledFrom psus categories n s) :
    (∀ t ∈ s.tract_map_, ∀ c, t.Get c ≠ 0 →
      ∃ r, categories.GetValue c = .ok r ∧ r ≤ t.GetInternalPsu) ∧
    (TablesFit n psus categories → ∀ (area : Dbl) (c : Nat), c < n →
      ∃ r sorted st, categories.GetValue c = .ok r ∧ r < psus.Size ∧
        sortedCats categories s.n_cats_ = .ok sorted ∧
        (List.range psus.Size).reverse =
          phasesBefore psus.Size r ++ r :: (List.range r).reverse ∧
        (phasesBefore psus.Size r).foldlM (phase s psus categories area sorted)
          (varInit s.n_cats_) = .ok st ∧
        (prepareIds s r st).ids.Nodup ∧
        (∀ i, i ∈ (prepareIds s r st).ids ↔
          i < s.Size ∧ r ≤ (s.FindInternal i).GetInternalPsu) ∧
        (prepareIds s r st).sums.getD c 0 = sumOver s (prepareIds s r st).ids c ∧
        sumOver s (prepareIds s r st).ids c = catTotal s c ∧
        (catSums s).getD c 0 = catTotal s c ∧
        (prepareIds s r st).sums.getD c 0 = (catSums s).getD c 0) := by
  obtain ⟨hwf, hin, hbound⟩ := FilledFrom_inv psus categories n s hs
  have hn : s.n_cats_ = n := FilledFrom_n_cats _ _ _ _ hs
  refine ⟨hin, ?_⟩
  intro hfit area c hc
  have hfit' : TablesFit s.n_cats_ psus categories := by rw [hn]; exact hfit
  have hc' : c < s.n_cats_ := by rw [hn]; exact hc
  obtain ⟨r, hr, hrP⟩ := hfit.1 c hc
  obtain ⟨sorted, hsorted⟩ := sortedCats_total categories s.n_cats_ (fun c hcl => by
    obtain ⟨r, hr, -⟩ := hfit'.1 c hcl
    exact ⟨r, hr⟩)
  have hlt := sortedCats_lt _ _ _ hsorted
  obtain ⟨hsplit, hnd, hmem⟩ := phases_split psus.Size r hrP
  obtain ⟨st, hst, hco, hids⟩ := phases_coherent s hwf psus categories area sorted hfit' hlt
    (phasesBefore psus.Size r) (fun p hp => ((hmem p).mp hp).2) (varInit s.n_cats_)
    (varInit_coherent s)
  obtain ⟨hco', hids'⟩ := prepareIds_coherent s hwf r st hco
  obtain ⟨i1, i2⟩ := idsOfPhases_spec s (phasesBefore psus.Size r) hnd
  have hids2 : (prepareIds s r st).ids =
      idsOfPhases s (phasesBefore psus.Size r) ++ phaseIds s r := by
    rw [hids', hids]
    rfl
  have hnodup : (prepareIds s r st).ids.Nodup := by
    rw [hids2, List.nodup_append]
    refine ⟨i1, phaseIds_nodup s r, ?_⟩
    intro i h1 h2
    rw [i2, hmem] at h1
    rw [mem_phaseIds] at h2
    omega
  have hmem2 : ∀ i, i ∈ (prepareIds s r st).ids ↔
      i < s.Size ∧ r ≤ (s.FindInternal i).GetInternalPsu := by
    intro i
    rw [hids2, List.mem_append, i2, hmem, mem_phaseIds]
    constructor
    · rintro (⟨h1, h2, -⟩ | ⟨h1, h2⟩)
      · exact ⟨h1, by omega⟩
      · exact ⟨h1, by omega⟩
    · rintro ⟨h1, h2⟩
      have hb := hbound _ (FindInternal_mem s i h1)
      by_cases he : (s.FindInternal i).GetInternalPsu = r
      · exact Or.inr ⟨h1, he⟩
      · exact Or.inl ⟨h1, by omega, hb⟩
  have e1 := (hco'.2.2 c hc').1
  have e2 := sumOver_reach categories s hwf hin c r hr _ hnodup hmem2
  have e3 := catSums_eq_catTotal s c hc'
  exact ⟨r, sorted, st, hr, hrP, hsorted, hsplit, hst, hnodup, hmem2, e1, e2, e3,
    by rw [e1, e2, e3]⟩

/-- C21 at a concrete store: two phases of sizes 4 and 2, category 100 of reach 1 and category
101 of reach 0, four tracts and four rows; the statement for category 100 and area 1. -/
theorem Fill_keeps_values_within_reach_witness :
    FilledFrom twoPhasePsus mixedCats 2 mixedStore ∧ TablesFit 2 twoPhasePsus mixedCats ∧
    (∀ t ∈ mixedStore.tract_map_, ∀ c, t.Get c ≠ 0 →
      ∃ r, mixedCats.GetValue c = .ok r ∧ r ≤ t.GetInternalPsu) ∧
    (∃ r sorted st, mixedCats.GetValue 0 = .ok r ∧ r < twoPhasePsus.Size ∧
        sortedCats mixedCats mixedStore.n_cats_ = .ok sorted ∧
        (List.range twoPhasePsus.Size).reverse =
          phasesBefore twoPhasePsus.Size r ++ r :: (List.range r).reverse ∧
        (phasesBefore twoPhasePsus.Size r).foldlM
          (phase mixedStore twoPhasePsus mixedCats 1 sorted)
          (varInit mixedStore.n_cats_) = .ok st ∧
        (prepareIds mixedStore r st).ids.Nodup ∧
        (∀ i, i ∈ (prepareIds mixedStore r st).ids ↔
          i < mixedStore.Size ∧ r ≤ (mixedStore.FindInternal i).GetInternalPsu) ∧
        (prepareIds mixedStore r st).sums.getD 0 0 =
          sumOver mixedStore (prepareIds mixedStore r st).ids 0 ∧
        sumOver mixedStore (prepareIds mixedStore r st).ids 0 = catTotal mixedStore 0 ∧
        (catSums mixedStore).getD 0 0 = catTotal mixedStore 0 ∧
        (prepareIds mixedStore r st).sums.getD 0 0 = (catSums mixedStore).getD 0 0) :=
  have t := Fill_keeps_values_within_reach twoPhasePsus mixedCats 2 mixedStore mixed_filled
  ⟨mixed_filled, mixed_fit, t.1, t.2 mixed_fit 1 0 (by decide)⟩

end TractStore
end Nilsier
